import Mathlib

/-!
# chistogram: a shallow embedding of `c_histogram.cpp`

The C++ source keeps a histogram in a `hdr_histogram` record whose counters live in a
separately allocated array `s64* counts`.  Here the record is a Lean structure and the
counter array is a total map from indices to 64-bit values, of which only the indices
`0 .. counts_len - 1` are the array itself.

Machine integers are modelled by `Int`.  Every arithmetic operation of the source whose
result can leave the range of its C type is followed by `wrap32` or `wrap64`, the two's
complement reduction; comparisons are the ordinary ones.  A shift by an amount outside
`0 .. 63` is undefined in C++ and is given the value of a shift by `Int.toNat` of the amount.

The double precision computations of `hdr_calculate_bucket_config` are the only place where
the source leaves integer arithmetic:

* `log((f64)lowest_discernible_value) / log(2)` depends on the platform's `log`; it enters
  the embedding as a parameter `log2_f64 : Int → ℚ` (every finite double is a rational).
* `ceil(log((f64)L) / log(2))` is only ever evaluated at `L = 2 * 10 ^ s` for `s = 1 .. 5`,
  where the quotient is at distance more than `0.03` from the nearest integer; it is modelled
  by the exact `ceil_log2`.
* `pow(2, k)` for `k ≤ 18` is exact.
-/

namespace nhdr

/-! ## Machine integers -/

/-- Two's complement reduction to a signed 32-bit integer. -/
def wrap32 (x : Int) : Int := (x + 2 ^ 31) % 2 ^ 32 - 2 ^ 31

/-- Two's complement reduction to a signed 64-bit integer. -/
def wrap64 (x : Int) : Int := (x + 2 ^ 63) % 2 ^ 64 - 2 ^ 63

/-- Membership in the range of `s32`. -/
def is_s32 (x : Int) : Prop := -2 ^ 31 ≤ x ∧ x < 2 ^ 31

/-- Membership in the range of `s64`. -/
def is_s64 (x : Int) : Prop := -2 ^ 63 ≤ x ∧ x < 2 ^ 63

instance (x : Int) : Decidable (is_s32 x) := by unfold is_s32; infer_instance

instance (x : Int) : Decidable (is_s64 x) := by unfold is_s64; infer_instance

/-- The constant `limits_t<s64>::maximum()`. -/
def s64_maximum : Int := 2 ^ 63 - 1

/-- The constant `limits_t<s32>::maximum()`. -/
def s32_maximum : Int := 2 ^ 31 - 1

/-- The operator `x << n` on `s64`. -/
def shl64 (x n : Int) : Int := wrap64 (x * 2 ^ n.toNat)

/-- The operator `x << n` on `s32`. -/
def shl32 (x n : Int) : Int := wrap32 (x * 2 ^ n.toNat)

/-- The operator `x >> n` on a signed integer (arithmetic shift). -/
def shr (x n : Int) : Int := x / 2 ^ n.toNat

/-- Number of binary digits of a natural number below `2 ^ fuel`. -/
def bit_length_aux : Nat → Nat → Nat
  | 0, _ => 0
  | fuel + 1, n => if n = 0 then 0 else bit_length_aux fuel (n / 2) + 1

/-- Number of binary digits of a 64-bit unsigned value. -/
def bit_length (n : Nat) : Nat := bit_length_aux 64 n

/-- The exact value of `ceil(log2 x)` for `1 ≤ x < 2 ^ 64`. -/
def ceil_log2 (x : Int) : Int := bit_length (x - 1).toNat

/-- The conversion `(s32)x` of a double to an integer: truncation toward zero. -/
def f64_to_s32 (q : ℚ) : Int := Int.tdiv q.num q.den

/-- The error code `EINVAL`. -/
def EINVAL : Int := -1

/-- The error code `ENOMEM`. -/
def ENOMEM : Int := -2

/-- The error code `EIO`. -/
def EIO : Int := -3

/-! ## Data model -/

/-- The record `struct hdr_histogram`; `counts` is the memory behind the pointer `s64* counts`. -/
structure hdr_histogram where
  lowest_discernible_value : Int
  highest_trackable_value : Int
  unit_magnitude : Int
  significant_figures : Int
  sub_bucket_half_count_magnitude : Int
  sub_bucket_half_count : Int
  sub_bucket_mask : Int
  sub_bucket_count : Int
  bucket_count : Int
  min_value : Int
  max_value : Int
  conversion_ratio : ℚ
  normalizing_index_offset : Int
  counts_len : Int
  total_count : Int
  counts : Int → Int

/-- The record `struct hdr_histogram_bucket_config`. -/
structure hdr_histogram_bucket_config where
  lowest_discernible_value : Int
  highest_trackable_value : Int
  unit_magnitude : Int
  significant_figures : Int
  sub_bucket_half_count_magnitude : Int
  sub_bucket_half_count : Int
  sub_bucket_mask : Int
  sub_bucket_count : Int
  bucket_count : Int
  counts_len : Int
  deriving DecidableEq, Repr

/-! ## Counters -/

/-- The function `normalize_index`. -/
def normalize_index (h : hdr_histogram) (index : Int) : Int :=
  if h.normalizing_index_offset = 0 then index
  else
    let normalized_index := wrap32 (index - h.normalizing_index_offset)
    let adjustment :=
      if normalized_index < 0 then h.counts_len
      else if normalized_index ≥ h.counts_len then wrap32 (-h.counts_len)
      else 0
    wrap32 (normalized_index + adjustment)

/-- The function `counts_get_direct`. -/
def counts_get_direct (h : hdr_histogram) (index : Int) : Int := h.counts index

/-- The function `counts_get_normalised`. -/
def counts_get_normalised (h : hdr_histogram) (index : Int) : Int :=
  counts_get_direct h (normalize_index h index)

/-- The function `counts_inc_normalised`. -/
def counts_inc_normalised (h : hdr_histogram) (index value : Int) : hdr_histogram :=
  let normalised_index := normalize_index h index
  { h with
    counts := Function.update h.counts normalised_index
      (wrap64 (h.counts normalised_index + value))
    total_count := wrap64 (h.total_count + value) }

/-- The function `update_min_max`. -/
def update_min_max (h : hdr_histogram) (value : Int) : hdr_histogram :=
  { h with
    min_value := if value < h.min_value ∧ value ≠ 0 then value else h.min_value
    max_value := if value > h.max_value then value else h.max_value }

/-! ## Utility -/

/-- The loop of `power`, run `n` times. -/
def power_loop (base : Int) : Nat → Int → Int
  | 0, result => result
  | n + 1, result => power_loop base n (wrap64 (result * base))

/-- The function `power`, for a non-negative exponent. -/
def power (base exp : Int) : Int := power_loop base exp.toNat 1

/-- The function `count_leading_zeros_64`: the argument is read as an unsigned 64-bit value. -/
def count_leading_zeros_64 (value : Int) : Int := 64 - bit_length (value % 2 ^ 64).toNat

/-- The function `get_bucket_index`. -/
def get_bucket_index (h : hdr_histogram) (value : Int) : Int :=
  let pow2ceiling := 64 - count_leading_zeros_64 (Int.lor value h.sub_bucket_mask)
  wrap32 (pow2ceiling - h.unit_magnitude - (h.sub_bucket_half_count_magnitude + 1))

/-- The function `get_sub_bucket_index`. -/
def get_sub_bucket_index (value bucket_index unit_magnitude : Int) : Int :=
  wrap32 (shr value (wrap32 (bucket_index + unit_magnitude)))

/-- The function `counts_index`. -/
def counts_index (h : hdr_histogram) (bucket_index sub_bucket_index : Int) : Int :=
  let bucket_base_index := shl32 (wrap32 (bucket_index + 1)) h.sub_bucket_half_count_magnitude
  let offset_in_bucket := wrap32 (sub_bucket_index - h.sub_bucket_half_count)
  wrap32 (bucket_base_index + offset_in_bucket)

/-- The function `value_from_index`. -/
def value_from_index (bucket_index sub_bucket_index unit_magnitude : Int) : Int :=
  shl64 sub_bucket_index (wrap32 (bucket_index + unit_magnitude))

/-- The function `counts_index_for`. -/
def counts_index_for (h : hdr_histogram) (value : Int) : Int :=
  let bucket_index := get_bucket_index h value
  let sub_bucket_index := get_sub_bucket_index value bucket_index h.unit_magnitude
  counts_index h bucket_index sub_bucket_index

/-- The function `hdr_value_at_index`. -/
def hdr_value_at_index (h : hdr_histogram) (index : Int) : Int :=
  let bucket_index := wrap32 (shr index h.sub_bucket_half_count_magnitude - 1)
  let sub_bucket_index :=
    wrap32 (Int.land index (wrap32 (h.sub_bucket_half_count - 1)) + h.sub_bucket_half_count)
  if bucket_index < 0 then
    value_from_index 0 (wrap32 (sub_bucket_index - h.sub_bucket_half_count)) h.unit_magnitude
  else
    value_from_index bucket_index sub_bucket_index h.unit_magnitude

/-- The function `hdr_size_of_equivalent_value_range`. -/
def hdr_size_of_equivalent_value_range (h : hdr_histogram) (value : Int) : Int :=
  let bucket_index := get_bucket_index h value
  let sub_bucket_index := get_sub_bucket_index value bucket_index h.unit_magnitude
  let adjusted_bucket :=
    if sub_bucket_index ≥ h.sub_bucket_count then wrap32 (bucket_index + 1) else bucket_index
  shl64 1 (wrap32 (h.unit_magnitude + adjusted_bucket))

/-- The function `size_of_equivalent_value_range_given_bucket_indices`. -/
def size_of_equivalent_value_range_given_bucket_indices (h : hdr_histogram)
    (bucket_index sub_bucket_index : Int) : Int :=
  let adjusted_bucket :=
    if sub_bucket_index ≥ h.sub_bucket_count then wrap32 (bucket_index + 1) else bucket_index
  shl64 1 (wrap32 (h.unit_magnitude + adjusted_bucket))

/-- The function `lowest_equivalent_value`. -/
def lowest_equivalent_value (h : hdr_histogram) (value : Int) : Int :=
  let bucket_index := get_bucket_index h value
  let sub_bucket_index := get_sub_bucket_index value bucket_index h.unit_magnitude
  value_from_index bucket_index sub_bucket_index h.unit_magnitude

/-- The function `lowest_equivalent_value_given_bucket_indices`. -/
def lowest_equivalent_value_given_bucket_indices (h : hdr_histogram)
    (bucket_index sub_bucket_index : Int) : Int :=
  value_from_index bucket_index sub_bucket_index h.unit_magnitude

/-- The function `hdr_next_non_equivalent_value`. -/
def hdr_next_non_equivalent_value (h : hdr_histogram) (value : Int) : Int :=
  wrap64 (lowest_equivalent_value h value + hdr_size_of_equivalent_value_range h value)

/-- The function `highest_equivalent_value`. -/
def highest_equivalent_value (h : hdr_histogram) (value : Int) : Int :=
  wrap64 (hdr_next_non_equivalent_value h value - 1)

/-- The function `hdr_median_equivalent_value`. -/
def hdr_median_equivalent_value (h : hdr_histogram) (value : Int) : Int :=
  wrap64 (lowest_equivalent_value h value + shr (hdr_size_of_equivalent_value_range h value) 1)

/-- The function `non_zero_min`. -/
def non_zero_min (h : hdr_histogram) : Int :=
  if s64_maximum = h.min_value then s64_maximum else lowest_equivalent_value h h.min_value

/-- The loop of `hdr_reset_internal_counters` over the slots `i, i + 1, ...`, run `n` times;
the state is `(min_non_zero_index, max_index, observed_total_count)`. -/
def reset_internal_counters_loop (h : hdr_histogram) : Nat → Int → Int × Int × Int → Int × Int × Int
  | 0, _, st => st
  | n + 1, i, (min_non_zero_index, max_index, observed_total_count) =>
    let count_at_index := counts_get_direct h i
    if count_at_index > 0 then
      reset_internal_counters_loop h n (i + 1)
        (if min_non_zero_index = -1 ∧ i ≠ 0 then i else min_non_zero_index, i,
          wrap64 (observed_total_count + count_at_index))
    else
      reset_internal_counters_loop h n (i + 1) (min_non_zero_index, max_index, observed_total_count)

/-- The function `hdr_reset_internal_counters`. -/
def hdr_reset_internal_counters (h : hdr_histogram) : hdr_histogram :=
  let st := reset_internal_counters_loop h h.counts_len.toNat 0 (-1, -1, 0)
  let min_non_zero_index := st.1
  let max_index := st.2.1
  let observed_total_count := st.2.2
  { h with
    max_value :=
      if max_index = -1 then 0
      else highest_equivalent_value h (hdr_value_at_index h max_index)
    min_value :=
      if min_non_zero_index = -1 then s64_maximum
      else hdr_value_at_index h min_non_zero_index
    total_count := observed_total_count }

/-- The loop of `buckets_needed_to_cover_value`, run at most `fuel` times. -/
def buckets_needed_loop (value : Int) : Nat → Int → Int → Int
  | 0, _, buckets_needed => buckets_needed
  | fuel + 1, smallest_untrackable_value, buckets_needed =>
    if smallest_untrackable_value ≤ value then
      if smallest_untrackable_value > s64_maximum / 2 then buckets_needed + 1
      else buckets_needed_loop value fuel (shl64 smallest_untrackable_value 1) (buckets_needed + 1)
    else buckets_needed

/-- The function `buckets_needed_to_cover_value`.  For a positive `sub_bucket_count` the
threshold doubles in every round and the loop is left after fewer than 64 rounds. -/
def buckets_needed_to_cover_value (value sub_bucket_count unit_magnitude : Int) : Int :=
  buckets_needed_loop value 64 (shl64 sub_bucket_count unit_magnitude) 1

/-! ## Memory -/

/-- The function `hdr_calculate_bucket_config`; `log2_f64 x` is the double
`log((f64)x) / log(2)`.  The result is the error code or the filled configuration. -/
def hdr_calculate_bucket_config (log2_f64 : Int → ℚ)
    (lowest_discernible_value highest_trackable_value significant_figures : Int) :
    Except Int hdr_histogram_bucket_config :=
  if lowest_discernible_value < 1 ∨ significant_figures < 1 ∨ 5 < significant_figures ∨
      wrap64 (lowest_discernible_value * 2) > highest_trackable_value then
    .error EINVAL
  else
    let largest_value_with_single_unit_resolution := wrap64 (2 * power 10 significant_figures)
    let sub_bucket_count_magnitude := ceil_log2 largest_value_with_single_unit_resolution
    let sub_bucket_half_count_magnitude :=
      (if sub_bucket_count_magnitude > 1 then sub_bucket_count_magnitude else 1) - 1
    let unit_magnitude := log2_f64 lowest_discernible_value
    if (s32_maximum : ℚ) < unit_magnitude then
      .error EINVAL
    else
      let unit_magnitude := f64_to_s32 unit_magnitude
      let sub_bucket_count := wrap32 (2 ^ (sub_bucket_half_count_magnitude + 1).toNat)
      let sub_bucket_half_count := sub_bucket_count / 2
      let sub_bucket_mask := shl64 (sub_bucket_count - 1) unit_magnitude
      if unit_magnitude + sub_bucket_half_count_magnitude > 61 then
        .error EINVAL
      else
        let bucket_count :=
          buckets_needed_to_cover_value highest_trackable_value sub_bucket_count
            (wrap32 unit_magnitude)
        .ok
          { lowest_discernible_value := lowest_discernible_value
            highest_trackable_value := highest_trackable_value
            unit_magnitude := unit_magnitude
            significant_figures := significant_figures
            sub_bucket_half_count_magnitude := sub_bucket_half_count_magnitude
            sub_bucket_half_count := sub_bucket_half_count
            sub_bucket_mask := sub_bucket_mask
            sub_bucket_count := sub_bucket_count
            bucket_count := bucket_count
            counts_len := wrap32 ((bucket_count + 1) * (sub_bucket_count / 2)) }

/-- The function `hdr_init_preallocated`: it writes every field of `h` except `counts`. -/
def hdr_init_preallocated (h : hdr_histogram) (cfg : hdr_histogram_bucket_config) :
    hdr_histogram :=
  { h with
    lowest_discernible_value := cfg.lowest_discernible_value
    highest_trackable_value := cfg.highest_trackable_value
    unit_magnitude := wrap32 cfg.unit_magnitude
    significant_figures := wrap32 cfg.significant_figures
    sub_bucket_half_count_magnitude := cfg.sub_bucket_half_count_magnitude
    sub_bucket_half_count := cfg.sub_bucket_half_count
    sub_bucket_mask := cfg.sub_bucket_mask
    sub_bucket_count := cfg.sub_bucket_count
    min_value := s64_maximum
    max_value := 0
    normalizing_index_offset := 0
    conversion_ratio := 1
    bucket_count := cfg.bucket_count
    counts_len := cfg.counts_len
    total_count := 0 }

/-- The function `hdr_reset`: `memset` clears the slots `0 .. counts_len - 1`. -/
def hdr_reset (h : hdr_histogram) : hdr_histogram :=
  { h with
    total_count := 0
    min_value := s64_maximum
    max_value := 0
    counts := fun i => if 0 ≤ i ∧ i < h.counts_len then 0 else h.counts i }

/-! ## Updates -/

/-- The function `hdr_record_values`: the returned flag and the histogram afterwards. -/
def hdr_record_values (h : hdr_histogram) (value count : Int) : Bool × hdr_histogram :=
  if value < 0 then (false, h)
  else
    let counts_index := counts_index_for h value
    if counts_index < 0 ∨ h.counts_len ≤ counts_index then (false, h)
    else (true, update_min_max (counts_inc_normalised h counts_index count) value)

/-- The function `hdr_record_value`. -/
def hdr_record_value (h : hdr_histogram) (value : Int) : Bool × hdr_histogram :=
  hdr_record_values h value 1

/-- The `for` loop of `hdr_record_corrected_values`, run at most `fuel` times. -/
def record_corrected_loop (count expected_interval : Int) :
    Nat → hdr_histogram → Int → Bool × hdr_histogram
  | 0, h, _ => (true, h)
  | fuel + 1, h, missing_value =>
    if missing_value ≥ expected_interval then
      let r := hdr_record_values h missing_value count
      if !r.1 then (false, r.2)
      else record_corrected_loop count expected_interval fuel r.2
        (wrap64 (missing_value - expected_interval))
    else (true, h)

/-- The function `hdr_record_corrected_values`.  The loop is entered with
`expected_interval > 0`, so `missing_value` falls by at least one in every round and the
loop is left after at most `missing_value` rounds. -/
def hdr_record_corrected_values (h : hdr_histogram) (value count expected_interval : Int) :
    Bool × hdr_histogram :=
  let r := hdr_record_values h value count
  if !r.1 then (false, r.2)
  else if expected_interval ≤ 0 ∨ value ≤ expected_interval then (true, r.2)
  else
    let missing_value := wrap64 (value - expected_interval)
    record_corrected_loop count expected_interval missing_value.toNat r.2 missing_value

/-- The function `hdr_record_corrected_value`. -/
def hdr_record_corrected_value (h : hdr_histogram) (value expected_interval : Int) :
    Bool × hdr_histogram :=
  hdr_record_corrected_values h value 1 expected_interval

/-- The function `hdr_count_at_value`. -/
def hdr_count_at_value (h : hdr_histogram) (value : Int) : Int :=
  counts_get_normalised h (counts_index_for h value)

/-- The function `hdr_count_at_index`. -/
def hdr_count_at_index (h : hdr_histogram) (index : Int) : Int :=
  counts_get_normalised h index

/-! ## Double-precision arithmetic

A finite double is the rational number it stands for.  An operation on doubles is the exact
operation on rationals followed by `f64_round`, the rounding to the nearest double with ties
to the even significand (53 binary digits, least exponent `-1074`).  Overflow to infinity is
not modelled: every quantity computed here stays below `2 ^ 64` in magnitude. -/

/-- The power `2 ^ e` for an integer exponent `e`. -/
def two_zpow (e : Int) : ℚ :=
  if 0 ≤ e then ((2 ^ e.toNat : Nat) : ℚ) else 1 / ((2 ^ (-e).toNat : Nat) : ℚ)

/-- The exponent `floor(log2 q)` of a positive rational `q`. -/
def floor_log2 (q : ℚ) : Int :=
  let k : Int :=
    (bit_length_aux q.num.toNat q.num.toNat : Int) - (bit_length_aux q.den q.den : Int)
  if two_zpow k ≤ q then k else k - 1

/-- Rounding of a rational to the nearest integer, ties to the even one. -/
def round_half_even (m : ℚ) : Int :=
  let f := ⌊m⌋
  if m - f < 1 / 2 then f
  else if 1 / 2 < m - f then f + 1
  else if f % 2 = 0 then f else f + 1

/-- The exponent of the unit in the last place of the doubles around `q ≠ 0`: 52 below the
exponent of `q`, which is at least `-1022`. -/
def f64_ulp_exponent (q : ℚ) : Int := max (floor_log2 |q|) (-1022) - 52

/-- The double nearest to `q`, ties to even. -/
def f64_round (q : ℚ) : ℚ :=
  if q = 0 then 0
  else (round_half_even (q / two_zpow (f64_ulp_exponent q)) : ℚ) * two_zpow (f64_ulp_exponent q)

/-- The conversion `(f64)x` of a 64-bit integer. -/
def f64_of_s64 (x : Int) : ℚ := f64_round x

/-- The division of doubles. -/
def f64_div (a b : ℚ) : ℚ := f64_round (a / b)

/-- The multiplication of doubles. -/
def f64_mul (a b : ℚ) : ℚ := f64_round (a * b)

/-- The addition of doubles. -/
def f64_add (a b : ℚ) : ℚ := f64_round (a + b)

/-- The subtraction of doubles. -/
def f64_sub (a b : ℚ) : ℚ := f64_round (a - b)

/-- The conversion `(s64)x` of a double to an integer: truncation toward zero. -/
def f64_to_s64 (q : ℚ) : Int := Int.tdiv q.num q.den

/-- The comparison `x <= a / b` of doubles, also for `b = 0`, where the quotient is
`+infinity` for `a > 0`, and `-infinity` or not a number otherwise. -/
def f64_le_div (x a b : ℚ) : Bool :=
  if b = 0 then decide (0 < a) else decide (x ≤ f64_div a b)

/-- The double `pow(2, (f64)n)` for an integer `n` whose power is a finite double: the exact
power of two. -/
def f64_pow2 (n : Int) : ℚ := two_zpow n

/-! ## Iterators -/

/-- The record `struct hdr_iter_percentiles`. -/
structure hdr_iter_percentiles where
  seen_last_value : Bool
  ticks_per_half_distance : Int
  percentile_to_iterate_to : ℚ
  percentile : ℚ

/-- The record `struct hdr_iter_recorded`. -/
structure hdr_iter_recorded where
  count_added_in_this_iteration_step : Int

/-- The record `struct hdr_iter_linear`. -/
structure hdr_iter_linear where
  value_units_per_bucket : Int
  count_added_in_this_iteration_step : Int
  next_value_reporting_level : Int
  next_value_reporting_level_lowest_equivalent : Int

/-- The record `struct hdr_iter_log`. -/
structure hdr_iter_log where
  log_base : ℚ
  count_added_in_this_iteration_step : Int
  next_value_reporting_level : Int
  next_value_reporting_level_lowest_equivalent : Int

/-- The union `specifics` of `struct hdr_iter`: one of the four payloads. -/
inductive hdr_iter_specifics where
  | percentiles (p : hdr_iter_percentiles)
  | recorded (r : hdr_iter_recorded)
  | linear (l : hdr_iter_linear)
  | log (l : hdr_iter_log)

/-- The values taken by the function pointer `_next_fp`.  The value `percentile_iter_next`
carries the logarithm of the C library that it calls: `log2_f64 x` is the double
`log(x) / log(2)` for the double `x`. -/
inductive hdr_iter_next_fp where
  | all_values_iter_next
  | recorded_iter_next
  | percentile_iter_next (log2_f64 : ℚ → ℚ)
  | iter_linear_next
  | log_iter_next

/-- The record `struct hdr_iter`; `h` is the histogram behind the pointer `const hdr_histogram* h`,
which the iterator only reads. -/
structure hdr_iter where
  h : hdr_histogram
  counts_index : Int
  total_count : Int
  count : Int
  cumulative_count : Int
  value : Int
  highest_equivalent_value : Int
  lowest_equivalent_value : Int
  median_equivalent_value : Int
  value_iterated_from : Int
  value_iterated_to : Int
  specifics : hdr_iter_specifics
  next_fp : hdr_iter_next_fp

/-- The function `has_buckets`. -/
def has_buckets (iter : hdr_iter) : Bool := iter.counts_index < iter.h.counts_len

/-- The function `has_next`. -/
def has_next (iter : hdr_iter) : Bool := iter.cumulative_count < iter.total_count

/-- The function `move_next`: the returned flag and the iterator afterwards. -/
def move_next (iter : hdr_iter) : Bool × hdr_iter :=
  let iter := { iter with counts_index := wrap32 (iter.counts_index + 1) }
  if !has_buckets iter then (false, iter)
  else
    let count := counts_get_normalised iter.h iter.counts_index
    let value := hdr_value_at_index iter.h iter.counts_index
    let bucket_index := get_bucket_index iter.h value
    let sub_bucket_index := get_sub_bucket_index value bucket_index iter.h.unit_magnitude
    let leq := lowest_equivalent_value_given_bucket_indices iter.h bucket_index sub_bucket_index
    let size_of_equivalent_value_range :=
      size_of_equivalent_value_range_given_bucket_indices iter.h bucket_index sub_bucket_index
    (true,
      { iter with
        count := count
        cumulative_count := wrap64 (iter.cumulative_count + count)
        lowest_equivalent_value := leq
        value := value
        highest_equivalent_value := wrap64 (wrap64 (leq + size_of_equivalent_value_range) - 1)
        median_equivalent_value := wrap64 (leq + shr size_of_equivalent_value_range 1) })

/-- The function `basic_iter_next`; the result of `move_next` is not looked at. -/
def basic_iter_next (iter : hdr_iter) : Bool × hdr_iter :=
  if !has_next iter ∨ iter.counts_index ≥ iter.h.counts_len then (false, iter)
  else (true, (move_next iter).2)

/-- The function `update_iterated_values`. -/
def update_iterated_values (iter : hdr_iter) (new_value_iterated_to : Int) : hdr_iter :=
  { iter with
    value_iterated_from := iter.value_iterated_to
    value_iterated_to := new_value_iterated_to }

/-- The function `all_values_iter_next`. -/
def all_values_iter_next (iter : hdr_iter) : Bool × hdr_iter :=
  let r := move_next iter
  if r.1 then (true, update_iterated_values r.2 r.2.value) else (false, r.2)

/-- The function `hdr_iter_init`: it leaves `lowest_equivalent_value`,
`median_equivalent_value` and `specifics` as they are. -/
def hdr_iter_init (iter : hdr_iter) (h : hdr_histogram) : hdr_iter :=
  { iter with
    h := h
    counts_index := -1
    total_count := h.total_count
    count := 0
    cumulative_count := 0
    value := 0
    highest_equivalent_value := 0
    value_iterated_from := 0
    value_iterated_to := 0
    next_fp := hdr_iter_next_fp.all_values_iter_next }

/-- The `while` loop of `recorded_iter_next`, run at most `fuel` times. -/
def recorded_iter_next_loop : Nat → hdr_iter → Bool × hdr_iter
  | 0, iter => (false, iter)
  | fuel + 1, iter =>
    let r := basic_iter_next iter
    if r.1 then
      if r.2.count ≠ 0 then
        (true,
          { update_iterated_values r.2 r.2.value with
            specifics := hdr_iter_specifics.recorded ⟨r.2.count⟩ })
      else recorded_iter_next_loop fuel r.2
    else (false, r.2)

/-- The function `recorded_iter_next`.  Every round in which `basic_iter_next` returns true
raises `counts_index` by one, and `basic_iter_next` returns false once `counts_index` has
reached `counts_len`. -/
def recorded_iter_next (iter : hdr_iter) : Bool × hdr_iter :=
  recorded_iter_next_loop ((iter.h.counts_len - iter.counts_index).toNat + 1) iter

/-- The function `hdr_iter_recorded_init`. -/
def hdr_iter_recorded_init (iter : hdr_iter) (h : hdr_histogram) : hdr_iter :=
  { hdr_iter_init iter h with
    specifics := hdr_iter_specifics.recorded ⟨0⟩
    next_fp := hdr_iter_next_fp.recorded_iter_next }

/-- The member `specifics.percentiles` of an iterator.  The union holds the member written
last; every iterator reads the member that its initialiser wrote, and a read of another
member is not modelled: it gives the zeroed record. -/
def specifics_percentiles (iter : hdr_iter) : hdr_iter_percentiles :=
  match iter.specifics with
  | hdr_iter_specifics.percentiles p => p
  | _ => ⟨false, 0, 0, 0⟩

/-- The member `specifics.linear` of an iterator; see `specifics_percentiles`. -/
def specifics_linear (iter : hdr_iter) : hdr_iter_linear :=
  match iter.specifics with
  | hdr_iter_specifics.linear l => l
  | _ => ⟨0, 0, 0, 0⟩

/-- The member `specifics.log` of an iterator; see `specifics_percentiles`. -/
def specifics_log (iter : hdr_iter) : hdr_iter_log :=
  match iter.specifics with
  | hdr_iter_specifics.log l => l
  | _ => ⟨0, 0, 0, 0⟩

/-- The function `peek_next_value_from_index`. -/
def peek_next_value_from_index (iter : hdr_iter) : Int :=
  hdr_value_at_index iter.h (wrap32 (iter.counts_index + 1))

/-- The function `next_value_greater_than_reporting_level_upper_bound`. -/
def next_value_greater_than_reporting_level_upper_bound (iter : hdr_iter)
    (reporting_level_upper_bound : Int) : Bool :=
  if iter.counts_index ≥ iter.h.counts_len then false
  else decide (peek_next_value_from_index iter > reporting_level_upper_bound)

/-- The `do ... while (basic_iter_next(iter))` loop of `percentile_iter_next`, run at most
`fuel` times.  A step divides by zero when `percentile_to_iterate_to` has reached `100` or
when `ticks_per_half_distance * half_distance` is `0`; the doubles are then infinite and are
not modelled. -/
def percentile_iter_next_loop (log2_f64 : ℚ → ℚ) : Nat → hdr_iter → Bool × hdr_iter
  | 0, iter => (true, iter)
  | fuel + 1, iter =>
    let percentiles := specifics_percentiles iter
    if iter.count ≠ 0 ∧
        f64_le_div percentiles.percentile_to_iterate_to
          (f64_mul 100 (f64_of_s64 iter.cumulative_count)) (f64_of_s64 iter.h.total_count) then
      let iter := update_iterated_values iter (highest_equivalent_value iter.h iter.value)
      let temp :=
        wrap64
          (f64_to_s64
            (log2_f64 (f64_div 100 (f64_sub 100 percentiles.percentile_to_iterate_to))) + 1)
      let half_distance := f64_to_s64 (f64_pow2 temp)
      let percentile_reporting_ticks :=
        wrap64 (percentiles.ticks_per_half_distance * half_distance)
      (true,
        { iter with
          specifics :=
            hdr_iter_specifics.percentiles
              { percentiles with
                percentile := percentiles.percentile_to_iterate_to
                percentile_to_iterate_to :=
                  f64_add percentiles.percentile_to_iterate_to
                    (f64_div 100 (f64_of_s64 percentile_reporting_ticks)) } })
    else
      let r := basic_iter_next iter
      if r.1 then percentile_iter_next_loop log2_f64 fuel r.2 else (true, r.2)

/-- The function `percentile_iter_next`.  Every round of its loop in which `basic_iter_next`
returns true raises `counts_index` by one, and `basic_iter_next` returns false once
`counts_index` has reached `counts_len`. -/
def percentile_iter_next (log2_f64 : ℚ → ℚ) (iter : hdr_iter) : Bool × hdr_iter :=
  let percentiles := specifics_percentiles iter
  if !has_next iter then
    if percentiles.seen_last_value then (false, iter)
    else
      (true,
        { iter with
          specifics :=
            hdr_iter_specifics.percentiles
              { percentiles with seen_last_value := true, percentile := 100 } })
  else if iter.counts_index = -1 then
    let r := basic_iter_next iter
    if !r.1 then (false, r.2)
    else
      percentile_iter_next_loop log2_f64 ((r.2.h.counts_len - r.2.counts_index).toNat + 1) r.2
  else
    percentile_iter_next_loop log2_f64 ((iter.h.counts_len - iter.counts_index).toNat + 1) iter

/-- The function `hdr_iter_percentile_init`; `log2_f64` is the logarithm of the C library. -/
def hdr_iter_percentile_init (log2_f64 : ℚ → ℚ) (iter : hdr_iter) (h : hdr_histogram)
    (ticks_per_half_distance : Int) : hdr_iter :=
  { hdr_iter_init iter h with
    specifics := hdr_iter_specifics.percentiles ⟨false, ticks_per_half_distance, 0, 0⟩
    next_fp := hdr_iter_next_fp.percentile_iter_next log2_f64 }

/-- The `do ... while (true)` loop of `iter_linear_next`, run at most `fuel` times. -/
def iter_linear_next_loop : Nat → hdr_iter → Bool × hdr_iter
  | 0, iter => (true, iter)
  | fuel + 1, iter =>
    let linear := specifics_linear iter
    if iter.value ≥ linear.next_value_reporting_level_lowest_equivalent then
      let iter := update_iterated_values iter linear.next_value_reporting_level
      let next_value_reporting_level :=
        wrap64 (linear.next_value_reporting_level + linear.value_units_per_bucket)
      (true,
        { iter with
          specifics :=
            hdr_iter_specifics.linear
              { linear with
                next_value_reporting_level := next_value_reporting_level
                next_value_reporting_level_lowest_equivalent :=
                  lowest_equivalent_value iter.h next_value_reporting_level } })
    else
      let r := move_next iter
      if !r.1 then (true, r.2)
      else
        iter_linear_next_loop fuel
          { r.2 with
            specifics :=
              hdr_iter_specifics.linear
                { linear with
                  count_added_in_this_iteration_step :=
                    wrap64 (linear.count_added_in_this_iteration_step + r.2.count) } }

/-- The function `iter_linear_next`.  Every round of its loop that does not return raises
`counts_index` by one and keeps it below `counts_len`. -/
def iter_linear_next (iter : hdr_iter) : Bool × hdr_iter :=
  let linear := specifics_linear iter
  let iter :=
    { iter with
      specifics :=
        hdr_iter_specifics.linear { linear with count_added_in_this_iteration_step := 0 } }
  if has_next iter ∨
      next_value_greater_than_reporting_level_upper_bound iter
        linear.next_value_reporting_level_lowest_equivalent then
    iter_linear_next_loop ((iter.h.counts_len - iter.counts_index).toNat + 1) iter
  else (false, iter)

/-- The function `hdr_iter_linear_init`. -/
def hdr_iter_linear_init (iter : hdr_iter) (h : hdr_histogram) (value_units_per_bucket : Int) :
    hdr_iter :=
  { hdr_iter_init iter h with
    specifics :=
      hdr_iter_specifics.linear
        { value_units_per_bucket := value_units_per_bucket
          count_added_in_this_iteration_step := 0
          next_value_reporting_level := value_units_per_bucket
          next_value_reporting_level_lowest_equivalent :=
            lowest_equivalent_value h value_units_per_bucket }
    next_fp := hdr_iter_next_fp.iter_linear_next }

/-- The `do ... while (true)` loop of `log_iter_next`, run at most `fuel` times. -/
def log_iter_next_loop : Nat → hdr_iter → Bool × hdr_iter
  | 0, iter => (true, iter)
  | fuel + 1, iter =>
    let logarithmic := specifics_log iter
    if iter.value ≥ logarithmic.next_value_reporting_level_lowest_equivalent then
      let iter := update_iterated_values iter logarithmic.next_value_reporting_level
      let next_value_reporting_level :=
        wrap64 (logarithmic.next_value_reporting_level * f64_to_s64 logarithmic.log_base)
      (true,
        { iter with
          specifics :=
            hdr_iter_specifics.log
              { logarithmic with
                next_value_reporting_level := next_value_reporting_level
                next_value_reporting_level_lowest_equivalent :=
                  lowest_equivalent_value iter.h next_value_reporting_level } })
    else
      let r := move_next iter
      if !r.1 then (true, r.2)
      else
        log_iter_next_loop fuel
          { r.2 with
            specifics :=
              hdr_iter_specifics.log
                { logarithmic with
                  count_added_in_this_iteration_step :=
                    wrap64 (logarithmic.count_added_in_this_iteration_step + r.2.count) } }

/-- The function `log_iter_next`.  Every round of its loop that does not return raises
`counts_index` by one and keeps it below `counts_len`. -/
def log_iter_next (iter : hdr_iter) : Bool × hdr_iter :=
  let logarithmic := specifics_log iter
  let iter :=
    { iter with
      specifics :=
        hdr_iter_specifics.log { logarithmic with count_added_in_this_iteration_step := 0 } }
  if has_next iter ∨
      next_value_greater_than_reporting_level_upper_bound iter
        logarithmic.next_value_reporting_level_lowest_equivalent then
    log_iter_next_loop ((iter.h.counts_len - iter.counts_index).toNat + 1) iter
  else (false, iter)

/-- The function `hdr_iter_log_init`. -/
def hdr_iter_log_init (iter : hdr_iter) (h : hdr_histogram) (value_units_first_bucket : Int)
    (log_base : ℚ) : hdr_iter :=
  { hdr_iter_init iter h with
    specifics :=
      hdr_iter_specifics.log
        { log_base := log_base
          count_added_in_this_iteration_step := 0
          next_value_reporting_level := value_units_first_bucket
          next_value_reporting_level_lowest_equivalent :=
            lowest_equivalent_value h value_units_first_bucket }
    next_fp := hdr_iter_next_fp.log_iter_next }

/-- The function `hdr_iter_next`: the call through `_next_fp`. -/
def hdr_iter_next (iter : hdr_iter) : Bool × hdr_iter :=
  match iter.next_fp with
  | hdr_iter_next_fp.all_values_iter_next => all_values_iter_next iter
  | hdr_iter_next_fp.recorded_iter_next => recorded_iter_next iter
  | hdr_iter_next_fp.percentile_iter_next log2_f64 => percentile_iter_next log2_f64 iter
  | hdr_iter_next_fp.iter_linear_next => iter_linear_next iter
  | hdr_iter_next_fp.log_iter_next => log_iter_next iter

/-! ## Merging -/

/-- The `while` loop of `hdr_add`, run at most `fuel` times: the dropped count and the
target afterwards. -/
def hdr_add_loop : Nat → hdr_histogram → hdr_iter → Int → Int × hdr_histogram
  | 0, h, _, dropped => (dropped, h)
  | fuel + 1, h, iter, dropped =>
    let r := hdr_iter_next iter
    if r.1 then
      let value := r.2.value
      let count := r.2.count
      let rec_ := hdr_record_values h value count
      if !rec_.1 then hdr_add_loop fuel rec_.2 r.2 (wrap64 (dropped + count))
      else hdr_add_loop fuel rec_.2 r.2 dropped
    else (dropped, h)

/-- The function `hdr_add`, for a source `from_` that is not the target itself; `iter` is
the uninitialised local iterator.  Every step of the iteration raises `counts_index`, which
starts at `-1` and stops at `counts_len`. -/
def hdr_add (iter : hdr_iter) (h from_ : hdr_histogram) : Int × hdr_histogram :=
  hdr_add_loop ((from_.counts_len + 1).toNat + 1) h (hdr_iter_recorded_init iter from_) 0

/-- The `while` loop of `hdr_add_while_correcting_for_coordinated_omission`, run at most
`fuel` times. -/
def hdr_add_corrected_loop (expected_interval : Int) :
    Nat → hdr_histogram → hdr_iter → Int → Int × hdr_histogram
  | 0, h, _, dropped => (dropped, h)
  | fuel + 1, h, iter, dropped =>
    let r := hdr_iter_next iter
    if r.1 then
      let value := r.2.value
      let count := r.2.count
      let rec_ := hdr_record_corrected_values h value count expected_interval
      if !rec_.1 then
        hdr_add_corrected_loop expected_interval fuel rec_.2 r.2 (wrap64 (dropped + count))
      else hdr_add_corrected_loop expected_interval fuel rec_.2 r.2 dropped
    else (dropped, h)

/-- The function `hdr_add_while_correcting_for_coordinated_omission`, for a source `from_`
that is not the target itself. -/
def hdr_add_while_correcting_for_coordinated_omission (iter : hdr_iter)
    (h from_ : hdr_histogram) (expected_interval : Int) : Int × hdr_histogram :=
  hdr_add_corrected_loop expected_interval ((from_.counts_len + 1).toNat + 1) h
    (hdr_iter_recorded_init iter from_) 0

/-! ## Histograms of a configuration -/

/-- The histogram `h` carries the configuration `cfg`: its fields other than the counters and
the running minimum, maximum and total are those written by `hdr_init_preallocated`. -/
def of_config (cfg : hdr_histogram_bucket_config) (h : hdr_histogram) : Prop :=
  h.lowest_discernible_value = cfg.lowest_discernible_value ∧
  h.highest_trackable_value = cfg.highest_trackable_value ∧
  h.unit_magnitude = wrap32 cfg.unit_magnitude ∧
  h.significant_figures = wrap32 cfg.significant_figures ∧
  h.sub_bucket_half_count_magnitude = cfg.sub_bucket_half_count_magnitude ∧
  h.sub_bucket_half_count = cfg.sub_bucket_half_count ∧
  h.sub_bucket_mask = cfg.sub_bucket_mask ∧
  h.sub_bucket_count = cfg.sub_bucket_count ∧
  h.normalizing_index_offset = 0 ∧
  h.bucket_count = cfg.bucket_count ∧
  h.counts_len = cfg.counts_len

/-- Memory as `calloc` returns it: every field and every counter is zero. -/
def zeroed : hdr_histogram :=
  { lowest_discernible_value := 0
    highest_trackable_value := 0
    unit_magnitude := 0
    significant_figures := 0
    sub_bucket_half_count_magnitude := 0
    sub_bucket_half_count := 0
    sub_bucket_mask := 0
    sub_bucket_count := 0
    bucket_count := 0
    min_value := 0
    max_value := 0
    conversion_ratio := 0
    normalizing_index_offset := 0
    counts_len := 0
    total_count := 0
    counts := fun _ => 0 }

/-- A freshly initialised histogram: `hdr_init_preallocated` on zeroed memory. -/
def fresh (cfg : hdr_histogram_bucket_config) : hdr_histogram :=
  hdr_init_preallocated zeroed cfg

/-- The geometry shared by all histograms of accepted configurations, with the magnitudes
`um`, `hm` and the bucket count `bc` as natural numbers. -/
structure layout (h : hdr_histogram) (um hm bc : Nat) : Prop where
  unit_magnitude_eq : h.unit_magnitude = um
  half_count_magnitude_eq : h.sub_bucket_half_count_magnitude = hm
  sub_bucket_count_eq : h.sub_bucket_count = 2 ^ (hm + 1)
  sub_bucket_half_count_eq : h.sub_bucket_half_count = 2 ^ hm
  sub_bucket_mask_eq : h.sub_bucket_mask = (2 ^ (hm + 1) - 1) * 2 ^ um
  bucket_count_eq : h.bucket_count = bc
  counts_len_eq : h.counts_len = (bc + 1) * 2 ^ hm
  offset_eq : h.normalizing_index_offset = 0
  hm_le : hm ≤ 17
  bc_pos : 1 ≤ bc
  magnitude_le : um + hm + bc ≤ 63

/-- The exponent of the width of the slot of `v`: the slot holds `2 ^ slot_shift um hm v`
consecutive values. -/
def slot_shift (um hm : Nat) (v : Int) : Nat :=
  max (bit_length v.toNat) (um + hm + 1) - (hm + 1)

/-- The sum of the counters `counts[0] .. counts[n - 1]`. -/
def sum_counts (counts : Int → Int) : Nat → Int
  | 0 => 0
  | n + 1 => sum_counts counts n + counts n

/-- An admissible value of the parameter `log2_f64`: the exact `floor(log2 x)`. -/
def log2_floor (x : Int) : ℚ := (((bit_length x.toNat : Int) - 1 : Int) : ℚ)

/-- Reference definition, written from the specification and not from the source: the
histogram after recording `value - k * expected_interval` with `hdr_record_values` for
`k = 0, 1, .., n - 1`, in that order. -/
def record_each (count expected_interval value : Int) : Nat → hdr_histogram → hdr_histogram
  | 0, h => h
  | n + 1, h =>
    (hdr_record_values (record_each count expected_interval value n h)
      (value - n * expected_interval) count).2

/-- Reference definition of a corrected recording, written from the specification and not
from the source: `n` is `1` if `expected_interval ≤ 0` or `value ≤ expected_interval`, and
`floor(value / expected_interval)` otherwise. -/
def record_corrected_reference (h : hdr_histogram) (value count expected_interval : Int) :
    hdr_histogram :=
  let n : Nat :=
    if expected_interval ≤ 0 ∨ value ≤ expected_interval then 1
    else (value / expected_interval).toNat
  record_each count expected_interval value n h

/-- The configuration computed for `(1, 3600000000, 3)`. -/
def example_config : hdr_histogram_bucket_config :=
  { lowest_discernible_value := 1
    highest_trackable_value := 3600000000
    unit_magnitude := 0
    significant_figures := 3
    sub_bucket_half_count_magnitude := 10
    sub_bucket_half_count := 1024
    sub_bucket_mask := 2047
    sub_bucket_count := 2048
    bucket_count := 22
    counts_len := 23552 }

/-- The configuration computed for `(1, 2000, 1)`. -/
def small_config : hdr_histogram_bucket_config :=
  { lowest_discernible_value := 1
    highest_trackable_value := 2000
    unit_magnitude := 0
    significant_figures := 1
    sub_bucket_half_count_magnitude := 4
    sub_bucket_half_count := 16
    sub_bucket_mask := 31
    sub_bucket_count := 32
    bucket_count := 7
    counts_len := 128 }

/-- The configuration computed for `(1, 2047, 1)`, whose highest trackable value is the last
value of the counter array. -/
def tight_config : hdr_histogram_bucket_config :=
  { lowest_discernible_value := 1
    highest_trackable_value := 2047
    unit_magnitude := 0
    significant_figures := 1
    sub_bucket_half_count_magnitude := 4
    sub_bucket_half_count := 16
    sub_bucket_mask := 31
    sub_bucket_count := 32
    bucket_count := 7
    counts_len := 128 }

/-- The sum of all counters `counts[0] .. counts[counts_len - 1]`, as an unbounded integer. -/
def counts_sum (h : hdr_histogram) : Int := sum_counts h.counts h.counts_len.toNat

/-- The invariant of `total_count`: it is the sum of all counters in signed 64-bit
arithmetic, and so the exact sum whenever that fits in 64 bits. -/
def total_count_invariant (h : hdr_histogram) : Prop := h.total_count = wrap64 (counts_sum h)

/-- The histogram of the configuration `(1, 2000, 1)` after `hdr_record_values(h, 5, -1)`. -/
def negative_count_histogram : hdr_histogram := (hdr_record_values (fresh small_config) 5 (-1)).2

/-- An iterator in zeroed memory, before any initialiser has run. -/
def zeroed_iter : hdr_iter :=
  { h := zeroed
    counts_index := 0
    total_count := 0
    count := 0
    cumulative_count := 0
    value := 0
    highest_equivalent_value := 0
    lowest_equivalent_value := 0
    median_equivalent_value := 0
    value_iterated_from := 0
    value_iterated_to := 0
    specifics := hdr_iter_specifics.recorded ⟨0⟩
    next_fp := hdr_iter_next_fp.all_values_iter_next }

/-! ## Histograms built by recording -/

/-- The histogram after the calls `hdr_record_values(h, v, c)` for the pairs `(v, c)` of the
list, in order. -/
def record_list (h : hdr_histogram) : List (Int × Int) → hdr_histogram
  | [] => h
  | x :: l => record_list (hdr_record_values h x.1 x.2).2 l

/-- Every call `hdr_record_values(h, v, c)` of the sequence returns true. -/
def records_succeed (h : hdr_histogram) : List (Int × Int) → Prop
  | [] => True
  | x :: l =>
    (hdr_record_values h x.1 x.2).1 = true ∧ records_succeed (hdr_record_values h x.1 x.2).2 l

instance (h : hdr_histogram) (l : List (Int × Int)) : Decidable (records_succeed h l) := by
  induction l generalizing h with
  | nil => exact isTrue trivial
  | cons x l ih =>
    unfold records_succeed
    exact @instDecidableAnd _ _ _ (ih _)

/-- The sum of the counts `c` of the pairs `(v, c)` of a list. -/
def list_count_sum : List (Int × Int) → Int
  | [] => 0
  | x :: l => x.2 + list_count_sum l

/-- The sum of the counts `c` over the pairs `(v, c)` of a list that `h` accepts in its
slot `i`. -/
def list_count_at (h : hdr_histogram) (i : Int) : List (Int × Int) → Int
  | [] => 0
  | x :: l =>
    (if 0 ≤ x.1 ∧ counts_index_for h x.1 = i ∧ 0 ≤ i ∧ i < h.counts_len then x.2 else 0) +
      list_count_at h i l

/-- The histogram is consistent: its counters are non-negative and `total_count` is their
sum, as it is for every histogram built from a fresh one by recording non-negative counts
that add up to less than `2 ^ 63`. -/
structure consistent (h : hdr_histogram) : Prop where
  offset_eq : h.normalizing_index_offset = 0
  len_nonneg : 0 ≤ h.counts_len
  len_lt : h.counts_len < 2 ^ 31
  counts_nonneg : ∀ i : Int, 0 ≤ i → i < h.counts_len → 0 ≤ h.counts i
  total_eq : h.total_count = counts_sum h
  total_lt : h.total_count < 2 ^ 63

/-- The states of an iterator after each step that returns true, for at most `fuel` steps. -/
def iter_steps : Nat → hdr_iter → List hdr_iter
  | 0, _ => []
  | fuel + 1, iter =>
    let r := hdr_iter_next iter
    if r.1 then r.2 :: iter_steps fuel r.2 else []

/-- The steps of a recorded-values iteration over `h`: `hdr_iter_recorded_init`, then
`hdr_iter_next` until it returns false.  The iteration has at most `counts_len` steps. -/
def recorded_iteration (iter : hdr_iter) (h : hdr_histogram) : List hdr_iter :=
  iter_steps ((h.counts_len + 1).toNat + 1) (hdr_iter_recorded_init iter h)

/-- The sum of `iter.count` over the steps of an iteration. -/
def sum_of_counts : List hdr_iter → Int
  | [] => 0
  | it :: l => it.count + sum_of_counts l

/-- The recorded-values iterator `iter` over `h` stands before slot `k`: it has scanned the
slots `0 .. k - 1`. -/
def recorded_iter_at (h : hdr_histogram) (k : Nat) (iter : hdr_iter) : Prop :=
  iter.h = h ∧ iter.next_fp = hdr_iter_next_fp.recorded_iter_next ∧
    iter.counts_index = (k : Int) - 1 ∧ iter.cumulative_count = sum_counts h.counts k ∧
    iter.total_count = h.total_count

/-- The pairs `(hdr_value_at_index(h, i), counts[i])` of the non-zero slots among
`k, k + 1, .., k + d - 1`, in increasing order of `i`. -/
def nonzero_slots (h : hdr_histogram) : Nat → Nat → List (Int × Int)
  | _, 0 => []
  | k, d + 1 =>
    if h.counts k ≠ 0 then (hdr_value_at_index h k, h.counts k) :: nonzero_slots h (k + 1) d
    else nonzero_slots h (k + 1) d

/-! ## Merging, slot by slot -/

/-- The histogram `h` accepts the value `v`: `hdr_record_values` finds a slot for it. -/
def accepts (h : hdr_histogram) (v : Int) : Prop :=
  0 ≤ v ∧ 0 ≤ counts_index_for h v ∧ counts_index_for h v < h.counts_len

instance (h : hdr_histogram) (v : Int) : Decidable (accepts h v) := by
  unfold accepts; infer_instance

/-- The body of the loop of `hdr_add` for a step with the given value and count, on the pair
of the dropped count and the target. -/
def hdr_add_body (acc : Int × hdr_histogram) (x : Int × Int) : Int × hdr_histogram :=
  let r := hdr_record_values acc.2 x.1 x.2
  if !r.1 then (wrap64 (acc.1 + x.2), r.2) else (acc.1, r.2)

/-- The sum of the counts of the slots of `from_` whose value `hdr_value_at_index(from_, i)`
maps outside `[0, h.counts_len)` in `h`. -/
def dropped_count (h from_ : hdr_histogram) : Int :=
  sum_counts
    (fun i =>
      if counts_index_for h (hdr_value_at_index from_ i) < 0 ∨
          h.counts_len ≤ counts_index_for h (hdr_value_at_index from_ i) then from_.counts i
      else 0)
    from_.counts_len.toNat

/-- The configuration computed for `(1, 100, 1)`. -/
def tiny_config : hdr_histogram_bucket_config :=
  { lowest_discernible_value := 1
    highest_trackable_value := 100
    unit_magnitude := 0
    significant_figures := 1
    sub_bucket_half_count_magnitude := 4
    sub_bucket_half_count := 16
    sub_bucket_mask := 31
    sub_bucket_count := 32
    bucket_count := 3
    counts_len := 64 }

/-- A source for a merge: the configuration `(1, 2000, 1)` with the value `5` recorded twice
and the value `1000` three times. -/
def merge_source : hdr_histogram := record_list (fresh small_config) [(5, 2), (1000, 3)]

/-- A target for a merge: the configuration `(1, 100, 1)` with the value `7` recorded once;
its counters end before the value `1000`. -/
def merge_target : hdr_histogram := record_list (fresh tiny_config) [(7, 1)]

/-! ## Percentiles -/

/-- The local `count_at_percentile` of `hdr_value_at_percentile` and of
`hdr_value_at_percentiles`:
`(s64)(((requested_percentile / 100) * total_count) + 0.5)` with
`requested_percentile = percentile < 100.0 ? percentile : 100.0`. -/
def count_at_percentile (total_count : Int) (percentile : ℚ) : Int :=
  let requested_percentile := if percentile < 100 then percentile else 100
  f64_to_s64
    (f64_add (f64_mul (f64_div requested_percentile 100) (f64_of_s64 total_count)) (1 / 2))

/-- The `for` loop of `get_value_from_idx_up_to_count` over the slots `idx, idx + 1, ...`,
run at most `n` times; `0` is the value returned after the loop. -/
def get_value_from_idx_up_to_count_loop (h : hdr_histogram) (count_at_percentile : Int) :
    Nat → Int → Int → Int
  | 0, _, _ => 0
  | n + 1, idx, count_to_idx =>
    let count_to_idx := wrap64 (count_to_idx + h.counts idx)
    if count_to_idx ≥ count_at_percentile then hdr_value_at_index h idx
    else get_value_from_idx_up_to_count_loop h count_at_percentile n (idx + 1) count_to_idx

/-- The function `get_value_from_idx_up_to_count`. -/
def get_value_from_idx_up_to_count (h : hdr_histogram) (count_at_percentile : Int) : Int :=
  let count_at_percentile := if 0 < count_at_percentile then count_at_percentile else 1
  get_value_from_idx_up_to_count_loop h count_at_percentile h.counts_len.toNat 0 0

/-- The function `hdr_value_at_percentile`. -/
def hdr_value_at_percentile (h : hdr_histogram) (percentile : ℚ) : Int :=
  let value_from_idx :=
    get_value_from_idx_up_to_count h (count_at_percentile h.total_count percentile)
  if percentile = 0 then lowest_equivalent_value h value_from_idx
  else highest_equivalent_value h value_from_idx

/-- The first `for` loop of `hdr_value_at_percentiles`, for `i = 0 .. n - 1`: it stores in
`values[i]` the count looked for at `percentiles[i]`, at least `1`. -/
def hdr_value_at_percentiles_counts_loop (total_count : Int) (percentiles : Nat → ℚ) :
    Nat → (Nat → Int) → (Nat → Int)
  | 0, values => values
  | n + 1, values =>
    let values := hdr_value_at_percentiles_counts_loop total_count percentiles n values
    let count_at_percentile := count_at_percentile total_count (percentiles n)
    Function.update values n (if count_at_percentile > 1 then count_at_percentile else 1)

/-- The inner `while` loop of `hdr_value_at_percentiles`, run at most `fuel` times: the
array `values` and `at_pos` afterwards. -/
def hdr_value_at_percentiles_fill_loop (h : hdr_histogram) (length : Nat) (total value : Int) :
    Nat → (Nat → Int) → Nat → (Nat → Int) × Nat
  | 0, values, at_pos => (values, at_pos)
  | fuel + 1, values, at_pos =>
    if at_pos < length ∧ total ≥ values at_pos then
      hdr_value_at_percentiles_fill_loop h length total value fuel
        (Function.update values at_pos (highest_equivalent_value h value)) (at_pos + 1)
    else (values, at_pos)

/-- The outer `while` loop of `hdr_value_at_percentiles`, run at most `fuel` times: the
array `values` afterwards.  The inner loop raises `at_pos` in every round and ends at
`length`, so `length - at_pos` rounds are all it can make. -/
def hdr_value_at_percentiles_loop (h : hdr_histogram) (length : Nat) :
    Nat → hdr_iter → Int → Nat → (Nat → Int) → (Nat → Int)
  | 0, _, _, _, values => values
  | fuel + 1, iter, total, at_pos, values =>
    let r := hdr_iter_next iter
    if r.1 ∧ at_pos < length then
      let total := wrap64 (total + r.2.count)
      let s :=
        hdr_value_at_percentiles_fill_loop h length total r.2.value (length - at_pos) values
          at_pos
      hdr_value_at_percentiles_loop h length fuel r.2 total s.2 s.1
    else values

/-- The function `hdr_value_at_percentiles`: the returned code and the array `values`
afterwards.  An array is `none` for a null pointer and else the map from positions to
elements; `iter` is the uninitialised local iterator.  The all-values iteration makes
`counts_len` steps, so the fuel `counts_len + 1` never runs out. -/
def hdr_value_at_percentiles (iter : hdr_iter) (h : hdr_histogram)
    (percentiles : Option (Nat → ℚ)) (values : Option (Nat → Int)) (length : Nat) :
    Int × Option (Nat → Int) :=
  match percentiles, values with
  | some percentiles, some values =>
    let values :=
      hdr_value_at_percentiles_counts_loop h.total_count percentiles length values
    let iter := hdr_iter_init iter h
    (0, some (hdr_value_at_percentiles_loop h length (h.counts_len.toNat + 1) iter 0 0 values))
  | _, _ => (EINVAL, values)

/-- The array with the elements of a list, and `0` beyond them. -/
def array_of {α : Type} [Zero α] (l : List α) : Nat → α := fun i => l.getD i 0

/-- The first `n` elements of the array that `hdr_value_at_percentiles` leaves in `values`;
the empty list when it received a null pointer. -/
def written_values (r : Int × Option (Nat → Int)) (n : Nat) : List Int :=
  match r.2 with
  | some values => (List.range n).map values
  | none => []

/-- The all-values iterator `iter` over `h` stands before slot `k`. -/
def all_values_iter_at (h : hdr_histogram) (k : Nat) (iter : hdr_iter) : Prop :=
  iter.h = h ∧ iter.next_fp = hdr_iter_next_fp.all_values_iter_next ∧
    iter.counts_index = (k : Int) - 1

/-! ## The validation of a configuration -/

/-- The `s32` that `hdr_calculate_bucket_config` returns: the error code, or `0` when it has
filled the configuration. -/
def return_code (r : Except Int hdr_histogram_bucket_config) : Int :=
  match r with
  | .error e => e
  | .ok _ => 0

/-- The double `log((f64)x) / log(2)` for a logarithm `log2 : ℚ → ℚ` on doubles: the
argument is converted to a double first. -/
def log2_of_double (log2 : ℚ → ℚ) (x : Int) : ℚ := log2 (f64_of_s64 x)

/-- A logarithm on doubles that is exact up to truncation: `floor(log2 q)`. -/
def floor_log2_double (q : ℚ) : ℚ := (floor_log2 q : ℚ)

/-- The sub-bucket half-count magnitude in the words of the specification:
`ceil(log2(2 * 10^significant_figures))`, floored at 1, minus 1. -/
def spec_half_count_magnitude (significant_figures : Int) : Int :=
  max (ceil_log2 (2 * 10 ^ significant_figures.toNat)) 1 - 1

/-- The condition under which the specification has `hdr_calculate_bucket_config` return
`EINVAL`, with the exact `floor(log2(lowest_discernible_value))`. -/
def claimed_einval (lowest_discernible_value highest_trackable_value significant_figures : Int) :
    Prop :=
  lowest_discernible_value < 1 ∨ significant_figures < 1 ∨ 5 < significant_figures ∨
    2 * lowest_discernible_value > highest_trackable_value ∨
    ((bit_length lowest_discernible_value.toNat : Int) - 1) +
      spec_half_count_magnitude significant_figures > 61

instance (lowest highest sf : Int) : Decidable (claimed_einval lowest highest sf) := by
  unfold claimed_einval; infer_instance

/-! ## Queries -/

/-- The function `hdr_max`. -/
def hdr_max (h : hdr_histogram) : Int :=
  if 0 = h.max_value then 0 else highest_equivalent_value h h.max_value

/-- The function `hdr_min`. -/
def hdr_min (h : hdr_histogram) : Int :=
  if 0 < hdr_count_at_index h 0 then 0 else non_zero_min h

/-- The function `hdr_values_are_equivalent`. -/
def hdr_values_are_equivalent (h : hdr_histogram) (a b : Int) : Bool :=
  decide (lowest_equivalent_value h a = lowest_equivalent_value h b)

/-- The sum of the counts `c` of the pairs `(w, c)` of a list whose value `w` lies in
`[lowest_equivalent_value(v), highest_equivalent_value(v)]`. -/
def range_count_sum (h : hdr_histogram) (v : Int) : List (Int × Int) → Int
  | [] => 0
  | x :: l =>
    (if lowest_equivalent_value h v ≤ x.1 ∧ x.1 ≤ highest_equivalent_value h v then x.2 else 0) +
      range_count_sum h v l

/-! ## Allocation -/

/-- The allocation hook `hdr_calloc`: it returns `nullptr`, here `none`, for every request. -/
def hdr_calloc (_count _size : Int) : Option Unit := none

/-- The size of `struct hdr_histogram` in bytes, with 8-byte pointers. -/
def sizeof_hdr_histogram : Int := 96

/-- The function `hdr_init`: the returned code and the contents of `*result` afterwards. -/
def hdr_init (log2_f64 : Int → ℚ)
    (lowest_discernible_value highest_trackable_value significant_figures : Int)
    (result : Option hdr_histogram) : Int × Option hdr_histogram :=
  match hdr_calculate_bucket_config log2_f64 lowest_discernible_value highest_trackable_value
      significant_figures with
  | .error r => (r, result)
  | .ok cfg =>
    match hdr_calloc cfg.counts_len 8 with
    | none => (ENOMEM, result)
    | some _ =>
      match hdr_calloc 1 sizeof_hdr_histogram with
      | none => (ENOMEM, result)
      | some _ => (0, some (hdr_init_preallocated zeroed cfg))

/-- The configuration computed for `(1, 2^63 - 1, 1)`. -/
def wide_config : hdr_histogram_bucket_config :=
  { lowest_discernible_value := 1
    highest_trackable_value := 9223372036854775807
    unit_magnitude := 0
    significant_figures := 1
    sub_bucket_half_count_magnitude := 4
    sub_bucket_half_count := 16
    sub_bucket_mask := 31
    sub_bucket_count := 32
    bucket_count := 59
    counts_len := 960 }

/-- The configuration computed for `(2, 2000, 1)`, with unit magnitude `1`. -/
def coarse_config : hdr_histogram_bucket_config :=
  { lowest_discernible_value := 2
    highest_trackable_value := 2000
    unit_magnitude := 1
    significant_figures := 1
    sub_bucket_half_count_magnitude := 4
    sub_bucket_half_count := 16
    sub_bucket_mask := 62
    sub_bucket_count := 32
    bucket_count := 6
    counts_len := 112 }

/-! ## The mean -/

/-- The `while` loop of `hdr_mean`, run at most `fuel` times: the locals `total` and `count`
afterwards. -/
def hdr_mean_loop (h : hdr_histogram) (total_count : Int) :
    Nat → hdr_iter → Int → Int → Int × Int
  | 0, _, total, count => (total, count)
  | fuel + 1, iter, total, count =>
    let r := hdr_iter_next iter
    if r.1 ∧ count < total_count then
      if 0 ≠ r.2.count then
        hdr_mean_loop h total_count fuel r.2
          (wrap64 (total + wrap64 (r.2.count * hdr_median_equivalent_value h r.2.value)))
          (wrap64 (count + r.2.count))
      else hdr_mean_loop h total_count fuel r.2 total count
    else (total, count)

/-- The function `hdr_mean`; `iter` is the uninitialised local iterator.  The all-values
iteration makes `counts_len` steps, so the fuel `counts_len + 1` never runs out.  For
`total_count = 0` the source divides by zero; that double is not a number and is not
modelled. -/
def hdr_mean (iter : hdr_iter) (h : hdr_histogram) : ℚ :=
  let total_count := h.total_count
  let r := hdr_mean_loop h total_count (h.counts_len.toNat + 1) (hdr_iter_init iter h) 0 0
  f64_div (f64_mul (f64_of_s64 r.1) 1) (f64_of_s64 total_count)

/-- The sum over the slots `0 .. n - 1` of
`counts[i] * hdr_median_equivalent_value(hdr_value_at_index(i))`, as an unbounded integer. -/
def weighted_sum (h : hdr_histogram) (n : Nat) : Int :=
  sum_counts (fun i => h.counts i * hdr_median_equivalent_value h (hdr_value_at_index h i)) n

/-- The iterator after `n` calls of `hdr_iter_next`. -/
def iter_after : Nat → hdr_iter → hdr_iter
  | 0, iter => iter
  | n + 1, iter => iter_after n (hdr_iter_next iter).2

/-- An all-values iterator over `merge_target` after its 64 slots. -/
def finished_all_values : hdr_iter := iter_after 64 (hdr_iter_init zeroed_iter merge_target)

/-- A recorded-values iterator over `merge_target` after its one recorded slot. -/
def finished_recorded : hdr_iter :=
  iter_after 1 (hdr_iter_recorded_init zeroed_iter merge_target)

/-- A percentile iterator over `merge_target` after its two steps. -/
def finished_percentile : hdr_iter :=
  iter_after 2 (hdr_iter_percentile_init floor_log2_double zeroed_iter merge_target 1)

/-- A linear iterator over `merge_target`, in steps of 4, after its two steps. -/
def finished_linear : hdr_iter := iter_after 2 (hdr_iter_linear_init zeroed_iter merge_target 4)

/-- A logarithmic iterator over `merge_target`, from 1 with base 2, after its four steps. -/
def finished_log : hdr_iter := iter_after 4 (hdr_iter_log_init zeroed_iter merge_target 1 2)

/-- Whether a function pointer `_next_fp` is `all_values_iter_next`. -/
def is_all_values_iter_next : hdr_iter_next_fp → Bool
  | hdr_iter_next_fp.all_values_iter_next => true
  | _ => false

/-- The member `specifics.recorded` of an iterator; see `specifics_percentiles`. -/
def specifics_recorded (iter : hdr_iter) : hdr_iter_recorded :=
  match iter.specifics with
  | hdr_iter_specifics.recorded r => r
  | _ => ⟨0⟩

/-- The slots `i` of `h` with `counts[i] != 0`, in increasing order. -/
def recorded_slots (h : hdr_histogram) : List Nat :=
  (List.range h.counts_len.toNat).filter (fun i => decide (h.counts i ≠ 0))

/-- What a step of a recorded-values iteration reports: `counts_index`, `value`, `count` and
`specifics.recorded.count_added_in_this_iteration_step`. -/
def recorded_step_report (it : hdr_iter) : Int × Int × Int × Int :=
  (it.counts_index, it.value, it.count,
    (specifics_recorded it).count_added_in_this_iteration_step)

/-- The sum of `specifics.linear.count_added_in_this_iteration_step` over the first `n` steps
of an iteration: the values that the first `n` calls of `hdr_iter_next` leave. -/
def linear_count_added_sum : Nat → hdr_iter → Int
  | 0, _ => 0
  | n + 1, iter =>
    (specifics_linear (hdr_iter_next iter).2).count_added_in_this_iteration_step +
      linear_count_added_sum n (hdr_iter_next iter).2

/-- The linear iterator `s` over `h`, in steps of `u`, between two calls: it has scanned the
slots `0 .. n - 1`, and `T` is the least value above the slots of `h`. -/
def linear_iter_at (h : hdr_histogram) (u T : Int) (n : Nat) (s : hdr_iter) : Prop :=
  s.h = h ∧ s.next_fp = hdr_iter_next_fp.iter_linear_next ∧ s.total_count = h.total_count ∧
    s.cumulative_count = sum_counts h.counts n ∧ n ≤ h.counts_len.toNat ∧
    (s.counts_index = (n : Int) - 1 ∨
      (s.counts_index = h.counts_len ∧ n = h.counts_len.toNat)) ∧
    0 ≤ s.value ∧ s.value < T ∧
    (specifics_linear s).value_units_per_bucket = u ∧
    1 ≤ (specifics_linear s).next_value_reporting_level ∧
    (specifics_linear s).next_value_reporting_level < T + u ∧
    (specifics_linear s).next_value_reporting_level_lowest_equivalent =
      lowest_equivalent_value h (specifics_linear s).next_value_reporting_level

/-- A bound on the number of steps that a linear iterator has left: the reporting levels
below `T + u`, and the step that ends at the end of the counter array. -/
def linear_steps_left (T u : Int) (s : hdr_iter) : Nat :=
  (T + u - (specifics_linear s).next_value_reporting_level).toNat +
    (if s.counts_index < s.h.counts_len then 1 else 0)

/-- The configuration computed for `(1, 255, 2)`. -/
def byte_config : hdr_histogram_bucket_config :=
  { lowest_discernible_value := 1
    highest_trackable_value := 255
    unit_magnitude := 0
    significant_figures := 2
    sub_bucket_half_count_magnitude := 7
    sub_bucket_half_count := 128
    sub_bucket_mask := 255
    sub_bucket_count := 256
    bucket_count := 1
    counts_len := 256 }

/-! ## Arithmetic of the machine integers -/

theorem wrap64_of_is_s64 {x : Int} (h : is_s64 x) : wrap64 x = x := by
  unfold is_s64 at h
  unfold wrap64
  omega

theorem wrap32_of_is_s32 {x : Int} (h : is_s32 x) : wrap32 x = x := by
  unfold is_s32 at h
  unfold wrap32
  omega

theorem wrap64_add_wrap64 (a b : Int) : wrap64 (wrap64 a + b) = wrap64 (a + b) := by
  unfold wrap64
  omega

theorem is_s64_wrap64 (x : Int) : is_s64 (wrap64 x) := by
  unfold is_s64 wrap64
  omega

theorem bit_length_aux_le_iff (fuel : Nat) : ∀ n k : Nat, n < 2 ^ fuel →
    (bit_length_aux fuel n ≤ k ↔ n < 2 ^ k) := by
  induction fuel with
  | zero =>
    intro n k hn
    simp only [pow_zero, Nat.lt_one_iff] at hn
    subst hn
    simp [bit_length_aux]
  | succ fuel ih =>
    intro n k hn
    unfold bit_length_aux
    by_cases h0 : n = 0
    · simp [h0]
    · simp only [h0, if_false]
      cases k with
      | zero => simp; omega
      | succ k =>
        have hdiv : n / 2 < 2 ^ fuel := by
          rw [Nat.div_lt_iff_lt_mul (by norm_num)]
          rw [pow_succ] at hn
          exact hn
        rw [Nat.add_le_add_iff_right, ih (n / 2) k hdiv, Nat.div_lt_iff_lt_mul (by norm_num),
          pow_succ]

theorem bit_length_le_iff {n : Nat} (hn : n < 2 ^ 64) (k : Nat) :
    bit_length n ≤ k ↔ n < 2 ^ k :=
  bit_length_aux_le_iff 64 n k hn

theorem lt_two_pow_bit_length {n : Nat} (hn : n < 2 ^ 64) : n < 2 ^ bit_length n :=
  (bit_length_le_iff hn _).1 le_rfl

theorem two_pow_le_of_lt_bit_length {n k : Nat} (hn : n < 2 ^ 64) (hk : k < bit_length n) :
    2 ^ k ≤ n := by
  by_contra hlt
  have := (bit_length_le_iff hn k).2 (not_le.1 hlt)
  omega

theorem lor_lt_two_pow_iff (a b k : Nat) : a ||| b < 2 ^ k ↔ a < 2 ^ k ∧ b < 2 ^ k := by
  constructor
  · intro h
    exact ⟨lt_of_le_of_lt (Nat.le_of_testBit (by simp; tauto)) h,
      lt_of_le_of_lt (Nat.le_of_testBit (by simp; tauto)) h⟩
  · rintro ⟨ha, hb⟩
    exact Nat.or_lt_two_pow ha hb


/-! ## The bucket configuration -/

theorem buckets_needed_loop_spec (value : Int) (hv : value < 2 ^ 63) (fuel : Nat) :
    ∀ (a : Nat) (bn : Int), a ≤ 62 → 63 ≤ fuel + a →
      ∃ k : Nat, buckets_needed_loop value fuel (2 ^ a) bn = bn + k ∧ a + k ≤ 63 ∧
        value < 2 ^ (a + k) ∧ (0 < k → (2 : Int) ^ (a + k - 1) ≤ value) := by
  induction fuel with
  | zero => intro a bn ha hf; omega
  | succ fuel ih =>
    intro a bn ha hf
    unfold buckets_needed_loop
    by_cases hle : (2 : Int) ^ a ≤ value
    · simp only [hle, if_true]
      by_cases hbig : (2 : Int) ^ a > s64_maximum / 2
      · simp only [hbig, if_true]
        have ha62 : a = 62 := by
          by_contra hne
          have h61 : a ≤ 61 := by omega
          have : (2 : Int) ^ a ≤ 2 ^ 61 := pow_le_pow_right₀ (by norm_num) h61
          unfold s64_maximum at hbig
          norm_num at hbig
          omega
        subst ha62
        exact ⟨1, by simp, by omega, by simpa using hv, fun _ => by simpa using hle⟩
      · simp only [hbig, if_false]
        have h61 : a ≤ 61 := by
          by_contra hne
          have ha62 : a = 62 := by omega
          subst ha62
          unfold s64_maximum at hbig
          norm_num at hbig
        have hshl : shl64 ((2 : Int) ^ a) 1 = 2 ^ (a + 1) := by
          unfold shl64
          have h1 : (2 : Int) ^ a * 2 ^ (1 : Int).toNat = 2 ^ (a + 1) := by
            simp [pow_succ]
          rw [h1]
          apply wrap64_of_is_s64
          have h2 : (2 : Int) ^ (a + 1) ≤ 2 ^ 62 := pow_le_pow_right₀ (by norm_num) (by omega)
          have h3 : (0 : Int) < 2 ^ (a + 1) := by positivity
          unfold is_s64
          constructor <;> omega
        rw [hshl]
        obtain ⟨k, hk, hk63, hlt, hmin⟩ := ih (a + 1) (bn + 1) (by omega) (by omega)
        refine ⟨k + 1, ?_, by omega, ?_, ?_⟩
        · rw [hk]; push_cast; ring
        · have : a + (k + 1) = a + 1 + k := by ring
          rw [this]; exact hlt
        · intro _
          by_cases hk0 : k = 0
          · subst hk0; simpa using hle
          · have := hmin (by omega)
            have e : a + (k + 1) - 1 = a + 1 + k - 1 := by omega
            rw [e]; exact this
    · simp only [hle, if_false]
      exact ⟨0, by simp, by omega, by simpa using not_le.1 hle, fun h => by omega⟩


theorem half_count_magnitude_spec (sf : Int) (h1 : 1 ≤ sf) (h5 : sf ≤ 5) :
    ∃ hm : Nat,
      (if ceil_log2 (wrap64 (2 * power 10 sf)) > 1 then ceil_log2 (wrap64 (2 * power 10 sf))
        else 1) - 1 = (hm : Int) ∧
      hm ≤ 17 ∧ (10 : Int) ^ sf.toNat ≤ 2 ^ hm ∧ (2 : Int) ^ hm < 2 * 10 ^ sf.toNat := by
  interval_cases sf
  · exact ⟨4, by decide, by decide, by decide, by decide⟩
  · exact ⟨7, by decide, by decide, by decide, by decide⟩
  · exact ⟨10, by decide, by decide, by decide, by decide⟩
  · exact ⟨14, by decide, by decide, by decide, by decide⟩
  · exact ⟨17, by decide, by decide, by decide, by decide⟩

theorem f64_to_s32_nonneg {q : ℚ} (hq : 0 ≤ q) : 0 ≤ f64_to_s32 q := by
  unfold f64_to_s32
  exact Int.tdiv_nonneg (Rat.num_nonneg.2 hq) (by exact_mod_cast Nat.zero_le _)


theorem two_pow_le_two_pow {a b : Nat} (h : a ≤ b) : (2 : Int) ^ a ≤ 2 ^ b :=
  pow_le_pow_right₀ (by norm_num) h

theorem two_pow_pos (a : Nat) : (0 : Int) < 2 ^ a := by positivity

theorem wrap32_two_pow {a : Nat} (ha : a ≤ 30) : wrap32 ((2 : Int) ^ a) = 2 ^ a := by
  apply wrap32_of_is_s32
  have h2 : (2 : Int) ^ a ≤ 2 ^ 30 := two_pow_le_two_pow ha
  have h3 := two_pow_pos a
  unfold is_s32
  constructor <;> omega

theorem wrap64_two_pow {a : Nat} (ha : a ≤ 62) : wrap64 ((2 : Int) ^ a) = 2 ^ a := by
  apply wrap64_of_is_s64
  have h2 : (2 : Int) ^ a ≤ 2 ^ 62 := two_pow_le_two_pow ha
  have h3 := two_pow_pos a
  unfold is_s64
  constructor <;> omega

theorem wrap32_nat {a : Nat} (ha : a < 2 ^ 31) : wrap32 (a : Int) = a := by
  apply wrap32_of_is_s32
  unfold is_s32
  constructor <;> omega

theorem shl64_two_pow {a b : Nat} (h : a + b ≤ 62) : shl64 ((2 : Int) ^ a) (b : Int) = 2 ^ (a + b) := by
  unfold shl64
  rw [Int.toNat_ofNat, ← pow_add]
  exact wrap64_two_pow h

theorem shl64_mask {um hm : Nat} (h : um + hm ≤ 61) :
    shl64 ((2 : Int) ^ (hm + 1) - 1) (um : Int) = (2 ^ (hm + 1) - 1) * 2 ^ um := by
  unfold shl64
  rw [Int.toNat_ofNat]
  apply wrap64_of_is_s64
  have hge : (1 : Int) ≤ 2 ^ (hm + 1) := one_le_pow₀ (by norm_num)
  have hpos := two_pow_pos um
  have hnn : (0 : Int) ≤ (2 ^ (hm + 1) - 1) * 2 ^ um := mul_nonneg (by linarith) hpos.le
  have hlt : ((2 : Int) ^ (hm + 1) - 1) * 2 ^ um < 2 ^ (hm + 1) * 2 ^ um :=
    mul_lt_mul_of_pos_right (by linarith) hpos
  have hpow : (2 : Int) ^ (hm + 1) * 2 ^ um ≤ 2 ^ 62 := by
    rw [← pow_add]
    exact two_pow_le_two_pow (by omega)
  unfold is_s64
  constructor
  · linarith
  · linarith

theorem wrap32_counts_len {bc hm : Nat} (hbc : bc ≤ 63) (hm17 : hm ≤ 17) :
    wrap32 (((bc : Int) + 1) * 2 ^ hm) = ((bc : Int) + 1) * 2 ^ hm := by
  apply wrap32_of_is_s32
  have h2 : (2 : Int) ^ hm ≤ 2 ^ 17 := two_pow_le_two_pow hm17
  have h3 := two_pow_pos hm
  have h4 : ((bc : Int) + 1) ≤ 64 := by omega
  have h5 : (0 : Int) ≤ (bc : Int) + 1 := by omega
  have h6 : ((bc : Int) + 1) * 2 ^ hm ≤ 64 * 2 ^ 17 := mul_le_mul h4 h2 h3.le (by norm_num)
  have h7 : (0 : Int) ≤ ((bc : Int) + 1) * 2 ^ hm := mul_nonneg h5 h3.le
  unfold is_s32
  constructor
  · linarith
  · linarith

/-- Everything the acceptance of a configuration says about its fields. -/
theorem config_fields (log2_f64 : Int → ℚ) (hlog : ∀ x : Int, 1 ≤ x → 0 ≤ log2_f64 x)
    (lowest highest sf : Int) (cfg : hdr_histogram_bucket_config) (hhi : highest < 2 ^ 63)
    (hcfg : hdr_calculate_bucket_config log2_f64 lowest highest sf = .ok cfg) :
    ∃ um hm bc : Nat,
      cfg = { lowest_discernible_value := lowest
              highest_trackable_value := highest
              unit_magnitude := um
              significant_figures := sf
              sub_bucket_half_count_magnitude := hm
              sub_bucket_half_count := 2 ^ hm
              sub_bucket_mask := (2 ^ (hm + 1) - 1) * 2 ^ um
              sub_bucket_count := 2 ^ (hm + 1)
              bucket_count := bc
              counts_len := ((bc : Int) + 1) * 2 ^ hm } ∧
      (um : Int) = f64_to_s32 (log2_f64 lowest) ∧
      1 ≤ lowest ∧ 1 ≤ sf ∧ sf ≤ 5 ∧ hm ≤ 17 ∧ um + hm ≤ 61 ∧ 1 ≤ bc ∧ um + hm + bc ≤ 63 ∧
      highest < 2 ^ (um + hm + bc) ∧ (1 < bc → (2 : Int) ^ (um + hm + bc - 1) ≤ highest) ∧
      (10 : Int) ^ sf.toNat ≤ 2 ^ hm ∧ (2 : Int) ^ hm < 2 * 10 ^ sf.toNat := by
  unfold hdr_calculate_bucket_config at hcfg
  by_cases hc1 : lowest < 1 ∨ sf < 1 ∨ 5 < sf ∨ wrap64 (lowest * 2) > highest
  · rw [if_pos hc1] at hcfg; cases hcfg
  simp only [if_neg hc1] at hcfg
  by_cases hc2 : (s32_maximum : ℚ) < log2_f64 lowest
  · rw [if_pos hc2] at hcfg; cases hcfg
  simp only [if_neg hc2] at hcfg
  simp only [not_or, not_lt] at hc1
  obtain ⟨hlow, hsf1, hsf5, -⟩ := hc1
  obtain ⟨hm, hhm, hm17, h10, h10'⟩ := half_count_magnitude_spec sf hsf1 hsf5
  rw [hhm] at hcfg
  obtain ⟨um, hum⟩ := Int.eq_ofNat_of_zero_le (f64_to_s32_nonneg (hlog lowest hlow))
  rw [hum] at hcfg
  by_cases hc3 : (um : Int) + hm > 61
  · rw [if_pos hc3] at hcfg; cases hcfg
  simp only [if_neg hc3] at hcfg
  have humhm : um + hm ≤ 61 := by
    have := not_lt.1 hc3
    exact_mod_cast this
  have e1 : ((hm : Int) + 1).toNat = hm + 1 := by
    have : ((hm : Int) + 1) = ((hm + 1 : Nat) : Int) := by push_cast; rfl
    rw [this, Int.toNat_ofNat]
  rw [e1, wrap32_two_pow (show hm + 1 ≤ 30 by omega),
    wrap32_nat (show um < 2 ^ 31 by omega)] at hcfg
  have hhalf : (2 : Int) ^ (hm + 1) / 2 = 2 ^ hm := by
    rw [pow_succ]; simp
  rw [hhalf, shl64_mask humhm] at hcfg
  unfold buckets_needed_to_cover_value at hcfg
  rw [shl64_two_pow (show hm + 1 + um ≤ 62 by omega)] at hcfg
  obtain ⟨k, hk, hk63, hklt, hkmin⟩ :=
    buckets_needed_loop_spec highest hhi 64 (hm + 1 + um) 1 (by omega) (by omega)
  rw [hk] at hcfg
  have e2 : ((1 : Int) + k + 1) = (((k + 1 : Nat) : Int) + 1) := by push_cast; ring
  rw [e2, wrap32_counts_len (show k + 1 ≤ 63 by omega) hm17] at hcfg
  have e3 : (1 : Int) + k = ((k + 1 : Nat) : Int) := by push_cast; ring
  rw [e3] at hcfg
  refine ⟨um, hm, k + 1, (Except.ok.inj hcfg).symm, hum.symm, hlow, hsf1, hsf5, hm17, humhm,
    by omega, by omega, ?_, ?_, h10, h10'⟩
  · have e : um + hm + (k + 1) = hm + 1 + um + k := by ring
    rw [e]; exact hklt
  · intro h1
    have e : um + hm + (k + 1) - 1 = hm + 1 + um + k - 1 := by omega
    rw [e]; exact hkmin (by omega)


/-! ## The slot of a value -/

theorem bit_length_lor {a b : Nat} (ha : a < 2 ^ 64) (hb : b < 2 ^ 64) :
    bit_length (a ||| b) = max (bit_length a) (bit_length b) := by
  have hab : a ||| b < 2 ^ 64 := Nat.or_lt_two_pow ha hb
  apply eq_of_forall_ge_iff
  intro k
  rw [bit_length_le_iff hab, lor_lt_two_pow_iff, max_le_iff, bit_length_le_iff ha,
    bit_length_le_iff hb]

theorem bit_length_eq {n k : Nat} (hn : n < 2 ^ 64) (hlo : 2 ^ k ≤ n) (hhi : n < 2 ^ (k + 1)) :
    bit_length n = k + 1 := by
  apply le_antisymm
  · exact (bit_length_le_iff hn _).2 hhi
  · by_contra hlt
    have h1 : bit_length n ≤ k := by omega
    have := (bit_length_le_iff hn k).1 h1
    omega

/-- The mask `(sub_bucket_count - 1) << unit_magnitude` as a natural number. -/
theorem mask_bounds (um hm : Nat) :
    2 ^ (um + hm) ≤ (2 ^ (hm + 1) - 1) * 2 ^ um ∧
      (2 ^ (hm + 1) - 1) * 2 ^ um < 2 ^ (um + hm + 1) := by
  have h1 : 2 ^ (hm + 1) = 2 * 2 ^ hm := by rw [pow_succ]; ring
  have h2 : 0 < 2 ^ hm := by positivity
  have h3 : 0 < 2 ^ um := by positivity
  have e1 : 2 ^ (um + hm) = 2 ^ hm * 2 ^ um := by rw [pow_add]; ring
  have e2 : 2 ^ (um + hm + 1) = 2 ^ (hm + 1) * 2 ^ um := by rw [← pow_add]; congr 1; omega
  rw [e1, e2]
  constructor
  · apply Nat.mul_le_mul_right; omega
  · apply Nat.mul_lt_mul_of_pos_right _ h3; omega

theorem slot_shift_spec (um hm : Nat) (v : Int) (hv0 : 0 ≤ v) (hv : v < 2 ^ 63)
    (hmag : um + hm ≤ 62) :
    um ≤ slot_shift um hm v ∧ slot_shift um hm v + hm ≤ 62 ∧
      v < 2 ^ (slot_shift um hm v + hm + 1) ∧
      (um < slot_shift um hm v → (2 : Int) ^ (slot_shift um hm v + hm) ≤ v) := by
  obtain ⟨n, rfl⟩ := Int.eq_ofNat_of_zero_le hv0
  have hn63 : n < 2 ^ 63 := by exact_mod_cast hv
  have hn : n < 2 ^ 64 := by omega
  have hb63 : bit_length n ≤ 63 := (bit_length_le_iff hn 63).2 hn63
  have hlt := lt_two_pow_bit_length hn
  unfold slot_shift
  simp only [Int.toNat_ofNat]
  refine ⟨by omega, by omega, ?_, ?_⟩
  · have h1 : n < 2 ^ (max (bit_length n) (um + hm + 1) - (hm + 1) + hm + 1) :=
      lt_of_lt_of_le hlt (Nat.pow_le_pow_right (by norm_num) (by omega))
    exact_mod_cast h1
  · intro hlt'
    have h1 : 2 ^ (max (bit_length n) (um + hm + 1) - (hm + 1) + hm) ≤ n :=
      two_pow_le_of_lt_bit_length hn (by omega)
    exact_mod_cast h1

theorem slot_shift_unique (um hm : Nat) (v : Int) (hv0 : 0 ≤ v) (hv : v < 2 ^ 63)
    (hmag : um + hm ≤ 62) (s : Nat) (h1 : um ≤ s) (h2 : v < 2 ^ (s + hm + 1))
    (h3 : um < s → (2 : Int) ^ (s + hm) ≤ v) : slot_shift um hm v = s := by
  obtain ⟨g1, -, g2, g3⟩ := slot_shift_spec um hm v hv0 hv hmag
  by_contra hne
  rcases Nat.lt_or_gt_of_ne hne with hlt | hgt
  · have h4 := h3 (by omega)
    have h5 : (2 : Int) ^ (slot_shift um hm v + hm + 1) ≤ 2 ^ (s + hm) :=
      two_pow_le_two_pow (by omega)
    linarith
  · have h4 := g3 (by omega)
    have h5 : (2 : Int) ^ (s + hm + 1) ≤ 2 ^ (slot_shift um hm v + hm) :=
      two_pow_le_two_pow (by omega)
    linarith


theorem layout_magnitude (h : hdr_histogram) (um hm bc : Nat) (hl : layout h um hm bc) :
    um + hm ≤ 62 := by
  have := hl.bc_pos
  have := hl.magnitude_le
  omega

theorem get_bucket_index_eq (h : hdr_histogram) (um hm bc : Nat) (hl : layout h um hm bc)
    (v : Int) (hv0 : 0 ≤ v) (hv : v < 2 ^ 63) :
    get_bucket_index h v = (slot_shift um hm v : Int) - um := by
  have hmag := layout_magnitude h um hm bc hl
  obtain ⟨g1, g2, -, -⟩ := slot_shift_spec um hm v hv0 hv hmag
  obtain ⟨n, rfl⟩ := Int.eq_ofNat_of_zero_le hv0
  have hn63 : n < 2 ^ 63 := by exact_mod_cast hv
  have hn : n < 2 ^ 64 := by omega
  obtain ⟨m1, m2⟩ := mask_bounds um hm
  have hm63 : (2 ^ (hm + 1) - 1) * 2 ^ um < 2 ^ 63 :=
    lt_of_lt_of_le m2 (Nat.pow_le_pow_right (by norm_num) (by omega))
  have hmask : h.sub_bucket_mask = (((2 ^ (hm + 1) - 1) * 2 ^ um : Nat) : Int) := by
    rw [hl.sub_bucket_mask_eq]
    have : 1 ≤ 2 ^ (hm + 1) := Nat.one_le_two_pow
    push_cast [this]
    rfl
  have hlor : Int.lor (n : Int) h.sub_bucket_mask =
      ((n ||| ((2 ^ (hm + 1) - 1) * 2 ^ um) : Nat) : Int) := by
    rw [hmask]; rfl
  have hx63 : n ||| ((2 ^ (hm + 1) - 1) * 2 ^ um) < 2 ^ 63 := Nat.or_lt_two_pow hn63 hm63
  have hbl : bit_length (n ||| ((2 ^ (hm + 1) - 1) * 2 ^ um)) =
      max (bit_length n) (um + hm + 1) := by
    rw [bit_length_lor hn (by omega), bit_length_eq (by omega) m1 m2]
  have hclz : count_leading_zeros_64 (Int.lor (n : Int) h.sub_bucket_mask) =
      64 - (max (bit_length n) (um + hm + 1) : Nat) := by
    unfold count_leading_zeros_64
    rw [hlor]
    have e : (((n ||| ((2 ^ (hm + 1) - 1) * 2 ^ um) : Nat) : Int) % 2 ^ 64).toNat =
        n ||| ((2 ^ (hm + 1) - 1) * 2 ^ um) := by
      omega
    rw [e, hbl]
  unfold get_bucket_index
  simp only [hclz, hl.unit_magnitude_eq, hl.half_count_magnitude_eq]
  have hb63 : bit_length n ≤ 63 := (bit_length_le_iff hn 63).2 hn63
  have hs : slot_shift um hm (n : Int) = max (bit_length n) (um + hm + 1) - (hm + 1) := by
    unfold slot_shift; simp
  rw [hs]
  rw [wrap32_of_is_s32]
  · omega
  · unfold is_s32
    constructor <;> omega


theorem sub_bucket_bounds (um hm : Nat) (v : Int) (hv0 : 0 ≤ v) (hv : v < 2 ^ 63)
    (hmag : um + hm ≤ 62) :
    0 ≤ v / 2 ^ slot_shift um hm v ∧ v / 2 ^ slot_shift um hm v < 2 ^ (hm + 1) ∧
      (um < slot_shift um hm v → (2 : Int) ^ hm ≤ v / 2 ^ slot_shift um hm v) := by
  obtain ⟨-, -, g2, g3⟩ := slot_shift_spec um hm v hv0 hv hmag
  have hpos := two_pow_pos (slot_shift um hm v)
  refine ⟨Int.ediv_nonneg hv0 hpos.le, ?_, ?_⟩
  · apply Int.ediv_lt_of_lt_mul hpos
    rw [← pow_add, show hm + 1 + slot_shift um hm v = slot_shift um hm v + hm + 1 by omega]
    exact g2
  · intro hlt
    apply Int.le_ediv_of_mul_le hpos
    rw [← pow_add, show hm + slot_shift um hm v = slot_shift um hm v + hm by omega]
    exact g3 hlt

theorem get_sub_bucket_index_eq (h : hdr_histogram) (um hm bc : Nat) (hl : layout h um hm bc)
    (v : Int) (hv0 : 0 ≤ v) (hv : v < 2 ^ 63) :
    get_sub_bucket_index v (get_bucket_index h v) h.unit_magnitude =
      v / 2 ^ slot_shift um hm v := by
  have hmag := layout_magnitude h um hm bc hl
  obtain ⟨g1, g2, -, -⟩ := slot_shift_spec um hm v hv0 hv hmag
  obtain ⟨q0, q1, -⟩ := sub_bucket_bounds um hm v hv0 hv hmag
  have hm17 := hl.hm_le
  rw [get_bucket_index_eq h um hm bc hl v hv0 hv, hl.unit_magnitude_eq]
  unfold get_sub_bucket_index shr
  have e1 : ((slot_shift um hm v : Int) - um + um) = (slot_shift um hm v : Int) := by ring
  rw [e1, wrap32_nat (show slot_shift um hm v < 2 ^ 31 by omega), Int.toNat_ofNat]
  apply wrap32_of_is_s32
  have h18 : (2 : Int) ^ (hm + 1) ≤ 2 ^ 18 := two_pow_le_two_pow (by omega)
  unfold is_s32
  constructor
  · linarith
  · linarith

theorem counts_index_for_eq (h : hdr_histogram) (um hm bc : Nat) (hl : layout h um hm bc)
    (v : Int) (hv0 : 0 ≤ v) (hv : v < 2 ^ 63) :
    counts_index_for h v =
      ((slot_shift um hm v : Int) - um) * 2 ^ hm + v / 2 ^ slot_shift um hm v := by
  have hmag := layout_magnitude h um hm bc hl
  obtain ⟨g1, g2, -, -⟩ := slot_shift_spec um hm v hv0 hv hmag
  obtain ⟨q0, q1, -⟩ := sub_bucket_bounds um hm v hv0 hv hmag
  have hm17 := hl.hm_le
  unfold counts_index_for
  simp only [get_sub_bucket_index_eq h um hm bc hl v hv0 hv]
  rw [get_bucket_index_eq h um hm bc hl v hv0 hv]
  unfold counts_index shl32
  simp only [hl.half_count_magnitude_eq, hl.sub_bucket_half_count_eq, Int.toNat_ofNat]
  have h17 : (2 : Int) ^ hm ≤ 2 ^ 17 := two_pow_le_two_pow hm17
  have h18 : (2 : Int) ^ (hm + 1) ≤ 2 ^ 18 := two_pow_le_two_pow (by omega)
  have hpos := two_pow_pos hm
  have hb0 : (0 : Int) ≤ (slot_shift um hm v : Int) - um + 1 := by omega
  have hb1 : (slot_shift um hm v : Int) - um + 1 ≤ 63 := by omega
  have hp0 : (0 : Int) ≤ ((slot_shift um hm v : Int) - um + 1) * 2 ^ hm := mul_nonneg hb0 hpos.le
  have hp1 : ((slot_shift um hm v : Int) - um + 1) * 2 ^ hm ≤ 63 * 2 ^ 17 :=
    mul_le_mul hb1 h17 hpos.le (by norm_num)
  have w1 : wrap32 ((slot_shift um hm v : Int) - um + 1) = (slot_shift um hm v : Int) - um + 1 := by
    apply wrap32_of_is_s32
    unfold is_s32
    constructor <;> omega
  have w2 : wrap32 (((slot_shift um hm v : Int) - um + 1) * 2 ^ hm) =
      ((slot_shift um hm v : Int) - um + 1) * 2 ^ hm := by
    apply wrap32_of_is_s32
    unfold is_s32
    constructor
    · linarith
    · linarith
  have w3 : wrap32 (v / 2 ^ slot_shift um hm v - 2 ^ hm) = v / 2 ^ slot_shift um hm v - 2 ^ hm := by
    apply wrap32_of_is_s32
    unfold is_s32
    constructor
    · linarith
    · linarith
  rw [w1, w2, w3]
  have e : ((slot_shift um hm v : Int) - um + 1) * 2 ^ hm + (v / 2 ^ slot_shift um hm v - 2 ^ hm) =
      ((slot_shift um hm v : Int) - um) * 2 ^ hm + v / 2 ^ slot_shift um hm v := by ring
  rw [e]
  apply wrap32_of_is_s32
  unfold is_s32
  constructor
  · linarith
  · linarith

theorem lowest_equivalent_value_eq (h : hdr_histogram) (um hm bc : Nat) (hl : layout h um hm bc)
    (v : Int) (hv0 : 0 ≤ v) (hv : v < 2 ^ 63) :
    lowest_equivalent_value h v = v / 2 ^ slot_shift um hm v * 2 ^ slot_shift um hm v := by
  have hmag := layout_magnitude h um hm bc hl
  obtain ⟨g1, g2, -, -⟩ := slot_shift_spec um hm v hv0 hv hmag
  obtain ⟨q0, q1, -⟩ := sub_bucket_bounds um hm v hv0 hv hmag
  unfold lowest_equivalent_value
  simp only [get_sub_bucket_index_eq h um hm bc hl v hv0 hv]
  rw [get_bucket_index_eq h um hm bc hl v hv0 hv, hl.unit_magnitude_eq]
  unfold value_from_index shl64
  have e1 : ((slot_shift um hm v : Int) - um + um) = (slot_shift um hm v : Int) := by ring
  rw [e1, wrap32_nat (show slot_shift um hm v < 2 ^ 31 by omega), Int.toNat_ofNat]
  apply wrap64_of_is_s64
  have hpos := two_pow_pos (slot_shift um hm v)
  have hle : v / 2 ^ slot_shift um hm v * 2 ^ slot_shift um hm v ≤ v :=
    Int.ediv_mul_le v hpos.ne'
  have hnn : 0 ≤ v / 2 ^ slot_shift um hm v * 2 ^ slot_shift um hm v := mul_nonneg q0 hpos.le
  unfold is_s64
  constructor
  · linarith
  · linarith

theorem hdr_size_of_equivalent_value_range_eq (h : hdr_histogram) (um hm bc : Nat)
    (hl : layout h um hm bc) (v : Int) (hv0 : 0 ≤ v) (hv : v < 2 ^ 63) :
    hdr_size_of_equivalent_value_range h v = 2 ^ slot_shift um hm v := by
  have hmag := layout_magnitude h um hm bc hl
  obtain ⟨g1, g2, -, -⟩ := slot_shift_spec um hm v hv0 hv hmag
  obtain ⟨q0, q1, -⟩ := sub_bucket_bounds um hm v hv0 hv hmag
  unfold hdr_size_of_equivalent_value_range
  simp only [get_sub_bucket_index_eq h um hm bc hl v hv0 hv]
  rw [get_bucket_index_eq h um hm bc hl v hv0 hv, hl.unit_magnitude_eq, hl.sub_bucket_count_eq]
  rw [if_neg (not_le.2 q1)]
  have e1 : ((um : Int) + ((slot_shift um hm v : Int) - um)) = (slot_shift um hm v : Int) := by ring
  rw [e1, wrap32_nat (show slot_shift um hm v < 2 ^ 31 by omega)]
  have := shl64_two_pow (show 0 + slot_shift um hm v ≤ 62 by omega)
  simpa using this


/-! ## Histograms of accepted configurations -/

theorem layout_of_accepted (log2_f64 : Int → ℚ) (hlog : ∀ x : Int, 1 ≤ x → 0 ≤ log2_f64 x)
    (lowest highest sf : Int) (cfg : hdr_histogram_bucket_config) (hhi : highest < 2 ^ 63)
    (hcfg : hdr_calculate_bucket_config log2_f64 lowest highest sf = .ok cfg)
    (h : hdr_histogram) (hh : of_config cfg h) :
    ∃ um hm bc : Nat, layout h um hm bc ∧ highest < 2 ^ (um + hm + bc) ∧
      (1 < bc → (2 : Int) ^ (um + hm + bc - 1) ≤ highest) ∧
      1 ≤ sf ∧ sf ≤ 5 ∧ (10 : Int) ^ sf.toNat ≤ 2 ^ hm ∧ (2 : Int) ^ hm < 2 * 10 ^ sf.toNat ∧
      h.highest_trackable_value = highest ∧ h.significant_figures = sf ∧
      h.lowest_discernible_value = lowest := by
  obtain ⟨um, hm, bc, hc, -, -, hsf1, hsf5, hm17, humhm, hbc, hmag, hlt, hmin, h10, h10'⟩ :=
    config_fields log2_f64 hlog lowest highest sf cfg hhi hcfg
  subst hc
  obtain ⟨c1, c2, c3, c4, c5, c6, c7, c8, c9, c10, c11⟩ := hh
  simp only at c1 c2 c3 c4 c5 c6 c7 c8 c9 c10 c11
  rw [wrap32_nat (show um < 2 ^ 31 by omega)] at c3
  have hsf : wrap32 sf = sf := by
    apply wrap32_of_is_s32
    unfold is_s32
    constructor <;> omega
  rw [hsf] at c4
  exact ⟨um, hm, bc, ⟨c3, c5, c8, c6, c7, c10, c11, c9, hm17, hbc, hmag⟩, hlt, hmin, hsf1, hsf5,
    h10, h10', c2, c4, c1⟩

theorem of_config_fresh (cfg : hdr_histogram_bucket_config) : of_config cfg (fresh cfg) := by
  unfold of_config fresh hdr_init_preallocated
  simp

theorem of_config_init_preallocated (cfg : hdr_histogram_bucket_config) (h : hdr_histogram) :
    of_config cfg (hdr_init_preallocated h cfg) := by
  unfold of_config hdr_init_preallocated
  simp

theorem of_config_reset (cfg : hdr_histogram_bucket_config) (h : hdr_histogram)
    (hh : of_config cfg h) : of_config cfg (hdr_reset h) := hh

theorem hdr_record_values_of_rejected (h : hdr_histogram) (value count : Int)
    (hr : value < 0 ∨ counts_index_for h value < 0 ∨ h.counts_len ≤ counts_index_for h value) :
    hdr_record_values h value count = (false, h) := by
  unfold hdr_record_values
  by_cases h1 : value < 0
  · simp only [if_pos h1]
  · have h2 : counts_index_for h value < 0 ∨ h.counts_len ≤ counts_index_for h value := by
      rcases hr with hr | hr
      · exact absurd hr h1
      · exact hr
    simp only [if_neg h1, if_pos h2]

theorem hdr_record_values_of_accepted (h : hdr_histogram) (value count : Int)
    (h0 : 0 ≤ value) (hi0 : 0 ≤ counts_index_for h value)
    (hi1 : counts_index_for h value < h.counts_len) :
    hdr_record_values h value count =
      (true, update_min_max (counts_inc_normalised h (counts_index_for h value) count) value) := by
  unfold hdr_record_values
  have h1 : ¬ value < 0 := not_lt.2 h0
  have h2 : ¬ (counts_index_for h value < 0 ∨ h.counts_len ≤ counts_index_for h value) := by
    rintro (hc | hc)
    · exact absurd hi0 (not_le.2 hc)
    · exact absurd hi1 (not_lt.2 hc)
  simp only [if_neg h1, if_neg h2]

theorem hdr_record_values_cases (h : hdr_histogram) (value count : Int) :
    hdr_record_values h value count = (false, h) ∨
      (0 ≤ value ∧ 0 ≤ counts_index_for h value ∧ counts_index_for h value < h.counts_len ∧
        hdr_record_values h value count =
          (true,
            update_min_max (counts_inc_normalised h (counts_index_for h value) count) value)) := by
  by_cases h1 : value < 0
  · exact Or.inl (hdr_record_values_of_rejected h value count (Or.inl h1))
  by_cases h2 : counts_index_for h value < 0
  · exact Or.inl (hdr_record_values_of_rejected h value count (Or.inr (Or.inl h2)))
  by_cases h3 : h.counts_len ≤ counts_index_for h value
  · exact Or.inl (hdr_record_values_of_rejected h value count (Or.inr (Or.inr h3)))
  · exact Or.inr ⟨not_lt.1 h1, not_lt.1 h2, not_le.1 h3,
      hdr_record_values_of_accepted h value count (not_lt.1 h1) (not_lt.1 h2) (not_le.1 h3)⟩

theorem of_config_record_values (cfg : hdr_histogram_bucket_config) (h : hdr_histogram)
    (hh : of_config cfg h) (value count : Int) :
    of_config cfg (hdr_record_values h value count).2 := by
  rcases hdr_record_values_cases h value count with hr | ⟨-, -, -, hr⟩
  · rw [hr]; exact hh
  · rw [hr]; exact hh

/-- The values a histogram can record: a non-negative value is given a slot of the counter
array exactly when it is below `2 ^ (um + hm + bc)`. -/
theorem counts_index_for_lt_iff (h : hdr_histogram) (um hm bc : Nat) (hl : layout h um hm bc)
    (v : Int) (hv0 : 0 ≤ v) (hv : v < 2 ^ 63) :
    0 ≤ counts_index_for h v ∧
      (counts_index_for h v < h.counts_len ↔ v < 2 ^ (um + hm + bc)) := by
  have hmag := layout_magnitude h um hm bc hl
  obtain ⟨g1, g2, g3, g4⟩ := slot_shift_spec um hm v hv0 hv hmag
  obtain ⟨q0, q1, q2⟩ := sub_bucket_bounds um hm v hv0 hv hmag
  rw [counts_index_for_eq h um hm bc hl v hv0 hv, hl.counts_len_eq]
  have hpos := two_pow_pos hm
  have hsucc : (2 : Int) ^ (hm + 1) = 2 * 2 ^ hm := by rw [pow_succ]; ring
  have hd0 : (0 : Int) ≤ (slot_shift um hm v : Int) - um := by omega
  refine ⟨add_nonneg (mul_nonneg hd0 hpos.le) q0, ?_⟩
  constructor
  · intro hlt
    by_contra hge
    have hge' : (2 : Int) ^ (um + hm + bc) ≤ v := not_lt.1 hge
    have h1 : (2 : Int) ^ (um + hm + bc) < 2 ^ (slot_shift um hm v + hm + 1) :=
      lt_of_le_of_lt hge' g3
    have h2 : um + hm + bc < slot_shift um hm v + hm + 1 :=
      (pow_lt_pow_iff_right₀ (by norm_num : (1 : Int) < 2)).1 h1
    have h3 := q2 (by have := hl.bc_pos; omega)
    have h4 : ((bc : Int)) ≤ (slot_shift um hm v : Int) - um := by omega
    have h5 : (bc : Int) * 2 ^ hm ≤ ((slot_shift um hm v : Int) - um) * 2 ^ hm :=
      mul_le_mul_of_nonneg_right h4 hpos.le
    have h6 : ((bc : Int) + 1) * 2 ^ hm = (bc : Int) * 2 ^ hm + 2 ^ hm := by ring
    linarith
  · intro hlt
    have h2 : slot_shift um hm v + 1 ≤ um + bc := by
      by_contra hcon
      have h3 := g4 (by have := hl.bc_pos; omega)
      have h4 : (2 : Int) ^ (um + hm + bc) ≤ 2 ^ (slot_shift um hm v + hm) :=
        two_pow_le_two_pow (by omega)
      linarith
    have h4 : (slot_shift um hm v : Int) - um ≤ (bc : Int) - 1 := by omega
    have h5 : ((slot_shift um hm v : Int) - um) * 2 ^ hm ≤ ((bc : Int) - 1) * 2 ^ hm :=
      mul_le_mul_of_nonneg_right h4 hpos.le
    have h6 : ((bc : Int) + 1) * 2 ^ hm = ((bc : Int) - 1) * 2 ^ hm + 2 * 2 ^ hm := by ring
    linarith


theorem log2_floor_nonneg (x : Int) (hx : 1 ≤ x) : 0 ≤ log2_floor x := by
  unfold log2_floor
  have h1 : 1 ≤ bit_length x.toNat := by
    by_contra hlt
    have h0 : bit_length x.toNat ≤ 0 := by omega
    by_cases hbig : x.toNat < 2 ^ 64
    · have := (bit_length_le_iff hbig 0).1 h0
      omega
    · unfold bit_length bit_length_aux at h0
      have hne : x.toNat ≠ 0 := by omega
      simp [hne] at h0
  have h2 : (0 : Int) ≤ (bit_length x.toNat : Int) - 1 := by omega
  exact_mod_cast h2

theorem example_config_accepted :
    hdr_calculate_bucket_config log2_floor 1 3600000000 3 = .ok example_config := by
  rfl

theorem small_config_accepted :
    hdr_calculate_bucket_config log2_floor 1 2000 1 = .ok small_config := by
  rfl

/-- The slot of `v` holds exactly the values from `lowest_equivalent_value` on, `size` many. -/
theorem value_in_slot (h : hdr_histogram) (um hm bc : Nat) (hl : layout h um hm bc)
    (v : Int) (hv0 : 0 ≤ v) (hv : v < 2 ^ 63) :
    0 ≤ lowest_equivalent_value h v ∧ lowest_equivalent_value h v ≤ v ∧
      v < lowest_equivalent_value h v + hdr_size_of_equivalent_value_range h v ∧
      lowest_equivalent_value h v + hdr_size_of_equivalent_value_range h v ≤
        2 ^ (slot_shift um hm v + hm + 1) ∧
      (um < slot_shift um hm v →
        (2 : Int) ^ (slot_shift um hm v + hm) ≤ lowest_equivalent_value h v) := by
  have hmag := layout_magnitude h um hm bc hl
  obtain ⟨q0, q1, q2⟩ := sub_bucket_bounds um hm v hv0 hv hmag
  rw [lowest_equivalent_value_eq h um hm bc hl v hv0 hv,
    hdr_size_of_equivalent_value_range_eq h um hm bc hl v hv0 hv]
  have hpos := two_pow_pos (slot_shift um hm v)
  refine ⟨mul_nonneg q0 hpos.le, Int.ediv_mul_le v hpos.ne', ?_, ?_, ?_⟩
  · have := Int.lt_ediv_add_one_mul_self v hpos
    linarith
  · have h1 : v / 2 ^ slot_shift um hm v + 1 ≤ 2 ^ (hm + 1) := by omega
    have h2 : (v / 2 ^ slot_shift um hm v + 1) * 2 ^ slot_shift um hm v ≤
        2 ^ (hm + 1) * 2 ^ slot_shift um hm v := mul_le_mul_of_nonneg_right h1 hpos.le
    rw [← pow_add, show hm + 1 + slot_shift um hm v = slot_shift um hm v + hm + 1 by omega] at h2
    linarith
  · intro hlt
    have h1 := q2 hlt
    have h2 : (2 : Int) ^ hm * 2 ^ slot_shift um hm v ≤
        v / 2 ^ slot_shift um hm v * 2 ^ slot_shift um hm v :=
      mul_le_mul_of_nonneg_right h1 hpos.le
    rw [← pow_add, show hm + slot_shift um hm v = slot_shift um hm v + hm by omega] at h2
    exact h2

theorem highest_equivalent_value_eq (h : hdr_histogram) (um hm bc : Nat) (hl : layout h um hm bc)
    (v : Int) (hv0 : 0 ≤ v) (hv : v < 2 ^ 63) :
    highest_equivalent_value h v =
      lowest_equivalent_value h v + hdr_size_of_equivalent_value_range h v - 1 := by
  have hmag := layout_magnitude h um hm bc hl
  obtain ⟨g1, g2, -, -⟩ := slot_shift_spec um hm v hv0 hv hmag
  obtain ⟨s0, s1, s2, s3, -⟩ := value_in_slot h um hm bc hl v hv0 hv
  have h63 : (2 : Int) ^ (slot_shift um hm v + hm + 1) ≤ 2 ^ 63 := two_pow_le_two_pow (by omega)
  unfold highest_equivalent_value hdr_next_non_equivalent_value
  have e : ∀ a : Int, wrap64 (wrap64 a - 1) = wrap64 (a - 1) := by
    intro a; unfold wrap64; omega
  rw [e]
  apply wrap64_of_is_s64
  unfold is_s64
  constructor
  · linarith
  · linarith

/-- Every value of a slot is sent to that slot. -/
theorem slot_shift_of_mem_slot (h : hdr_histogram) (um hm bc : Nat) (hl : layout h um hm bc)
    (v w : Int) (hv0 : 0 ≤ v) (hv : v < 2 ^ 63) (hw0 : lowest_equivalent_value h v ≤ w)
    (hw1 : w < lowest_equivalent_value h v + hdr_size_of_equivalent_value_range h v) :
    0 ≤ w ∧ w < 2 ^ 63 ∧ slot_shift um hm w = slot_shift um hm v ∧
      w / 2 ^ slot_shift um hm v = v / 2 ^ slot_shift um hm v := by
  have hmag := layout_magnitude h um hm bc hl
  obtain ⟨g1, g2, -, -⟩ := slot_shift_spec um hm v hv0 hv hmag
  obtain ⟨s0, s1, s2, s3, s4⟩ := value_in_slot h um hm bc hl v hv0 hv
  have h63 : (2 : Int) ^ (slot_shift um hm v + hm + 1) ≤ 2 ^ 63 := two_pow_le_two_pow (by omega)
  have hw0' : 0 ≤ w := le_trans s0 hw0
  have hw63 : w < 2 ^ 63 := by linarith
  have hs : slot_shift um hm w = slot_shift um hm v :=
    slot_shift_unique um hm w hw0' hw63 hmag (slot_shift um hm v) g1 (by linarith)
      (fun hlt => le_trans (s4 hlt) hw0)
  refine ⟨hw0', hw63, hs, ?_⟩
  have hpos := two_pow_pos (slot_shift um hm v)
  rw [lowest_equivalent_value_eq h um hm bc hl v hv0 hv] at hw0 hw1
  rw [hdr_size_of_equivalent_value_range_eq h um hm bc hl v hv0 hv] at hw1
  apply le_antisymm
  · have : w / 2 ^ slot_shift um hm v < v / 2 ^ slot_shift um hm v + 1 := by
      apply Int.ediv_lt_of_lt_mul hpos
      linarith
    omega
  · exact Int.le_ediv_of_mul_le hpos hw0


/-! ## Claims on the index mapping -/

/-- C1. Relative error bound: for every configuration accepted by
`hdr_calculate_bucket_config` and every value `v` with `0 ≤ v ≤ highest_trackable_value`, the
size `s` of the slot holding `v` is `2 ^ unit_magnitude`, or `s * 10 ^ significant_figures ≤ v`. -/
theorem C1_relative_error_bound (log2_f64 : Int → ℚ) (lowest highest sf : Int)
    (cfg : hdr_histogram_bucket_config) (h : hdr_histogram) (v : Int)
    (hlog : ∀ x : Int, 1 ≤ x → 0 ≤ log2_f64 x) (hhi : is_s64 highest)
    (hcfg : hdr_calculate_bucket_config log2_f64 lowest highest sf = .ok cfg)
    (hh : of_config cfg h) (hv0 : 0 ≤ v) (hv : v ≤ highest) :
    hdr_size_of_equivalent_value_range h v = 2 ^ h.unit_magnitude.toNat ∨
      hdr_size_of_equivalent_value_range h v * 10 ^ sf.toNat ≤ v := by
  obtain ⟨um, hm, bc, hl, -, -, -, -, h10, -, -, -, -⟩ :=
    layout_of_accepted log2_f64 hlog lowest highest sf cfg hhi.2 hcfg h hh
  have hv63 : v < 2 ^ 63 := lt_of_le_of_lt hv hhi.2
  have hmag := layout_magnitude h um hm bc hl
  obtain ⟨g1, -, -, g4⟩ := slot_shift_spec um hm v hv0 hv63 hmag
  rw [hdr_size_of_equivalent_value_range_eq h um hm bc hl v hv0 hv63, hl.unit_magnitude_eq,
    Int.toNat_ofNat]
  by_cases hs : slot_shift um hm v = um
  · left; rw [hs]
  · right
    have h1 := g4 (by omega)
    have hpos := two_pow_pos (slot_shift um hm v)
    have h2 : (2 : Int) ^ slot_shift um hm v * 10 ^ sf.toNat ≤
        2 ^ slot_shift um hm v * 2 ^ hm := mul_le_mul_of_nonneg_left h10 hpos.le
    rw [← pow_add] at h2
    exact le_trans h2 h1

/-- Witness of C1 at the configuration `(1, 3600000000, 3)` and the value `1000000`. -/
theorem C1_relative_error_bound_witness :
    hdr_size_of_equivalent_value_range (fresh example_config) 1000000 =
        2 ^ (fresh example_config).unit_magnitude.toNat ∨
      hdr_size_of_equivalent_value_range (fresh example_config) 1000000 *
        10 ^ (3 : Int).toNat ≤ 1000000 :=
  C1_relative_error_bound log2_floor 1 3600000000 3 example_config (fresh example_config) 1000000
    log2_floor_nonneg (by decide) example_config_accepted (of_config_fresh example_config)
    (by decide) (by decide)

/-- C2. For every accepted configuration and every `v` in `[0, highest_trackable_value]`:
`lowest_equivalent_value(v) ≤ v ≤ highest_equivalent_value(v)`. -/
theorem C2_value_between_equivalents (log2_f64 : Int → ℚ) (lowest highest sf : Int)
    (cfg : hdr_histogram_bucket_config) (h : hdr_histogram) (v : Int)
    (hlog : ∀ x : Int, 1 ≤ x → 0 ≤ log2_f64 x) (hhi : is_s64 highest)
    (hcfg : hdr_calculate_bucket_config log2_f64 lowest highest sf = .ok cfg)
    (hh : of_config cfg h) (hv0 : 0 ≤ v) (hv : v ≤ highest) :
    lowest_equivalent_value h v ≤ v ∧ v ≤ highest_equivalent_value h v := by
  obtain ⟨um, hm, bc, hl, -⟩ :=
    layout_of_accepted log2_f64 hlog lowest highest sf cfg hhi.2 hcfg h hh
  have hv63 : v < 2 ^ 63 := lt_of_le_of_lt hv hhi.2
  obtain ⟨-, s1, s2, -, -⟩ := value_in_slot h um hm bc hl v hv0 hv63
  rw [highest_equivalent_value_eq h um hm bc hl v hv0 hv63]
  exact ⟨s1, by linarith⟩

/-- Witness of C2 at the configuration `(1, 3600000000, 3)` and the value `3600000000`. -/
theorem C2_value_between_equivalents_witness :
    lowest_equivalent_value (fresh example_config) 3600000000 ≤ 3600000000 ∧
      3600000000 ≤ highest_equivalent_value (fresh example_config) 3600000000 :=
  C2_value_between_equivalents log2_floor 1 3600000000 3 example_config (fresh example_config)
    3600000000 log2_floor_nonneg (by decide) example_config_accepted
    (of_config_fresh example_config) (by decide) (by decide)

/-- C3. For every accepted configuration, every `v` in `[0, highest_trackable_value]` and
every `w` with `lowest_equivalent_value(v) ≤ w < lowest_equivalent_value(v) +
hdr_size_of_equivalent_value_range(v)`: `counts_index_for(w) = counts_index_for(v)`. -/
theorem C3_equivalence_range_one_slot (log2_f64 : Int → ℚ) (lowest highest sf : Int)
    (cfg : hdr_histogram_bucket_config) (h : hdr_histogram) (v w : Int)
    (hlog : ∀ x : Int, 1 ≤ x → 0 ≤ log2_f64 x) (hhi : is_s64 highest)
    (hcfg : hdr_calculate_bucket_config log2_f64 lowest highest sf = .ok cfg)
    (hh : of_config cfg h) (hv0 : 0 ≤ v) (hv : v ≤ highest)
    (hw0 : lowest_equivalent_value h v ≤ w)
    (hw1 : w < lowest_equivalent_value h v + hdr_size_of_equivalent_value_range h v) :
    counts_index_for h w = counts_index_for h v := by
  obtain ⟨um, hm, bc, hl, -⟩ :=
    layout_of_accepted log2_f64 hlog lowest highest sf cfg hhi.2 hcfg h hh
  have hv63 : v < 2 ^ 63 := lt_of_le_of_lt hv hhi.2
  obtain ⟨w0, w63, hs, hq⟩ := slot_shift_of_mem_slot h um hm bc hl v w hv0 hv63 hw0 hw1
  rw [counts_index_for_eq h um hm bc hl w w0 w63, counts_index_for_eq h um hm bc hl v hv0 hv63,
    hs, hq]

/-- Witness of C3 at the configuration `(1, 3600000000, 3)`: the values `1000000` and
`1000447` share a slot. -/
theorem C3_equivalence_range_one_slot_witness :
    counts_index_for (fresh example_config) 1000447 =
      counts_index_for (fresh example_config) 1000000 :=
  C3_equivalence_range_one_slot log2_floor 1 3600000000 3 example_config (fresh example_config)
    1000000 1000447 log2_floor_nonneg (by decide) example_config_accepted
    (of_config_fresh example_config) (by decide) (by decide) (by decide!) (by decide!)

/-- C4. For every accepted configuration and every value `v` with
`0 ≤ v ≤ highest_trackable_value`, `counts_index_for(v)` lies in `[0, counts_len)`, and
`hdr_record_values(h, v, count)` on a histogram of that configuration returns true. -/
theorem C4_trackable_values_recorded (log2_f64 : Int → ℚ) (lowest highest sf : Int)
    (cfg : hdr_histogram_bucket_config) (h : hdr_histogram) (v count : Int)
    (hlog : ∀ x : Int, 1 ≤ x → 0 ≤ log2_f64 x) (hhi : is_s64 highest)
    (hcfg : hdr_calculate_bucket_config log2_f64 lowest highest sf = .ok cfg)
    (hh : of_config cfg h) (hv0 : 0 ≤ v) (hv : v ≤ highest) :
    0 ≤ counts_index_for h v ∧ counts_index_for h v < h.counts_len ∧
      (hdr_record_values h v count).1 = true := by
  obtain ⟨um, hm, bc, hl, hlt, -⟩ :=
    layout_of_accepted log2_f64 hlog lowest highest sf cfg hhi.2 hcfg h hh
  have hv63 : v < 2 ^ 63 := lt_of_le_of_lt hv hhi.2
  obtain ⟨i0, i1⟩ := counts_index_for_lt_iff h um hm bc hl v hv0 hv63
  have i2 := i1.2 (lt_of_le_of_lt hv hlt)
  refine ⟨i0, i2, ?_⟩
  rw [hdr_record_values_of_accepted h v count hv0 i0 i2]

/-- Witness of C4 at the configuration `(1, 3600000000, 3)` and the value `3600000000`. -/
theorem C4_trackable_values_recorded_witness :
    0 ≤ counts_index_for (fresh example_config) 3600000000 ∧
      counts_index_for (fresh example_config) 3600000000 < (fresh example_config).counts_len ∧
      (hdr_record_values (fresh example_config) 3600000000 7).1 = true :=
  C4_trackable_values_recorded log2_floor 1 3600000000 3 example_config (fresh example_config)
    3600000000 7 log2_floor_nonneg (by decide) example_config_accepted
    (of_config_fresh example_config) (by decide) (by decide)


/-! ## Claims on recording -/

/-- C5. For every histogram `h`, value and count: if `value < 0` or `counts_index_for(value)`
is outside `[0, counts_len)`, `hdr_record_values` returns false and leaves the histogram as
it is: every counter slot, `total_count`, `min_value` and `max_value` are unchanged. -/
theorem C5_rejected_record_changes_nothing (h : hdr_histogram) (value count : Int)
    (hr : value < 0 ∨ counts_index_for h value < 0 ∨ h.counts_len ≤ counts_index_for h value) :
    (hdr_record_values h value count).1 = false ∧ (hdr_record_values h value count).2 = h ∧
      (∀ j : Int, (hdr_record_values h value count).2.counts j = h.counts j) ∧
      (hdr_record_values h value count).2.total_count = h.total_count ∧
      (hdr_record_values h value count).2.min_value = h.min_value ∧
      (hdr_record_values h value count).2.max_value = h.max_value := by
  rw [hdr_record_values_of_rejected h value count hr]
  exact ⟨rfl, rfl, fun _ => rfl, rfl, rfl, rfl⟩

/-- Witness of C5 at the configuration `(1, 3600000000, 3)`: the value `2 ^ 33` has the index
`24576`, beyond the `23552` counters. -/
theorem C5_rejected_record_changes_nothing_witness :
    (hdr_record_values (fresh example_config) 8589934592 1).1 = false ∧
      (hdr_record_values (fresh example_config) 8589934592 1).2 = fresh example_config ∧
      (∀ j : Int, (hdr_record_values (fresh example_config) 8589934592 1).2.counts j =
        (fresh example_config).counts j) ∧
      (hdr_record_values (fresh example_config) 8589934592 1).2.total_count =
        (fresh example_config).total_count ∧
      (hdr_record_values (fresh example_config) 8589934592 1).2.min_value =
        (fresh example_config).min_value ∧
      (hdr_record_values (fresh example_config) 8589934592 1).2.max_value =
        (fresh example_config).max_value :=
  C5_rejected_record_changes_nothing (fresh example_config) 8589934592 1
    (Or.inr (Or.inr (by decide!)))

theorem normalize_index_of_offset_zero (h : hdr_histogram) (index : Int)
    (hoff : h.normalizing_index_offset = 0) : normalize_index h index = index := by
  unfold normalize_index
  rw [if_pos hoff]

/-- The fields of the histogram after an accepted recording. -/
theorem accepted_record_fields (h : hdr_histogram) (value count : Int)
    (hoff : h.normalizing_index_offset = 0) :
    (update_min_max (counts_inc_normalised h (counts_index_for h value) count) value).counts =
        Function.update h.counts (counts_index_for h value)
          (wrap64 (h.counts (counts_index_for h value) + count)) ∧
      (update_min_max (counts_inc_normalised h (counts_index_for h value) count)
        value).total_count = wrap64 (h.total_count + count) ∧
      (update_min_max (counts_inc_normalised h (counts_index_for h value) count)
        value).max_value = max h.max_value value ∧
      (update_min_max (counts_inc_normalised h (counts_index_for h value) count)
        value).min_value = (if value = 0 then h.min_value else min h.min_value value) ∧
      (update_min_max (counts_inc_normalised h (counts_index_for h value) count)
        value).counts_len = h.counts_len ∧
      (update_min_max (counts_inc_normalised h (counts_index_for h value) count)
        value).normalizing_index_offset = 0 ∧
      ∀ w : Int, counts_index_for
        (update_min_max (counts_inc_normalised h (counts_index_for h value) count) value) w =
          counts_index_for h w := by
  refine ⟨?_, rfl, ?_, ?_, rfl, hoff, fun _ => rfl⟩
  · unfold update_min_max counts_inc_normalised
    simp only [normalize_index_of_offset_zero h _ hoff]
  · unfold update_min_max counts_inc_normalised
    simp only
    by_cases hgt : value > h.max_value
    · rw [if_pos hgt, max_eq_right (le_of_lt hgt)]
    · rw [if_neg hgt, max_eq_left (not_lt.1 hgt)]
  · unfold update_min_max counts_inc_normalised
    simp only
    by_cases h0 : value = 0
    · rw [if_pos h0, if_neg (fun hc => hc.2 h0)]
    · rw [if_neg h0]
      by_cases hlt : value < h.min_value
      · rw [if_pos ⟨hlt, h0⟩, min_eq_right (le_of_lt hlt)]
      · rw [if_neg (fun hc => hlt hc.1), min_eq_left (not_lt.1 hlt)]

/-- C6. For every histogram `h` (with the index offset `0` that the code gives it),
`value ≥ 0` whose index `i = counts_index_for(value)` is inside `[0, counts_len)`, and every
count: `hdr_record_values` returns true, increases `counts[i]` by `count` (the sum is the
64-bit one, and the exact one whenever that fits), leaves every other slot unchanged,
increases `total_count` by `count` in the same way, sets `max_value` to
`max(max_value, value)`, sets `min_value` to `min(min_value, value)` when `value ≠ 0` and
leaves `min_value` unchanged when `value = 0`. -/
theorem C6_accepted_record_effect (h : hdr_histogram) (value count : Int)
    (hoff : h.normalizing_index_offset = 0) (hv0 : 0 ≤ value)
    (hi0 : 0 ≤ counts_index_for h value) (hi1 : counts_index_for h value < h.counts_len) :
    (hdr_record_values h value count).1 = true ∧
      (hdr_record_values h value count).2.counts (counts_index_for h value) =
        wrap64 (h.counts (counts_index_for h value) + count) ∧
      (is_s64 (h.counts (counts_index_for h value) + count) →
        (hdr_record_values h value count).2.counts (counts_index_for h value) =
          h.counts (counts_index_for h value) + count) ∧
      (∀ j : Int, j ≠ counts_index_for h value →
        (hdr_record_values h value count).2.counts j = h.counts j) ∧
      (hdr_record_values h value count).2.total_count = wrap64 (h.total_count + count) ∧
      (is_s64 (h.total_count + count) →
        (hdr_record_values h value count).2.total_count = h.total_count + count) ∧
      (hdr_record_values h value count).2.max_value = max h.max_value value ∧
      (value ≠ 0 → (hdr_record_values h value count).2.min_value = min h.min_value value) ∧
      (value = 0 → (hdr_record_values h value count).2.min_value = h.min_value) := by
  rw [hdr_record_values_of_accepted h value count hv0 hi0 hi1]
  obtain ⟨f1, f2, f3, f4, -, -, -⟩ := accepted_record_fields h value count hoff
  refine ⟨rfl, ?_, ?_, ?_, f2, ?_, f3, ?_, ?_⟩
  · show (update_min_max _ value).counts _ = _
    rw [f1, Function.update_same]
  · intro hs
    show (update_min_max _ value).counts _ = _
    rw [f1, Function.update_same, wrap64_of_is_s64 hs]
  · intro j hj
    show (update_min_max _ value).counts _ = _
    rw [f1, Function.update_noteq hj]
  · intro hs
    show (update_min_max _ value).total_count = _
    rw [f2, wrap64_of_is_s64 hs]
  · intro h0
    show (update_min_max _ value).min_value = _
    rw [f4, if_neg h0]
  · intro h0
    show (update_min_max _ value).min_value = _
    rw [f4, if_pos h0]

/-- Witness of C6 at the configuration `(1, 3600000000, 3)`, the value `100` and the
count `7`. -/
theorem C6_accepted_record_effect_witness :
    (hdr_record_values (fresh example_config) 100 7).1 = true ∧
      (hdr_record_values (fresh example_config) 100 7).2.counts
          (counts_index_for (fresh example_config) 100) =
        wrap64 ((fresh example_config).counts (counts_index_for (fresh example_config) 100) + 7) ∧
      (is_s64 ((fresh example_config).counts (counts_index_for (fresh example_config) 100) + 7) →
        (hdr_record_values (fresh example_config) 100 7).2.counts
            (counts_index_for (fresh example_config) 100) =
          (fresh example_config).counts (counts_index_for (fresh example_config) 100) + 7) ∧
      (∀ j : Int, j ≠ counts_index_for (fresh example_config) 100 →
        (hdr_record_values (fresh example_config) 100 7).2.counts j =
          (fresh example_config).counts j) ∧
      (hdr_record_values (fresh example_config) 100 7).2.total_count =
        wrap64 ((fresh example_config).total_count + 7) ∧
      (is_s64 ((fresh example_config).total_count + 7) →
        (hdr_record_values (fresh example_config) 100 7).2.total_count =
          (fresh example_config).total_count + 7) ∧
      (hdr_record_values (fresh example_config) 100 7).2.max_value =
        max (fresh example_config).max_value 100 ∧
      ((100 : Int) ≠ 0 → (hdr_record_values (fresh example_config) 100 7).2.min_value =
        min (fresh example_config).min_value 100) ∧
      ((100 : Int) = 0 → (hdr_record_values (fresh example_config) 100 7).2.min_value =
        (fresh example_config).min_value) :=
  C6_accepted_record_effect (fresh example_config) 100 7 rfl (by decide) (by decide!)
    (by decide!)


/-- A non-negative value is recorded exactly when it is below `2 ^ (um + hm + bc)`. -/
theorem record_accepted_iff (h : hdr_histogram) (um hm bc : Nat) (hl : layout h um hm bc)
    (v count : Int) (hv0 : 0 ≤ v) (hv : v < 2 ^ 63) :
    (hdr_record_values h v count).1 = true ↔ v < 2 ^ (um + hm + bc) := by
  obtain ⟨i0, i1⟩ := counts_index_for_lt_iff h um hm bc hl v hv0 hv
  constructor
  · intro hr
    rcases hdr_record_values_cases h v count with hc | ⟨-, -, hlt, -⟩
    · rw [hc] at hr; cases hr
    · exact i1.1 hlt
  · intro hlt
    rw [hdr_record_values_of_accepted h v count hv0 i0 (i1.2 hlt)]

/-- The smallest value beyond the counter array, in the terms of the source:
`sub_bucket_count << (unit_magnitude + bucket_count - 1)`. -/
theorem smallest_untrackable_eq (h : hdr_histogram) (um hm bc : Nat) (hl : layout h um hm bc) :
    h.sub_bucket_count * 2 ^ (h.unit_magnitude + h.bucket_count - 1).toNat =
      2 ^ (um + hm + bc) := by
  have hbc := hl.bc_pos
  rw [hl.sub_bucket_count_eq, hl.unit_magnitude_eq, hl.bucket_count_eq]
  have e : ((um : Int) + bc - 1).toNat = um + bc - 1 := by omega
  rw [e, ← pow_add]
  congr 1
  omega

/-- The claim C7 as the specification states it fails: in the configuration
`(1, 3600000000, 3)` the value `highest_trackable_value + 1 = 3600000001` has the index
`23220`, inside the `23552` counters, and is recorded. -/
theorem C7_counterexample :
    hdr_calculate_bucket_config log2_floor 1 3600000000 3 = .ok example_config ∧
      of_config example_config (fresh example_config) ∧
      counts_index_for (fresh example_config) (3600000000 + 1) = 23220 ∧
      (fresh example_config).counts_len = 23552 ∧
      (hdr_record_value (fresh example_config) (3600000000 + 1)).1 = true ∧
      (fresh example_config).total_count = 0 ∧
      (hdr_record_value (fresh example_config) (3600000000 + 1)).2.total_count = 1 :=
  ⟨example_config_accepted, of_config_fresh example_config, by decide!, by decide!, by decide!,
    by decide!, by decide!⟩

/-- C7, amended. For every accepted configuration and histogram of that configuration,
recording the value `highest_trackable_value + 1` (a 64-bit value) returns false exactly when
that value is negative or not below `sub_bucket_count << (unit_magnitude + bucket_count - 1)`,
the first value beyond the counter array; when it returns false the histogram, and with it
`total_count`, is unchanged. -/
theorem C7_record_above_highest (log2_f64 : Int → ℚ) (lowest highest sf : Int)
    (cfg : hdr_histogram_bucket_config) (h : hdr_histogram)
    (hlog : ∀ x : Int, 1 ≤ x → 0 ≤ log2_f64 x) (hhi : is_s64 highest)
    (hcfg : hdr_calculate_bucket_config log2_f64 lowest highest sf = .ok cfg)
    (hh : of_config cfg h) :
    ((hdr_record_value h (wrap64 (highest + 1))).1 = false ↔
        (highest + 1 < 0 ∨
          h.sub_bucket_count * 2 ^ (h.unit_magnitude + h.bucket_count - 1).toNat ≤
            highest + 1)) ∧
      ((hdr_record_value h (wrap64 (highest + 1))).1 = false →
        (hdr_record_value h (wrap64 (highest + 1))).2 = h ∧
          (hdr_record_value h (wrap64 (highest + 1))).2.total_count = h.total_count) := by
  obtain ⟨um, hm, bc, hl, hlt, -⟩ :=
    layout_of_accepted log2_f64 hlog lowest highest sf cfg hhi.2 hcfg h hh
  have hmagle := hl.magnitude_le
  have h63 : (2 : Int) ^ (um + hm + bc) ≤ 2 ^ 63 := two_pow_le_two_pow hmagle
  have hpos := two_pow_pos (um + hm + bc)
  rw [smallest_untrackable_eq h um hm bc hl]
  unfold hdr_record_value
  constructor
  · by_cases hmax : highest + 1 = 2 ^ 63
    · have hw : wrap64 (highest + 1) = -2 ^ 63 := by rw [hmax]; decide
      rw [hw, hdr_record_values_of_rejected h _ 1 (Or.inl (by norm_num))]
      have : (2 : Int) ^ (um + hm + bc) ≤ highest + 1 := by rw [hmax]; exact h63
      simp [this]
    · have hs : is_s64 (highest + 1) := by
        unfold is_s64 at hhi ⊢
        constructor <;> omega
      rw [wrap64_of_is_s64 hs]
      by_cases hneg : highest + 1 < 0
      · rw [hdr_record_values_of_rejected h _ 1 (Or.inl hneg)]
        simp [hneg]
      · have hnn : 0 ≤ highest + 1 := not_lt.1 hneg
        have hiff := record_accepted_iff h um hm bc hl (highest + 1) 1 hnn hs.2
        constructor
        · intro hf
          right
          by_contra hcon
          have := hiff.2 (not_le.1 hcon)
          rw [this] at hf
          cases hf
        · rintro (hc | hc)
          · exact absurd hc hneg
          · by_contra hne
            have htrue : (hdr_record_values h (highest + 1) 1).1 = true := by
              simpa using hne
            have := hiff.1 htrue
            linarith
  · intro hf
    rcases hdr_record_values_cases h (wrap64 (highest + 1)) 1 with hc | ⟨-, -, -, hc⟩
    · rw [hc]; exact ⟨rfl, rfl⟩
    · rw [hc] at hf; cases hf

/-- Witness of the amended C7 at the configuration `(1, 2047, 1)`, where
`highest_trackable_value + 1 = 2048` is the first value beyond the counter array. -/
theorem C7_record_above_highest_witness :
    hdr_calculate_bucket_config log2_floor 1 2047 1 = .ok tight_config ∧
      (((hdr_record_value (fresh tight_config) (wrap64 (2047 + 1))).1 = false ↔
          ((2047 : Int) + 1 < 0 ∨
            (fresh tight_config).sub_bucket_count *
                2 ^ ((fresh tight_config).unit_magnitude +
                  (fresh tight_config).bucket_count - 1).toNat ≤
              2047 + 1)) ∧
        ((hdr_record_value (fresh tight_config) (wrap64 (2047 + 1))).1 = false →
          (hdr_record_value (fresh tight_config) (wrap64 (2047 + 1))).2 = fresh tight_config ∧
            (hdr_record_value (fresh tight_config) (wrap64 (2047 + 1))).2.total_count =
              (fresh tight_config).total_count)) :=
  ⟨by rfl,
    C7_record_above_highest log2_floor 1 2047 1 tight_config (fresh tight_config)
      log2_floor_nonneg (by decide) (by rfl) (of_config_fresh tight_config)⟩


/-- Recording one sample into a histogram whose slot for the value and whose total are
zero. -/
theorem record_one_into_empty (h : hdr_histogram) (um hm bc : Nat) (hl : layout h um hm bc)
    (v : Int) (hv0 : 0 ≤ v) (hv : v < 2 ^ (um + hm + bc))
    (hslot : h.counts (counts_index_for h v) = 0) (htot : h.total_count = 0) :
    (hdr_record_value h v).1 = true ∧ hdr_count_at_value (hdr_record_value h v).2 v = 1 ∧
      (hdr_record_value h v).2.total_count = 1 := by
  have h63 : (2 : Int) ^ (um + hm + bc) ≤ 2 ^ 63 := two_pow_le_two_pow hl.magnitude_le
  have hv63 : v < 2 ^ 63 := lt_of_lt_of_le hv h63
  obtain ⟨i0, i1⟩ := counts_index_for_lt_iff h um hm bc hl v hv0 hv63
  unfold hdr_record_value
  rw [hdr_record_values_of_accepted h v 1 hv0 i0 (i1.2 hv)]
  obtain ⟨f1, f2, -, -, -, f6, f7⟩ := accepted_record_fields h v 1 hl.offset_eq
  refine ⟨rfl, ?_, ?_⟩
  · unfold hdr_count_at_value counts_get_normalised counts_get_direct
    show (update_min_max _ v).counts (normalize_index (update_min_max _ v)
      (counts_index_for (update_min_max _ v) v)) = 1
    rw [normalize_index_of_offset_zero _ _ f6, f7, f1, Function.update_same, hslot]
    decide
  · show (update_min_max _ v).total_count = 1
    rw [f2, htot]
    decide

/-- C8. For every accepted configuration and every `v` in `[0, highest_trackable_value]`:
after `hdr_reset` of a histogram of that configuration, and likewise on a freshly initialised
one, `hdr_record_value(h, v)` returns true and then `hdr_count_at_value(h, v) = 1` and
`total_count = 1`. -/
theorem C8_single_record_counts_one (log2_f64 : Int → ℚ) (lowest highest sf : Int)
    (cfg : hdr_histogram_bucket_config) (h : hdr_histogram) (v : Int)
    (hlog : ∀ x : Int, 1 ≤ x → 0 ≤ log2_f64 x) (hhi : is_s64 highest)
    (hcfg : hdr_calculate_bucket_config log2_f64 lowest highest sf = .ok cfg)
    (hh : of_config cfg h) (hv0 : 0 ≤ v) (hv : v ≤ highest) :
    ((hdr_record_value (hdr_reset h) v).1 = true ∧
        hdr_count_at_value (hdr_record_value (hdr_reset h) v).2 v = 1 ∧
        (hdr_record_value (hdr_reset h) v).2.total_count = 1) ∧
      ((hdr_record_value (fresh cfg) v).1 = true ∧
        hdr_count_at_value (hdr_record_value (fresh cfg) v).2 v = 1 ∧
        (hdr_record_value (fresh cfg) v).2.total_count = 1) := by
  constructor
  · obtain ⟨um, hm, bc, hl, hlt, -⟩ :=
      layout_of_accepted log2_f64 hlog lowest highest sf cfg hhi.2 hcfg (hdr_reset h)
        (of_config_reset cfg h hh)
    have hv63 : v < 2 ^ 63 := lt_of_le_of_lt hv hhi.2
    obtain ⟨i0, i1⟩ := counts_index_for_lt_iff (hdr_reset h) um hm bc hl v hv0 hv63
    have i2 := i1.2 (lt_of_le_of_lt hv hlt)
    apply record_one_into_empty (hdr_reset h) um hm bc hl v hv0 (lt_of_le_of_lt hv hlt) _ rfl
    show (if 0 ≤ counts_index_for (hdr_reset h) v ∧
      counts_index_for (hdr_reset h) v < h.counts_len then (0 : Int)
      else h.counts (counts_index_for (hdr_reset h) v)) = 0
    rw [if_pos ⟨i0, i2⟩]
  · obtain ⟨um, hm, bc, hl, hlt, -⟩ :=
      layout_of_accepted log2_f64 hlog lowest highest sf cfg hhi.2 hcfg (fresh cfg)
        (of_config_fresh cfg)
    exact record_one_into_empty (fresh cfg) um hm bc hl v hv0 (lt_of_le_of_lt hv hlt) rfl rfl

/-- Witness of C8 at the configuration `(1, 3600000000, 3)` and the value `100`. -/
theorem C8_single_record_counts_one_witness :
    ((hdr_record_value (hdr_reset (fresh example_config)) 100).1 = true ∧
        hdr_count_at_value (hdr_record_value (hdr_reset (fresh example_config)) 100).2 100 = 1 ∧
        (hdr_record_value (hdr_reset (fresh example_config)) 100).2.total_count = 1) ∧
      ((hdr_record_value (fresh example_config) 100).1 = true ∧
        hdr_count_at_value (hdr_record_value (fresh example_config) 100).2 100 = 1 ∧
        (hdr_record_value (fresh example_config) 100).2.total_count = 1) :=
  C8_single_record_counts_one log2_floor 1 3600000000 3 example_config (fresh example_config)
    100 log2_floor_nonneg (by decide) example_config_accepted (of_config_fresh example_config)
    (by decide) (by decide)


/-! ## The invariant of `total_count` -/

theorem sum_counts_update (c : Int → Int) (i x : Int) (n : Nat) :
    sum_counts (Function.update c i x) n =
      if 0 ≤ i ∧ i < n then sum_counts c n - c i + x else sum_counts c n := by
  induction n with
  | zero =>
    have : ¬ (0 ≤ i ∧ i < ((0 : Nat) : Int)) := by push_cast; omega
    rw [if_neg this]
    rfl
  | succ n ih =>
    unfold sum_counts
    rw [ih]
    by_cases hi : i = (n : Int)
    · subst hi
      have h1 : ¬ (0 ≤ (n : Int) ∧ (n : Int) < (n : Int)) := by omega
      have h2 : 0 ≤ (n : Int) ∧ (n : Int) < ((n + 1 : Nat) : Int) := by push_cast; omega
      rw [if_neg h1, if_pos h2, Function.update_same]
      ring
    · rw [Function.update_noteq (Ne.symm hi)]
      by_cases hr : 0 ≤ i ∧ i < (n : Int)
      · have h2 : 0 ≤ i ∧ i < ((n + 1 : Nat) : Int) := by push_cast; omega
        rw [if_pos hr, if_pos h2]
        ring
      · have h2 : ¬ (0 ≤ i ∧ i < ((n + 1 : Nat) : Int)) := by push_cast; omega
        rw [if_neg hr, if_neg h2]

theorem sum_counts_eq_zero (c : Int → Int) (n : Nat) (hz : ∀ k : Nat, k < n → c k = 0) :
    sum_counts c n = 0 := by
  induction n with
  | zero => rfl
  | succ n ih =>
    unfold sum_counts
    rw [ih (fun k hk => hz k (by omega)), hz n (by omega)]
    rfl

theorem sum_counts_succ_front (f : Int → Int) (n : Nat) :
    sum_counts f (n + 1) = f 0 + sum_counts (fun k => f (k + 1)) n := by
  induction n with
  | zero => simp [sum_counts]
  | succ n ih =>
    rw [sum_counts, ih, sum_counts]
    push_cast
    ring

theorem wrap64_sub_add_wrap64 (s a c : Int) :
    wrap64 (s - a + wrap64 (a + c)) = wrap64 (wrap64 s + c) := by
  unfold wrap64
  omega

theorem wrap64_wrap64 (a : Int) : wrap64 (wrap64 a) = wrap64 a := by
  unfold wrap64
  omega

theorem invariant_fresh (cfg : hdr_histogram_bucket_config) :
    total_count_invariant (fresh cfg) := by
  unfold total_count_invariant counts_sum
  rw [sum_counts_eq_zero _ _ (fun _ _ => rfl)]
  rfl

theorem invariant_reset (h : hdr_histogram) : total_count_invariant (hdr_reset h) := by
  unfold total_count_invariant counts_sum
  rw [sum_counts_eq_zero]
  · rfl
  · intro k hk
    show (if 0 ≤ (k : Int) ∧ (k : Int) < h.counts_len then (0 : Int) else h.counts k) = 0
    have hk' : (k : Int) < h.counts_len := by
      have : k < h.counts_len.toNat := hk
      omega
    rw [if_pos ⟨by omega, hk'⟩]

theorem invariant_record_values (h : hdr_histogram) (value count : Int)
    (hoff : h.normalizing_index_offset = 0) (hinv : total_count_invariant h) :
    (hdr_record_values h value count).2.normalizing_index_offset = 0 ∧
      total_count_invariant (hdr_record_values h value count).2 := by
  rcases hdr_record_values_cases h value count with hr | ⟨-, i0, i1, hr⟩
  · rw [hr]; exact ⟨hoff, hinv⟩
  · rw [hr]
    obtain ⟨f1, f2, -, -, f5, f6, -⟩ := accepted_record_fields h value count hoff
    refine ⟨f6, ?_⟩
    unfold total_count_invariant counts_sum at hinv ⊢
    rw [f1, f2, f5, sum_counts_update, if_pos ⟨i0, by omega⟩, wrap64_sub_add_wrap64, ← hinv]

theorem invariant_record_corrected_loop (count expected_interval : Int) (fuel : Nat) :
    ∀ (h : hdr_histogram) (missing_value : Int), h.normalizing_index_offset = 0 →
      total_count_invariant h →
      (record_corrected_loop count expected_interval fuel h missing_value).2.normalizing_index_offset
          = 0 ∧
        total_count_invariant
          (record_corrected_loop count expected_interval fuel h missing_value).2 := by
  induction fuel with
  | zero => intro h mv hoff hinv; exact ⟨hoff, hinv⟩
  | succ fuel ih =>
    intro h mv hoff hinv
    unfold record_corrected_loop
    by_cases hge : mv ≥ expected_interval
    · simp only [if_pos hge]
      obtain ⟨r1, r2⟩ := invariant_record_values h mv count hoff hinv
      by_cases hok : (hdr_record_values h mv count).1 = true
      · simp only [hok, Bool.not_true, Bool.false_eq_true, if_false]
        exact ih _ _ r1 r2
      · have hf : (hdr_record_values h mv count).1 = false := by simpa using hok
        simp only [hf, Bool.not_false, if_true]
        exact ⟨r1, r2⟩
    · simp only [if_neg hge]
      exact ⟨hoff, hinv⟩

theorem invariant_record_corrected_values (h : hdr_histogram)
    (value count expected_interval : Int) (hoff : h.normalizing_index_offset = 0)
    (hinv : total_count_invariant h) :
    (hdr_record_corrected_values h value count expected_interval).2.normalizing_index_offset
        = 0 ∧
      total_count_invariant (hdr_record_corrected_values h value count expected_interval).2 := by
  obtain ⟨r1, r2⟩ := invariant_record_values h value count hoff hinv
  unfold hdr_record_corrected_values
  by_cases hok : (hdr_record_values h value count).1 = true
  · simp only [hok, Bool.not_true, Bool.false_eq_true, if_false]
    by_cases hstop : expected_interval ≤ 0 ∨ value ≤ expected_interval
    · simp only [if_pos hstop]
      exact ⟨r1, r2⟩
    · simp only [if_neg hstop]
      exact invariant_record_corrected_loop count expected_interval _ _ _ r1 r2
  · have hf : (hdr_record_values h value count).1 = false := by simpa using hok
    simp only [hf, Bool.not_false, if_true]
    exact ⟨r1, r2⟩

theorem invariant_add_loop (fuel : Nat) :
    ∀ (h : hdr_histogram) (iter : hdr_iter) (dropped : Int), h.normalizing_index_offset = 0 →
      total_count_invariant h →
      (hdr_add_loop fuel h iter dropped).2.normalizing_index_offset = 0 ∧
        total_count_invariant (hdr_add_loop fuel h iter dropped).2 := by
  induction fuel with
  | zero => intro h iter dropped hoff hinv; exact ⟨hoff, hinv⟩
  | succ fuel ih =>
    intro h iter dropped hoff hinv
    unfold hdr_add_loop
    by_cases hnext : (hdr_iter_next iter).1 = true
    · simp only [hnext, if_true]
      obtain ⟨r1, r2⟩ := invariant_record_values h (hdr_iter_next iter).2.value
        (hdr_iter_next iter).2.count hoff hinv
      split_ifs
      · exact ih _ _ _ r1 r2
      · exact ih _ _ _ r1 r2
    · have hf : (hdr_iter_next iter).1 = false := by simpa using hnext
      simp only [hf, Bool.false_eq_true, if_false]
      exact ⟨hoff, hinv⟩

theorem invariant_add_corrected_loop (expected_interval : Int) (fuel : Nat) :
    ∀ (h : hdr_histogram) (iter : hdr_iter) (dropped : Int), h.normalizing_index_offset = 0 →
      total_count_invariant h →
      (hdr_add_corrected_loop expected_interval fuel h iter dropped).2.normalizing_index_offset
          = 0 ∧
        total_count_invariant (hdr_add_corrected_loop expected_interval fuel h iter dropped).2 := by
  induction fuel with
  | zero => intro h iter dropped hoff hinv; exact ⟨hoff, hinv⟩
  | succ fuel ih =>
    intro h iter dropped hoff hinv
    unfold hdr_add_corrected_loop
    by_cases hnext : (hdr_iter_next iter).1 = true
    · simp only [hnext, if_true]
      obtain ⟨r1, r2⟩ := invariant_record_corrected_values h (hdr_iter_next iter).2.value
        (hdr_iter_next iter).2.count expected_interval hoff hinv
      split_ifs
      · exact ih _ _ _ r1 r2
      · exact ih _ _ _ r1 r2
    · have hf : (hdr_iter_next iter).1 = false := by simpa using hnext
      simp only [hf, Bool.false_eq_true, if_false]
      exact ⟨hoff, hinv⟩


theorem reset_internal_counters_loop_total (h : hdr_histogram) (n : Nat) :
    ∀ (i : Int) (st : Int × Int × Int), (∀ k : Nat, k < n → 0 ≤ h.counts (i + k)) →
      wrap64 (reset_internal_counters_loop h n i st).2.2 =
          wrap64 (st.2.2 + sum_counts (fun k => h.counts (i + k)) n) ∧
        (is_s64 st.2.2 → is_s64 (reset_internal_counters_loop h n i st).2.2) := by
  induction n with
  | zero =>
    intro i st _
    obtain ⟨a, b, t⟩ := st
    simp [reset_internal_counters_loop, sum_counts]
  | succ n ih =>
    intro i st hnn
    obtain ⟨a, b, t⟩ := st
    have hnn' : ∀ k : Nat, k < n → 0 ≤ h.counts (i + 1 + k) := by
      intro k hk
      have := hnn (k + 1) (by omega)
      have e : i + ((k + 1 : Nat) : Int) = i + 1 + k := by push_cast; ring
      rw [e] at this
      exact this
    have h0 : 0 ≤ h.counts i := by
      have := hnn 0 (by omega)
      simpa using this
    have hsum : sum_counts (fun k => h.counts (i + k)) (n + 1) =
        h.counts i + sum_counts (fun k => h.counts (i + 1 + k)) n := by
      rw [sum_counts_succ_front]
      have e : (fun k : Int => h.counts (i + (k + 1))) = fun k : Int => h.counts (i + 1 + k) := by
        funext k
        congr 1
        ring
      simp only [add_zero]
      rw [e]
    unfold reset_internal_counters_loop counts_get_direct
    by_cases hpos : h.counts i > 0
    · simp only [if_pos hpos]
      obtain ⟨r1, r2⟩ := ih (i + 1)
        (if a = -1 ∧ i ≠ 0 then i else a, i, wrap64 (t + h.counts i)) hnn'
      refine ⟨?_, fun _ => r2 (is_s64_wrap64 _)⟩
      rw [r1, hsum]
      show wrap64 (wrap64 (t + h.counts i) + _) = wrap64 (t + (h.counts i + _))
      rw [wrap64_add_wrap64]
      congr 1
      ring
    · simp only [if_neg hpos]
      obtain ⟨r1, r2⟩ := ih (i + 1) (a, b, t) hnn'
      refine ⟨?_, r2⟩
      rw [r1, hsum]
      have hz : h.counts i = 0 := by omega
      rw [hz]
      simp

theorem invariant_reset_internal_counters (h : hdr_histogram)
    (hnn : ∀ i : Int, 0 ≤ i → i < h.counts_len → 0 ≤ h.counts i) :
    total_count_invariant (hdr_reset_internal_counters h) := by
  obtain ⟨r1, r2⟩ := reset_internal_counters_loop_total h h.counts_len.toNat 0 (-1, -1, 0)
    (fun k hk => hnn _ (by omega) (by omega))
  have hs : is_s64 (reset_internal_counters_loop h h.counts_len.toNat 0 (-1, -1, 0)).2.2 :=
    r2 (by decide)
  unfold total_count_invariant counts_sum
  show (reset_internal_counters_loop h h.counts_len.toNat 0 (-1, -1, 0)).2.2 =
    wrap64 (sum_counts h.counts h.counts_len.toNat)
  rw [← wrap64_of_is_s64 hs, r1]
  have e : (fun k : Int => h.counts (0 + k)) = h.counts := by
    funext k
    rw [zero_add]
  simp only [e, zero_add]

/-- The claim C9 as the specification states it fails for `hdr_reset_internal_counters`:
after `hdr_record_values(h, 5, -1)` on a fresh histogram of the configuration `(1, 2000, 1)`
the counter of `5` and `total_count` are both `-1`, so `total_count` is the sum of the
counters; `hdr_reset_internal_counters` then adds up the positive counters only and sets
`total_count` to `0`, while the counters still sum to `-1`. -/
theorem C9_counterexample :
    hdr_calculate_bucket_config log2_floor 1 2000 1 = .ok small_config ∧
      negative_count_histogram.counts 5 = -1 ∧
      negative_count_histogram.total_count = -1 ∧
      counts_sum negative_count_histogram = -1 ∧
      negative_count_histogram.total_count = counts_sum negative_count_histogram ∧
      (hdr_reset_internal_counters negative_count_histogram).total_count = 0 ∧
      counts_sum (hdr_reset_internal_counters negative_count_histogram) = -1 ∧
      (hdr_reset_internal_counters negative_count_histogram).total_count ≠
        counts_sum (hdr_reset_internal_counters negative_count_histogram) :=
  ⟨small_config_accepted, by decide!, by decide!, by decide!, by decide!, by decide!,
    by decide!, by decide!⟩

/-- C9, amended. The invariant that `total_count` is the sum of all counters
`counts[0 .. counts_len)` (in signed 64-bit arithmetic) holds for a freshly initialised
histogram and after `hdr_reset`; on a histogram with the index offset `0` it is preserved by
`hdr_record_values`, `hdr_record_corrected_values`, `hdr_add` and
`hdr_add_while_correcting_for_coordinated_omission`, whether the call succeeds or fails; and
`hdr_reset_internal_counters` establishes it when no counter is negative. -/
theorem C9_total_count_invariant (cfg : hdr_histogram_bucket_config) (h from_ : hdr_histogram)
    (iter : hdr_iter) (value count expected_interval : Int)
    (hoff : h.normalizing_index_offset = 0) (hinv : total_count_invariant h) :
    total_count_invariant (fresh cfg) ∧
      total_count_invariant (hdr_reset h) ∧
      total_count_invariant (hdr_record_values h value count).2 ∧
      total_count_invariant (hdr_record_corrected_values h value count expected_interval).2 ∧
      total_count_invariant (hdr_add iter h from_).2 ∧
      total_count_invariant
        (hdr_add_while_correcting_for_coordinated_omission iter h from_ expected_interval).2 ∧
      ((∀ i : Int, 0 ≤ i → i < h.counts_len → 0 ≤ h.counts i) →
        total_count_invariant (hdr_reset_internal_counters h)) :=
  ⟨invariant_fresh cfg, invariant_reset h, (invariant_record_values h value count hoff hinv).2,
    (invariant_record_corrected_values h value count expected_interval hoff hinv).2,
    (invariant_add_loop _ h _ 0 hoff hinv).2,
    (invariant_add_corrected_loop expected_interval _ h _ 0 hoff hinv).2,
    invariant_reset_internal_counters h⟩


/-- Witness of the amended C9: the target is a fresh histogram of the configuration
`(1, 2000, 1)` and the source the same histogram after `hdr_record_values(h, 100, 3)`. -/
theorem C9_total_count_invariant_witness :
    total_count_invariant (fresh small_config) ∧
      total_count_invariant (hdr_reset (fresh small_config)) ∧
      total_count_invariant (hdr_record_values (fresh small_config) 1000 2).2 ∧
      total_count_invariant (hdr_record_corrected_values (fresh small_config) 1000 2 100).2 ∧
      total_count_invariant
        (hdr_add zeroed_iter (fresh small_config)
          (hdr_record_values (fresh small_config) 100 3).2).2 ∧
      total_count_invariant
        (hdr_add_while_correcting_for_coordinated_omission zeroed_iter (fresh small_config)
          (hdr_record_values (fresh small_config) 100 3).2 100).2 ∧
      ((∀ i : Int, 0 ≤ i → i < (fresh small_config).counts_len →
          0 ≤ (fresh small_config).counts i) →
        total_count_invariant (hdr_reset_internal_counters (fresh small_config))) :=
  C9_total_count_invariant small_config (fresh small_config)
    (hdr_record_values (fresh small_config) 100 3).2 zeroed_iter 1000 2 100 rfl
    (invariant_fresh small_config)

/-! ## Corrected recording -/

theorem of_config_record_each (cfg : hdr_histogram_bucket_config) (h : hdr_histogram)
    (hh : of_config cfg h) (count expected_interval value : Int) (n : Nat) :
    of_config cfg (record_each count expected_interval value n h) := by
  induction n with
  | zero => exact hh
  | succ n ih =>
    unfold record_each
    exact of_config_record_values cfg _ ih _ _

/-- The loop of `hdr_record_corrected_values` after `k` recordings, with enough fuel, ends in
the state of the reference definition with `n = floor(value / expected_interval)`
recordings. -/
theorem record_corrected_loop_eq (count ei value : Int)
    (h : hdr_histogram) (hei : 0 < ei) (hv63 : value < 2 ^ 63)
    (hacc : ∀ (k : Nat) (w : Int), 0 ≤ w → w ≤ value →
      (hdr_record_values (record_each count ei value k h) w count).1 = true)
    (d : Nat) :
    ∀ (k fuel : Nat), (k : Int) + d = value / ei → 1 ≤ k → (value - k * ei).toNat ≤ fuel →
      record_corrected_loop count ei fuel (record_each count ei value k h) (value - k * ei) =
        (true, record_each count ei value (value / ei).toNat h) := by
  induction d with
  | zero =>
    intro k fuel hk hk1 hfuel
    have hkn : (value / ei).toNat = k := by omega
    have hlt : value - k * ei < ei := by
      have := Int.lt_ediv_add_one_mul_self value hei
      have e : (k : Int) = value / ei := by omega
      rw [e]
      linarith
    rw [hkn]
    cases fuel with
    | zero => rfl
    | succ fuel =>
      unfold record_corrected_loop
      rw [if_neg (not_le.2 hlt)]
  | succ d ih =>
    intro k fuel hk hk1 hfuel
    have hle : ((k : Int) + 1) * ei ≤ value := by
      have h1 : (k : Int) + 1 ≤ value / ei := by omega
      have h2 := Int.mul_le_mul_of_nonneg_right h1 hei.le
      exact le_trans h2 (Int.ediv_mul_le value hei.ne')
    have hk0 : (0 : Int) ≤ (k : Int) * ei := mul_nonneg (by omega) hei.le
    have hmv : ei ≤ value - k * ei := by linarith
    cases fuel with
    | zero => omega
    | succ fuel =>
      unfold record_corrected_loop
      have hge : value - k * ei ≥ ei := hmv
      simp only [if_pos hge]
      have hok := hacc k (value - k * ei) (by linarith) (by linarith)
      simp only [hok, Bool.not_true, Bool.false_eq_true, if_false]
      have hw : wrap64 (value - k * ei - ei) = value - ((k + 1 : Nat) : Int) * ei := by
        rw [wrap64_of_is_s64]
        · push_cast; ring
        · unfold is_s64
          constructor
          · linarith
          · linarith
      rw [hw]
      have hrec : (hdr_record_values (record_each count ei value k h) (value - k * ei) count).2 =
          record_each count ei value (k + 1) h := rfl
      rw [hrec]
      apply ih (k + 1) fuel
      · push_cast; omega
      · omega
      · have e : value - ((k + 1 : Nat) : Int) * ei = value - k * ei - ei := by push_cast; ring
        rw [e]
        omega

/-- C10. `hdr_record_corrected_values` equals the reference definition: for a histogram of an
accepted configuration, `value` in `[0, highest_trackable_value]`, `count` and
`expected_interval`, the call returns true and the resulting state is the state after
recording `(value - k * expected_interval, count)` with `hdr_record_values` for
`k = 0, 1, .., n - 1` in that order, where `n = 1` if `expected_interval ≤ 0` or
`value ≤ expected_interval`, and `n = floor(value / expected_interval)` otherwise. -/
theorem C10_corrected_record_equals_reference (log2_f64 : Int → ℚ) (lowest highest sf : Int)
    (cfg : hdr_histogram_bucket_config) (h : hdr_histogram) (value count expected_interval : Int)
    (hlog : ∀ x : Int, 1 ≤ x → 0 ≤ log2_f64 x) (hhi : is_s64 highest)
    (hcfg : hdr_calculate_bucket_config log2_f64 lowest highest sf = .ok cfg)
    (hh : of_config cfg h) (hv0 : 0 ≤ value) (hv : value ≤ highest) :
    hdr_record_corrected_values h value count expected_interval =
      (true, record_corrected_reference h value count expected_interval) := by
  have hv63 : value < 2 ^ 63 := lt_of_le_of_lt hv hhi.2
  have hacc : ∀ (k : Nat) (w : Int), 0 ≤ w → w ≤ value →
      (hdr_record_values (record_each count expected_interval value k h) w count).1 = true := by
    intro k w hw0 hw
    obtain ⟨um, hm, bc, hl, hlt, -⟩ :=
      layout_of_accepted log2_f64 hlog lowest highest sf cfg hhi.2 hcfg _
        (of_config_record_each cfg h hh count expected_interval value k)
    exact (record_accepted_iff _ um hm bc hl w count hw0 (by linarith)).2 (by linarith)
  have hfirst : (hdr_record_values h value count).2 =
      record_each count expected_interval value 1 h := by
    unfold record_each record_each
    simp
  have hok : (hdr_record_values h value count).1 = true := hacc 0 value hv0 le_rfl
  unfold hdr_record_corrected_values record_corrected_reference
  simp only [hok, Bool.not_true, Bool.false_eq_true, if_false]
  by_cases hstop : expected_interval ≤ 0 ∨ value ≤ expected_interval
  · simp only [if_pos hstop]
    rw [hfirst]
  · simp only [if_neg hstop]
    have hei : 0 < expected_interval := by
      by_contra hc
      exact hstop (Or.inl (not_lt.1 hc))
    have hgt : expected_interval < value := by
      by_contra hc
      exact hstop (Or.inr (not_lt.1 hc))
    have hw : wrap64 (value - expected_interval) = value - ((1 : Nat) : Int) * expected_interval := by
      rw [wrap64_of_is_s64]
      · simp
      · unfold is_s64
        constructor
        · linarith
        · linarith
    have hn1 : 1 ≤ value / expected_interval := by
      apply Int.le_ediv_of_mul_le hei
      linarith
    rw [hw, hfirst]
    exact record_corrected_loop_eq count expected_interval value h hei hv63 hacc
      ((value / expected_interval).toNat - 1) 1 _ (by omega) le_rfl le_rfl


/-- Witness of C10: on an empty histogram of the configuration `(1, 3600000000, 3)`,
`hdr_record_corrected_values(h, 1000, 1, 100)` agrees with the reference definition and
leaves the count `1` at each of `1000, 900, .., 100` and `total_count = 10`. -/
theorem C10_corrected_record_equals_reference_witness :
    hdr_record_corrected_values (fresh example_config) 1000 1 100 =
        (true, record_corrected_reference (fresh example_config) 1000 1 100) ∧
      (hdr_record_corrected_values (fresh example_config) 1000 1 100).2.total_count = 10 ∧
      hdr_count_at_value (hdr_record_corrected_values (fresh example_config) 1000 1 100).2
        1000 = 1 ∧
      hdr_count_at_value (hdr_record_corrected_values (fresh example_config) 1000 1 100).2
        900 = 1 ∧
      hdr_count_at_value (hdr_record_corrected_values (fresh example_config) 1000 1 100).2
        800 = 1 ∧
      hdr_count_at_value (hdr_record_corrected_values (fresh example_config) 1000 1 100).2
        700 = 1 ∧
      hdr_count_at_value (hdr_record_corrected_values (fresh example_config) 1000 1 100).2
        600 = 1 ∧
      hdr_count_at_value (hdr_record_corrected_values (fresh example_config) 1000 1 100).2
        500 = 1 ∧
      hdr_count_at_value (hdr_record_corrected_values (fresh example_config) 1000 1 100).2
        400 = 1 ∧
      hdr_count_at_value (hdr_record_corrected_values (fresh example_config) 1000 1 100).2
        300 = 1 ∧
      hdr_count_at_value (hdr_record_corrected_values (fresh example_config) 1000 1 100).2
        200 = 1 ∧
      hdr_count_at_value (hdr_record_corrected_values (fresh example_config) 1000 1 100).2
        100 = 1 ∧
      hdr_count_at_value (hdr_record_corrected_values (fresh example_config) 1000 1 100).2
        0 = 0 :=
  ⟨C10_corrected_record_equals_reference log2_floor 1 3600000000 3 example_config
      (fresh example_config) 1000 1 100 log2_floor_nonneg (by decide) example_config_accepted
      (of_config_fresh example_config) (by decide) (by decide),
    by decide!, by decide!, by decide!, by decide!, by decide!, by decide!, by decide!,
    by decide!, by decide!, by decide!, by decide!, by decide!⟩

/-! ## The loops end before their fuel -/

/-- More fuel than `missing_value` does not change the result of the loop of
`hdr_record_corrected_values`: the loop has ended by then. -/
theorem record_corrected_loop_fuel (count ei : Int) (hei : 0 < ei) (f1 : Nat) :
    ∀ (f2 : Nat) (h : hdr_histogram) (mv : Int), mv < 2 ^ 63 → mv.toNat ≤ f1 → mv.toNat ≤ f2 →
      record_corrected_loop count ei f1 h mv = record_corrected_loop count ei f2 h mv := by
  induction f1 with
  | zero =>
    intro f2 h mv _ h1 _
    have hlt : ¬ mv ≥ ei := by omega
    cases f2 with
    | zero => rfl
    | succ f2 =>
      unfold record_corrected_loop
      rw [if_neg hlt]
  | succ f1 ih =>
    intro f2 h mv h63 h1 h2
    by_cases hge : mv ≥ ei
    · cases f2 with
      | zero => omega
      | succ f2 =>
        unfold record_corrected_loop
        simp only [if_pos hge]
        have hw : wrap64 (mv - ei) = mv - ei := by
          apply wrap64_of_is_s64
          unfold is_s64
          constructor <;> omega
        rw [hw]
        split_ifs
        · rfl
        · exact ih f2 _ _ (by omega) (by omega) (by omega)
    · cases f2 with
      | zero =>
        unfold record_corrected_loop
        rw [if_neg hge]
      | succ f2 =>
        unfold record_corrected_loop
        rw [if_neg hge, if_neg hge]

/-- A step of `basic_iter_next` that returns true keeps the histogram and the function
pointer and raises `counts_index` by one. -/
theorem basic_iter_next_true (iter : hdr_iter) (hlen : iter.h.counts_len < 2 ^ 31)
    (hidx : -2 ^ 31 ≤ iter.counts_index) (hr : (basic_iter_next iter).1 = true) :
    (basic_iter_next iter).2.h = iter.h ∧
      (basic_iter_next iter).2.next_fp = iter.next_fp ∧
      (basic_iter_next iter).2.counts_index = iter.counts_index + 1 ∧
      iter.counts_index < iter.h.counts_len := by
  unfold basic_iter_next at hr ⊢
  by_cases hc : (!has_next iter) = true ∨ iter.counts_index ≥ iter.h.counts_len
  · rw [if_pos hc] at hr; cases hr
  · rw [if_neg hc]
    have hlt : iter.counts_index < iter.h.counts_len := by
      by_contra hge
      exact hc (Or.inr (not_lt.1 hge))
    have hw : wrap32 (iter.counts_index + 1) = iter.counts_index + 1 := by
      apply wrap32_of_is_s32
      unfold is_s32
      constructor <;> omega
    unfold move_next
    simp only
    split_ifs
    · exact ⟨rfl, rfl, hw, hlt⟩
    · exact ⟨rfl, rfl, hw, hlt⟩

/-- The loop of `recorded_iter_next` has ended once its fuel exceeds the number of slots
left: more fuel does not change the result. -/
theorem recorded_iter_next_loop_fuel (f1 : Nat) :
    ∀ (f2 : Nat) (iter : hdr_iter), iter.h.counts_len < 2 ^ 31 → -2 ^ 31 ≤ iter.counts_index →
      (iter.h.counts_len - iter.counts_index).toNat + 1 ≤ f1 →
      (iter.h.counts_len - iter.counts_index).toNat + 1 ≤ f2 →
      recorded_iter_next_loop f1 iter = recorded_iter_next_loop f2 iter := by
  induction f1 with
  | zero => intro f2 iter _ _ h1 _; omega
  | succ f1 ih =>
    intro f2 iter hlen hidx h1 h2
    cases f2 with
    | zero => omega
    | succ f2 =>
      unfold recorded_iter_next_loop
      by_cases hr : (basic_iter_next iter).1 = true
      · obtain ⟨b1, -, b3, b4⟩ := basic_iter_next_true iter hlen hidx hr
        simp only [hr, if_true]
        split_ifs
        · rfl
        · apply ih f2
          · rw [b1]; exact hlen
          · rw [b3]; omega
          · rw [b1, b3]; omega
          · rw [b1, b3]; omega
      · have hf : (basic_iter_next iter).1 = false := by simpa using hr
        simp only [hf, Bool.false_eq_true, if_false]

/-- A step of the recorded-values iterator that returns true keeps the histogram and the
function pointer and raises `counts_index`. -/
theorem recorded_iter_next_loop_true (fuel : Nat) :
    ∀ (iter : hdr_iter), iter.h.counts_len < 2 ^ 31 → -2 ^ 31 ≤ iter.counts_index →
      (recorded_iter_next_loop fuel iter).1 = true →
      (recorded_iter_next_loop fuel iter).2.h = iter.h ∧
        (recorded_iter_next_loop fuel iter).2.next_fp = iter.next_fp ∧
        iter.counts_index < (recorded_iter_next_loop fuel iter).2.counts_index ∧
        (recorded_iter_next_loop fuel iter).2.counts_index ≤ iter.h.counts_len := by
  induction fuel with
  | zero => intro iter _ _ hr; cases hr
  | succ fuel ih =>
    intro iter hlen hidx hr
    unfold recorded_iter_next_loop at hr ⊢
    by_cases hb : (basic_iter_next iter).1 = true
    · obtain ⟨b1, b2, b3, b4⟩ := basic_iter_next_true iter hlen hidx hb
      simp only [hb, if_true] at hr ⊢
      by_cases hc : (basic_iter_next iter).2.count ≠ 0
      · simp only [if_pos hc]
        refine ⟨b1, b2, ?_, ?_⟩
        · show iter.counts_index < (basic_iter_next iter).2.counts_index
          omega
        · show (basic_iter_next iter).2.counts_index ≤ iter.h.counts_len
          omega
      · simp only [if_neg hc] at hr ⊢
        obtain ⟨r1, r2, r3, r4⟩ := ih (basic_iter_next iter).2 (by rw [b1]; exact hlen)
          (by rw [b3]; omega) hr
        rw [b1] at r1 r4
        rw [b2] at r2
        rw [b3] at r3
        exact ⟨r1, r2, by omega, r4⟩
    · have hf : (basic_iter_next iter).1 = false := by simpa using hb
      simp only [hf, Bool.false_eq_true, if_false] at hr


theorem hdr_iter_next_recorded_true (iter : hdr_iter)
    (hfp : iter.next_fp = hdr_iter_next_fp.recorded_iter_next)
    (hlen : iter.h.counts_len < 2 ^ 31) (hidx : -2 ^ 31 ≤ iter.counts_index)
    (hr : (hdr_iter_next iter).1 = true) :
    (hdr_iter_next iter).2.h = iter.h ∧
      (hdr_iter_next iter).2.next_fp = hdr_iter_next_fp.recorded_iter_next ∧
      iter.counts_index < (hdr_iter_next iter).2.counts_index ∧
      (hdr_iter_next iter).2.counts_index ≤ iter.h.counts_len := by
  have e : hdr_iter_next iter = recorded_iter_next_loop
      ((iter.h.counts_len - iter.counts_index).toNat + 1) iter := by
    unfold hdr_iter_next
    rw [hfp]
    rfl
  rw [e] at hr ⊢
  obtain ⟨r1, r2, r3, r4⟩ := recorded_iter_next_loop_true _ iter hlen hidx hr
  exact ⟨r1, by rw [r2, hfp], r3, r4⟩

/-- The loop of `hdr_add` over a recorded-values iterator has ended once its fuel exceeds
the number of slots left: more fuel does not change the result. -/
theorem hdr_add_loop_fuel (f1 : Nat) :
    ∀ (f2 : Nat) (h : hdr_histogram) (iter : hdr_iter) (dropped : Int),
      iter.next_fp = hdr_iter_next_fp.recorded_iter_next →
      iter.h.counts_len < 2 ^ 31 → -2 ^ 31 ≤ iter.counts_index →
      (iter.h.counts_len - iter.counts_index).toNat + 1 ≤ f1 →
      (iter.h.counts_len - iter.counts_index).toNat + 1 ≤ f2 →
      hdr_add_loop f1 h iter dropped = hdr_add_loop f2 h iter dropped := by
  induction f1 with
  | zero => intro f2 h iter dropped _ _ _ h1 _; omega
  | succ f1 ih =>
    intro f2 h iter dropped hfp hlen hidx h1 h2
    cases f2 with
    | zero => omega
    | succ f2 =>
      unfold hdr_add_loop
      by_cases hr : (hdr_iter_next iter).1 = true
      · obtain ⟨r1, r2, r3, r4⟩ := hdr_iter_next_recorded_true iter hfp hlen hidx hr
        simp only [hr, if_true]
        split_ifs
        · apply ih f2 _ _ _ r2
          · rw [r1]; exact hlen
          · omega
          · rw [r1]; omega
          · rw [r1]; omega
        · apply ih f2 _ _ _ r2
          · rw [r1]; exact hlen
          · omega
          · rw [r1]; omega
          · rw [r1]; omega
      · have hf : (hdr_iter_next iter).1 = false := by simpa using hr
        simp only [hf, Bool.false_eq_true, if_false]

/-- The loop of `hdr_add_while_correcting_for_coordinated_omission` has ended once its fuel
exceeds the number of slots left: more fuel does not change the result. -/
theorem hdr_add_corrected_loop_fuel (expected_interval : Int) (f1 : Nat) :
    ∀ (f2 : Nat) (h : hdr_histogram) (iter : hdr_iter) (dropped : Int),
      iter.next_fp = hdr_iter_next_fp.recorded_iter_next →
      iter.h.counts_len < 2 ^ 31 → -2 ^ 31 ≤ iter.counts_index →
      (iter.h.counts_len - iter.counts_index).toNat + 1 ≤ f1 →
      (iter.h.counts_len - iter.counts_index).toNat + 1 ≤ f2 →
      hdr_add_corrected_loop expected_interval f1 h iter dropped =
        hdr_add_corrected_loop expected_interval f2 h iter dropped := by
  induction f1 with
  | zero => intro f2 h iter dropped _ _ _ h1 _; omega
  | succ f1 ih =>
    intro f2 h iter dropped hfp hlen hidx h1 h2
    cases f2 with
    | zero => omega
    | succ f2 =>
      unfold hdr_add_corrected_loop
      by_cases hr : (hdr_iter_next iter).1 = true
      · obtain ⟨r1, r2, r3, r4⟩ := hdr_iter_next_recorded_true iter hfp hlen hidx hr
        simp only [hr, if_true]
        split_ifs
        · apply ih f2 _ _ _ r2
          · rw [r1]; exact hlen
          · omega
          · rw [r1]; omega
          · rw [r1]; omega
        · apply ih f2 _ _ _ r2
          · rw [r1]; exact hlen
          · omega
          · rw [r1]; omega
          · rw [r1]; omega
      · have hf : (hdr_iter_next iter).1 = false := by simpa using hr
        simp only [hf, Bool.false_eq_true, if_false]

/-- The loop of `buckets_needed_to_cover_value` from a power of two has ended within
`63 - a` rounds: more fuel does not change the result. -/
theorem buckets_needed_loop_fuel (value : Int) (a : Nat) (ha : a ≤ 62)
    (bn : Int) (f1 f2 : Nat) (h1 : 63 ≤ f1 + a) (h2 : 63 ≤ f2 + a) :
    buckets_needed_loop value f1 (2 ^ a) bn = buckets_needed_loop value f2 (2 ^ a) bn := by
  induction f1 generalizing f2 a bn with
  | zero => omega
  | succ f1 ih =>
    cases f2 with
    | zero => omega
    | succ f2 =>
      unfold buckets_needed_loop
      split_ifs with hle hbig
      · rfl
      · have h61 : a ≤ 61 := by
          by_contra hne
          have ha62 : a = 62 := by omega
          subst ha62
          unfold s64_maximum at hbig
          norm_num at hbig
        have hshl : shl64 ((2 : Int) ^ a) 1 = 2 ^ (a + 1) := by
          have := shl64_two_pow (show a + 1 ≤ 62 by omega)
          simpa using this
        rw [hshl]
        exact ih (a + 1) (by omega) (bn + 1) f2 (by omega) (by omega)
      · rfl


/-- The function `ceil_log2` is the exact `ceil(log2 x)`: the least `k` with `x ≤ 2 ^ k`. -/
theorem ceil_log2_le_iff (x : Int) (h1 : 1 ≤ x) (h64 : x ≤ 2 ^ 64) (k : Nat) :
    ceil_log2 x ≤ k ↔ x ≤ 2 ^ k := by
  unfold ceil_log2
  have hn : (x - 1).toNat < 2 ^ 64 := by omega
  have hiff := bit_length_le_iff hn k
  have hcast : ((x - 1).toNat : Int) = x - 1 := by omega
  constructor
  · intro h
    have h2 : bit_length (x - 1).toNat ≤ k := by exact_mod_cast h
    have h3 := hiff.1 h2
    have h4 : ((x - 1).toNat : Int) < 2 ^ k := by exact_mod_cast h3
    omega
  · intro h
    have h3 : (x - 1).toNat < 2 ^ k := by
      have h4 : ((x - 1).toNat : Int) < 2 ^ k := by omega
      exact_mod_cast h4
    have := hiff.2 h3
    exact_mod_cast this

/-! ## The value of a slot -/

theorem int_land_two_pow_sub_one (n hm : Nat) :
    Int.land (n : Int) ((2 : Int) ^ hm - 1) = ((n % 2 ^ hm : Nat) : Int) := by
  have h1 : (1 : Nat) ≤ 2 ^ hm := Nat.one_le_two_pow
  have e : ((2 : Int) ^ hm - 1) = ((2 ^ hm - 1 : Nat) : Int) := by
    push_cast [h1]
    rfl
  rw [e]
  show ((n &&& (2 ^ hm - 1) : Nat) : Int) = _
  rw [Nat.and_pow_two_sub_one_eq_mod]

/-- The closed form of `hdr_value_at_index`: with `b = index >> hm` and `r = index & (2^hm - 1)`,
the value is `r << um` in the first half bucket and `(r + 2^hm) << (b - 1 + um)` after it. -/
theorem hdr_value_at_index_eq (h : hdr_histogram) (um hm bc : Nat) (hl : layout h um hm bc)
    (i : Int) (hi0 : 0 ≤ i) (hi : i < ((bc : Int) + 1) * 2 ^ hm) :
    hdr_value_at_index h i =
      if i < 2 ^ hm then i * 2 ^ um
      else (i % 2 ^ hm + 2 ^ hm) * 2 ^ ((i / 2 ^ hm).toNat - 1 + um) := by
  have hm17 := hl.hm_le
  have hmag := hl.magnitude_le
  have hbc := hl.bc_pos
  have hpos := two_pow_pos hm
  have h17 : (2 : Int) ^ hm ≤ 2 ^ 17 := two_pow_le_two_pow hm17
  have hb0 : 0 ≤ i / 2 ^ hm := Int.ediv_nonneg hi0 hpos.le
  have hb1 : i / 2 ^ hm < (bc : Int) + 1 := Int.ediv_lt_of_lt_mul hpos hi
  have hr0 : 0 ≤ i % 2 ^ hm := Int.emod_nonneg i hpos.ne'
  have hr1 : i % 2 ^ hm < 2 ^ hm := Int.emod_lt_of_pos i hpos
  obtain ⟨n, rfl⟩ := Int.eq_ofNat_of_zero_le hi0
  unfold hdr_value_at_index
  simp only [hl.half_count_magnitude_eq, hl.sub_bucket_half_count_eq, hl.unit_magnitude_eq]
  have w1 : wrap32 ((2 : Int) ^ hm - 1) = 2 ^ hm - 1 := by
    apply wrap32_of_is_s32
    unfold is_s32
    constructor <;> omega
  have e1 : shr (n : Int) (hm : Int) = (n : Int) / 2 ^ hm := by
    unfold shr
    rw [Int.toNat_ofNat]
  have eland : Int.land (n : Int) ((2 : Int) ^ hm - 1) = (n : Int) % 2 ^ hm := by
    rw [int_land_two_pow_sub_one]
    push_cast
    rfl
  rw [w1, e1, eland]
  have w2 : wrap32 ((n : Int) / 2 ^ hm - 1) = (n : Int) / 2 ^ hm - 1 := by
    apply wrap32_of_is_s32
    unfold is_s32
    constructor <;> omega
  have w3 : wrap32 ((n : Int) % 2 ^ hm + 2 ^ hm) = (n : Int) % 2 ^ hm + 2 ^ hm := by
    apply wrap32_of_is_s32
    unfold is_s32
    constructor <;> omega
  rw [w2, w3]
  by_cases hfirst : (n : Int) < 2 ^ hm
  · have hb : (n : Int) / 2 ^ hm = 0 := Int.ediv_eq_zero_of_lt hi0 hfirst
    have hr : (n : Int) % 2 ^ hm = n := Int.emod_eq_of_lt hi0 hfirst
    rw [if_pos hfirst, hb, hr, if_pos (by norm_num)]
    have w4 : wrap32 ((n : Int) + 2 ^ hm - 2 ^ hm) = n := by
      rw [add_sub_cancel_right]
      apply wrap32_of_is_s32
      unfold is_s32
      constructor <;> omega
    rw [w4]
    unfold value_from_index shl64
    rw [zero_add, wrap32_nat (show um < 2 ^ 31 by omega), Int.toNat_ofNat]
    apply wrap64_of_is_s64
    have hlt : (n : Int) * 2 ^ um < 2 ^ hm * 2 ^ um :=
      mul_lt_mul_of_pos_right hfirst (two_pow_pos um)
    rw [← pow_add] at hlt
    have h63 : (2 : Int) ^ (hm + um) ≤ 2 ^ 63 := two_pow_le_two_pow (by omega)
    have hnn : (0 : Int) ≤ (n : Int) * 2 ^ um := mul_nonneg hi0 (two_pow_pos um).le
    unfold is_s64
    constructor
    · linarith
    · linarith
  · have hge : (2 : Int) ^ hm ≤ n := not_lt.1 hfirst
    have hb : 1 ≤ (n : Int) / 2 ^ hm := Int.le_ediv_of_mul_le hpos (by linarith)
    rw [if_neg hfirst, if_neg (by omega)]
    unfold value_from_index shl64
    have e2 : ((n : Int) / 2 ^ hm - 1 + um) = (((n : Int) / 2 ^ hm).toNat - 1 + um : Nat) := by
      omega
    rw [e2, wrap32_nat (show ((n : Int) / 2 ^ hm).toNat - 1 + um < 2 ^ 31 by omega),
      Int.toNat_ofNat]
    apply wrap64_of_is_s64
    have hq : (n : Int) % 2 ^ hm + 2 ^ hm < 2 ^ (hm + 1) := by
      rw [pow_succ]; linarith
    have hlt : ((n : Int) % 2 ^ hm + 2 ^ hm) * 2 ^ (((n : Int) / 2 ^ hm).toNat - 1 + um) <
        2 ^ (hm + 1) * 2 ^ (((n : Int) / 2 ^ hm).toNat - 1 + um) :=
      mul_lt_mul_of_pos_right hq (two_pow_pos _)
    rw [← pow_add] at hlt
    have h63 : (2 : Int) ^ (hm + 1 + (((n : Int) / 2 ^ hm).toNat - 1 + um)) ≤ 2 ^ 63 :=
      two_pow_le_two_pow (by omega)
    have hnn : (0 : Int) ≤
        ((n : Int) % 2 ^ hm + 2 ^ hm) * 2 ^ (((n : Int) / 2 ^ hm).toNat - 1 + um) :=
      mul_nonneg (by linarith) (two_pow_pos _).le
    unfold is_s64
    constructor
    · linarith
    · linarith


/-- The value of a slot in terms of its shift and its sub-bucket index. -/
theorem hdr_value_at_index_slot (h : hdr_histogram) (um hm bc : Nat) (hl : layout h um hm bc)
    (i : Int) (hi0 : 0 ≤ i) (hi : i < ((bc : Int) + 1) * 2 ^ hm) :
    ∃ (s : Nat) (q : Int), hdr_value_at_index h i = q * 2 ^ s ∧ um ≤ s ∧ s + 1 ≤ um + bc ∧
      0 ≤ q ∧ q < 2 ^ (hm + 1) ∧ (um < s → (2 : Int) ^ hm ≤ q) ∧
      ((s : Int) - um) * 2 ^ hm + q = i := by
  have hpos := two_pow_pos hm
  have hbc := hl.bc_pos
  have hb0 : 0 ≤ i / 2 ^ hm := Int.ediv_nonneg hi0 hpos.le
  have hb1 : i / 2 ^ hm < (bc : Int) + 1 := Int.ediv_lt_of_lt_mul hpos hi
  have hr0 : 0 ≤ i % 2 ^ hm := Int.emod_nonneg i hpos.ne'
  have hr1 : i % 2 ^ hm < 2 ^ hm := Int.emod_lt_of_pos i hpos
  have hdm : 2 ^ hm * (i / 2 ^ hm) + i % 2 ^ hm = i := Int.ediv_add_emod i (2 ^ hm)
  have hsucc : (2 : Int) ^ (hm + 1) = 2 * 2 ^ hm := by rw [pow_succ]; ring
  rw [hdr_value_at_index_eq h um hm bc hl i hi0 hi]
  by_cases hfirst : i < 2 ^ hm
  · rw [if_pos hfirst]
    refine ⟨um, i, rfl, le_rfl, by omega, hi0, by linarith, fun hc => absurd hc (lt_irrefl _), ?_⟩
    simp
  · rw [if_neg hfirst]
    have hge : (2 : Int) ^ hm ≤ i := not_lt.1 hfirst
    have hb : 1 ≤ i / 2 ^ hm := Int.le_ediv_of_mul_le hpos (by linarith)
    refine ⟨(i / 2 ^ hm).toNat - 1 + um, i % 2 ^ hm + 2 ^ hm, rfl, by omega, by omega,
      by linarith, by linarith, fun _ => by linarith, ?_⟩
    have e : (((i / 2 ^ hm).toNat - 1 + um : Nat) : Int) - um = i / 2 ^ hm - 1 := by omega
    rw [e]
    linarith

/-- Index round trip: `hdr_value_at_index` gives a value of the slot, the lowest one. -/
theorem counts_index_for_value_at_index (h : hdr_histogram) (um hm bc : Nat)
    (hl : layout h um hm bc) (i : Int) (hi0 : 0 ≤ i) (hi : i < h.counts_len) :
    0 ≤ hdr_value_at_index h i ∧ hdr_value_at_index h i < 2 ^ (um + hm + bc) ∧
      counts_index_for h (hdr_value_at_index h i) = i ∧
      lowest_equivalent_value h (hdr_value_at_index h i) = hdr_value_at_index h i := by
  rw [hl.counts_len_eq] at hi
  have hmag := layout_magnitude h um hm bc hl
  have hmagle := hl.magnitude_le
  obtain ⟨s, q, hV, hs0, hs1, hq0, hq1, hq2, hidx⟩ := hdr_value_at_index_slot h um hm bc hl i hi0 hi
  have hpos := two_pow_pos s
  rw [hV]
  have hV0 : 0 ≤ q * 2 ^ s := mul_nonneg hq0 hpos.le
  have hlt : q * 2 ^ s < 2 ^ (s + hm + 1) := by
    have := mul_lt_mul_of_pos_right hq1 hpos
    rw [← pow_add, show hm + 1 + s = s + hm + 1 by omega] at this
    exact this
  have hle : (2 : Int) ^ (s + hm + 1) ≤ 2 ^ (um + hm + bc) := two_pow_le_two_pow (by omega)
  have h63 : (2 : Int) ^ (um + hm + bc) ≤ 2 ^ 63 := two_pow_le_two_pow hmagle
  have hV63 : q * 2 ^ s < 2 ^ 63 := by linarith
  have hshift : slot_shift um hm (q * 2 ^ s) = s := by
    apply slot_shift_unique um hm _ hV0 hV63 hmag s hs0 hlt
    intro hc
    have := mul_le_mul_of_nonneg_right (hq2 hc) hpos.le
    rw [← pow_add, show hm + s = s + hm by omega] at this
    exact this
  have hdiv : q * 2 ^ s / 2 ^ s = q := Int.mul_ediv_cancel q hpos.ne'
  refine ⟨hV0, by linarith, ?_, ?_⟩
  · rw [counts_index_for_eq h um hm bc hl _ hV0 hV63, hshift, hdiv]
    exact hidx
  · rw [lowest_equivalent_value_eq h um hm bc hl _ hV0 hV63, hshift, hdiv]

/-- Values with the same counter index have the same shift and sub-bucket index. -/
theorem slot_eq_of_index_eq (h : hdr_histogram) (um hm bc : Nat) (hl : layout h um hm bc)
    (a b : Int) (ha0 : 0 ≤ a) (ha : a < 2 ^ 63) (hb0 : 0 ≤ b) (hb : b < 2 ^ 63)
    (hidx : counts_index_for h a = counts_index_for h b) :
    slot_shift um hm a = slot_shift um hm b ∧
      a / 2 ^ slot_shift um hm a = b / 2 ^ slot_shift um hm b := by
  have hmag := layout_magnitude h um hm bc hl
  obtain ⟨g1, -, -, -⟩ := slot_shift_spec um hm a ha0 ha hmag
  obtain ⟨q0, q1, q2⟩ := sub_bucket_bounds um hm a ha0 ha hmag
  obtain ⟨g1', -, -, -⟩ := slot_shift_spec um hm b hb0 hb hmag
  obtain ⟨q0', q1', q2'⟩ := sub_bucket_bounds um hm b hb0 hb hmag
  rw [counts_index_for_eq h um hm bc hl a ha0 ha, counts_index_for_eq h um hm bc hl b hb0 hb]
    at hidx
  have hpos := two_pow_pos hm
  have hsucc : (2 : Int) ^ (hm + 1) = 2 * 2 ^ hm := by rw [pow_succ]; ring
  have hs : slot_shift um hm a = slot_shift um hm b := by
    by_contra hne
    rcases Nat.lt_or_gt_of_ne hne with hlt | hgt
    · have hq := q2' (by omega)
      have hd : ((slot_shift um hm a : Int) - um) + 1 ≤ (slot_shift um hm b : Int) - um := by
        omega
      have := mul_le_mul_of_nonneg_right hd hpos.le
      linarith
    · have hq := q2 (by omega)
      have hd : ((slot_shift um hm b : Int) - um) + 1 ≤ (slot_shift um hm a : Int) - um := by
        omega
      have := mul_le_mul_of_nonneg_right hd hpos.le
      linarith
  refine ⟨hs, ?_⟩
  rw [hs] at hidx ⊢
  linarith

/-- The value of the slot of `v` is the lowest value equivalent to `v`. -/
theorem hdr_value_at_index_counts_index_for (h : hdr_histogram) (um hm bc : Nat)
    (hl : layout h um hm bc) (v : Int) (hv0 : 0 ≤ v) (hv : v < 2 ^ (um + hm + bc)) :
    hdr_value_at_index h (counts_index_for h v) = lowest_equivalent_value h v := by
  have h63 : (2 : Int) ^ (um + hm + bc) ≤ 2 ^ 63 := two_pow_le_two_pow hl.magnitude_le
  have hv63 : v < 2 ^ 63 := lt_of_lt_of_le hv h63
  obtain ⟨i0, i1⟩ := counts_index_for_lt_iff h um hm bc hl v hv0 hv63
  have i2 := i1.2 hv
  obtain ⟨V0, V1, V2, V3⟩ := counts_index_for_value_at_index h um hm bc hl _ i0 i2
  have V63 : hdr_value_at_index h (counts_index_for h v) < 2 ^ 63 := lt_of_lt_of_le V1 h63
  obtain ⟨hs, hq⟩ := slot_eq_of_index_eq h um hm bc hl _ v V0 V63 hv0 hv63 V2
  rw [← V3, lowest_equivalent_value_eq h um hm bc hl _ V0 V63,
    lowest_equivalent_value_eq h um hm bc hl v hv0 hv63, hq, hs]

/-- The value-to-slot mapping is monotone. -/
theorem counts_index_for_mono (h : hdr_histogram) (um hm bc : Nat) (hl : layout h um hm bc)
    (a b : Int) (ha0 : 0 ≤ a) (hab : a ≤ b) (hb : b < 2 ^ 63) :
    counts_index_for h a ≤ counts_index_for h b := by
  have hmag := layout_magnitude h um hm bc hl
  have ha : a < 2 ^ 63 := lt_of_le_of_lt hab hb
  have hb0 : 0 ≤ b := le_trans ha0 hab
  obtain ⟨g1, -, g3, g4⟩ := slot_shift_spec um hm a ha0 ha hmag
  obtain ⟨q0, q1, q2⟩ := sub_bucket_bounds um hm a ha0 ha hmag
  obtain ⟨g1', -, g3', g4'⟩ := slot_shift_spec um hm b hb0 hb hmag
  obtain ⟨q0', q1', q2'⟩ := sub_bucket_bounds um hm b hb0 hb hmag
  rw [counts_index_for_eq h um hm bc hl a ha0 ha, counts_index_for_eq h um hm bc hl b hb0 hb]
  have hpos := two_pow_pos hm
  have hsucc : (2 : Int) ^ (hm + 1) = 2 * 2 ^ hm := by rw [pow_succ]; ring
  rcases Nat.lt_trichotomy (slot_shift um hm a) (slot_shift um hm b) with hlt | heq | hgt
  · have hq := q2' (by omega)
    have hd : ((slot_shift um hm a : Int) - um) + 1 ≤ (slot_shift um hm b : Int) - um := by omega
    have := mul_le_mul_of_nonneg_right hd hpos.le
    linarith
  · rw [heq]
    have : a / 2 ^ slot_shift um hm b ≤ b / 2 ^ slot_shift um hm b :=
      Int.ediv_le_ediv (two_pow_pos _) hab
    linarith
  · exfalso
    have h1 := g4 (by omega)
    have h2 : (2 : Int) ^ (slot_shift um hm b + hm + 1) ≤ 2 ^ (slot_shift um hm a + hm) :=
      two_pow_le_two_pow (by omega)
    linarith

/-- Values of one slot have the same highest equivalent value. -/
theorem highest_equivalent_value_lowest (h : hdr_histogram) (um hm bc : Nat)
    (hl : layout h um hm bc) (v : Int) (hv0 : 0 ≤ v) (hv : v < 2 ^ 63) :
    highest_equivalent_value h (lowest_equivalent_value h v) = highest_equivalent_value h v ∧
      lowest_equivalent_value h (lowest_equivalent_value h v) = lowest_equivalent_value h v := by
  obtain ⟨s0, s1, s2, -, -⟩ := value_in_slot h um hm bc hl v hv0 hv
  obtain ⟨w0, w63, hs, hq⟩ :=
    slot_shift_of_mem_slot h um hm bc hl v (lowest_equivalent_value h v) hv0 hv le_rfl
      (by linarith)
  have hl' : lowest_equivalent_value h (lowest_equivalent_value h v) =
      lowest_equivalent_value h v := by
    rw [lowest_equivalent_value_eq h um hm bc hl _ w0 w63, hs, hq,
      ← lowest_equivalent_value_eq h um hm bc hl v hv0 hv]
  refine ⟨?_, hl'⟩
  rw [highest_equivalent_value_eq h um hm bc hl _ w0 w63,
    highest_equivalent_value_eq h um hm bc hl v hv0 hv, hl',
    hdr_size_of_equivalent_value_range_eq h um hm bc hl _ w0 w63,
    hdr_size_of_equivalent_value_range_eq h um hm bc hl v hv0 hv, hs]

/-! ## Consistent histograms -/

theorem sum_counts_nonneg (c : Int → Int) (n : Nat) (hnn : ∀ k : Nat, k < n → 0 ≤ c k) :
    0 ≤ sum_counts c n := by
  induction n with
  | zero => exact le_rfl
  | succ n ih =>
    unfold sum_counts
    exact add_nonneg (ih (fun k hk => hnn k (by omega))) (hnn n (by omega))

theorem sum_counts_mono (c : Int → Int) (m n : Nat) (hmn : m ≤ n)
    (hnn : ∀ k : Nat, k < n → 0 ≤ c k) : sum_counts c m ≤ sum_counts c n := by
  induction n with
  | zero =>
    have : m = 0 := by omega
    rw [this]
  | succ n ih =>
    rcases Nat.lt_or_ge m (n + 1) with hlt | hge
    · have h1 := ih (by omega) (fun k hk => hnn k (by omega))
      have h2 := hnn n (by omega)
      show sum_counts c m ≤ sum_counts c n + c n
      linarith
    · have : m = n + 1 := by omega
      rw [this]

theorem le_sum_counts (c : Int → Int) (n : Nat) (hnn : ∀ k : Nat, k < n → 0 ≤ c k)
    (k : Nat) (hk : k < n) : c k ≤ sum_counts c n := by
  have h1 : sum_counts c (k + 1) ≤ sum_counts c n :=
    sum_counts_mono c (k + 1) n (by omega) hnn
  have h2 : 0 ≤ sum_counts c k := sum_counts_nonneg c k (fun j hj => hnn j (by omega))
  have h3 : sum_counts c (k + 1) = sum_counts c k + c k := rfl
  linarith

theorem consistent_counts_le_total (h : hdr_histogram) (hc : consistent h) (i : Int)
    (hi0 : 0 ≤ i) (hi : i < h.counts_len) : 0 ≤ h.counts i ∧ h.counts i ≤ h.total_count := by
  refine ⟨hc.counts_nonneg i hi0 hi, ?_⟩
  rw [hc.total_eq]
  unfold counts_sum
  obtain ⟨n, rfl⟩ := Int.eq_ofNat_of_zero_le hi0
  exact le_sum_counts h.counts _ (fun k hk => hc.counts_nonneg k (by omega) (by omega)) n
    (by omega)

theorem consistent_total_nonneg (h : hdr_histogram) (hc : consistent h) : 0 ≤ h.total_count := by
  rw [hc.total_eq]
  exact sum_counts_nonneg _ _ (fun k hk => hc.counts_nonneg k (by omega) (by omega))

theorem consistent_fresh (cfg : hdr_histogram_bucket_config) (h0 : 0 ≤ cfg.counts_len)
    (h1 : cfg.counts_len < 2 ^ 31) : consistent (fresh cfg) where
  offset_eq := rfl
  len_nonneg := h0
  len_lt := h1
  counts_nonneg := fun _ _ _ => le_rfl
  total_eq := by
    show (0 : Int) = sum_counts (fun _ => 0) _
    rw [sum_counts_eq_zero _ _ (fun _ _ => rfl)]
  total_lt := by
    show (0 : Int) < 2 ^ 63
    norm_num

/-- An accepted recording of a non-negative count that does not overflow `total_count` keeps
the histogram consistent. -/
theorem consistent_record_values (h : hdr_histogram) (hc : consistent h) (value count : Int)
    (hcount : 0 ≤ count) (hsum : h.total_count + count < 2 ^ 63) :
    consistent (hdr_record_values h value count).2 ∧
      (hdr_record_values h value count).2.counts_len = h.counts_len ∧
      (∀ w : Int, counts_index_for (hdr_record_values h value count).2 w =
        counts_index_for h w) ∧
      (hdr_record_values h value count).2.total_count =
        h.total_count + (if (hdr_record_values h value count).1 = true then count else 0) ∧
      (∀ i : Int, (hdr_record_values h value count).2.counts i =
        h.counts i + list_count_at h i [(value, count)]) := by
  have ht0 := consistent_total_nonneg h hc
  rcases hdr_record_values_cases h value count with hr | ⟨hv0, i0, i1, hr⟩
  · rw [hr]
    refine ⟨hc, rfl, fun _ => rfl, by simp, ?_⟩
    intro i
    have hrej : ¬ (0 ≤ value ∧ counts_index_for h value = i ∧ 0 ≤ i ∧ i < h.counts_len) := by
      rintro ⟨a, b, c, d⟩
      have hacc := hdr_record_values_of_accepted h value count a (by rw [b]; exact c)
        (by rw [b]; exact d)
      rw [hr] at hacc
      cases congrArg Prod.fst hacc
    simp [list_count_at, hrej]
  · rw [hr]
    obtain ⟨f1, f2, -, -, f5, f6, f7⟩ := accepted_record_fields h value count hc.offset_eq
    obtain ⟨s0, s1⟩ := consistent_counts_le_total h hc _ i0 i1
    have w1 : wrap64 (h.counts (counts_index_for h value) + count) =
        h.counts (counts_index_for h value) + count := by
      apply wrap64_of_is_s64
      unfold is_s64
      constructor <;> omega
    have w2 : wrap64 (h.total_count + count) = h.total_count + count := by
      apply wrap64_of_is_s64
      unfold is_s64
      constructor <;> omega
    refine ⟨⟨f6, ?_, ?_, ?_, ?_, ?_⟩, f5, f7, ?_, ?_⟩
    · rw [f5]; exact hc.len_nonneg
    · rw [f5]; exact hc.len_lt
    · intro i hi0 hi
      rw [f5] at hi
      rw [f1, w1]
      by_cases hi' : i = counts_index_for h value
      · rw [hi', Function.update_same]; omega
      · rw [Function.update_noteq hi']; exact hc.counts_nonneg i hi0 hi
    · unfold counts_sum
      rw [f1, f2, f5, w1, w2, sum_counts_update, if_pos ⟨i0, by omega⟩, hc.total_eq]
      unfold counts_sum
      ring
    · rw [f2, w2]; exact hsum
    · rw [f2, w2]; simp
    · intro i
      rw [f1, w1]
      by_cases hi' : i = counts_index_for h value
      · rw [hi', Function.update_same]
        simp [list_count_at, hv0, i0, i1]
      · rw [Function.update_noteq hi']
        have : ¬ (0 ≤ value ∧ counts_index_for h value = i ∧ 0 ≤ i ∧ i < h.counts_len) := by
          rintro ⟨-, b, -, -⟩
          exact hi' b.symm
        simp [list_count_at, this]


theorem list_count_at_congr (h h' : hdr_histogram) (hlen : h'.counts_len = h.counts_len)
    (hidx : ∀ w : Int, counts_index_for h' w = counts_index_for h w) (i : Int)
    (l : List (Int × Int)) : list_count_at h' i l = list_count_at h i l := by
  induction l with
  | nil => rfl
  | cons x l ih =>
    unfold list_count_at
    rw [ih, hlen, hidx]

theorem list_count_at_nonneg (h : hdr_histogram) (i : Int) (l : List (Int × Int))
    (hl : ∀ x ∈ l, 0 ≤ x.2) : 0 ≤ list_count_at h i l := by
  induction l with
  | nil => exact le_rfl
  | cons x l ih =>
    unfold list_count_at
    have h1 := ih (fun y hy => hl y (List.mem_cons_of_mem _ hy))
    have h2 := hl x (List.mem_cons_self _ _)
    split_ifs <;> linarith

theorem list_count_sum_nonneg (l : List (Int × Int)) (hl : ∀ x ∈ l, 0 ≤ x.2) :
    0 ≤ list_count_sum l := by
  induction l with
  | nil => exact le_rfl
  | cons x l ih =>
    unfold list_count_sum
    have h1 := ih (fun y hy => hl y (List.mem_cons_of_mem _ hy))
    have h2 := hl x (List.mem_cons_self _ _)
    linarith

/-- A slot holds a positive count exactly when one of the recorded values falls in it. -/
theorem list_count_at_pos_iff (h : hdr_histogram) (i : Int) (l : List (Int × Int))
    (hl : ∀ x ∈ l, 1 ≤ x.2) :
    0 < list_count_at h i l ↔
      ∃ x ∈ l, 0 ≤ x.1 ∧ counts_index_for h x.1 = i ∧ 0 ≤ i ∧ i < h.counts_len := by
  induction l with
  | nil => simp [list_count_at]
  | cons x l ih =>
    have hl' : ∀ y ∈ l, 1 ≤ y.2 := fun y hy => hl y (List.mem_cons_of_mem _ hy)
    have hx := hl x (List.mem_cons_self _ _)
    have hnn := list_count_at_nonneg h i l (fun y hy => by have := hl' y hy; omega)
    unfold list_count_at
    constructor
    · intro hpos
      by_cases hc : 0 ≤ x.1 ∧ counts_index_for h x.1 = i ∧ 0 ≤ i ∧ i < h.counts_len
      · exact ⟨x, List.mem_cons_self _ _, hc⟩
      · rw [if_neg hc, zero_add] at hpos
        obtain ⟨y, hy, hy'⟩ := (ih hl').1 hpos
        exact ⟨y, List.mem_cons_of_mem _ hy, hy'⟩
    · rintro ⟨y, hy, hy'⟩
      rcases List.mem_cons.1 hy with rfl | hmem
      · rw [if_pos hy']; omega
      · have := (ih hl').2 ⟨y, hmem, hy'⟩
        split_ifs <;> omega

/-- The histogram built by a sequence of recordings of non-negative counts that add up to
less than `2 ^ 63`: it is consistent and each counter is the sum of the counts recorded in
its slot. -/
theorem record_list_spec (l : List (Int × Int)) :
    ∀ h : hdr_histogram, consistent h → (∀ x ∈ l, 0 ≤ x.2) →
      h.total_count + list_count_sum l < 2 ^ 63 →
      consistent (record_list h l) ∧
        (record_list h l).counts_len = h.counts_len ∧
        (∀ w : Int, counts_index_for (record_list h l) w = counts_index_for h w) ∧
        (∀ i : Int, (record_list h l).counts i = h.counts i + list_count_at h i l) ∧
        (record_list h l).total_count ≤ h.total_count + list_count_sum l ∧
        (records_succeed h l →
          (record_list h l).total_count = h.total_count + list_count_sum l) := by
  induction l with
  | nil =>
    intro h hc _ _
    exact ⟨hc, rfl, fun _ => rfl, fun _ => by simp [record_list, list_count_at],
      by simp [record_list, list_count_sum], fun _ => by simp [record_list, list_count_sum]⟩
  | cons x l ih =>
    intro h hc hl hsum
    have hx := hl x (List.mem_cons_self _ _)
    have hl' : ∀ y ∈ l, 0 ≤ y.2 := fun y hy => hl y (List.mem_cons_of_mem _ hy)
    have hsn := list_count_sum_nonneg l hl'
    have hsum' : h.total_count + (x.2 + list_count_sum l) < 2 ^ 63 := hsum
    obtain ⟨c1, c2, c3, c4, c5⟩ := consistent_record_values h hc x.1 x.2 hx (by linarith)
    have hle : (hdr_record_values h x.1 x.2).2.total_count ≤ h.total_count + x.2 := by
      rw [c4]; split_ifs <;> linarith
    obtain ⟨r1, r2, r3, r4, r5, r6⟩ := ih (hdr_record_values h x.1 x.2).2 c1 hl' (by linarith)
    refine ⟨r1, by rw [← c2]; exact r2, fun w => by rw [← c3]; exact r3 w, ?_, ?_, ?_⟩
    · intro i
      show (record_list (hdr_record_values h x.1 x.2).2 l).counts i = _
      rw [r4 i, c5 i, list_count_at_congr h _ c2 c3]
      simp only [list_count_at]
      ring
    · show (record_list (hdr_record_values h x.1 x.2).2 l).total_count ≤
        h.total_count + (x.2 + list_count_sum l)
      linarith
    · intro hs
      obtain ⟨hs1, hs2⟩ := hs
      show (record_list (hdr_record_values h x.1 x.2).2 l).total_count =
        h.total_count + (x.2 + list_count_sum l)
      rw [r6 hs2, c4, if_pos hs1]
      ring

/-- Recordings that succeed are recordings of values with a slot in the counter array. -/
theorem records_succeed_forall (l : List (Int × Int)) :
    ∀ h : hdr_histogram, h.normalizing_index_offset = 0 → records_succeed h l →
      ∀ x ∈ l, 0 ≤ x.1 ∧ 0 ≤ counts_index_for h x.1 ∧ counts_index_for h x.1 < h.counts_len := by
  induction l with
  | nil => intro h _ _ x hx; cases hx
  | cons y l ih =>
    intro h hoff hs x hx
    obtain ⟨hs1, hs2⟩ := hs
    rcases hdr_record_values_cases h y.1 y.2 with hr | ⟨hv0, i0, i1, hr⟩
    · rw [hr] at hs1; cases hs1
    · rcases List.mem_cons.1 hx with rfl | hmem
      · exact ⟨hv0, i0, i1⟩
      · obtain ⟨-, -, -, -, f5, f6, f7⟩ := accepted_record_fields h y.1 y.2 hoff
        rw [hr] at hs2
        have := ih _ f6 hs2 x hmem
        rw [f5, f7] at this
        exact this

theorem of_config_record_list (cfg : hdr_histogram_bucket_config) (l : List (Int × Int)) :
    ∀ h : hdr_histogram, of_config cfg h → of_config cfg (record_list h l) := by
  induction l with
  | nil => intro h hh; exact hh
  | cons x l ih =>
    intro h hh
    exact ih _ (of_config_record_values cfg h hh x.1 x.2)


/-! ## The recorded-values iteration -/

/-- A step of `basic_iter_next` on a slot inside the array. -/
theorem basic_iter_next_at (iter : hdr_iter) (hoff : iter.h.normalizing_index_offset = 0)
    (hlen : iter.h.counts_len < 2 ^ 31) (hidx : -2 ^ 31 ≤ iter.counts_index)
    (hnext : iter.cumulative_count < iter.total_count)
    (hb : iter.counts_index + 1 < iter.h.counts_len) :
    (basic_iter_next iter).1 = true ∧ (basic_iter_next iter).2.h = iter.h ∧
      (basic_iter_next iter).2.next_fp = iter.next_fp ∧
      (basic_iter_next iter).2.total_count = iter.total_count ∧
      (basic_iter_next iter).2.counts_index = iter.counts_index + 1 ∧
      (basic_iter_next iter).2.count = iter.h.counts (iter.counts_index + 1) ∧
      (basic_iter_next iter).2.cumulative_count =
        wrap64 (iter.cumulative_count + iter.h.counts (iter.counts_index + 1)) ∧
      (basic_iter_next iter).2.value = hdr_value_at_index iter.h (iter.counts_index + 1) := by
  have hw : wrap32 (iter.counts_index + 1) = iter.counts_index + 1 := by
    apply wrap32_of_is_s32
    unfold is_s32
    constructor <;> omega
  have hc : ¬ ((!has_next iter) = true ∨ iter.counts_index ≥ iter.h.counts_len) := by
    rintro (h1 | h1)
    · unfold has_next at h1
      simp at h1
      omega
    · omega
  have hbk : has_buckets { iter with counts_index := iter.counts_index + 1 } = true := by
    unfold has_buckets
    exact decide_eq_true hb
  unfold basic_iter_next
  rw [if_neg hc]
  unfold move_next
  simp only [hw]
  simp only [hbk, Bool.not_true, Bool.false_eq_true, if_false]
  refine ⟨trivial, trivial, trivial, trivial, trivial, ?_, ?_, trivial⟩
  · unfold counts_get_normalised counts_get_direct
    rw [normalize_index_of_offset_zero _ _ hoff]
  · unfold counts_get_normalised counts_get_direct
    rw [normalize_index_of_offset_zero _ _ hoff]


theorem consistent_prefix_sum (h : hdr_histogram) (hc : consistent h) (k : Nat)
    (hk : k ≤ h.counts_len.toNat) :
    0 ≤ sum_counts h.counts k ∧ sum_counts h.counts k ≤ h.total_count := by
  have hnn : ∀ j : Nat, j < h.counts_len.toNat → 0 ≤ h.counts j :=
    fun j hj => hc.counts_nonneg j (by omega) (by omega)
  refine ⟨sum_counts_nonneg _ _ (fun j hj => hnn j (by omega)), ?_⟩
  rw [hc.total_eq]
  exact sum_counts_mono _ _ _ hk hnn

/-- Once the prefix sum has reached `total_count`, the remaining counters are zero. -/
theorem consistent_rest_zero (h : hdr_histogram) (hc : consistent h) (k : Nat)
    (hfull : h.total_count ≤ sum_counts h.counts k) (j : Nat)
    (hkj : k ≤ j) (hj : j < h.counts_len.toNat) : h.counts j = 0 := by
  have hnn : ∀ i : Nat, i < h.counts_len.toNat → 0 ≤ h.counts i :=
    fun i hi => hc.counts_nonneg i (by omega) (by omega)
  have h1 : sum_counts h.counts k ≤ sum_counts h.counts j :=
    sum_counts_mono _ _ _ hkj (fun i hi => hnn i (by omega))
  have h2 : sum_counts h.counts (j + 1) ≤ h.total_count :=
    (consistent_prefix_sum h hc (j + 1) (by omega)).2
  have h3 : sum_counts h.counts (j + 1) = sum_counts h.counts j + h.counts j := rfl
  have h4 := hnn j hj
  linarith

/-- The step of `basic_iter_next` from before slot `k` to before slot `k + 1`. -/
theorem basic_iter_next_slot (h : hdr_histogram) (hc : consistent h) (k : Nat)
    (hkn : k ≤ h.counts_len.toNat) (iter : hdr_iter) (hat : recorded_iter_at h k iter)
    (hnext : sum_counts h.counts k < h.total_count) :
    k < h.counts_len.toNat ∧ (basic_iter_next iter).1 = true ∧
      recorded_iter_at h (k + 1) (basic_iter_next iter).2 ∧
      (basic_iter_next iter).2.count = h.counts k ∧
      (basic_iter_next iter).2.value = hdr_value_at_index h k := by
  obtain ⟨a1, a2, a3, a4, a5⟩ := hat
  have hlen0 := hc.len_nonneg
  have hlen := hc.len_lt
  have hk : k < h.counts_len.toNat := by
    by_contra hge
    have hkeq : k = h.counts_len.toNat := by omega
    have := hc.total_eq
    unfold counts_sum at this
    rw [← hkeq] at this
    omega
  have e1 : iter.counts_index + 1 = (k : Int) := by omega
  obtain ⟨b1, b2, b3, b4, b5, b6, b7, b8⟩ := basic_iter_next_at iter
    (by rw [a1]; exact hc.offset_eq) (by rw [a1]; exact hlen) (by omega)
    (by rw [a4, a5]; exact hnext) (by rw [a1]; omega)
  rw [a1, e1] at b6 b7 b8
  rw [e1] at b5
  obtain ⟨p0, p1⟩ := consistent_prefix_sum h hc (k + 1) (by omega)
  have hS : sum_counts h.counts (k + 1) = sum_counts h.counts k + h.counts k := rfl
  refine ⟨hk, b1, ⟨by rw [b2, a1], by rw [b3, a2], ?_, ?_, by rw [b4, a5]⟩, b6, b8⟩
  · rw [b5]; push_cast; ring
  · rw [b7, a4, ← hS]
    apply wrap64_of_is_s64
    have := hc.total_lt
    unfold is_s64
    constructor <;> omega

/-- A call of `hdr_iter_next` on a recorded-values iterator that stands before slot `k`. -/
theorem hdr_iter_next_slot (h : hdr_histogram) (hc : consistent h) (k : Nat)
    (hkn : k ≤ h.counts_len.toNat) (iter : hdr_iter) (hat : recorded_iter_at h k iter) :
    (h.total_count ≤ sum_counts h.counts k → (hdr_iter_next iter).1 = false) ∧
      (sum_counts h.counts k < h.total_count → h.counts k ≠ 0 →
        (hdr_iter_next iter).1 = true ∧ recorded_iter_at h (k + 1) (hdr_iter_next iter).2 ∧
          (hdr_iter_next iter).2.count = h.counts k ∧
          (hdr_iter_next iter).2.value = hdr_value_at_index h k) ∧
      (sum_counts h.counts k < h.total_count → h.counts k = 0 →
        recorded_iter_at h (k + 1) (basic_iter_next iter).2 ∧
          hdr_iter_next iter = hdr_iter_next (basic_iter_next iter).2) := by
  have hat' := hat
  obtain ⟨a1, a2, a3, a4, a5⟩ := hat
  have hlen0 := hc.len_nonneg
  have e : hdr_iter_next iter = recorded_iter_next_loop
      ((iter.h.counts_len - iter.counts_index).toNat + 1) iter := by
    unfold hdr_iter_next
    rw [a2]
    rfl
  have efuel : (iter.h.counts_len - iter.counts_index).toNat + 1 =
      (h.counts_len.toNat - k) + 1 + 1 := by
    rw [a1, a3]; omega
  rw [e, efuel]
  refine ⟨?_, ?_, ?_⟩
  · intro hfull
    unfold recorded_iter_next_loop
    have hb : (basic_iter_next iter).1 = false := by
      unfold basic_iter_next
      have : (!has_next iter) = true := by
        unfold has_next
        simp
        rw [a4, a5]; exact hfull
      rw [if_pos (Or.inl this)]
    simp only [hb, Bool.false_eq_true, if_false]
  · intro hnext hne
    obtain ⟨hk, b1, b2, b3, b4⟩ := basic_iter_next_slot h hc k hkn iter hat' hnext
    unfold recorded_iter_next_loop
    have hne' : (basic_iter_next iter).2.count ≠ 0 := by rw [b3]; exact hne
    simp only [b1, if_true, if_pos hne']
    obtain ⟨c1, c2, c3, c4, c5⟩ := b2
    exact ⟨trivial, ⟨c1, c2, c3, c4, c5⟩, b3, b4⟩
  · intro hnext hz
    obtain ⟨hk, b1, b2, b3, b4⟩ := basic_iter_next_slot h hc k hkn iter hat' hnext
    refine ⟨b2, ?_⟩
    obtain ⟨c1, c2, c3, c4, c5⟩ := b2
    have e' : hdr_iter_next (basic_iter_next iter).2 = recorded_iter_next_loop
        (((basic_iter_next iter).2.h.counts_len -
          (basic_iter_next iter).2.counts_index).toNat + 1) (basic_iter_next iter).2 := by
      unfold hdr_iter_next
      rw [c2]
      rfl
    have efuel' : ((basic_iter_next iter).2.h.counts_len -
        (basic_iter_next iter).2.counts_index).toNat + 1 = (h.counts_len.toNat - k) + 1 := by
      rw [c1, c3]; push_cast; omega
    rw [e', efuel']
    conv_lhs => unfold recorded_iter_next_loop
    have hz' : ¬ (basic_iter_next iter).2.count ≠ 0 := by rw [b3]; simp [hz]
    simp only [b1, if_true, if_neg hz']

theorem nonzero_slots_eq_nil (h : hdr_histogram) (d : Nat) :
    ∀ k : Nat, (∀ j : Nat, k ≤ j → j < k + d → h.counts j = 0) → nonzero_slots h k d = [] := by
  induction d with
  | zero => intro k _; rfl
  | succ d ih =>
    intro k hz
    unfold nonzero_slots
    have h0 : ¬ h.counts k ≠ 0 := by simp [hz k le_rfl (by omega)]
    rw [if_neg h0]
    exact ih (k + 1) (fun j h1 h2 => hz j (by omega) (by omega))

theorem nonzero_slots_succ (h : hdr_histogram) (k d : Nat) :
    nonzero_slots h k (d + 1) =
      if h.counts k ≠ 0 then (hdr_value_at_index h k, h.counts k) :: nonzero_slots h (k + 1) d
      else nonzero_slots h (k + 1) d := rfl

theorem iter_steps_congr (a b : hdr_iter) (fuel : Nat) (hab : hdr_iter_next a = hdr_iter_next b) :
    iter_steps (fuel + 1) a = iter_steps (fuel + 1) b := by
  unfold iter_steps
  simp only [hab]

/-- The steps of a recorded-values iteration over a consistent histogram are its non-zero
slots, in increasing order, each with its value and its count. -/
theorem iter_steps_recorded (h : hdr_histogram) (hc : consistent h) (d : Nat) :
    ∀ (k fuel : Nat) (iter : hdr_iter), k + d = h.counts_len.toNat → d + 1 ≤ fuel →
      recorded_iter_at h k iter →
      (iter_steps fuel iter).map (fun it => (it.value, it.count)) = nonzero_slots h k d := by
  induction d with
  | zero =>
    intro k fuel iter hk hfuel hat
    obtain ⟨n1, -, -⟩ := hdr_iter_next_slot h hc k (by omega) iter hat
    have hfull : h.total_count ≤ sum_counts h.counts k := by
      rw [hc.total_eq]
      unfold counts_sum
      rw [← hk]
      exact le_rfl
    cases fuel with
    | zero => omega
    | succ fuel =>
      unfold iter_steps
      simp only [n1 hfull, Bool.false_eq_true, if_false]
      rfl
  | succ d ih =>
    intro k fuel iter hk hfuel hat
    obtain ⟨n1, n2, n3⟩ := hdr_iter_next_slot h hc k (by omega) iter hat
    cases fuel with
    | zero => omega
    | succ fuel =>
      by_cases hnext : sum_counts h.counts k < h.total_count
      · by_cases hz : h.counts k = 0
        · obtain ⟨m1, m2⟩ := n3 hnext hz
          rw [iter_steps_congr _ _ fuel m2, ih (k + 1) (fuel + 1) _ (by omega) (by omega) m1,
            nonzero_slots_succ, if_neg (by simp [hz])]
        · obtain ⟨m1, m2, m3, m4⟩ := n2 hnext hz
          rw [nonzero_slots_succ, if_pos hz]
          unfold iter_steps
          simp only [m1, if_true, List.map_cons, m3, m4]
          rw [ih (k + 1) fuel _ (by omega) (by omega) m2]
      · have hfull := not_lt.1 hnext
        unfold iter_steps
        simp only [n1 hfull, Bool.false_eq_true, if_false]
        rw [nonzero_slots_eq_nil]
        · rfl
        · intro j h1 h2
          exact consistent_rest_zero h hc k hfull j h1 (by omega)

theorem recorded_iter_at_init (iter : hdr_iter) (h : hdr_histogram) :
    recorded_iter_at h 0 (hdr_iter_recorded_init iter h) :=
  ⟨rfl, rfl, rfl, rfl, rfl⟩

/-- The recorded-values iteration over a consistent histogram. -/
theorem recorded_iteration_eq (iter : hdr_iter) (h : hdr_histogram) (hc : consistent h) :
    (recorded_iteration iter h).map (fun it => (it.value, it.count)) =
      nonzero_slots h 0 h.counts_len.toNat := by
  have := hc.len_nonneg
  exact iter_steps_recorded h hc h.counts_len.toNat 0 _ _ (by omega) (by omega)
    (recorded_iter_at_init iter h)

theorem list_count_sum_nonzero_slots (h : hdr_histogram) (d : Nat) :
    ∀ k : Nat, list_count_sum (nonzero_slots h k d) =
      sum_counts (fun j => h.counts ((k : Int) + j)) d := by
  induction d with
  | zero => intro k; rfl
  | succ d ih =>
    intro k
    rw [nonzero_slots_succ, sum_counts_succ_front]
    have e : (fun j : Int => h.counts ((k : Int) + (j + 1))) =
        fun j : Int => h.counts (((k + 1 : Nat) : Int) + j) := by
      funext j
      congr 1
      push_cast
      ring
    rw [e, ← ih (k + 1)]
    by_cases hz : h.counts k = 0
    · rw [if_neg (by simp [hz])]
      simp [hz]
    · rw [if_pos hz]
      simp [list_count_sum]

theorem sum_of_counts_eq (l : List hdr_iter) :
    sum_of_counts l = list_count_sum (l.map (fun it => (it.value, it.count))) := by
  induction l with
  | nil => rfl
  | cons it l ih =>
    simp only [sum_of_counts, List.map_cons, list_count_sum, ih]

/-- The counts of the steps of a recorded-values iteration over a consistent histogram add
up to `total_count`. -/
theorem sum_of_counts_recorded_iteration (iter : hdr_iter) (h : hdr_histogram)
    (hc : consistent h) : sum_of_counts (recorded_iteration iter h) = h.total_count := by
  rw [sum_of_counts_eq, recorded_iteration_eq iter h hc, list_count_sum_nonzero_slots,
    hc.total_eq]
  unfold counts_sum
  congr 1
  funext j
  simp

theorem is_s32_wrap32 (x : Int) : is_s32 (wrap32 x) := by
  unfold is_s32 wrap32
  omega

/-- A fresh histogram of an accepted configuration is consistent. -/
theorem consistent_fresh_of_accepted (log2_f64 : Int → ℚ)
    (hlog : ∀ x : Int, 1 ≤ x → 0 ≤ log2_f64 x) (lowest highest sf : Int)
    (cfg : hdr_histogram_bucket_config) (hhi : highest < 2 ^ 63)
    (hcfg : hdr_calculate_bucket_config log2_f64 lowest highest sf = .ok cfg) :
    consistent (fresh cfg) := by
  obtain ⟨um, hm, bc, hl, -⟩ :=
    layout_of_accepted log2_f64 hlog lowest highest sf cfg hhi hcfg (fresh cfg)
      (of_config_fresh cfg)
  have hlen : (fresh cfg).counts_len = cfg.counts_len := rfl
  have h1 := hl.counts_len_eq
  rw [hlen] at h1
  have hb := wrap32_counts_len (show bc ≤ 63 by have := hl.magnitude_le; omega) hl.hm_le
  have hs := is_s32_wrap32 (((bc : Int) + 1) * 2 ^ hm)
  rw [hb] at hs
  have hnn : (0 : Int) ≤ ((bc : Int) + 1) * 2 ^ hm :=
    mul_nonneg (by omega) (two_pow_pos hm).le
  apply consistent_fresh
  · rw [h1]; exact hnn
  · rw [h1]; exact hs.2

/-- The histogram built from a fresh histogram of an accepted configuration by recording
counts `≥ 0` that add up to less than `2 ^ 63`. -/
theorem built_spec (log2_f64 : Int → ℚ) (hlog : ∀ x : Int, 1 ≤ x → 0 ≤ log2_f64 x)
    (lowest highest sf : Int) (cfg : hdr_histogram_bucket_config) (hhi : highest < 2 ^ 63)
    (hcfg : hdr_calculate_bucket_config log2_f64 lowest highest sf = .ok cfg)
    (l : List (Int × Int)) (hcounts : ∀ x ∈ l, 0 ≤ x.2) (hsum : list_count_sum l < 2 ^ 63) :
    consistent (record_list (fresh cfg) l) ∧ of_config cfg (record_list (fresh cfg) l) ∧
      (∀ i : Int, (record_list (fresh cfg) l).counts i =
        list_count_at (record_list (fresh cfg) l) i l) ∧
      (record_list (fresh cfg) l).total_count ≤ list_count_sum l ∧
      (records_succeed (fresh cfg) l →
        (record_list (fresh cfg) l).total_count = list_count_sum l) := by
  have hc := consistent_fresh_of_accepted log2_f64 hlog lowest highest sf cfg hhi hcfg
  have ht : (fresh cfg).total_count = 0 := rfl
  obtain ⟨r1, r2, r3, r4, r5, r6⟩ := record_list_spec l (fresh cfg) hc hcounts
    (by rw [ht, zero_add]; exact hsum)
  refine ⟨r1, of_config_record_list cfg l _ (of_config_fresh cfg), ?_, ?_, ?_⟩
  · intro i
    rw [r4 i, list_count_at_congr (fresh cfg) _ r2 r3]
    show (0 : Int) + _ = _
    rw [zero_add]
  · rw [ht, zero_add] at r5; exact r5
  · intro hs
    have := r6 hs
    rw [ht, zero_add] at this
    exact this

/-- C11. For every histogram obtained from a fresh histogram of an accepted configuration by
any finite sequence of `hdr_record_values` calls with counts `≥ 1` (adding up to less than
`2 ^ 63`, so that no counter overflows), the sum of `iter.count` over all steps of a
recorded-only iteration (`hdr_iter_recorded_init`, then `hdr_iter_next` until false) equals
`total_count` exactly. -/
theorem C11_recorded_iteration_sum (log2_f64 : Int → ℚ) (lowest highest sf : Int)
    (cfg : hdr_histogram_bucket_config) (l : List (Int × Int)) (iter : hdr_iter)
    (hlog : ∀ x : Int, 1 ≤ x → 0 ≤ log2_f64 x) (hhi : is_s64 highest)
    (hcfg : hdr_calculate_bucket_config log2_f64 lowest highest sf = .ok cfg)
    (hcounts : ∀ x ∈ l, 1 ≤ x.2) (hsum : list_count_sum l < 2 ^ 63) :
    sum_of_counts (recorded_iteration iter (record_list (fresh cfg) l)) =
      (record_list (fresh cfg) l).total_count := by
  obtain ⟨hc, -⟩ := built_spec log2_f64 hlog lowest highest sf cfg hhi.2 hcfg l
    (fun x hx => by have := hcounts x hx; omega) hsum
  exact sum_of_counts_recorded_iteration iter _ hc

/-- Witness of C11: the configuration `(1, 2000, 1)` and the recordings `(5, 2)`, `(1000, 1)`,
`(5, 4)` and the rejected `(5000, 3)`; the three steps have the counts `6` and `1`. -/
theorem C11_recorded_iteration_sum_witness :
    sum_of_counts (recorded_iteration zeroed_iter
        (record_list (fresh small_config) [(5, 2), (1000, 1), (5, 4), (5000, 3)])) =
      (record_list (fresh small_config) [(5, 2), (1000, 1), (5, 4), (5000, 3)]).total_count ∧
      (record_list (fresh small_config) [(5, 2), (1000, 1), (5, 4), (5000, 3)]).total_count = 7 :=
  ⟨C11_recorded_iteration_sum log2_floor 1 2000 1 small_config
      [(5, 2), (1000, 1), (5, 4), (5000, 3)] zeroed_iter log2_floor_nonneg (by decide)
      small_config_accepted (by decide) (by decide),
    by decide!⟩


/-! ## Merging -/

/-- The loop of `hdr_add` folds its body over the steps of the iteration. -/
theorem hdr_add_loop_eq_foldl (fuel : Nat) :
    ∀ (h : hdr_histogram) (iter : hdr_iter) (dropped : Int),
      hdr_add_loop fuel h iter dropped =
        List.foldl hdr_add_body (dropped, h)
          ((iter_steps fuel iter).map (fun it => (it.value, it.count))) := by
  induction fuel with
  | zero => intro h iter dropped; rfl
  | succ fuel ih =>
    intro h iter dropped
    unfold hdr_add_loop iter_steps
    by_cases hr : (hdr_iter_next iter).1 = true
    · simp only [hr, if_true, List.map_cons, List.foldl_cons]
      by_cases hok : (hdr_record_values h (hdr_iter_next iter).2.value
          (hdr_iter_next iter).2.count).1 = true
      · simp only [hok, Bool.not_true, Bool.false_eq_true, if_false, hdr_add_body]
        exact ih _ _ _
      · have hf : (hdr_record_values h (hdr_iter_next iter).2.value
            (hdr_iter_next iter).2.count).1 = false := by simpa using hok
        simp only [hf, Bool.not_false, if_true, hdr_add_body]
        exact ih _ _ _
    · have hf : (hdr_iter_next iter).1 = false := by simpa using hr
      simp only [hf, Bool.false_eq_true, if_false, List.map_nil, List.foldl_nil]

/-- One step of the body of `hdr_add`. -/
theorem hdr_add_body_spec (h : hdr_histogram) (acc : Int × hdr_histogram) (x : Int × Int)
    (g1 : acc.2.counts_len = h.counts_len) (g2 : acc.2.normalizing_index_offset = 0)
    (g3 : ∀ w : Int, counts_index_for acc.2 w = counts_index_for h w) :
    (hdr_add_body acc x).2.counts_len = h.counts_len ∧
      (hdr_add_body acc x).2.normalizing_index_offset = 0 ∧
      (∀ w : Int, counts_index_for (hdr_add_body acc x).2 w = counts_index_for h w) ∧
      (hdr_add_body acc x).1 = (if accepts h x.1 then acc.1 else wrap64 (acc.1 + x.2)) ∧
      (hdr_add_body acc x).2.total_count =
        (if accepts h x.1 then wrap64 (acc.2.total_count + x.2) else acc.2.total_count) := by
  unfold hdr_add_body
  rcases hdr_record_values_cases acc.2 x.1 x.2 with hr | ⟨hv0, i0, i1, hr⟩
  · have hrej : ¬ accepts h x.1 := by
      rintro ⟨a, b, c⟩
      have hacc := hdr_record_values_of_accepted acc.2 x.1 x.2 a (by rw [g3]; exact b)
        (by rw [g3, g1]; exact c)
      rw [hr] at hacc
      cases congrArg Prod.fst hacc
    simp only [hr, Bool.not_false, if_true, if_neg hrej]
    exact ⟨g1, g2, g3, trivial, trivial⟩
  · have hacc : accepts h x.1 := ⟨hv0, by rw [← g3]; exact i0, by rw [← g3, ← g1]; exact i1⟩
    obtain ⟨-, f2, -, -, f5, f6, f7⟩ := accepted_record_fields acc.2 x.1 x.2 g2
    simp only [hr, Bool.not_true, Bool.false_eq_true, if_false, if_pos hacc]
    exact ⟨by rw [f5, g1], f6, fun w => by rw [f7, g3], trivial, f2⟩

/-- The fold of the body of `hdr_add` over the non-zero slots `k .. k + d - 1` of the
source: the dropped count grows by the counts of the rejected slots and `total_count` by the
counts of the accepted ones, in 64-bit arithmetic. -/
theorem hdr_add_fold_spec (h from_ : hdr_histogram) (d : Nat) :
    ∀ (k : Nat) (acc : Int × hdr_histogram), acc.2.counts_len = h.counts_len →
      acc.2.normalizing_index_offset = 0 →
      (∀ w : Int, counts_index_for acc.2 w = counts_index_for h w) →
      wrap64 (List.foldl hdr_add_body acc (nonzero_slots from_ k d)).1 =
          wrap64 (acc.1 + sum_counts (fun j =>
            if accepts h (hdr_value_at_index from_ ((k : Int) + j)) then 0
            else from_.counts ((k : Int) + j)) d) ∧
        wrap64 (List.foldl hdr_add_body acc (nonzero_slots from_ k d)).2.total_count =
          wrap64 (acc.2.total_count + sum_counts (fun j =>
            if accepts h (hdr_value_at_index from_ ((k : Int) + j))
            then from_.counts ((k : Int) + j) else 0) d) ∧
        (is_s64 acc.1 → is_s64 (List.foldl hdr_add_body acc (nonzero_slots from_ k d)).1) ∧
        (is_s64 acc.2.total_count →
          is_s64 (List.foldl hdr_add_body acc (nonzero_slots from_ k d)).2.total_count) := by
  induction d with
  | zero =>
    intro k acc _ _ _
    simp [nonzero_slots, sum_counts]
  | succ d ih =>
    intro k acc g1 g2 g3
    have e : ∀ f : Int → Int, (fun j : Int => f ((k : Int) + (j + 1))) =
        fun j : Int => f (((k + 1 : Nat) : Int) + j) := by
      intro f
      funext j
      congr 1
      push_cast
      ring
    rw [nonzero_slots_succ, sum_counts_succ_front, sum_counts_succ_front]
    simp only [add_zero]
    rw [e (fun i => if accepts h (hdr_value_at_index from_ i) then 0 else from_.counts i),
      e (fun i => if accepts h (hdr_value_at_index from_ i) then from_.counts i else 0)]
    by_cases hz : from_.counts k = 0
    · rw [if_neg (by simp [hz])]
      obtain ⟨r1, r2, r3, r4⟩ := ih (k + 1) acc g1 g2 g3
      refine ⟨?_, ?_, r3, r4⟩
      · rw [r1, hz]; simp
      · rw [r2, hz]; simp
    · rw [if_pos hz, List.foldl_cons]
      obtain ⟨b1, b2, b3, b4, b5⟩ :=
        hdr_add_body_spec h acc (hdr_value_at_index from_ k, from_.counts k) g1 g2 g3
      obtain ⟨r1, r2, r3, r4⟩ := ih (k + 1) _ b1 b2 b3
      simp only at b4 b5
      refine ⟨?_, ?_, ?_, ?_⟩
      · rw [r1, b4]
        by_cases ha : accepts h (hdr_value_at_index from_ k)
        · simp only [if_pos ha]; congr 1; ring
        · simp only [if_neg ha]; rw [wrap64_add_wrap64]; congr 1; ring
      · rw [r2, b5]
        by_cases ha : accepts h (hdr_value_at_index from_ k)
        · simp only [if_pos ha]; rw [wrap64_add_wrap64]; congr 1; ring
        · simp only [if_neg ha]; congr 1; ring
      · intro hs
        apply r3
        rw [b4]
        split_ifs
        · exact hs
        · exact is_s64_wrap64 _
      · intro hs
        apply r4
        rw [b5]
        split_ifs
        · exact is_s64_wrap64 _
        · exact hs


theorem sum_counts_congr (f g : Int → Int) (n : Nat) (hfg : ∀ k : Nat, k < n → f k = g k) :
    sum_counts f n = sum_counts g n := by
  induction n with
  | zero => rfl
  | succ n ih =>
    unfold sum_counts
    rw [ih (fun k hk => hfg k (by omega)), hfg n (by omega)]

theorem sum_counts_add (f g : Int → Int) (n : Nat) :
    sum_counts (fun k => f k + g k) n = sum_counts f n + sum_counts g n := by
  induction n with
  | zero => rfl
  | succ n ih =>
    unfold sum_counts
    rw [ih]
    ring

/-- The function `hdr_add` folds its loop body over the non-zero slots of the source. -/
theorem hdr_add_eq_foldl (iter : hdr_iter) (h from_ : hdr_histogram) (hcf : consistent from_) :
    hdr_add iter h from_ =
      List.foldl hdr_add_body (0, h) (nonzero_slots from_ 0 from_.counts_len.toNat) := by
  unfold hdr_add
  rw [hdr_add_loop_eq_foldl, ← recorded_iteration_eq iter from_ hcf]
  rfl

/-- The effect of `hdr_add` on the dropped count and on `total_count`, for a consistent
source and a target with `normalizing_index_offset = 0`: the sums over the rejected and over
the accepted slots. -/
theorem hdr_add_spec (iter : hdr_iter) (h from_ : hdr_histogram)
    (hoff : h.normalizing_index_offset = 0) (hs : is_s64 h.total_count)
    (hcf : consistent from_) :
    (hdr_add iter h from_).1 =
        sum_counts (fun j => if accepts h (hdr_value_at_index from_ j) then 0
          else from_.counts j) from_.counts_len.toNat ∧
      (hdr_add iter h from_).2.total_count =
        wrap64 (h.total_count +
          sum_counts (fun j => if accepts h (hdr_value_at_index from_ j) then from_.counts j
            else 0) from_.counts_len.toNat) ∧
      sum_counts (fun j => if accepts h (hdr_value_at_index from_ j) then 0
          else from_.counts j) from_.counts_len.toNat +
        sum_counts (fun j => if accepts h (hdr_value_at_index from_ j) then from_.counts j
            else 0) from_.counts_len.toNat = from_.total_count ∧
      0 ≤ sum_counts (fun j => if accepts h (hdr_value_at_index from_ j) then 0
          else from_.counts j) from_.counts_len.toNat ∧
      0 ≤ sum_counts (fun j => if accepts h (hdr_value_at_index from_ j) then from_.counts j
            else 0) from_.counts_len.toNat := by
  have hnn : ∀ j : Nat, j < from_.counts_len.toNat → 0 ≤ from_.counts j :=
    fun j hj => hcf.counts_nonneg j (by omega) (by omega)
  have hsplit : sum_counts (fun j => if accepts h (hdr_value_at_index from_ j) then 0
          else from_.counts j) from_.counts_len.toNat +
        sum_counts (fun j => if accepts h (hdr_value_at_index from_ j) then from_.counts j
            else 0) from_.counts_len.toNat = from_.total_count := by
    rw [← sum_counts_add, hcf.total_eq]
    unfold counts_sum
    apply sum_counts_congr
    intro k _
    split_ifs <;> simp
  have hR0 : 0 ≤ sum_counts (fun j => if accepts h (hdr_value_at_index from_ j) then 0
          else from_.counts j) from_.counts_len.toNat := by
    apply sum_counts_nonneg
    intro k hk
    split_ifs
    · exact le_rfl
    · exact hnn k hk
  have hA0 : 0 ≤ sum_counts (fun j => if accepts h (hdr_value_at_index from_ j)
      then from_.counts j else 0) from_.counts_len.toNat := by
    apply sum_counts_nonneg
    intro k hk
    split_ifs
    · exact hnn k hk
    · exact le_rfl
  obtain ⟨r1, r2, r3, r4⟩ := hdr_add_fold_spec h from_ from_.counts_len.toNat 0 (0, h) rfl hoff
    (fun _ => rfl)
  rw [← hdr_add_eq_foldl iter h from_ hcf] at r1 r2 r3 r4
  simp only [Nat.cast_zero, zero_add] at r1 r2 r3 r4
  have hz : is_s64 (0 : Int) := by unfold is_s64; constructor <;> norm_num
  have hlt := hcf.total_lt
  refine ⟨?_, ?_, hsplit, hR0, hA0⟩
  · rw [← wrap64_of_is_s64 (r3 hz), r1]
    apply wrap64_of_is_s64
    unfold is_s64
    constructor <;> linarith
  · rw [← wrap64_of_is_s64 (r4 hs), r2]

/-- C16. Merge conservation: for a source `from_` with a counter layout, non-negative
counters and `total_count` equal to their sum, and a target `h` with non-negative counters and
`total_count` equal to their sum (the configurations may differ), the value `d` returned by
`hdr_add(h, from_)` is exactly the sum of the counts of `from_` over the slots whose value
`hdr_value_at_index(from_, i)` maps outside `[0, h.counts_len)` in `h`, and
`h_after.total_count + d == h_before.total_count + from_.total_count` in 64-bit arithmetic,
which is the exact sum whenever `h_before.total_count + from_.total_count` fits in 64 bits. -/
theorem C16_merge_conservation (iter : hdr_iter) (h from_ : hdr_histogram) (um hm bc : Nat)
    (hl : layout from_ um hm bc) (hc : consistent h) (hcf : consistent from_) :
    (hdr_add iter h from_).1 = dropped_count h from_ ∧
      wrap64 ((hdr_add iter h from_).2.total_count + (hdr_add iter h from_).1) =
        wrap64 (h.total_count + from_.total_count) ∧
      (h.total_count + from_.total_count < 2 ^ 63 →
        (hdr_add iter h from_).2.total_count + (hdr_add iter h from_).1 =
          h.total_count + from_.total_count) := by
  have ht0 := consistent_total_nonneg h hc
  have hs : is_s64 h.total_count := by
    have := hc.total_lt
    unfold is_s64
    constructor <;> linarith
  obtain ⟨s1, s2, s3, s4, s5⟩ := hdr_add_spec iter h from_ hc.offset_eq hs hcf
  have hd : sum_counts (fun j => if accepts h (hdr_value_at_index from_ j) then 0
      else from_.counts j) from_.counts_len.toNat = dropped_count h from_ := by
    unfold dropped_count
    apply sum_counts_congr
    intro k hk
    have hk' : (k : Int) < from_.counts_len := by omega
    obtain ⟨V0, -, -, -⟩ :=
      counts_index_for_value_at_index from_ um hm bc hl k (by omega) hk'
    by_cases ha : accepts h (hdr_value_at_index from_ k)
    · rw [if_pos ha, if_neg]
      obtain ⟨-, a2, a3⟩ := ha
      omega
    · rw [if_neg ha, if_pos]
      by_contra hn
      apply ha
      refine ⟨V0, ?_, ?_⟩ <;> omega
  refine ⟨by rw [s1, hd], ?_, ?_⟩
  · rw [s1, s2, wrap64_add_wrap64]
    congr 1
    linarith
  · intro hfit
    rw [s1, s2, wrap64_of_is_s64]
    · linarith
    · unfold is_s64
      constructor <;> linarith


theorem tiny_config_accepted :
    hdr_calculate_bucket_config log2_floor 1 100 1 = .ok tiny_config := by
  rfl

theorem C16_merge_conservation_witness :
    ((hdr_add zeroed_iter merge_target merge_source).1 = dropped_count merge_target merge_source ∧
      wrap64 ((hdr_add zeroed_iter merge_target merge_source).2.total_count +
          (hdr_add zeroed_iter merge_target merge_source).1) =
        wrap64 (merge_target.total_count + merge_source.total_count) ∧
      (merge_target.total_count + merge_source.total_count < 2 ^ 63 →
        (hdr_add zeroed_iter merge_target merge_source).2.total_count +
            (hdr_add zeroed_iter merge_target merge_source).1 =
          merge_target.total_count + merge_source.total_count)) ∧
      (hdr_add zeroed_iter merge_target merge_source).1 = 3 ∧
      (hdr_add zeroed_iter merge_target merge_source).2.total_count = 3 ∧
      merge_target.total_count = 1 ∧ merge_source.total_count = 5 :=
  ⟨C16_merge_conservation zeroed_iter merge_target merge_source 0 4 7
      (by constructor <;> decide!)
      (built_spec log2_floor log2_floor_nonneg 1 100 1 tiny_config (by decide)
        tiny_config_accepted [(7, 1)] (by decide) (by decide)).1
      (built_spec log2_floor log2_floor_nonneg 1 2000 1 small_config (by decide)
        small_config_accepted [(5, 2), (1000, 3)] (by decide) (by decide)).1,
    by decide!, by decide!, by decide!, by decide!⟩

/-- Histograms of one configuration share the value-to-slot mapping and its inverse. -/
theorem of_config_same_slots (cfg : hdr_histogram_bucket_config) (a b : hdr_histogram)
    (ha : of_config cfg a) (hb : of_config cfg b) :
    a.counts_len = b.counts_len ∧ (∀ v : Int, counts_index_for a v = counts_index_for b v) ∧
      (∀ i : Int, hdr_value_at_index a i = hdr_value_at_index b i) := by
  obtain ⟨-, -, a3, -, a5, a6, a7, a8, -, -, a11⟩ := ha
  obtain ⟨-, -, b3, -, b5, b6, b7, b8, -, -, b11⟩ := hb
  refine ⟨by rw [a11, b11], ?_, ?_⟩
  · intro v
    unfold counts_index_for get_bucket_index counts_index
    rw [a3, a5, a6, a7, b3, b5, b6, b7]
  · intro i
    unfold hdr_value_at_index
    rw [a3, a5, a6, b3, b5, b6]

/-- Merging a consistent source into a target of the same configuration drops nothing. -/
theorem hdr_add_same_config (cfg : hdr_histogram_bucket_config) (um hm bc : Nat)
    (iter : hdr_iter) (a b : hdr_histogram) (ha : of_config cfg a) (hb : of_config cfg b)
    (hl : layout b um hm bc) (hs : is_s64 a.total_count) (hcb : consistent b) :
    (hdr_add iter a b).1 = 0 ∧
      (hdr_add iter a b).2.total_count = wrap64 (a.total_count + b.total_count) := by
  obtain ⟨e1, e2, -⟩ := of_config_same_slots cfg a b ha hb
  obtain ⟨s1, s2, s3, -, -⟩ := hdr_add_spec iter a b ha.2.2.2.2.2.2.2.2.1 hs hcb
  have hz : sum_counts (fun j => if accepts a (hdr_value_at_index b j) then 0
      else b.counts j) b.counts_len.toNat = 0 := by
    apply sum_counts_eq_zero
    intro k hk
    have hk' : (k : Int) < b.counts_len := by omega
    obtain ⟨V0, -, V2, -⟩ := counts_index_for_value_at_index b um hm bc hl k (by omega) hk'
    rw [if_pos]
    refine ⟨V0, ?_, ?_⟩
    · rw [e2, V2]; omega
    · rw [e2, V2, e1]; exact hk'
  rw [hz, zero_add] at s3
  exact ⟨by rw [s1, hz], by rw [s2, s3]⟩

/-- C15. For every pair of histograms A and B of one accepted configuration, each built from
a fresh histogram by successful recordings with counts `≥ 1`, with the sum of all recorded
counts below `2 ^ 63`: `hdr_add(A, B)` returns `0` and afterwards
`A.total_count == A_before.total_count + B.total_count`. -/
theorem C15_add_same_configuration (log2_f64 : Int → ℚ) (lowest highest sf : Int)
    (cfg : hdr_histogram_bucket_config) (la lb : List (Int × Int)) (iter : hdr_iter)
    (hlog : ∀ x : Int, 1 ≤ x → 0 ≤ log2_f64 x) (hhi : is_s64 highest)
    (hcfg : hdr_calculate_bucket_config log2_f64 lowest highest sf = .ok cfg)
    (hca : ∀ x ∈ la, 1 ≤ x.2) (hcb : ∀ x ∈ lb, 1 ≤ x.2)
    (hsa : records_succeed (fresh cfg) la) (hsb : records_succeed (fresh cfg) lb)
    (hsum : list_count_sum la + list_count_sum lb < 2 ^ 63) :
    (hdr_add iter (record_list (fresh cfg) la) (record_list (fresh cfg) lb)).1 = 0 ∧
      (hdr_add iter (record_list (fresh cfg) la) (record_list (fresh cfg) lb)).2.total_count =
        (record_list (fresh cfg) la).total_count + (record_list (fresh cfg) lb).total_count := by
  have hhi' : highest < 2 ^ 63 := hhi.2
  have hca0 : ∀ x ∈ la, 0 ≤ x.2 := fun x hx => by have := hca x hx; omega
  have hcb0 : ∀ x ∈ lb, 0 ≤ x.2 := fun x hx => by have := hcb x hx; omega
  have hna := list_count_sum_nonneg la hca0
  have hnb := list_count_sum_nonneg lb hcb0
  obtain ⟨a1, a2, -, -, a5⟩ := built_spec log2_f64 hlog lowest highest sf cfg hhi' hcfg la hca0
    (by linarith)
  obtain ⟨b1, b2, -, -, b5⟩ := built_spec log2_f64 hlog lowest highest sf cfg hhi' hcfg lb hcb0
    (by linarith)
  obtain ⟨um, hm, bc, hl, -⟩ :=
    layout_of_accepted log2_f64 hlog lowest highest sf cfg hhi' hcfg _ b2
  have hta := a5 hsa
  have htb := b5 hsb
  have hs : is_s64 (record_list (fresh cfg) la).total_count := by
    rw [hta]
    unfold is_s64
    constructor <;> linarith
  obtain ⟨r1, r2⟩ := hdr_add_same_config cfg um hm bc iter _ _ a2 b2 hl hs b1
  refine ⟨r1, ?_⟩
  rw [r2]
  apply wrap64_of_is_s64
  rw [hta, htb]
  unfold is_s64
  constructor <;> linarith

theorem C15_add_same_configuration_witness :
    (hdr_add zeroed_iter (record_list (fresh small_config) [(5, 2), (1000, 1)])
        (record_list (fresh small_config) [(7, 3), (5, 1), (2000, 4)])).1 = 0 ∧
      (hdr_add zeroed_iter (record_list (fresh small_config) [(5, 2), (1000, 1)])
        (record_list (fresh small_config) [(7, 3), (5, 1), (2000, 4)])).2.total_count =
        (record_list (fresh small_config) [(5, 2), (1000, 1)]).total_count +
          (record_list (fresh small_config) [(7, 3), (5, 1), (2000, 4)]).total_count :=
  C15_add_same_configuration log2_floor 1 2000 1 small_config [(5, 2), (1000, 1)]
    [(7, 3), (5, 1), (2000, 4)] zeroed_iter log2_floor_nonneg (by decide) small_config_accepted
    (by decide) (by decide) (by decide!) (by decide!) (by decide)


/-! ## Double-precision arithmetic -/

theorem two_zpow_eq (e : Int) : two_zpow e = (2 : ℚ) ^ e := by
  unfold two_zpow
  split_ifs with h
  · obtain ⟨n, rfl⟩ := Int.eq_ofNat_of_zero_le h
    simp
  · obtain ⟨n, hn⟩ : ∃ n : Nat, e = -(n : Int) := ⟨(-e).toNat, by omega⟩
    subst hn
    simp [zpow_neg]

theorem two_zpow_pos (e : Int) : 0 < two_zpow e := by
  rw [two_zpow_eq]
  exact zpow_pos (by norm_num) e

theorem two_zpow_le_iff (a b : Int) : two_zpow a ≤ two_zpow b ↔ a ≤ b := by
  rw [two_zpow_eq, two_zpow_eq]
  exact zpow_le_zpow_iff_right₀ (by norm_num)

theorem two_zpow_lt_iff (a b : Int) : two_zpow a < two_zpow b ↔ a < b := by
  rw [two_zpow_eq, two_zpow_eq]
  exact zpow_lt_zpow_iff_right₀ (by norm_num)

theorem two_zpow_add (a b : Int) : two_zpow (a + b) = two_zpow a * two_zpow b := by
  rw [two_zpow_eq, two_zpow_eq, two_zpow_eq]
  exact zpow_add₀ (by norm_num) a b

theorem two_zpow_nat (n : Nat) : two_zpow (n : Int) = (2 : ℚ) ^ n := by
  rw [two_zpow_eq, zpow_natCast]

/-- The binary length of a positive natural number brackets it between powers of two. -/
theorem bit_length_aux_self (n : Nat) (hn : 0 < n) :
    1 ≤ bit_length_aux n n ∧ 2 ^ (bit_length_aux n n - 1) ≤ n ∧ n < 2 ^ bit_length_aux n n := by
  have hlt := Nat.lt_two_pow n
  have h1 : n < 2 ^ bit_length_aux n n := (bit_length_aux_le_iff n n _ hlt).1 le_rfl
  have h0 : 1 ≤ bit_length_aux n n := by
    by_contra hc
    have hz : bit_length_aux n n = 0 := by omega
    rw [hz] at h1
    simp at h1
    omega
  refine ⟨h0, ?_, h1⟩
  by_contra hc
  have := (bit_length_aux_le_iff n n (bit_length_aux n n - 1) hlt).2 (not_le.1 hc)
  omega

theorem ratio_bracket (n d : ℚ) (bn bd : Nat) (hd : 0 < d) (b0 : 1 ≤ bn) (d0 : 1 ≤ bd)
    (hn1 : (2 : ℚ) ^ (bn - 1) ≤ n) (hn2 : n < 2 ^ bn) (hd1 : (2 : ℚ) ^ (bd - 1) ≤ d)
    (hd2 : d < 2 ^ bd) :
    two_zpow ((bn : Int) - (bd : Int) - 1) ≤ n / d ∧
      n / d < two_zpow ((bn : Int) - (bd : Int) + 1) := by
  have hn0 : 0 ≤ n := le_trans (by positivity) hn1
  constructor
  · have e : ((bn : Int) - (bd : Int) - 1) = ((bn - 1 : Nat) : Int) + -((bd : Nat) : Int) := by
      omega
    rw [e, two_zpow_add, two_zpow_nat, two_zpow_eq, zpow_neg, zpow_natCast, ← div_eq_mul_inv]
    have hp : (0 : ℚ) < 2 ^ bd := by positivity
    rw [div_le_div_iff₀ hp hd]
    calc (2 : ℚ) ^ (bn - 1) * d ≤ n * d := mul_le_mul_of_nonneg_right hn1 hd.le
      _ ≤ n * 2 ^ bd := mul_le_mul_of_nonneg_left hd2.le hn0
  · have e : ((bn : Int) - (bd : Int) + 1) = (bn : Int) + -((bd - 1 : Nat) : Int) := by omega
    rw [e, two_zpow_add, two_zpow_nat, two_zpow_eq, zpow_neg, zpow_natCast, ← div_eq_mul_inv]
    have hp : (0 : ℚ) < 2 ^ (bd - 1) := by positivity
    rw [div_lt_div_iff₀ hd hp]
    calc n * 2 ^ (bd - 1) ≤ n * d := mul_le_mul_of_nonneg_left hd1 hn0
      _ < 2 ^ bn * d := mul_lt_mul_of_pos_right hn2 hd

/-- The exponent `floor_log2 q` brackets a positive `q` between powers of two. -/
theorem floor_log2_spec (q : ℚ) (hq : 0 < q) :
    two_zpow (floor_log2 q) ≤ q ∧ q < two_zpow (floor_log2 q + 1) := by
  have hnum : 0 < q.num := Rat.num_pos.2 hq
  have hden : 0 < q.den := q.den_pos
  obtain ⟨n0, n1, n2⟩ := bit_length_aux_self q.num.toNat (by omega)
  obtain ⟨d0, d1, d2⟩ := bit_length_aux_self q.den hden
  have hqe : (q.num.toNat : ℚ) / (q.den : ℚ) = q := by
    have h1 : ((q.num.toNat : Int) : ℚ) = (q.num : ℚ) := by
      rw [Int.toNat_of_nonneg hnum.le]
    have h2 : ((q.num.toNat : Int) : ℚ) = (q.num.toNat : ℚ) := by push_cast; rfl
    rw [← h2, h1]
    exact Rat.num_div_den q
  obtain ⟨hlo, hup⟩ := ratio_bracket (q.num.toNat : ℚ) (q.den : ℚ) _ _
    (by exact_mod_cast hden) n0 d0 (by exact_mod_cast n1) (by exact_mod_cast n2)
    (by exact_mod_cast d1) (by exact_mod_cast d2)
  rw [hqe] at hlo hup
  unfold floor_log2
  simp only
  split_ifs with hk
  · exact ⟨hk, hup⟩
  · refine ⟨hlo, ?_⟩
    rw [sub_add_cancel]
    exact not_le.1 hk

theorem floor_log2_mono (a b : ℚ) (ha : 0 < a) (hab : a ≤ b) : floor_log2 a ≤ floor_log2 b := by
  obtain ⟨a1, -⟩ := floor_log2_spec a ha
  obtain ⟨-, b2⟩ := floor_log2_spec b (lt_of_lt_of_le ha hab)
  have := (two_zpow_lt_iff _ _).1 (lt_of_le_of_lt (le_trans a1 hab) b2)
  omega

theorem floor_log2_lt (q : ℚ) (hq : 0 < q) (k : Int) (hk : q < two_zpow k) :
    floor_log2 q < k := by
  obtain ⟨a1, -⟩ := floor_log2_spec q hq
  exact (two_zpow_lt_iff _ _).1 (lt_of_le_of_lt a1 hk)

theorem le_floor_log2 (q : ℚ) (hq : 0 < q) (k : Int) (hk : two_zpow k ≤ q) :
    k ≤ floor_log2 q := by
  obtain ⟨-, a2⟩ := floor_log2_spec q hq
  have := (two_zpow_lt_iff _ _).1 (lt_of_le_of_lt hk a2)
  omega


theorem round_half_even_bounds (m : ℚ) :
    ⌊m⌋ ≤ round_half_even m ∧ round_half_even m ≤ ⌊m⌋ + 1 := by
  unfold round_half_even
  simp only
  split_ifs <;> omega

theorem round_half_even_int (n : Int) : round_half_even (n : ℚ) = n := by
  unfold round_half_even
  simp

theorem round_half_even_mono (a b : ℚ) (hab : a ≤ b) :
    round_half_even a ≤ round_half_even b := by
  obtain ⟨a1, a2⟩ := round_half_even_bounds a
  obtain ⟨b1, b2⟩ := round_half_even_bounds b
  have hf : ⌊a⌋ ≤ ⌊b⌋ := Int.floor_mono hab
  rcases lt_or_eq_of_le hf with hlt | heq
  · omega
  · unfold round_half_even
    simp only
    rw [← heq]
    have hle : a - (⌊a⌋ : ℚ) ≤ b - (⌊a⌋ : ℚ) := by linarith
    split_ifs <;> first | omega | (exfalso; linarith)

theorem f64_round_zero : f64_round 0 = 0 := by
  unfold f64_round
  simp

theorem f64_round_of_pos (q : ℚ) (hq : 0 < q) :
    f64_round q =
      (round_half_even (q / two_zpow (f64_ulp_exponent q)) : ℚ) *
        two_zpow (f64_ulp_exponent q) := by
  unfold f64_round
  rw [if_neg hq.ne']

theorem f64_ulp_exponent_of_pos (q : ℚ) (hq : 0 < q) :
    f64_ulp_exponent q = max (floor_log2 q) (-1022) - 52 := by
  unfold f64_ulp_exponent
  rw [abs_of_pos hq]

/-- A double is exact: `k * 2 ^ e0` with `k < 2 ^ 53` and `e0 ≥ -1074` rounds to itself. -/
theorem f64_round_exact (k : Nat) (e0 : Int) (hk : k < 2 ^ 53) (he : -1074 ≤ e0) :
    f64_round ((k : ℚ) * two_zpow e0) = (k : ℚ) * two_zpow e0 := by
  rcases Nat.eq_zero_or_pos k with rfl | hkpos
  · simp [f64_round_zero]
  · have hp := two_zpow_pos e0
    have hkq : (0 : ℚ) < (k : ℚ) := by exact_mod_cast hkpos
    have hq : 0 < (k : ℚ) * two_zpow e0 := mul_pos hkq hp
    have hlt : (k : ℚ) * two_zpow e0 < two_zpow (53 + e0) := by
      rw [two_zpow_add]
      apply mul_lt_mul_of_pos_right _ hp
      rw [show (53 : Int) = ((53 : Nat) : Int) by rfl, two_zpow_nat]
      exact_mod_cast hk
    have hf := floor_log2_lt _ hq _ hlt
    have hee := f64_ulp_exponent_of_pos _ hq
    have hle : f64_ulp_exponent ((k : ℚ) * two_zpow e0) ≤ e0 := by
      rw [hee]
      omega
    obtain ⟨d, hd⟩ : ∃ d : Nat, e0 = f64_ulp_exponent ((k : ℚ) * two_zpow e0) + (d : Int) :=
      ⟨(e0 - f64_ulp_exponent ((k : ℚ) * two_zpow e0)).toNat, by omega⟩
    rw [f64_round_of_pos _ hq]
    generalize f64_ulp_exponent ((k : ℚ) * two_zpow e0) = e at hd ⊢
    have hpe := two_zpow_pos e
    have e1 : (k : ℚ) * two_zpow e0 / two_zpow e = (((k : Int) * 2 ^ d : Int) : ℚ) := by
      rw [hd, two_zpow_add, two_zpow_nat]
      push_cast
      field_simp
      ring
    rw [e1, round_half_even_int, hd, two_zpow_add, two_zpow_nat]
    push_cast
    ring

theorem f64_round_int (n : Int) (h0 : 0 ≤ n) (h1 : n < 2 ^ 53) : f64_round (n : ℚ) = n := by
  obtain ⟨k, rfl⟩ := Int.eq_ofNat_of_zero_le h0
  have := f64_round_exact k 0 (by exact_mod_cast h1) (by norm_num)
  have e : two_zpow 0 = 1 := by rw [two_zpow_eq]; simp
  rw [e, mul_one] at this
  exact_mod_cast this

theorem f64_round_add_half (n : Int) (h0 : 0 ≤ n) (h1 : n < 2 ^ 52) :
    f64_round ((n : ℚ) + 1 / 2) = (n : ℚ) + 1 / 2 := by
  obtain ⟨k, rfl⟩ := Int.eq_ofNat_of_zero_le h0
  have hk : 2 * k + 1 < 2 ^ 53 := by
    have : (k : Int) < 2 ^ 52 := h1
    omega
  have := f64_round_exact (2 * k + 1) (-1) hk (by norm_num)
  have e : two_zpow (-1) = 1 / 2 := by rw [two_zpow_eq]; norm_num
  have e2 : ((2 * k + 1 : Nat) : ℚ) * (1 / 2) = ((k : Int) : ℚ) + 1 / 2 := by
    push_cast
    ring
  rw [e, e2] at this
  exact this

theorem f64_round_nonneg (q : ℚ) (hq : 0 ≤ q) : 0 ≤ f64_round q := by
  rcases eq_or_lt_of_le hq with rfl | hpos
  · rw [f64_round_zero]
  · rw [f64_round_of_pos q hpos]
    have hp := two_zpow_pos (f64_ulp_exponent q)
    have h0 : round_half_even ((0 : Int) : ℚ) ≤
        round_half_even (q / two_zpow (f64_ulp_exponent q)) :=
      round_half_even_mono _ _ (by push_cast; exact div_nonneg hq hp.le)
    rw [round_half_even_int] at h0
    exact mul_nonneg (by exact_mod_cast h0) hp.le

/-- Rounding to the nearest double is monotone. -/
theorem f64_round_mono (a b : ℚ) (ha : 0 ≤ a) (hab : a ≤ b) : f64_round a ≤ f64_round b := by
  rcases eq_or_lt_of_le ha with rfl | hapos
  · rw [f64_round_zero]
    exact f64_round_nonneg b hab
  · have hbpos : 0 < b := lt_of_lt_of_le hapos hab
    have hfm := floor_log2_mono a b hapos hab
    have hea := f64_ulp_exponent_of_pos a hapos
    have heb := f64_ulp_exponent_of_pos b hbpos
    obtain ⟨-, a2⟩ := floor_log2_spec a hapos
    obtain ⟨b1, -⟩ := floor_log2_spec b hbpos
    rw [f64_round_of_pos a hapos, f64_round_of_pos b hbpos]
    have hpa := two_zpow_pos (f64_ulp_exponent a)
    have hpb := two_zpow_pos (f64_ulp_exponent b)
    rcases lt_or_eq_of_le (show f64_ulp_exponent a ≤ f64_ulp_exponent b by omega) with hlt | heq
    · -- different binades: a power of two lies between the two results
      have hfb : f64_ulp_exponent b = floor_log2 b - 52 := by omega
      have hA : a / two_zpow (f64_ulp_exponent a) ≤ (((2 : Int) ^ 53 : Int) : ℚ) := by
        rw [div_le_iff₀ hpa]
        have h53 : ((((2 : Int) ^ 53 : Int) : ℚ)) = two_zpow 53 := by
          rw [show (53 : Int) = ((53 : Nat) : Int) by rfl, two_zpow_nat]
          push_cast
          rfl
        rw [h53, ← two_zpow_add]
        refine le_trans a2.le ((two_zpow_le_iff _ _).2 ?_)
        omega
      have hB : (((2 : Int) ^ 52 : Int) : ℚ) ≤ b / two_zpow (f64_ulp_exponent b) := by
        rw [le_div_iff₀ hpb]
        have h52 : ((((2 : Int) ^ 52 : Int) : ℚ)) = two_zpow 52 := by
          rw [show (52 : Int) = ((52 : Nat) : Int) by rfl, two_zpow_nat]
          push_cast
          rfl
        rw [h52, ← two_zpow_add]
        refine le_trans ((two_zpow_le_iff _ _).2 ?_) b1
        omega
      have rA := round_half_even_mono _ _ hA
      have rB := round_half_even_mono _ _ hB
      rw [round_half_even_int] at rA rB
      have rA' : (round_half_even (a / two_zpow (f64_ulp_exponent a)) : ℚ) ≤ two_zpow 53 := by
        rw [show (53 : Int) = ((53 : Nat) : Int) by rfl, two_zpow_nat]
        exact_mod_cast rA
      have rB' : two_zpow 52 ≤ (round_half_even (b / two_zpow (f64_ulp_exponent b)) : ℚ) := by
        rw [show (52 : Int) = ((52 : Nat) : Int) by rfl, two_zpow_nat]
        exact_mod_cast rB
      calc (round_half_even (a / two_zpow (f64_ulp_exponent a)) : ℚ) *
            two_zpow (f64_ulp_exponent a)
          ≤ two_zpow 53 * two_zpow (f64_ulp_exponent a) :=
            mul_le_mul_of_nonneg_right rA' hpa.le
        _ = two_zpow (53 + f64_ulp_exponent a) := (two_zpow_add _ _).symm
        _ ≤ two_zpow (52 + f64_ulp_exponent b) := (two_zpow_le_iff _ _).2 (by omega)
        _ = two_zpow 52 * two_zpow (f64_ulp_exponent b) := two_zpow_add _ _
        _ ≤ (round_half_even (b / two_zpow (f64_ulp_exponent b)) : ℚ) *
            two_zpow (f64_ulp_exponent b) := mul_le_mul_of_nonneg_right rB' hpb.le
    · rw [heq]
      apply mul_le_mul_of_nonneg_right _ hpb.le
      have := round_half_even_mono (a / two_zpow (f64_ulp_exponent b))
        (b / two_zpow (f64_ulp_exponent b)) (div_le_div_of_nonneg_right hab hpb.le)
      exact_mod_cast this


/-! ## The count at a percentile -/

theorem f64_to_s64_of_nonneg (q : ℚ) (hq : 0 ≤ q) : f64_to_s64 q = ⌊q⌋ := by
  unfold f64_to_s64
  rw [Rat.floor_def]
  have hn : 0 ≤ q.num := Rat.num_nonneg.2 hq
  exact Int.tdiv_eq_ediv hn (by positivity)

theorem f64_to_s64_mono (a b : ℚ) (ha : 0 ≤ a) (hab : a ≤ b) : f64_to_s64 a ≤ f64_to_s64 b := by
  rw [f64_to_s64_of_nonneg a ha, f64_to_s64_of_nonneg b (le_trans ha hab)]
  exact Int.floor_mono hab

/-- At the percentile `0` the count is `0`, which `get_value_from_idx_up_to_count` raises
to `1`. -/
theorem count_at_percentile_zero (total_count : Int) : count_at_percentile total_count 0 = 0 := by
  unfold count_at_percentile f64_add f64_mul f64_div
  have e : f64_round ((1 : ℚ) / 2) = 1 / 2 := by
    have := f64_round_add_half 0 le_rfl (by norm_num)
    simpa using this
  simp only [show (0 : ℚ) < 100 by norm_num, if_true, zero_div, f64_round_zero, zero_mul,
    zero_add, e]
  decide!

/-- From the percentile `100` on the count is `total_count`, when this is below `2 ^ 52`. -/
theorem count_at_percentile_hundred (total_count : Int) (p : ℚ) (h0 : 0 ≤ total_count)
    (h1 : total_count < 2 ^ 52) (hp : 100 ≤ p) :
    count_at_percentile total_count p = total_count := by
  unfold count_at_percentile f64_add f64_mul f64_div f64_of_s64
  have e1 : f64_round ((100 : ℚ) / 100) = 1 := by
    have := f64_round_int 1 (by norm_num) (by norm_num)
    simpa using this
  have e2 : f64_round (total_count : ℚ) = total_count :=
    f64_round_int total_count h0 (lt_trans h1 (by norm_num))
  simp only [if_neg (not_lt.2 hp), e1, e2, one_mul, f64_round_add_half total_count h0 h1]
  rw [f64_to_s64_of_nonneg _ (by positivity)]
  rw [Int.floor_eq_iff]
  constructor
  · linarith
  · linarith

/-- The count at a percentile grows with the percentile. -/
theorem count_at_percentile_mono (total_count : Int) (p p' : ℚ) (h0 : 0 ≤ total_count)
    (hp : 0 ≤ p) (hpp : p ≤ p') :
    0 ≤ count_at_percentile total_count p ∧
      count_at_percentile total_count p ≤ count_at_percentile total_count p' := by
  unfold count_at_percentile f64_add f64_mul f64_div f64_of_s64
  simp only
  have hr0 : (0 : ℚ) ≤ (if p < 100 then p else 100) := by
    split_ifs
    · exact hp
    · norm_num
  have hr : (if p < 100 then p else 100) ≤ (if p' < 100 then p' else 100) := by
    split_ifs <;> linarith
  have ht : (0 : ℚ) ≤ f64_round (total_count : ℚ) :=
    f64_round_nonneg _ (by exact_mod_cast h0)
  have d0 : (0 : ℚ) ≤ (if p < 100 then p else 100) / 100 := div_nonneg hr0 (by norm_num)
  have d1 := f64_round_mono _ _ d0 (div_le_div_of_nonneg_right hr (by norm_num : (0 : ℚ) ≤ 100))
  have d2 := f64_round_nonneg _ d0
  have m0 : (0 : ℚ) ≤ f64_round ((if p < 100 then p else 100) / 100) *
      f64_round (total_count : ℚ) := mul_nonneg d2 ht
  have m1 := f64_round_mono _ _ m0 (mul_le_mul_of_nonneg_right d1 ht)
  have m2 := f64_round_nonneg _ m0
  have a0 : (0 : ℚ) ≤ f64_round (f64_round ((if p < 100 then p else 100) / 100) *
      f64_round (total_count : ℚ)) + 1 / 2 := by linarith
  have a1 := f64_round_mono _ _ a0 (add_le_add_right m1 (1 / 2))
  have a2 := f64_round_nonneg _ a0
  refine ⟨?_, f64_to_s64_mono _ _ a2 a1⟩
  rw [f64_to_s64_of_nonneg _ a2]
  exact Int.floor_nonneg.2 a2

/-- For a total below `2 ^ 52` the count at a percentile is at most the total. -/
theorem count_at_percentile_le (total_count : Int) (p : ℚ) (h0 : 0 ≤ total_count)
    (h1 : total_count < 2 ^ 52) (hp : 0 ≤ p) :
    0 ≤ count_at_percentile total_count p ∧ count_at_percentile total_count p ≤ total_count := by
  obtain ⟨c0, c1⟩ := count_at_percentile_mono total_count p (max p 100) h0 hp (le_max_left _ _)
  rw [count_at_percentile_hundred total_count _ h0 h1 (le_max_right _ _)] at c1
  exact ⟨c0, c1⟩


/-! ## The value at a percentile -/

theorem prefix_wrap (h : hdr_histogram) (hc : consistent h) (j : Nat)
    (hj : j < h.counts_len.toNat) :
    wrap64 (sum_counts h.counts j + h.counts j) = sum_counts h.counts (j + 1) := by
  obtain ⟨p0, p1⟩ := consistent_prefix_sum h hc (j + 1) (by omega)
  have ht := hc.total_lt
  have e : sum_counts h.counts (j + 1) = sum_counts h.counts j + h.counts j := rfl
  rw [← e]
  apply wrap64_of_is_s64
  unfold is_s64
  constructor <;> linarith

/-- The loop of `get_value_from_idx_up_to_count` stops at the first slot `k` whose prefix sum
reaches the count looked for. -/
theorem get_value_loop_spec (h : hdr_histogram) (hc : consistent h) (T : Int) (k : Nat)
    (hk : k < h.counts_len.toNat) (h1 : sum_counts h.counts k < T)
    (h2 : T ≤ sum_counts h.counts (k + 1)) (d : Nat) :
    ∀ j n : Nat, j + d = k → d + 1 ≤ n →
      get_value_from_idx_up_to_count_loop h T n j (sum_counts h.counts j) =
        hdr_value_at_index h k := by
  have hnn : ∀ i : Nat, i < h.counts_len.toNat → 0 ≤ h.counts i :=
    fun i hi => hc.counts_nonneg i (by omega) (by omega)
  induction d with
  | zero =>
    intro j n hj hn
    have hjk : j = k := by omega
    subst hjk
    cases n with
    | zero => omega
    | succ n =>
      unfold get_value_from_idx_up_to_count_loop
      simp only [prefix_wrap h hc j hk]
      rw [if_pos h2]
  | succ d ih =>
    intro j n hj hn
    cases n with
    | zero => omega
    | succ n =>
      unfold get_value_from_idx_up_to_count_loop
      simp only [prefix_wrap h hc j (by omega)]
      have hle : sum_counts h.counts (j + 1) ≤ sum_counts h.counts k :=
        sum_counts_mono _ _ _ (by omega) (fun i hi => hnn i (by omega))
      rw [if_neg (by
        show ¬ T ≤ sum_counts h.counts (j + 1)
        linarith)]
      have := ih (j + 1) n (by omega) (by omega)
      push_cast at this
      exact this

theorem get_value_from_idx_up_to_count_spec (h : hdr_histogram) (hc : consistent h) (c : Int)
    (k : Nat) (hk : k < h.counts_len.toNat)
    (h1 : sum_counts h.counts k < (if 0 < c then c else 1))
    (h2 : (if 0 < c then c else 1) ≤ sum_counts h.counts (k + 1)) :
    get_value_from_idx_up_to_count h c = hdr_value_at_index h k := by
  unfold get_value_from_idx_up_to_count
  have := get_value_loop_spec h hc _ k hk h1 h2 k 0 h.counts_len.toNat (by omega) (by omega)
  simpa [sum_counts] using this

/-- When no prefix sum reaches the count looked for, the loop ends with `0`. -/
theorem get_value_loop_none (h : hdr_histogram) (hc : consistent h) (T : Int)
    (hT : h.total_count < T) (n : Nat) :
    ∀ j : Nat, j + n ≤ h.counts_len.toNat →
      get_value_from_idx_up_to_count_loop h T n j (sum_counts h.counts j) = 0 := by
  induction n with
  | zero => intro j _; rfl
  | succ n ih =>
    intro j hj
    unfold get_value_from_idx_up_to_count_loop
    simp only [prefix_wrap h hc j (by omega)]
    obtain ⟨-, p1⟩ := consistent_prefix_sum h hc (j + 1) (by omega)
    rw [if_neg (by
      show ¬ T ≤ sum_counts h.counts (j + 1)
      linarith)]
    have := ih (j + 1) (by omega)
    push_cast at this
    exact this

/-- The value at a percentile, when slot `k` is the first whose prefix sum reaches the
count at the percentile. -/
theorem hdr_value_at_percentile_of_slot (h : hdr_histogram) (hc : consistent h) (p : ℚ)
    (k : Nat) (hk : k < h.counts_len.toNat)
    (h1 : sum_counts h.counts k <
      (if 0 < count_at_percentile h.total_count p then count_at_percentile h.total_count p
        else 1))
    (h2 : (if 0 < count_at_percentile h.total_count p then count_at_percentile h.total_count p
        else 1) ≤ sum_counts h.counts (k + 1)) :
    hdr_value_at_percentile h p =
      if p = 0 then lowest_equivalent_value h (hdr_value_at_index h k)
      else highest_equivalent_value h (hdr_value_at_index h k) := by
  unfold hdr_value_at_percentile
  simp only [get_value_from_idx_up_to_count_spec h hc _ k hk h1 h2]

theorem sum_counts_eq_of_zero (c : Int → Int) (m n : Nat) (hmn : m ≤ n)
    (hz : ∀ j : Nat, m ≤ j → j < n → c j = 0) : sum_counts c n = sum_counts c m := by
  induction n with
  | zero =>
    have : m = 0 := by omega
    rw [this]
  | succ n ih =>
    rcases Nat.eq_or_lt_of_le hmn with heq | hlt
    · rw [heq]
    · have e : sum_counts c (n + 1) = sum_counts c n + c n := rfl
      rw [e, hz n (by omega) (by omega), add_zero]
      exact ih (by omega) (fun j h1 h2 => hz j h1 (by omega))

/-- Below the slot of the least value of the support every counter is zero. -/
theorem prefix_zero_of_min (h : hdr_histogram) (um hm bc : Nat) (hl : layout h um hm bc)
    (l : List (Int × Int))
    (hsupp : ∀ i : Int, h.counts i ≠ 0 → ∃ x ∈ l, counts_index_for h x.1 = i)
    (hv : ∀ x ∈ l, x.1 < 2 ^ 63) (m : Int) (hm0 : 0 ≤ m) (hmin : ∀ x ∈ l, m ≤ x.1) :
    sum_counts h.counts (counts_index_for h m).toNat = 0 := by
  apply sum_counts_eq_zero
  intro j hj
  by_contra hne
  obtain ⟨x, hx, hxi⟩ := hsupp j hne
  have := counts_index_for_mono h um hm bc hl m x.1 hm0 (hmin x hx) (hv x hx)
  omega

/-- Through the slot of the greatest value of the support the counters sum to the total. -/
theorem prefix_total_of_max (h : hdr_histogram) (hc : consistent h) (um hm bc : Nat)
    (hl : layout h um hm bc) (l : List (Int × Int))
    (hsupp : ∀ i : Int, h.counts i ≠ 0 → ∃ x ∈ l, counts_index_for h x.1 = i)
    (hv : ∀ x ∈ l, 0 ≤ x.1) (M : Int) (hM : M < 2 ^ 63) (hmax : ∀ x ∈ l, x.1 ≤ M)
    (hi0 : 0 ≤ counts_index_for h M) (hi1 : counts_index_for h M < h.counts_len) :
    sum_counts h.counts ((counts_index_for h M).toNat + 1) = h.total_count := by
  rw [hc.total_eq]
  unfold counts_sum
  symm
  apply sum_counts_eq_of_zero _ _ _ (by omega)
  intro j hj1 hj2
  by_contra hne
  obtain ⟨x, hx, hxi⟩ := hsupp j hne
  have := counts_index_for_mono h um hm bc hl x.1 M (hv x hx) (hmax x hx) hM
  omega


/-- The slots of a histogram built from a fresh one by successful recordings with counts
`≥ 1`: every recorded value has a slot with a counter `≥ 1`, and every non-zero counter is the
slot of a recorded value. -/
theorem built_slots (log2_f64 : Int → ℚ) (hlog : ∀ x : Int, 1 ≤ x → 0 ≤ log2_f64 x)
    (lowest highest sf : Int) (cfg : hdr_histogram_bucket_config) (hhi : highest < 2 ^ 63)
    (hcfg : hdr_calculate_bucket_config log2_f64 lowest highest sf = .ok cfg)
    (l : List (Int × Int)) (hvals : ∀ x ∈ l, x.1 < 2 ^ 63) (hcounts : ∀ x ∈ l, 1 ≤ x.2)
    (hs : records_succeed (fresh cfg) l) (hsum : list_count_sum l < 2 ^ 63) :
    ∃ um hm bc : Nat, layout (record_list (fresh cfg) l) um hm bc ∧
      highest < 2 ^ (um + hm + bc) ∧
      consistent (record_list (fresh cfg) l) ∧
      (record_list (fresh cfg) l).total_count = list_count_sum l ∧
      (∀ x ∈ l, 0 ≤ x.1 ∧ x.1 < 2 ^ (um + hm + bc) ∧
        0 ≤ counts_index_for (record_list (fresh cfg) l) x.1 ∧
        counts_index_for (record_list (fresh cfg) l) x.1 < (record_list (fresh cfg) l).counts_len ∧
        1 ≤ (record_list (fresh cfg) l).counts
          (counts_index_for (record_list (fresh cfg) l) x.1)) ∧
      (∀ i : Int, (record_list (fresh cfg) l).counts i ≠ 0 →
        ∃ x ∈ l, counts_index_for (record_list (fresh cfg) l) x.1 = i) := by
  have hc0 : ∀ x ∈ l, 0 ≤ x.2 := fun x hx => by have := hcounts x hx; omega
  obtain ⟨c1, c2, c3, -, c5⟩ := built_spec log2_f64 hlog lowest highest sf cfg hhi hcfg l hc0 hsum
  obtain ⟨um, hm, bc, hl, hhigh, -⟩ :=
    layout_of_accepted log2_f64 hlog lowest highest sf cfg hhi hcfg _ c2
  obtain ⟨e1, e2, -⟩ := of_config_same_slots cfg (fresh cfg) _ (of_config_fresh cfg) c2
  have hf := records_succeed_forall l (fresh cfg) rfl hs
  refine ⟨um, hm, bc, hl, hhigh, c1, c5 hs, ?_, ?_⟩
  · intro x hx
    obtain ⟨x0, x1, x2⟩ := hf x hx
    rw [e2] at x1 x2
    rw [e1] at x2
    have hlt := (counts_index_for_lt_iff _ um hm bc hl x.1 x0 (hvals x hx)).2.1 x2
    refine ⟨x0, hlt, x1, x2, ?_⟩
    have hpos := (list_count_at_pos_iff (record_list (fresh cfg) l)
      (counts_index_for (record_list (fresh cfg) l) x.1) l hcounts).2 ⟨x, hx, x0, rfl, x1, x2⟩
    rw [c3]
    omega
  · intro i hne
    rw [c3] at hne
    have hnn := list_count_at_nonneg (record_list (fresh cfg) l) i l hc0
    obtain ⟨x, hx, -, hxi, -⟩ := (list_count_at_pos_iff (record_list (fresh cfg) l) i l
      hcounts).1 (by omega)
    exact ⟨x, hx, hxi⟩

/-- C12. For every accepted configuration and every non-empty sequence of successful
recordings of 64-bit values with counts `≥ 1` into a fresh histogram (the counts summing to
less than `2 ^ 63`), `hdr_value_at_percentile(h, 0)` equals `lowest_equivalent_value(m)`,
where `m` is the least value recorded, zero included. -/
theorem C12_percentile_zero_is_lowest_of_min (log2_f64 : Int → ℚ) (lowest highest sf : Int)
    (cfg : hdr_histogram_bucket_config) (l : List (Int × Int)) (m : Int)
    (hlog : ∀ x : Int, 1 ≤ x → 0 ≤ log2_f64 x) (hhi : is_s64 highest)
    (hcfg : hdr_calculate_bucket_config log2_f64 lowest highest sf = .ok cfg)
    (hvals : ∀ x ∈ l, is_s64 x.1) (hcounts : ∀ x ∈ l, 1 ≤ x.2)
    (hs : records_succeed (fresh cfg) l) (hsum : list_count_sum l < 2 ^ 63)
    (hmem : ∃ x ∈ l, x.1 = m) (hmin : ∀ x ∈ l, m ≤ x.1) :
    hdr_value_at_percentile (record_list (fresh cfg) l) 0 =
      lowest_equivalent_value (record_list (fresh cfg) l) m := by
  obtain ⟨um, hm, bc, hl, -, hc, -, hslots, hsupp⟩ :=
    built_slots log2_f64 hlog lowest highest sf cfg hhi.2 hcfg l (fun x hx => (hvals x hx).2)
      hcounts hs hsum
  obtain ⟨x, hx, rfl⟩ := hmem
  obtain ⟨x0, x1, x2, x3, x4⟩ := hslots x hx
  have hz := prefix_zero_of_min _ um hm bc hl l hsupp (fun y hy => (hvals y hy).2) x.1 x0 hmin
  have hk : (counts_index_for (record_list (fresh cfg) l) x.1).toNat <
      (record_list (fresh cfg) l).counts_len.toNat := by omega
  have hcast : (((counts_index_for (record_list (fresh cfg) l) x.1).toNat : Nat) : Int) =
      counts_index_for (record_list (fresh cfg) l) x.1 := Int.toNat_of_nonneg x2
  have hnext : sum_counts (record_list (fresh cfg) l).counts
      ((counts_index_for (record_list (fresh cfg) l) x.1).toNat + 1) =
      (record_list (fresh cfg) l).counts (counts_index_for (record_list (fresh cfg) l) x.1) := by
    show sum_counts _ _ + _ = _
    rw [hz, zero_add, hcast]
  rw [hdr_value_at_percentile_of_slot _ hc 0 _ hk
    (by rw [count_at_percentile_zero, hz]; norm_num)
    (by rw [count_at_percentile_zero, hnext]; simpa using x4)]
  rw [if_pos rfl, hcast, hdr_value_at_index_counts_index_for _ um hm bc hl x.1 x0 x1]
  exact (highest_equivalent_value_lowest _ um hm bc hl x.1 x0 (hvals x hx).2).2

theorem C12_percentile_zero_is_lowest_of_min_witness :
    hdr_value_at_percentile (record_list (fresh small_config) [(1000, 2), (70, 1), (500, 3)]) 0 =
        lowest_equivalent_value (record_list (fresh small_config) [(1000, 2), (70, 1), (500, 3)])
          70 ∧
      hdr_value_at_percentile (record_list (fresh small_config) [(1000, 2), (70, 1), (500, 3)])
        0 = 68 :=
  ⟨C12_percentile_zero_is_lowest_of_min log2_floor 1 2000 1 small_config
      [(1000, 2), (70, 1), (500, 3)] 70 log2_floor_nonneg (by decide) small_config_accepted
      (by decide) (by decide) (by decide!) (by decide) (by decide) (by decide),
    by decide!⟩


/-- The claim C13 as the specification states it fails once `total_count` exceeds `2 ^ 52`:
with the value `1` recorded `2 ^ 52 + 1` times in the configuration `(1, 2000, 1)`, the double
`1.0 * 4503599627370497 + 0.5` rounds to `4503599627370498`, a count that no prefix of the
counters reaches, so `get_value_from_idx_up_to_count` returns `0` and
`hdr_value_at_percentile(h, 100)` is `0`, not `highest_equivalent_value(1) = 1`. -/
theorem C13_counterexample :
    hdr_calculate_bucket_config log2_floor 1 2000 1 = .ok small_config ∧
      records_succeed (fresh small_config) [(1, 4503599627370497)] ∧
      (record_list (fresh small_config) [(1, 4503599627370497)]).total_count =
        4503599627370497 ∧
      count_at_percentile 4503599627370497 100 = 4503599627370498 ∧
      hdr_value_at_percentile (record_list (fresh small_config) [(1, 4503599627370497)]) 100 =
        0 ∧
      highest_equivalent_value (record_list (fresh small_config) [(1, 4503599627370497)]) 1 =
        1 ∧
      hdr_value_at_percentile (record_list (fresh small_config) [(1, 4503599627370497)]) 100 ≠
        highest_equivalent_value (record_list (fresh small_config) [(1, 4503599627370497)]) 1 :=
  ⟨small_config_accepted, by decide!, by decide!, by decide!, by decide!, by decide!,
    by decide!⟩

/-- C13, amended. For every accepted configuration and every non-empty sequence of
successful recordings of 64-bit values with counts `≥ 1` into a fresh histogram, the counts
summing to less than `2 ^ 52`, `hdr_value_at_percentile(h, 100)` equals
`highest_equivalent_value(M)`, where `M` is the greatest value recorded. -/
theorem C13_percentile_hundred_is_highest_of_max (log2_f64 : Int → ℚ)
    (lowest highest sf : Int) (cfg : hdr_histogram_bucket_config) (l : List (Int × Int))
    (M : Int) (hlog : ∀ x : Int, 1 ≤ x → 0 ≤ log2_f64 x) (hhi : is_s64 highest)
    (hcfg : hdr_calculate_bucket_config log2_f64 lowest highest sf = .ok cfg)
    (hvals : ∀ x ∈ l, is_s64 x.1) (hcounts : ∀ x ∈ l, 1 ≤ x.2)
    (hs : records_succeed (fresh cfg) l) (hsum : list_count_sum l < 2 ^ 52)
    (hmem : ∃ x ∈ l, x.1 = M) (hmax : ∀ x ∈ l, x.1 ≤ M) :
    hdr_value_at_percentile (record_list (fresh cfg) l) 100 =
      highest_equivalent_value (record_list (fresh cfg) l) M := by
  obtain ⟨um, hm, bc, hl, -, hc, htot, hslots, hsupp⟩ :=
    built_slots log2_f64 hlog lowest highest sf cfg hhi.2 hcfg l (fun x hx => (hvals x hx).2)
      hcounts hs (lt_trans hsum (by norm_num))
  obtain ⟨x, hx, rfl⟩ := hmem
  obtain ⟨x0, x1, x2, x3, x4⟩ := hslots x hx
  have hfull := prefix_total_of_max _ hc um hm bc hl l hsupp (fun y hy => (hslots y hy).1) x.1
    (hvals x hx).2 hmax x2 x3
  have hk : (counts_index_for (record_list (fresh cfg) l) x.1).toNat <
      (record_list (fresh cfg) l).counts_len.toNat := by omega
  have hcast : (((counts_index_for (record_list (fresh cfg) l) x.1).toNat : Nat) : Int) =
      counts_index_for (record_list (fresh cfg) l) x.1 := Int.toNat_of_nonneg x2
  have hstep : sum_counts (record_list (fresh cfg) l).counts
        ((counts_index_for (record_list (fresh cfg) l) x.1).toNat + 1) =
      sum_counts (record_list (fresh cfg) l).counts
          (counts_index_for (record_list (fresh cfg) l) x.1).toNat +
        (record_list (fresh cfg) l).counts (counts_index_for (record_list (fresh cfg) l) x.1) := by
    show sum_counts _ _ + _ = _
    rw [hcast]
  have ht1 : 1 ≤ (record_list (fresh cfg) l).total_count := by
    have := (consistent_counts_le_total _ hc _ x2 x3).2
    omega
  have hcap : count_at_percentile (record_list (fresh cfg) l).total_count 100 =
      (record_list (fresh cfg) l).total_count :=
    count_at_percentile_hundred _ 100 (by omega) (by rw [htot]; exact hsum) le_rfl
  rw [hdr_value_at_percentile_of_slot _ hc 100 _ hk
    (by rw [hcap, if_pos (by omega)]; omega)
    (by rw [hcap, if_pos (by omega), hfull])]
  rw [if_neg (by norm_num), hcast, hdr_value_at_index_counts_index_for _ um hm bc hl x.1 x0 x1]
  exact (highest_equivalent_value_lowest _ um hm bc hl x.1 x0 (hvals x hx).2).1

theorem C13_percentile_hundred_is_highest_of_max_witness :
    hdr_value_at_percentile (record_list (fresh small_config) [(1000, 2), (70, 1), (500, 3)])
        100 =
        highest_equivalent_value
          (record_list (fresh small_config) [(1000, 2), (70, 1), (500, 3)]) 1000 ∧
      hdr_value_at_percentile (record_list (fresh small_config) [(1000, 2), (70, 1), (500, 3)])
        100 = 1023 :=
  ⟨C13_percentile_hundred_is_highest_of_max log2_floor 1 2000 1 small_config
      [(1000, 2), (70, 1), (500, 3)] 1000 log2_floor_nonneg (by decide) small_config_accepted
      (by decide) (by decide) (by decide!) (by decide) (by decide) (by decide),
    by decide!⟩

/-- The claim C14 as the specification states it fails once the count exceeds `2 ^ 52`:
with the value `1000` recorded `2 ^ 52 + 1` times in the configuration `(1, 2000, 1)`,
`hdr_value_at_percentile(h, 100)` is `0`, outside the equivalence range `[992, 1023]`
of `1000`. -/
theorem C14_counterexample :
    hdr_calculate_bucket_config log2_floor 1 2000 1 = .ok small_config ∧
      (hdr_record_values (fresh small_config) 1000 4503599627370497).1 = true ∧
      lowest_equivalent_value (hdr_record_values (fresh small_config) 1000 4503599627370497).2
        1000 = 992 ∧
      highest_equivalent_value (hdr_record_values (fresh small_config) 1000 4503599627370497).2
        1000 = 1023 ∧
      hdr_value_at_percentile (hdr_record_values (fresh small_config) 1000 4503599627370497).2
        100 = 0 :=
  ⟨small_config_accepted, by decide!, by decide!, by decide!, by decide!⟩

/-- The percentiles of a histogram with one recording. -/
theorem single_recording_percentiles (log2_f64 : Int → ℚ) (lowest highest sf : Int)
    (cfg : hdr_histogram_bucket_config) (v c : Int) (p : ℚ)
    (hlog : ∀ x : Int, 1 ≤ x → 0 ≤ log2_f64 x) (hhi : is_s64 highest)
    (hcfg : hdr_calculate_bucket_config log2_f64 lowest highest sf = .ok cfg)
    (hv0 : 0 ≤ v) (hv1 : v ≤ highest) (hc1 : 1 ≤ c) (hc2 : c < 2 ^ 52)
    (hp0 : 0 ≤ p) :
    lowest_equivalent_value (record_list (fresh cfg) [(v, c)]) v ≤
        hdr_value_at_percentile (record_list (fresh cfg) [(v, c)]) p ∧
      hdr_value_at_percentile (record_list (fresh cfg) [(v, c)]) p ≤
        highest_equivalent_value (record_list (fresh cfg) [(v, c)]) v ∧
      hdr_value_at_percentile (record_list (fresh cfg) [(v, c)]) p =
        (if p = 0 then lowest_equivalent_value (record_list (fresh cfg) [(v, c)]) v
          else highest_equivalent_value (record_list (fresh cfg) [(v, c)]) v) := by
  have hv63 : v < 2 ^ 63 := lt_of_le_of_lt hv1 hhi.2
  obtain ⟨um0, hm0, bc0, hl0, hhigh0, -⟩ :=
    layout_of_accepted log2_f64 hlog lowest highest sf cfg hhi.2 hcfg (fresh cfg)
      (of_config_fresh cfg)
  have hacc : (hdr_record_values (fresh cfg) v c).1 = true :=
    (record_accepted_iff (fresh cfg) um0 hm0 bc0 hl0 v c hv0 hv63).2 (by linarith)
  have hs : records_succeed (fresh cfg) [(v, c)] := ⟨hacc, trivial⟩
  have hsum : list_count_sum [(v, c)] = c := by simp [list_count_sum]
  obtain ⟨um, hm, bc, hl, -, hc, htot, hslots, hsupp⟩ :=
    built_slots log2_f64 hlog lowest highest sf cfg hhi.2 hcfg [(v, c)]
      (fun x hx => by simp at hx; rw [hx]; exact hv63)
      (fun x hx => by simp at hx; rw [hx]; exact hc1) hs
      (by rw [hsum]; exact lt_trans hc2 (by norm_num))
  rw [hsum] at htot
  obtain ⟨x0, x1, x2, x3, x4⟩ := hslots (v, c) (List.mem_singleton.2 rfl)
  simp only at x0 x1 x2 x3 x4
  have hz := prefix_zero_of_min _ um hm bc hl [(v, c)] hsupp
    (fun x hx => by simp at hx; rw [hx]; exact hv63) v hv0
    (fun x hx => by simp at hx; rw [hx])
  have hfull := prefix_total_of_max _ hc um hm bc hl [(v, c)] hsupp
    (fun x hx => by simp at hx; rw [hx]; exact hv0) v hv63
    (fun x hx => by simp at hx; rw [hx]) x2 x3
  have hk : (counts_index_for (record_list (fresh cfg) [(v, c)]) v).toNat <
      (record_list (fresh cfg) [(v, c)]).counts_len.toNat := by omega
  have hcast : (((counts_index_for (record_list (fresh cfg) [(v, c)]) v).toNat : Nat) : Int) =
      counts_index_for (record_list (fresh cfg) [(v, c)]) v := Int.toNat_of_nonneg x2
  obtain ⟨t0, t1⟩ := count_at_percentile_le (record_list (fresh cfg) [(v, c)]).total_count p
    (by rw [htot]; omega) (by rw [htot]; exact hc2) hp0
  have hres := hdr_value_at_percentile_of_slot _ hc p _ hk
    (by rw [hz]; split_ifs <;> omega)
    (by rw [hfull]; split_ifs <;> omega)
  rw [hcast, hdr_value_at_index_counts_index_for _ um hm bc hl v hv0 x1] at hres
  obtain ⟨e1, e2⟩ := highest_equivalent_value_lowest _ um hm bc hl v hv0 hv63
  rw [e1, e2] at hres
  obtain ⟨s0, s1, s2, -, -⟩ := value_in_slot _ um hm bc hl v hv0 hv63
  have hhe := highest_equivalent_value_eq _ um hm bc hl v hv0 hv63
  refine ⟨?_, ?_, hres⟩
  · rw [hres]
    split_ifs
    · exact le_rfl
    · omega
  · rw [hres]
    split_ifs
    · omega
    · exact le_rfl

/-- C14, amended. For every accepted configuration, every `v` in
`[0, highest_trackable_value]` and every count `c` with `1 ≤ c < 2 ^ 52`: in the histogram
whose only recording is `(v, c)`, for every percentile `p ≥ 0`, in particular for
`0 ≤ p ≤ 100`, `hdr_value_at_percentile(h, p)` lies in
`[lowest_equivalent_value(v), highest_equivalent_value(v)]`; it is the lower end for `p = 0`
and the upper end otherwise. -/
theorem C14_single_recording_percentiles (log2_f64 : Int → ℚ) (lowest highest sf : Int)
    (cfg : hdr_histogram_bucket_config) (v c : Int) (p : ℚ)
    (hlog : ∀ x : Int, 1 ≤ x → 0 ≤ log2_f64 x) (hhi : is_s64 highest)
    (hcfg : hdr_calculate_bucket_config log2_f64 lowest highest sf = .ok cfg)
    (hv0 : 0 ≤ v) (hv1 : v ≤ highest) (hc1 : 1 ≤ c) (hc2 : c < 2 ^ 52)
    (hp0 : 0 ≤ p) :
    lowest_equivalent_value (hdr_record_values (fresh cfg) v c).2 v ≤
        hdr_value_at_percentile (hdr_record_values (fresh cfg) v c).2 p ∧
      hdr_value_at_percentile (hdr_record_values (fresh cfg) v c).2 p ≤
        highest_equivalent_value (hdr_record_values (fresh cfg) v c).2 v ∧
      hdr_value_at_percentile (hdr_record_values (fresh cfg) v c).2 p =
        (if p = 0 then lowest_equivalent_value (hdr_record_values (fresh cfg) v c).2 v
          else highest_equivalent_value (hdr_record_values (fresh cfg) v c).2 v) :=
  single_recording_percentiles log2_f64 lowest highest sf cfg v c p hlog hhi hcfg hv0 hv1 hc1
    hc2 hp0

theorem C14_single_recording_percentiles_witness :
    (lowest_equivalent_value (hdr_record_values (fresh example_config) 100 1).2 100 ≤
        hdr_value_at_percentile (hdr_record_values (fresh example_config) 100 1).2 50 ∧
      hdr_value_at_percentile (hdr_record_values (fresh example_config) 100 1).2 50 ≤
        highest_equivalent_value (hdr_record_values (fresh example_config) 100 1).2 100 ∧
      hdr_value_at_percentile (hdr_record_values (fresh example_config) 100 1).2 50 =
        (if (50 : ℚ) = 0
          then lowest_equivalent_value (hdr_record_values (fresh example_config) 100 1).2 100
          else highest_equivalent_value (hdr_record_values (fresh example_config) 100 1).2
            100)) ∧
      hdr_count_at_value (hdr_record_values (fresh example_config) 100 1).2 100 = 1 ∧
      hdr_value_at_percentile (hdr_record_values (fresh example_config) 100 1).2 50 = 100 :=
  ⟨C14_single_recording_percentiles log2_floor 1 3600000000 3 example_config 100 1 50
      log2_floor_nonneg (by decide) example_config_accepted (by decide) (by decide) (by decide)
      (by decide) (by norm_num),
    by decide!, by decide!⟩


/-! ## The values at several percentiles -/

/-- A call of `hdr_iter_next` on an all-values iterator that stands before slot `k`. -/
theorem hdr_iter_next_all_values (h : hdr_histogram) (hc : consistent h) (k : Nat)
    (hk : k ≤ h.counts_len.toNat) (iter : hdr_iter) (hat : all_values_iter_at h k iter) :
    (k < h.counts_len.toNat →
      (hdr_iter_next iter).1 = true ∧ all_values_iter_at h (k + 1) (hdr_iter_next iter).2 ∧
        (hdr_iter_next iter).2.count = h.counts k ∧
        (hdr_iter_next iter).2.value = hdr_value_at_index h k) ∧
      (k = h.counts_len.toNat → (hdr_iter_next iter).1 = false) := by
  obtain ⟨a1, a2, a3⟩ := hat
  have hlen0 := hc.len_nonneg
  have hlen := hc.len_lt
  have hw : wrap32 (iter.counts_index + 1) = (k : Int) := by
    rw [a3, sub_add_cancel]
    apply wrap32_of_is_s32
    unfold is_s32
    constructor <;> omega
  have e : hdr_iter_next iter = all_values_iter_next iter := by
    unfold hdr_iter_next
    rw [a2]
  rw [e]
  unfold all_values_iter_next move_next
  simp only [hw]
  constructor
  · intro hlt
    have hbk : has_buckets { iter with counts_index := (k : Int) } = true := by
      unfold has_buckets
      apply decide_eq_true
      show (k : Int) < iter.h.counts_len
      rw [a1]
      omega
    simp only [hbk, Bool.not_true, Bool.false_eq_true, if_false, if_true]
    refine ⟨trivial, ⟨a1, a2, ?_⟩, ?_, ?_⟩
    · show (k : Int) = ((k + 1 : Nat) : Int) - 1
      push_cast
      ring
    · show counts_get_normalised iter.h k = h.counts k
      unfold counts_get_normalised counts_get_direct
      rw [normalize_index_of_offset_zero _ _ (by rw [a1]; exact hc.offset_eq), a1]
    · show hdr_value_at_index iter.h k = hdr_value_at_index h k
      rw [a1]
  · intro heq
    have hbk : has_buckets { iter with counts_index := (k : Int) } = false := by
      unfold has_buckets
      apply decide_eq_false
      show ¬ (k : Int) < iter.h.counts_len
      rw [a1]
      omega
    simp only [hbk, Bool.not_false, if_true, Bool.false_eq_true, if_false]

/-- The first loop of `hdr_value_at_percentiles` stores the count looked for at each of the
first `n` percentiles and leaves the rest of `values` alone. -/
theorem hdr_value_at_percentiles_counts_loop_spec (total_count : Int) (percentiles : Nat → ℚ)
    (values : Nat → Int) (n : Nat) :
    ∀ i : Nat,
      hdr_value_at_percentiles_counts_loop total_count percentiles n values i =
        if i < n then
          (if count_at_percentile total_count (percentiles i) > 1
            then count_at_percentile total_count (percentiles i) else 1)
        else values i := by
  induction n with
  | zero => intro i; simp [hdr_value_at_percentiles_counts_loop]
  | succ n ih =>
    intro i
    unfold hdr_value_at_percentiles_counts_loop
    simp only
    by_cases hi : i = n
    · subst hi
      have h1 : i < i + 1 := by omega
      simp only [Function.update_same, h1, if_true]
    · rw [Function.update_noteq hi, ih i]
      by_cases hlt : i < n
      · have h1 : i < n + 1 := by omega
        simp only [hlt, h1, if_true]
      · have h1 : ¬ i < n + 1 := by omega
        simp only [hlt, h1, if_false]

/-- The inner loop of `hdr_value_at_percentiles`: it resolves the positions from `at_pos` on
whose count the running total has reached, and stops at the first one it has not. -/
theorem hdr_value_at_percentiles_fill_loop_spec (h : hdr_histogram) (length : Nat)
    (total value : Int) (T : Nat → Int) (fuel : Nat) :
    ∀ (values : Nat → Int) (at_pos : Nat), length - at_pos ≤ fuel →
      (∀ j : Nat, at_pos ≤ j → j < length → values j = T j) →
      at_pos ≤ (hdr_value_at_percentiles_fill_loop h length total value fuel values at_pos).2 ∧
        (∀ j : Nat, at_pos ≤ j →
          j < (hdr_value_at_percentiles_fill_loop h length total value fuel values at_pos).2 →
          j < length ∧ T j ≤ total ∧
            (hdr_value_at_percentiles_fill_loop h length total value fuel values at_pos).1 j =
              highest_equivalent_value h value) ∧
        (∀ j : Nat, (j < at_pos ∨
            (hdr_value_at_percentiles_fill_loop h length total value fuel values at_pos).2 ≤ j) →
          (hdr_value_at_percentiles_fill_loop h length total value fuel values at_pos).1 j =
            values j) ∧
        ((hdr_value_at_percentiles_fill_loop h length total value fuel values at_pos).2 <
            length →
          total <
            T (hdr_value_at_percentiles_fill_loop h length total value fuel values at_pos).2) := by
  induction fuel with
  | zero =>
    intro values at_pos hfuel _
    unfold hdr_value_at_percentiles_fill_loop
    refine ⟨le_rfl, ?_, fun _ _ => rfl, ?_⟩
    · intro j h1 h2
      simp only at h2
      omega
    · intro h1
      simp only at h1
      omega
  | succ fuel ih =>
    intro values at_pos hfuel hb
    unfold hdr_value_at_percentiles_fill_loop
    by_cases hcond : at_pos < length ∧ total ≥ values at_pos
    · rw [if_pos hcond]
      obtain ⟨hlt, hge⟩ := hcond
      obtain ⟨r1, r2, r3, r4⟩ := ih
        (Function.update values at_pos (highest_equivalent_value h value)) (at_pos + 1)
        (by omega)
        (fun j h1 h2 => by
          rw [Function.update_noteq (by omega)]
          exact hb j (by omega) h2)
      refine ⟨by omega, ?_, ?_, r4⟩
      · intro j h1 h2
        by_cases hj : j = at_pos
        · subst hj
          refine ⟨hlt, ?_, ?_⟩
          · rw [← hb j le_rfl hlt]
            exact hge
          · rw [r3 j (Or.inl (by omega)), Function.update_same]
        · exact r2 j (by omega) h2
      · intro j hj
        rcases hj with hj | hj
        · rw [r3 j (Or.inl (by omega)), Function.update_noteq (by omega)]
        · rw [r3 j (Or.inr hj), Function.update_noteq (by omega)]
    · rw [if_neg hcond]
      refine ⟨le_rfl, ?_, fun _ _ => rfl, ?_⟩
      · intro j h1 h2
        simp only at h2
        omega
      · intro h1
        simp only at h1 ⊢
        rw [← hb at_pos le_rfl h1]
        by_contra hn
        exact hcond ⟨h1, not_lt.1 hn⟩


/-- The outer loop of `hdr_value_at_percentiles` over a consistent histogram, started before
slot `k` with the prefix sum of the slots before `k` as running total: a position `i` whose
count `T i` is at least every earlier count and at most `total_count` ends with the highest
equivalent value of the value that `get_value_from_idx_up_to_count` finds for `T i`. -/
theorem hdr_value_at_percentiles_loop_spec (h : hdr_histogram) (hc : consistent h)
    (length : Nat) (T : Nat → Int) (i : Nat) (hi : i < length)
    (hgood : ∀ j : Nat, j < i → T j ≤ T i) (hle : T i ≤ h.total_count) (d : Nat) :
    ∀ (k : Nat) (iter : hdr_iter) (at_pos : Nat) (values : Nat → Int) (fuel : Nat),
      k + d = h.counts_len.toNat → d + 1 ≤ fuel → all_values_iter_at h k iter →
      (∀ j : Nat, at_pos ≤ j → j < length → values j = T j) →
      (at_pos < length → sum_counts h.counts k < T at_pos) →
      (i < at_pos →
        values i = highest_equivalent_value h (get_value_from_idx_up_to_count h (T i))) →
      hdr_value_at_percentiles_loop h length fuel iter (sum_counts h.counts k) at_pos values i =
        highest_equivalent_value h (get_value_from_idx_up_to_count h (T i)) := by
  induction d with
  | zero =>
    intro k iter at_pos values fuel hk hfuel hat hb hd hcc
    obtain ⟨-, n2⟩ := hdr_iter_next_all_values h hc k (by omega) iter hat
    cases fuel with
    | zero => omega
    | succ fuel =>
      unfold hdr_value_at_percentiles_loop
      simp only [n2 (by omega), Bool.false_eq_true, false_and, if_false]
      by_cases hia : i < at_pos
      · exact hcc hia
      · exfalso
        have h1 := hd (by omega)
        have h2 : T at_pos ≤ T i := by
          rcases Nat.eq_or_lt_of_le (not_lt.1 hia) with heq | hlt
          · rw [heq]
          · exact hgood at_pos hlt
        have h3 : sum_counts h.counts k = h.total_count := by
          rw [hc.total_eq]
          unfold counts_sum
          rw [← hk, add_zero]
        omega
  | succ d ih =>
    intro k iter at_pos values fuel hk hfuel hat hb hd hcc
    obtain ⟨n1, -⟩ := hdr_iter_next_all_values h hc k (by omega) iter hat
    obtain ⟨m1, m2, m3, m4⟩ := n1 (by omega)
    cases fuel with
    | zero => omega
    | succ fuel =>
      unfold hdr_value_at_percentiles_loop
      by_cases hpos : at_pos < length
      · simp only [m1, hpos, and_self, if_true, m3, m4, prefix_wrap h hc k (by omega)]
        obtain ⟨f1, f2, f3, f4⟩ := hdr_value_at_percentiles_fill_loop_spec h length
          (sum_counts h.counts (k + 1)) (hdr_value_at_index h k) T (length - at_pos) values at_pos
          le_rfl hb
        apply ih (k + 1) _ _ _ fuel (by omega) (by omega) m2
        · intro j h1 h2
          rw [f3 j (Or.inr h1)]
          exact hb j (by omega) h2
        · exact f4
        · intro hlt
          by_cases hia : i < at_pos
          · rw [f3 i (Or.inl hia)]
            exact hcc hia
          · obtain ⟨-, g2, g3⟩ := f2 i (by omega) hlt
            rw [g3]
            have h1 := hd hpos
            have h2 : T at_pos ≤ T i := by
              rcases Nat.eq_or_lt_of_le (not_lt.1 hia) with heq | hlt'
              · rw [heq]
              · exact hgood at_pos hlt'
            obtain ⟨p0, -⟩ := consistent_prefix_sum h hc k (by omega)
            have hTi : (if 0 < T i then T i else 1) = T i := by
              rw [if_pos (by omega)]
            rw [get_value_from_idx_up_to_count_spec h hc (T i) k (by omega)
              (by rw [hTi]; omega) (by rw [hTi]; exact g2)]
      · have hcond : ¬ ((hdr_iter_next iter).1 = true ∧ at_pos < length) := fun hx => hpos hx.2
        simp only [hcond, if_false]
        exact hcc (by omega)

/-- The value that `get_value_from_idx_up_to_count` finds only depends on the count raised
to at least `1`. -/
theorem get_value_from_idx_up_to_count_floor (h : hdr_histogram) (c : Int) :
    get_value_from_idx_up_to_count h (if c > 1 then c else 1) =
      get_value_from_idx_up_to_count h c := by
  unfold get_value_from_idx_up_to_count
  have e : (if 0 < (if c > 1 then c else 1) then (if c > 1 then c else 1) else 1) =
      (if 0 < c then c else 1) := by
    split_ifs <;> omega
  simp only [e]

/-- The batch form agrees with the single form at every position whose percentile is not
`0`, whose count is at least every earlier count and at most `total_count`. -/
theorem hdr_value_at_percentiles_entry (iter : hdr_iter) (h : hdr_histogram)
    (hc : consistent h) (percentiles : Nat → ℚ) (values : Nat → Int) (length i : Nat)
    (hi : i < length) (hp : percentiles i ≠ 0)
    (hgood : ∀ j : Nat, j < i →
      count_at_percentile h.total_count (percentiles j) ≤
        count_at_percentile h.total_count (percentiles i))
    (hle : count_at_percentile h.total_count (percentiles i) ≤ h.total_count)
    (ht : 1 ≤ h.total_count) :
    ∀ out : Nat → Int,
      hdr_value_at_percentiles iter h (some percentiles) (some values) length = (0, some out) →
        out i = hdr_value_at_percentile h (percentiles i) := by
  intro out hout
  have hout' : out = hdr_value_at_percentiles_loop h length (h.counts_len.toNat + 1)
      (hdr_iter_init iter h) 0 0
      (hdr_value_at_percentiles_counts_loop h.total_count percentiles length values) := by
    have h2 := congrArg Prod.snd hout
    exact (Option.some.inj h2).symm
  rw [hout']
  have hlen0 := hc.len_nonneg
  have hspec := hdr_value_at_percentiles_counts_loop_spec h.total_count percentiles values length
  have key := hdr_value_at_percentiles_loop_spec h hc length
    (fun j => if count_at_percentile h.total_count (percentiles j) > 1
      then count_at_percentile h.total_count (percentiles j) else 1) i hi
    (fun j hj => by
      have := hgood j hj
      simp only
      split_ifs <;> omega)
    (by
      simp only
      split_ifs <;> omega)
    h.counts_len.toNat 0 (hdr_iter_init iter h) 0
    (hdr_value_at_percentiles_counts_loop h.total_count percentiles length values)
    (h.counts_len.toNat + 1) (by omega) le_rfl
    ⟨rfl, rfl, rfl⟩
    (fun j _ h2 => by rw [hspec j, if_pos h2])
    (fun _ => by
      show (0 : Int) < (if count_at_percentile h.total_count (percentiles 0) > 1
        then count_at_percentile h.total_count (percentiles 0) else 1)
      split_ifs <;> omega)
    (fun hlt => by omega)
  have key' : hdr_value_at_percentiles_loop h length (h.counts_len.toNat + 1)
      (hdr_iter_init iter h) 0 0
      (hdr_value_at_percentiles_counts_loop h.total_count percentiles length values) i =
      highest_equivalent_value h (get_value_from_idx_up_to_count h
        (if count_at_percentile h.total_count (percentiles i) > 1
          then count_at_percentile h.total_count (percentiles i) else 1)) := key
  show hdr_value_at_percentiles_loop h length (h.counts_len.toNat + 1)
      (hdr_iter_init iter h) 0 0
      (hdr_value_at_percentiles_counts_loop h.total_count percentiles length values) i = _
  rw [key']
  simp only [get_value_from_idx_up_to_count_floor]
  unfold hdr_value_at_percentile
  rw [if_neg hp]


theorem list_count_sum_pos (l : List (Int × Int)) (hne : l ≠ []) (hcounts : ∀ x ∈ l, 1 ≤ x.2) :
    1 ≤ list_count_sum l := by
  cases l with
  | nil => exact absurd rfl hne
  | cons x l =>
    have h1 := hcounts x (List.mem_cons_self _ _)
    have h2 := list_count_sum_nonneg l
      (fun y hy => by have := hcounts y (List.mem_cons_of_mem _ hy); omega)
    show 1 ≤ x.2 + list_count_sum l
    omega

/-- The claim C17 as the specification states it fails for an array that is not in
non-decreasing order and for the percentile `0`.  In the configuration `(1, 2000, 1)` with the
values `1` and `1000` recorded once each, the array `[100, 50]` gives `values = [1023, 1023]`
while `hdr_value_at_percentile(h, 50)` is `1`; with the value `1000` recorded once, the array
`[0]` gives `values = [1023]` while `hdr_value_at_percentile(h, 0)` is `992`. -/
theorem C17_counterexample :
    hdr_calculate_bucket_config log2_floor 1 2000 1 = .ok small_config ∧
      records_succeed (fresh small_config) [(1, 1), (1000, 1)] ∧
      written_values
          (hdr_value_at_percentiles zeroed_iter
            (record_list (fresh small_config) [(1, 1), (1000, 1)]) (some (array_of [100, 50]))
            (some (array_of [])) 2) 2 = [1023, 1023] ∧
      hdr_value_at_percentile (record_list (fresh small_config) [(1, 1), (1000, 1)]) 50 = 1 ∧
      records_succeed (fresh small_config) [(1000, 1)] ∧
      written_values
          (hdr_value_at_percentiles zeroed_iter (record_list (fresh small_config) [(1000, 1)])
            (some (array_of [0])) (some (array_of [])) 1) 1 = [1023] ∧
      hdr_value_at_percentile (record_list (fresh small_config) [(1000, 1)]) 0 = 992 :=
  ⟨small_config_accepted, by decide!, by decide!, by decide!, by decide!, by decide!,
    by decide!⟩

/-- C17, amended. For every histogram with non-negative counters, `total_count` equal to
their sum and `1 ≤ total_count < 2 ^ 52`, and every input array of percentiles (any order, any
values), `hdr_value_at_percentiles` returns `0` and writes
`values[i] == hdr_value_at_percentile(h, percentiles[i])` at every position `i < length` with
`percentiles[i] > 0` such that every earlier entry lies in `[0, percentiles[i]]`. -/
theorem C17_percentiles_agree_at_dominating_entries (iter : hdr_iter) (h : hdr_histogram)
    (percentiles : Nat → ℚ) (values : Nat → Int) (length i : Nat) (hc : consistent h)
    (ht1 : 1 ≤ h.total_count) (ht2 : h.total_count < 2 ^ 52) (hi : i < length)
    (hp : 0 < percentiles i)
    (hdom : ∀ j : Nat, j < i → 0 ≤ percentiles j ∧ percentiles j ≤ percentiles i) :
    ∃ out : Nat → Int,
      hdr_value_at_percentiles iter h (some percentiles) (some values) length = (0, some out) ∧
        out i = hdr_value_at_percentile h (percentiles i) :=
  ⟨_, rfl, hdr_value_at_percentiles_entry iter h hc percentiles values length i hi hp.ne'
    (fun j hj =>
      (count_at_percentile_mono h.total_count _ _ (by omega) (hdom j hj).1 (hdom j hj).2).2)
    (count_at_percentile_le h.total_count _ (by omega) ht2 hp.le).2 ht1 _ rfl⟩

theorem C17_percentiles_agree_at_dominating_entries_witness :
    (∃ out : Nat → Int,
      hdr_value_at_percentiles zeroed_iter
          (record_list (fresh small_config) [(1, 1), (1000, 1)]) (some (array_of [50, 20, 100]))
          (some (array_of [])) 3 = (0, some out) ∧
        out 2 = hdr_value_at_percentile (record_list (fresh small_config) [(1, 1), (1000, 1)])
          (array_of [50, 20, 100] 2)) ∧
      written_values
          (hdr_value_at_percentiles zeroed_iter
            (record_list (fresh small_config) [(1, 1), (1000, 1)])
            (some (array_of [50, 20, 100])) (some (array_of [])) 3) 3 = [1, 1, 1023] :=
  ⟨C17_percentiles_agree_at_dominating_entries zeroed_iter
      (record_list (fresh small_config) [(1, 1), (1000, 1)]) (array_of [50, 20, 100])
      (array_of []) 3 2
      (built_spec log2_floor log2_floor_nonneg 1 2000 1 small_config (by decide)
        small_config_accepted [(1, 1), (1000, 1)] (by decide) (by decide)).1
      (by decide!) (by decide!) (by decide) (by decide!)
      (fun j hj => by
        interval_cases j
        · exact ⟨by decide!, by decide!⟩
        · exact ⟨by decide!, by decide!⟩),
    by decide!⟩

/-- The claim C18 as the specification states it fails once `total_count` exceeds `2 ^ 52`:
with the value `1` recorded `2 ^ 52 + 1` times in the configuration `(1, 2000, 1)` and the
array `[100]`, the count looked for is `4503599627370498`, which the running total never
reaches: `hdr_value_at_percentiles` returns `0` and leaves that count in `values[0]`, while
`hdr_value_at_percentile(h, 100)` is `0`. -/
theorem C18_counterexample :
    hdr_calculate_bucket_config log2_floor 1 2000 1 = .ok small_config ∧
      records_succeed (fresh small_config) [(1, 4503599627370497)] ∧
      (hdr_value_at_percentiles zeroed_iter
        (record_list (fresh small_config) [(1, 4503599627370497)]) (some (array_of [100]))
        (some (array_of [])) 1).1 = 0 ∧
      written_values
          (hdr_value_at_percentiles zeroed_iter
            (record_list (fresh small_config) [(1, 4503599627370497)]) (some (array_of [100]))
            (some (array_of [])) 1) 1 = [4503599627370498] ∧
      hdr_value_at_percentile (record_list (fresh small_config) [(1, 4503599627370497)]) 100 =
        0 :=
  ⟨small_config_accepted, by decide!, by decide!, by decide!, by decide!⟩

/-- C18, amended. For every accepted configuration, every non-empty sequence of successful
recordings with counts `≥ 1` into a fresh histogram, the counts summing to less than
`2 ^ 52`, and every array of percentiles in non-decreasing order with every entry `> 0`,
`hdr_value_at_percentiles` returns `0` and writes
`values[i] == hdr_value_at_percentile(h, percentiles[i])` for every `i < length`. -/
theorem C18_percentiles_agree_when_sorted (log2_f64 : Int → ℚ) (lowest highest sf : Int)
    (cfg : hdr_histogram_bucket_config) (l : List (Int × Int)) (iter : hdr_iter)
    (percentiles : Nat → ℚ) (values : Nat → Int) (length : Nat)
    (hlog : ∀ x : Int, 1 ≤ x → 0 ≤ log2_f64 x) (hhi : is_s64 highest)
    (hcfg : hdr_calculate_bucket_config log2_f64 lowest highest sf = .ok cfg)
    (hne : l ≠ []) (hcounts : ∀ x ∈ l, 1 ≤ x.2) (hs : records_succeed (fresh cfg) l)
    (hsum : list_count_sum l < 2 ^ 52)
    (hsorted : ∀ j i : Nat, j < i → i < length → percentiles j ≤ percentiles i)
    (hpos : ∀ i : Nat, i < length → 0 < percentiles i) :
    ∃ out : Nat → Int,
      hdr_value_at_percentiles iter (record_list (fresh cfg) l) (some percentiles) (some values)
          length = (0, some out) ∧
        ∀ i : Nat, i < length →
          out i = hdr_value_at_percentile (record_list (fresh cfg) l) (percentiles i) := by
  have hc0 : ∀ x ∈ l, 0 ≤ x.2 := fun x hx => by have := hcounts x hx; omega
  obtain ⟨c1, -, -, -, c5⟩ := built_spec log2_f64 hlog lowest highest sf cfg hhi.2 hcfg l hc0
    (lt_trans hsum (by norm_num))
  have htot := c5 hs
  have h1 := list_count_sum_pos l hne hcounts
  refine ⟨_, rfl, fun i hi => ?_⟩
  exact hdr_value_at_percentiles_entry iter _ c1 percentiles values length i hi (hpos i hi).ne'
    (fun j hj =>
      (count_at_percentile_mono _ _ _ (by rw [htot]; omega) (hpos j (by omega)).le
        (hsorted j i hj hi)).2)
    (count_at_percentile_le _ _ (by rw [htot]; omega) (by rw [htot]; exact hsum)
      (hpos i hi).le).2
    (by rw [htot]; exact h1) _ rfl

theorem C18_percentiles_agree_when_sorted_witness :
    (∃ out : Nat → Int,
      hdr_value_at_percentiles zeroed_iter
          (record_list (fresh small_config) [(1000, 2), (70, 1), (500, 3)])
          (some (array_of [10, 50, 50, 100])) (some (array_of [])) 4 = (0, some out) ∧
        ∀ i : Nat, i < 4 →
          out i = hdr_value_at_percentile
            (record_list (fresh small_config) [(1000, 2), (70, 1), (500, 3)])
            (array_of [10, 50, 50, 100] i)) ∧
      written_values
          (hdr_value_at_percentiles zeroed_iter
            (record_list (fresh small_config) [(1000, 2), (70, 1), (500, 3)])
            (some (array_of [10, 50, 50, 100])) (some (array_of [])) 4) 4 =
        [71, 511, 511, 1023] :=
  ⟨C18_percentiles_agree_when_sorted log2_floor 1 2000 1 small_config
      [(1000, 2), (70, 1), (500, 3)] zeroed_iter (array_of [10, 50, 50, 100]) (array_of []) 4
      log2_floor_nonneg (by decide) small_config_accepted (by decide) (by decide) (by decide!)
      (by decide)
      (fun j i hj hi => by
        interval_cases i <;> interval_cases j <;> decide!)
      (fun i hi => by
        interval_cases i <;> decide!),
    by decide!⟩

/-- C19, as the code has it. `hdr_value_at_percentiles` returns `EINVAL`, not `ENOMEM`, when
the destination array `values` is null (and also when `percentiles` is null); it returns `0`
when both arrays are given. -/
theorem C19_null_values_returns_einval (iter : hdr_iter) (h : hdr_histogram)
    (percentiles : Option (Nat → ℚ)) (length : Nat) :
    (hdr_value_at_percentiles iter h percentiles none length).1 = EINVAL ∧
      (hdr_value_at_percentiles iter h percentiles none length).1 ≠ ENOMEM ∧
      (∀ values : Option (Nat → Int),
        (hdr_value_at_percentiles iter h none values length).1 = EINVAL) ∧
      (∀ (p : Nat → ℚ) (values : Nat → Int),
        (hdr_value_at_percentiles iter h (some p) (some values) length).1 = 0) := by
  refine ⟨?_, ?_, ?_, fun _ _ => rfl⟩
  · cases percentiles <;> rfl
  · cases percentiles <;> exact (by decide : EINVAL ≠ ENOMEM)
  · intro values
    cases values <;> rfl


/-! ## The validation of a configuration -/

theorem spec_half_count_magnitude_eq (sf : Int) (h1 : 1 ≤ sf) (h5 : sf ≤ 5) :
    (if ceil_log2 (wrap64 (2 * power 10 sf)) > 1 then ceil_log2 (wrap64 (2 * power 10 sf))
      else 1) - 1 = spec_half_count_magnitude sf ∧ 0 ≤ spec_half_count_magnitude sf := by
  interval_cases sf <;> exact ⟨by decide, by decide⟩

/-- The claim C20 as the specification states it fails where the conversion to a double
rounds: `(f64)288230376151711743` is `2 ^ 58`, so for `lowest = 2 ^ 58 - 1` and for
`lowest = 2 ^ 58` (with `highest = 2 ^ 62` and one significant figure) the double
`log((f64)lowest) / log(2)` is the same and `hdr_calculate_bucket_config` returns the same
code, whatever the logarithm; the claim has `0` for the first (`57 + 4 = 61`) and `EINVAL` for
the second (`58 + 4 > 61`).  With a logarithm that is exact up to truncation the code returns
`EINVAL` for both. -/
theorem C20_counterexample :
    f64_of_s64 288230376151711743 = 288230376151711744 ∧
      (∀ log2 : ℚ → ℚ,
        return_code
            (hdr_calculate_bucket_config (log2_of_double log2) 288230376151711743
              4611686018427387904 1) =
          return_code
            (hdr_calculate_bucket_config (log2_of_double log2) 288230376151711744
              4611686018427387904 1)) ∧
      ¬ claimed_einval 288230376151711743 4611686018427387904 1 ∧
      claimed_einval 288230376151711744 4611686018427387904 1 ∧
      return_code
          (hdr_calculate_bucket_config (log2_of_double floor_log2_double) 288230376151711743
            4611686018427387904 1) = EINVAL := by
  refine ⟨by decide!, ?_, by decide!, by decide!, by decide!⟩
  intro log2
  have e1 : f64_of_s64 288230376151711743 = 288230376151711744 := by decide!
  have e2 : f64_of_s64 288230376151711744 = 288230376151711744 := by decide!
  have c1 : ¬ ((288230376151711743 : Int) < 1 ∨ (1 : Int) < 1 ∨ (5 : Int) < 1 ∨
      wrap64 (288230376151711743 * 2) > 4611686018427387904) := by decide!
  have c2 : ¬ ((288230376151711744 : Int) < 1 ∨ (1 : Int) < 1 ∨ (5 : Int) < 1 ∨
      wrap64 (288230376151711744 * 2) > 4611686018427387904) := by decide!
  unfold hdr_calculate_bucket_config log2_of_double
  rw [if_neg c1, if_neg c2]
  simp only [e1, e2]
  split_ifs <;> rfl


theorem wrap64_double (x : Int) (h1 : 1 ≤ x) (h2 : x < 2 ^ 63) :
    wrap64 (x * 2) ≤ 2 * x ∧ (wrap64 (x * 2) < 2 * x → 2 ^ 62 ≤ x) := by
  unfold wrap64
  constructor <;> omega

theorem bit_length_ge_of_two_pow_le (x : Int) (h1 : 2 ^ 62 ≤ x) (h2 : x < 2 ^ 63) :
    62 ≤ (bit_length x.toNat : Int) - 1 := by
  have hn : x.toNat < 2 ^ 64 := by omega
  by_contra hlt
  have h3 : bit_length x.toNat ≤ 62 := by omega
  have := (bit_length_le_iff hn 62).1 h3
  omega

/-- The code returned by `hdr_calculate_bucket_config` once its first test has passed, for a
double `log((f64)lowest) / log(2)` that truncates to the exact `floor(log2(lowest))`. -/
theorem return_code_of_exact (log2_f64 : Int → ℚ) (lowest highest sf : Int)
    (hc1 : ¬ (lowest < 1 ∨ sf < 1 ∨ 5 < sf ∨ wrap64 (lowest * 2) > highest))
    (hle : log2_f64 lowest ≤ (s32_maximum : ℚ))
    (hum : f64_to_s32 (log2_f64 lowest) = (bit_length lowest.toNat : Int) - 1) :
    return_code (hdr_calculate_bucket_config log2_f64 lowest highest sf) =
      if (bit_length lowest.toNat : Int) - 1 + spec_half_count_magnitude sf > 61 then EINVAL
      else 0 := by
  have hc2 : ¬ ((s32_maximum : ℚ) < log2_f64 lowest) := not_lt.2 hle
  have hsf : 1 ≤ sf ∧ sf ≤ 5 := by
    simp only [not_or, not_lt] at hc1
    exact ⟨hc1.2.1, hc1.2.2.1⟩
  obtain ⟨hmeq, -⟩ := spec_half_count_magnitude_eq sf hsf.1 hsf.2
  unfold hdr_calculate_bucket_config
  simp only [if_neg hc1, if_neg hc2, hum, hmeq]
  split_ifs <;> rfl

/-- C20, amended. For 64-bit `lowest_discernible_value` at which the double
`log((f64)lowest_discernible_value) / log(2)` truncates to the exact
`floor(log2(lowest_discernible_value))`, `hdr_calculate_bucket_config` returns `EINVAL` if and
only if `lowest_discernible_value < 1`, or `significant_figures` is outside `[1, 5]`, or
`2 * lowest_discernible_value > highest_trackable_value`, or
`floor(log2(lowest_discernible_value)) + sub_bucket_half_count_magnitude > 61`; in every other
case it returns `0`. -/
theorem C20_einval_iff_when_log_exact (log2_f64 : Int → ℚ) (lowest highest sf : Int)
    (hlo : is_s64 lowest)
    (hexact : 1 ≤ lowest →
      log2_f64 lowest ≤ (s32_maximum : ℚ) ∧
        f64_to_s32 (log2_f64 lowest) = (bit_length lowest.toNat : Int) - 1) :
    (return_code (hdr_calculate_bucket_config log2_f64 lowest highest sf) = EINVAL ↔
        claimed_einval lowest highest sf) ∧
      (¬ claimed_einval lowest highest sf →
        return_code (hdr_calculate_bucket_config log2_f64 lowest highest sf) = 0) := by
  by_cases hc1 : lowest < 1 ∨ sf < 1 ∨ 5 < sf ∨ wrap64 (lowest * 2) > highest
  · have hcode : return_code (hdr_calculate_bucket_config log2_f64 lowest highest sf) =
        EINVAL := by
      unfold hdr_calculate_bucket_config
      rw [if_pos hc1]
      rfl
    have hclaim : claimed_einval lowest highest sf := by
      unfold claimed_einval
      rcases hc1 with h | h | h | h
      · exact Or.inl h
      · exact Or.inr (Or.inl h)
      · exact Or.inr (Or.inr (Or.inl h))
      · by_cases h1 : lowest < 1
        · exact Or.inl h1
        · have := (wrap64_double lowest (by omega) hlo.2).1
          exact Or.inr (Or.inr (Or.inr (Or.inl (by omega))))
    exact ⟨⟨fun _ => hclaim, fun _ => hcode⟩, fun hn => absurd hclaim hn⟩
  · have hc1' := hc1
    simp only [not_or, not_lt] at hc1'
    obtain ⟨hlow, hsf1, hsf5, hw⟩ := hc1'
    obtain ⟨hle, hum⟩ := hexact hlow
    obtain ⟨-, hm0⟩ := spec_half_count_magnitude_eq sf hsf1 hsf5
    have hcode := return_code_of_exact log2_f64 lowest highest sf hc1 hle hum
    have hiff : claimed_einval lowest highest sf ↔
        (bit_length lowest.toNat : Int) - 1 + spec_half_count_magnitude sf > 61 := by
      unfold claimed_einval
      constructor
      · rintro (h | h | h | h | h)
        · omega
        · omega
        · omega
        · have hd := wrap64_double lowest hlow hlo.2
          have h62 := hd.2 (by omega)
          have := bit_length_ge_of_two_pow_le lowest h62 hlo.2
          omega
        · exact h
      · intro h
        exact Or.inr (Or.inr (Or.inr (Or.inr h)))
    rw [hcode, hiff]
    by_cases h61 : (bit_length lowest.toNat : Int) - 1 + spec_half_count_magnitude sf > 61
    · rw [if_pos h61]
      exact ⟨⟨fun _ => h61, fun _ => rfl⟩, fun hn => absurd h61 hn⟩
    · rw [if_neg h61]
      exact ⟨⟨fun h => absurd h (by decide), fun h => absurd h h61⟩, fun _ => rfl⟩

theorem C20_einval_iff_when_log_exact_witness :
    ((return_code
          (hdr_calculate_bucket_config log2_floor 288230376151711744 4611686018427387904 1) =
          EINVAL ↔
        claimed_einval 288230376151711744 4611686018427387904 1) ∧
      (¬ claimed_einval 288230376151711744 4611686018427387904 1 →
        return_code
          (hdr_calculate_bucket_config log2_floor 288230376151711744 4611686018427387904 1) =
          0)) ∧
      return_code
        (hdr_calculate_bucket_config log2_floor 288230376151711744 4611686018427387904 1) =
        EINVAL ∧
      return_code (hdr_calculate_bucket_config log2_floor 1 2000 1) = 0 ∧
      ¬ claimed_einval 1 2000 1 :=
  ⟨C20_einval_iff_when_log_exact log2_floor 288230376151711744 4611686018427387904 1
      (by decide) (fun _ => ⟨by decide!, by decide!⟩),
    by decide!, by decide!, by decide!⟩


/-! ## The fuel of the loops of `hdr_value_at_percentiles` -/

/-- The inner loop of `hdr_value_at_percentiles` has ended after `length - at_pos` rounds:
more fuel does not change the result. -/
theorem hdr_value_at_percentiles_fill_loop_fuel (h : hdr_histogram) (length : Nat)
    (total value : Int) (f1 : Nat) :
    ∀ (f2 : Nat) (values : Nat → Int) (at_pos : Nat), length - at_pos ≤ f1 →
      length - at_pos ≤ f2 →
      hdr_value_at_percentiles_fill_loop h length total value f1 values at_pos =
        hdr_value_at_percentiles_fill_loop h length total value f2 values at_pos := by
  induction f1 with
  | zero =>
    intro f2 values at_pos h1 _
    cases f2 with
    | zero => rfl
    | succ f2 =>
      unfold hdr_value_at_percentiles_fill_loop
      rw [if_neg (by omega)]
  | succ f1 ih =>
    intro f2 values at_pos h1 h2
    cases f2 with
    | zero =>
      unfold hdr_value_at_percentiles_fill_loop
      rw [if_neg (by omega)]
    | succ f2 =>
      unfold hdr_value_at_percentiles_fill_loop
      by_cases hcond : at_pos < length ∧ total ≥ values at_pos
      · rw [if_pos hcond, if_pos hcond]
        exact ih f2 _ _ (by omega) (by omega)
      · rw [if_neg hcond, if_neg hcond]

/-- The outer loop of `hdr_value_at_percentiles` over a consistent histogram has ended once
its fuel exceeds the number of slots left: more fuel does not change the result. -/
theorem hdr_value_at_percentiles_loop_fuel (h : hdr_histogram) (hc : consistent h)
    (length : Nat) (d : Nat) :
    ∀ (k f1 f2 : Nat) (iter : hdr_iter) (total : Int) (at_pos : Nat) (values : Nat → Int),
      k + d = h.counts_len.toNat → d + 1 ≤ f1 → d + 1 ≤ f2 → all_values_iter_at h k iter →
      hdr_value_at_percentiles_loop h length f1 iter total at_pos values =
        hdr_value_at_percentiles_loop h length f2 iter total at_pos values := by
  induction d with
  | zero =>
    intro k f1 f2 iter total at_pos values hk h1 h2 hat
    obtain ⟨-, n2⟩ := hdr_iter_next_all_values h hc k (by omega) iter hat
    cases f1 with
    | zero => omega
    | succ f1 =>
      cases f2 with
      | zero => omega
      | succ f2 =>
        unfold hdr_value_at_percentiles_loop
        simp only [n2 (by omega), Bool.false_eq_true, false_and, if_false]
  | succ d ih =>
    intro k f1 f2 iter total at_pos values hk h1 h2 hat
    obtain ⟨n1, -⟩ := hdr_iter_next_all_values h hc k (by omega) iter hat
    obtain ⟨m1, m2, -, -⟩ := n1 (by omega)
    cases f1 with
    | zero => omega
    | succ f1 =>
      cases f2 with
      | zero => omega
      | succ f2 =>
        unfold hdr_value_at_percentiles_loop
        by_cases hpos : at_pos < length
        · simp only [m1, hpos, and_self, if_true]
          exact ih (k + 1) f1 f2 _ _ _ _ (by omega) (by omega) (by omega) m2
        · have hcond : ¬ ((hdr_iter_next iter).1 = true ∧ at_pos < length) :=
            fun hx => hpos hx.2
          simp only [hcond, if_false]


/-! ## Queries -/

/-- C23. `hdr_reset` on any histogram sets every counter slot `0 .. counts_len - 1` to `0`,
`total_count` to `0`, `min_value` to `2^63 - 1` and `max_value` to `0`, and leaves every
configuration field unchanged. -/
theorem C23_reset_effect (h : hdr_histogram) :
    (∀ i : Int, 0 ≤ i → i < h.counts_len → (hdr_reset h).counts i = 0) ∧
      (hdr_reset h).total_count = 0 ∧ (hdr_reset h).min_value = 2 ^ 63 - 1 ∧
      (hdr_reset h).max_value = 0 ∧
      (hdr_reset h).lowest_discernible_value = h.lowest_discernible_value ∧
      (hdr_reset h).highest_trackable_value = h.highest_trackable_value ∧
      (hdr_reset h).unit_magnitude = h.unit_magnitude ∧
      (hdr_reset h).significant_figures = h.significant_figures ∧
      (hdr_reset h).sub_bucket_half_count_magnitude = h.sub_bucket_half_count_magnitude ∧
      (hdr_reset h).sub_bucket_half_count = h.sub_bucket_half_count ∧
      (hdr_reset h).sub_bucket_mask = h.sub_bucket_mask ∧
      (hdr_reset h).sub_bucket_count = h.sub_bucket_count ∧
      (hdr_reset h).bucket_count = h.bucket_count ∧
      (hdr_reset h).counts_len = h.counts_len ∧
      (hdr_reset h).normalizing_index_offset = h.normalizing_index_offset ∧
      (hdr_reset h).conversion_ratio = h.conversion_ratio := by
  refine ⟨?_, rfl, (by decide : s64_maximum = 2 ^ 63 - 1), rfl, rfl, rfl, rfl, rfl, rfl, rfl, rfl, rfl, rfl, rfl, rfl, rfl⟩
  intro i h0 h1
  show (if 0 ≤ i ∧ i < h.counts_len then 0 else h.counts i) = 0
  rw [if_pos ⟨h0, h1⟩]

theorem C23_reset_effect_witness :
    (hdr_reset (record_list (fresh small_config) [(5, 2), (1000, 1)])).counts 5 = 0 ∧
      (record_list (fresh small_config) [(5, 2), (1000, 1)]).counts 5 = 2 ∧
      (hdr_reset (record_list (fresh small_config) [(5, 2), (1000, 1)])).total_count = 0 ∧
      (hdr_reset (record_list (fresh small_config) [(5, 2), (1000, 1)])).counts_len = 128 :=
  ⟨(C23_reset_effect (record_list (fresh small_config) [(5, 2), (1000, 1)])).1 5 (by decide)
      (by decide!),
    by decide!, by decide!, by decide!⟩

/-- Two non-negative values have the same counter index exactly when they have the same
lowest equivalent value. -/
theorem counts_index_for_eq_iff (h : hdr_histogram) (um hm bc : Nat) (hl : layout h um hm bc)
    (a b : Int) (ha0 : 0 ≤ a) (ha : a < 2 ^ 63) (hb0 : 0 ≤ b) (hb : b < 2 ^ 63) :
    counts_index_for h a = counts_index_for h b ↔
      lowest_equivalent_value h a = lowest_equivalent_value h b := by
  constructor
  · intro hidx
    obtain ⟨hs, hq⟩ := slot_eq_of_index_eq h um hm bc hl a b ha0 ha hb0 hb hidx
    rw [lowest_equivalent_value_eq h um hm bc hl a ha0 ha,
      lowest_equivalent_value_eq h um hm bc hl b hb0 hb, hq, hs]
  · intro hlev
    obtain ⟨a0, a1, a2, -, -⟩ := value_in_slot h um hm bc hl a ha0 ha
    obtain ⟨b0, b1, b2, -, -⟩ := value_in_slot h um hm bc hl b hb0 hb
    obtain ⟨-, -, sa, qa⟩ := slot_shift_of_mem_slot h um hm bc hl a
      (lowest_equivalent_value h a) ha0 ha le_rfl (by linarith)
    obtain ⟨-, -, sb, qb⟩ := slot_shift_of_mem_slot h um hm bc hl b
      (lowest_equivalent_value h b) hb0 hb le_rfl (by linarith)
    rw [hlev] at sa qa
    have hs : slot_shift um hm a = slot_shift um hm b := by rw [← sa, sb]
    rw [counts_index_for_eq h um hm bc hl a ha0 ha, counts_index_for_eq h um hm bc hl b hb0 hb,
      ← qa, ← qb, hs]

/-- C24. For every accepted configuration, every histogram of that configuration and all
non-negative 64-bit values `a` and `b`: `hdr_values_are_equivalent(h, a, b)` is true if and
only if `counts_index_for(h, a) == counts_index_for(h, b)`. -/
theorem C24_values_equivalent_iff_same_slot (log2_f64 : Int → ℚ) (lowest highest sf : Int)
    (cfg : hdr_histogram_bucket_config) (h : hdr_histogram) (a b : Int)
    (hlog : ∀ x : Int, 1 ≤ x → 0 ≤ log2_f64 x) (hhi : is_s64 highest)
    (hcfg : hdr_calculate_bucket_config log2_f64 lowest highest sf = .ok cfg)
    (hh : of_config cfg h) (ha0 : 0 ≤ a) (ha : is_s64 a) (hb0 : 0 ≤ b) (hb : is_s64 b) :
    hdr_values_are_equivalent h a b = true ↔ counts_index_for h a = counts_index_for h b := by
  obtain ⟨um, hm, bc, hl, -⟩ :=
    layout_of_accepted log2_f64 hlog lowest highest sf cfg hhi.2 hcfg h hh
  unfold hdr_values_are_equivalent
  rw [decide_eq_true_iff]
  exact (counts_index_for_eq_iff h um hm bc hl a b ha0 ha.2 hb0 hb.2).symm

theorem C24_values_equivalent_iff_same_slot_witness :
    (hdr_values_are_equivalent (fresh example_config) 1000000 1000447 = true ↔
        counts_index_for (fresh example_config) 1000000 =
          counts_index_for (fresh example_config) 1000447) ∧
      hdr_values_are_equivalent (fresh example_config) 1000000 1000447 = true ∧
      hdr_values_are_equivalent (fresh example_config) 1000000 1000512 = false ∧
      counts_index_for (fresh example_config) 1000000 ≠
        counts_index_for (fresh example_config) 1000512 :=
  ⟨C24_values_equivalent_iff_same_slot log2_floor 1 3600000000 3 example_config
      (fresh example_config) 1000000 1000447 log2_floor_nonneg (by decide)
      example_config_accepted (of_config_fresh example_config) (by decide) (by decide)
      (by decide) (by decide),
    by decide!, by decide!, by decide!⟩


/-- The counter of slot `i` after a sequence of recordings, in 64-bit arithmetic, for counts
of either sign. -/
theorem record_list_counts_wrap (l : List (Int × Int)) (i : Int) :
    ∀ h : hdr_histogram, h.normalizing_index_offset = 0 →
      wrap64 ((record_list h l).counts i) = wrap64 (h.counts i + list_count_at h i l) ∧
        (is_s64 (h.counts i) → is_s64 ((record_list h l).counts i)) := by
  induction l with
  | nil =>
    intro h _
    exact ⟨by simp [record_list, list_count_at], fun hs => hs⟩
  | cons x l ih =>
    intro h hoff
    rcases hdr_record_values_cases h x.1 x.2 with hr | ⟨hv0, i0, i1, hr⟩
    · have hrej : ¬ (0 ≤ x.1 ∧ counts_index_for h x.1 = i ∧ 0 ≤ i ∧ i < h.counts_len) := by
        rintro ⟨a, b, c, d⟩
        have hacc := hdr_record_values_of_accepted h x.1 x.2 a (by rw [b]; exact c)
          (by rw [b]; exact d)
        rw [hr] at hacc
        cases congrArg Prod.fst hacc
      obtain ⟨r1, r2⟩ := ih h hoff
      have e : record_list h (x :: l) = record_list h l := by
        show record_list (hdr_record_values h x.1 x.2).2 l = _
        rw [hr]
      rw [e]
      refine ⟨?_, r2⟩
      rw [r1]
      simp only [list_count_at, if_neg hrej, zero_add]
    · obtain ⟨f1, -, -, -, f5, f6, f7⟩ := accepted_record_fields h x.1 x.2 hoff
      have e : record_list h (x :: l) = record_list
          (update_min_max (counts_inc_normalised h (counts_index_for h x.1) x.2) x.1) l := by
        show record_list (hdr_record_values h x.1 x.2).2 l = _
        rw [hr]
      obtain ⟨r1, r2⟩ := ih _ f6
      rw [e, r1, f1, list_count_at_congr h _ f5 f7]
      by_cases hi : counts_index_for h x.1 = i
      · have hcond : 0 ≤ x.1 ∧ counts_index_for h x.1 = i ∧ 0 ≤ i ∧ i < h.counts_len :=
          ⟨hv0, hi, by rw [← hi]; exact i0, by rw [← hi]; exact i1⟩
        have hterm : list_count_at h i (x :: l) = x.2 + list_count_at h i l := by
          show (if 0 ≤ x.1 ∧ counts_index_for h x.1 = i ∧ 0 ≤ i ∧ i < h.counts_len then x.2
            else 0) + list_count_at h i l = _
          rw [if_pos hcond]
        constructor
        · rw [hterm, ← hi, Function.update_same, wrap64_add_wrap64]
          congr 1
          ring
        · intro _
          apply r2
          rw [f1, ← hi, Function.update_same]
          exact is_s64_wrap64 _
      · have hcond : ¬ (0 ≤ x.1 ∧ counts_index_for h x.1 = i ∧ 0 ≤ i ∧ i < h.counts_len) :=
          fun hc => hi hc.2.1
        constructor
        · rw [Function.update_noteq (Ne.symm hi)]
          simp only [list_count_at, if_neg hcond, zero_add]
        · intro hs
          apply r2
          rw [f1, Function.update_noteq (Ne.symm hi)]
          exact hs

/-- The values of the equivalence range of `v` are the non-negative values with the counter
index of `v`. -/
theorem mem_range_iff_index_eq (h : hdr_histogram) (um hm bc : Nat) (hl : layout h um hm bc)
    (v x : Int) (hv0 : 0 ≤ v) (hv : v < 2 ^ 63) (hx : x < 2 ^ 63) :
    (lowest_equivalent_value h v ≤ x ∧ x ≤ highest_equivalent_value h v) ↔
      (0 ≤ x ∧ counts_index_for h x = counts_index_for h v) := by
  have hhe := highest_equivalent_value_eq h um hm bc hl v hv0 hv
  constructor
  · rintro ⟨h1, h2⟩
    obtain ⟨w0, w63, hs, hq⟩ := slot_shift_of_mem_slot h um hm bc hl v x hv0 hv h1 (by omega)
    refine ⟨w0, ?_⟩
    rw [counts_index_for_eq h um hm bc hl x w0 w63, counts_index_for_eq h um hm bc hl v hv0 hv,
      hs, hq]
  · rintro ⟨hx0, hidx⟩
    obtain ⟨hs, hq⟩ := slot_eq_of_index_eq h um hm bc hl x v hx0 hx hv0 hv hidx
    obtain ⟨s0, s1, s2, -, -⟩ := value_in_slot h um hm bc hl x hx0 hx
    have e1 : lowest_equivalent_value h x = lowest_equivalent_value h v := by
      rw [lowest_equivalent_value_eq h um hm bc hl x hx0 hx,
        lowest_equivalent_value_eq h um hm bc hl v hv0 hv, hq, hs]
    have e2 : hdr_size_of_equivalent_value_range h x = hdr_size_of_equivalent_value_range h v := by
      rw [hdr_size_of_equivalent_value_range_eq h um hm bc hl x hx0 hx,
        hdr_size_of_equivalent_value_range_eq h um hm bc hl v hv0 hv, hs]
    rw [e1] at s1 s2
    rw [e2] at s2
    constructor <;> omega

theorem list_count_at_eq_range_count_sum (h : hdr_histogram) (um hm bc : Nat)
    (hl : layout h um hm bc) (v : Int) (hv0 : 0 ≤ v) (hv : v < 2 ^ 63)
    (hi0 : 0 ≤ counts_index_for h v) (hi1 : counts_index_for h v < h.counts_len)
    (l : List (Int × Int)) (hvals : ∀ x ∈ l, x.1 < 2 ^ 63) :
    list_count_at h (counts_index_for h v) l = range_count_sum h v l := by
  induction l with
  | nil => rfl
  | cons x l ih =>
    have hx := hvals x (List.mem_cons_self _ _)
    have hiff := mem_range_iff_index_eq h um hm bc hl v x.1 hv0 hv hx
    unfold list_count_at range_count_sum
    rw [ih (fun y hy => hvals y (List.mem_cons_of_mem _ hy))]
    congr 1
    by_cases hc : lowest_equivalent_value h v ≤ x.1 ∧ x.1 ≤ highest_equivalent_value h v
    · rw [if_pos hc, if_pos ⟨(hiff.1 hc).1, (hiff.1 hc).2, hi0, hi1⟩]
    · rw [if_neg hc, if_neg (fun hd => hc (hiff.2 ⟨hd.1, hd.2.1⟩))]

/-- C25. For every accepted configuration, every finite sequence of recordings `(v_j, c_j)`
of 64-bit values into a fresh histogram, successful or not, and every `v` in
`[0, highest_trackable_value]`: `hdr_count_at_value(h, v)` equals the sum of `c_j` over exactly
those `j` with `lowest_equivalent_value(v) ≤ v_j ≤ highest_equivalent_value(v)`, the sum being
the 64-bit one, and the exact one whenever that fits in 64 bits. -/
theorem C25_count_at_value_is_range_sum (log2_f64 : Int → ℚ) (lowest highest sf : Int)
    (cfg : hdr_histogram_bucket_config) (l : List (Int × Int)) (v : Int)
    (hlog : ∀ x : Int, 1 ≤ x → 0 ≤ log2_f64 x) (hhi : is_s64 highest)
    (hcfg : hdr_calculate_bucket_config log2_f64 lowest highest sf = .ok cfg)
    (hvals : ∀ x ∈ l, is_s64 x.1)
    (hv0 : 0 ≤ v) (hv1 : v ≤ highest) :
    hdr_count_at_value (record_list (fresh cfg) l) v =
        wrap64 (range_count_sum (record_list (fresh cfg) l) v l) ∧
      (is_s64 (range_count_sum (record_list (fresh cfg) l) v l) →
        hdr_count_at_value (record_list (fresh cfg) l) v =
          range_count_sum (record_list (fresh cfg) l) v l) := by
  have hH := of_config_record_list cfg l _ (of_config_fresh cfg)
  obtain ⟨um, hm, bc, hl, hhigh, -⟩ :=
    layout_of_accepted log2_f64 hlog lowest highest sf cfg hhi.2 hcfg _ hH
  obtain ⟨e1, e2, -⟩ := of_config_same_slots cfg (fresh cfg) _ (of_config_fresh cfg) hH
  have hv63 : v < 2 ^ 63 := lt_of_le_of_lt hv1 hhi.2
  obtain ⟨i0, i1⟩ := counts_index_for_lt_iff _ um hm bc hl v hv0 hv63
  have i2 := i1.2 (lt_of_le_of_lt hv1 hhigh)
  obtain ⟨r1, r2⟩ := record_list_counts_wrap l (counts_index_for (record_list (fresh cfg) l) v)
    (fresh cfg) rfl
  have hz : (fresh cfg).counts (counts_index_for (record_list (fresh cfg) l) v) = 0 := rfl
  have hs64 := r2 (by rw [hz]; decide)
  have hcongr := list_count_at_congr (fresh cfg) (record_list (fresh cfg) l) e1.symm
    (fun w => (e2 w).symm) (counts_index_for (record_list (fresh cfg) l) v) l
  rw [hz, zero_add, wrap64_of_is_s64 hs64, ← hcongr,
    list_count_at_eq_range_count_sum _ um hm bc hl v hv0 hv63 i0 i2 l
      (fun x hx => (hvals x hx).2)] at r1
  have hcount : hdr_count_at_value (record_list (fresh cfg) l) v =
      (record_list (fresh cfg) l).counts (counts_index_for (record_list (fresh cfg) l) v) := by
    unfold hdr_count_at_value counts_get_normalised counts_get_direct
    rw [normalize_index_of_offset_zero _ _ hl.offset_eq]
  rw [hcount, r1]
  exact ⟨rfl, fun hs => wrap64_of_is_s64 hs⟩

theorem C25_count_at_value_is_range_sum_witness :
    (hdr_count_at_value (record_list (fresh small_config) [(1000, 2), (70, 1), (1023, 3), (5, 4)])
          1010 =
        wrap64 (range_count_sum
          (record_list (fresh small_config) [(1000, 2), (70, 1), (1023, 3), (5, 4)]) 1010
          [(1000, 2), (70, 1), (1023, 3), (5, 4)]) ∧
      (is_s64 (range_count_sum
          (record_list (fresh small_config) [(1000, 2), (70, 1), (1023, 3), (5, 4)]) 1010
          [(1000, 2), (70, 1), (1023, 3), (5, 4)]) →
        hdr_count_at_value
            (record_list (fresh small_config) [(1000, 2), (70, 1), (1023, 3), (5, 4)]) 1010 =
          range_count_sum
            (record_list (fresh small_config) [(1000, 2), (70, 1), (1023, 3), (5, 4)]) 1010
            [(1000, 2), (70, 1), (1023, 3), (5, 4)])) ∧
      hdr_count_at_value (record_list (fresh small_config) [(1000, 2), (70, 1), (1023, 3), (5, 4)])
        1010 = 5 :=
  ⟨C25_count_at_value_is_range_sum log2_floor 1 2000 1 small_config
      [(1000, 2), (70, 1), (1023, 3), (5, 4)] 1010 log2_floor_nonneg (by decide)
      small_config_accepted (by decide) (by decide) (by decide),
    by decide!⟩


/-! ## The derived configuration -/

/-- The sub-bucket count and the bucket count of an accepted configuration. -/
theorem config_counts (log2_f64 : Int → ℚ) (hlog : ∀ x : Int, 1 ≤ x → 0 ≤ log2_f64 x)
    (lowest highest sf : Int) (cfg : hdr_histogram_bucket_config) (hhi : highest < 2 ^ 63)
    (hcfg : hdr_calculate_bucket_config log2_f64 lowest highest sf = .ok cfg) :
    ∃ um hm bc : Nat, cfg.unit_magnitude = um ∧ cfg.sub_bucket_half_count_magnitude = hm ∧
      cfg.bucket_count = bc ∧ cfg.sub_bucket_count = 2 ^ (hm + 1) ∧
      cfg.sub_bucket_half_count = 2 ^ hm ∧ cfg.highest_trackable_value = highest ∧
      cfg.counts_len = ((bc : Int) + 1) * 2 ^ hm ∧
      1 ≤ sf ∧ sf ≤ 5 ∧ hm ≤ 17 ∧ 1 ≤ bc ∧ um + hm + bc ≤ 63 ∧
      highest < 2 ^ (um + hm + bc) ∧ (1 < bc → (2 : Int) ^ (um + hm + bc - 1) ≤ highest) ∧
      (10 : Int) ^ sf.toNat ≤ 2 ^ hm ∧ (2 : Int) ^ hm < 2 * 10 ^ sf.toNat := by
  obtain ⟨um, hm, bc, hc, -, -, hsf1, hsf5, hm17, -, hbc, hmag, hlt, hmin, h10, h10'⟩ :=
    config_fields log2_f64 hlog lowest highest sf cfg hhi hcfg
  subst hc
  exact ⟨um, hm, bc, rfl, rfl, rfl, rfl, rfl, rfl, rfl, hsf1, hsf5, hm17, hbc, hmag, hlt, hmin,
    h10, h10'⟩

/-- C29. For every accepted configuration, with `s = significant_figures` in `[1, 5]`: the
derived `sub_bucket_count` is `2 ^ ceil(log2(2 * 10^s))`, a power of two with
`sub_bucket_count ≥ 2 * 10^s` and `sub_bucket_count / 2 < 2 * 10^s` (concretely 32, 256,
2048, 32768, 262144 for `s = 1 .. 5`), and
`sub_bucket_half_count == sub_bucket_count / 2 == 2 ^ sub_bucket_half_count_magnitude`. -/
theorem C29_sub_bucket_count (log2_f64 : Int → ℚ) (lowest highest sf : Int)
    (cfg : hdr_histogram_bucket_config) (hlog : ∀ x : Int, 1 ≤ x → 0 ≤ log2_f64 x)
    (hhi : is_s64 highest)
    (hcfg : hdr_calculate_bucket_config log2_f64 lowest highest sf = .ok cfg) :
    1 ≤ sf ∧ sf ≤ 5 ∧
      cfg.sub_bucket_count = 2 ^ (ceil_log2 (2 * 10 ^ sf.toNat)).toNat ∧
      2 * 10 ^ sf.toNat ≤ cfg.sub_bucket_count ∧
      cfg.sub_bucket_count / 2 < 2 * 10 ^ sf.toNat ∧
      cfg.sub_bucket_half_count = cfg.sub_bucket_count / 2 ∧
      cfg.sub_bucket_half_count = 2 ^ cfg.sub_bucket_half_count_magnitude.toNat ∧
      (sf = 1 → cfg.sub_bucket_count = 32) ∧ (sf = 2 → cfg.sub_bucket_count = 256) ∧
      (sf = 3 → cfg.sub_bucket_count = 2048) ∧ (sf = 4 → cfg.sub_bucket_count = 32768) ∧
      (sf = 5 → cfg.sub_bucket_count = 262144) := by
  obtain ⟨um, hm, bc, -, e2, -, e4, e5, -, -, hsf1, hsf5, hm17, -, -, -, -, h10, h10'⟩ :=
    config_counts log2_f64 hlog lowest highest sf cfg hhi.2 hcfg
  have hpos := two_pow_pos hm
  have hsucc : (2 : Int) ^ (hm + 1) = 2 * 2 ^ hm := by rw [pow_succ]; ring
  have hx1 : (1 : Int) ≤ 2 * 10 ^ sf.toNat := by
    have : (0 : Int) < 10 ^ sf.toNat := by positivity
    omega
  have hx64 : (2 : Int) * 10 ^ sf.toNat ≤ 2 ^ 64 := by
    have h17 : (2 : Int) ^ hm ≤ 2 ^ 17 := two_pow_le_two_pow hm17
    have : (2 : Int) ^ 17 ≤ 2 ^ 63 := by norm_num
    have : (2 : Int) ^ 64 = 2 * 2 ^ 63 := by norm_num
    omega
  have hceil : ceil_log2 (2 * 10 ^ sf.toNat) = ((hm + 1 : Nat) : Int) := by
    have hnn : 0 ≤ ceil_log2 (2 * 10 ^ sf.toNat) := by
      unfold ceil_log2
      exact Int.natCast_nonneg _
    obtain ⟨c, hc⟩ := Int.eq_ofNat_of_zero_le hnn
    have h1 := (ceil_log2_le_iff _ hx1 hx64 (hm + 1)).2 (by rw [hsucc]; omega)
    have h2 : ¬ ceil_log2 (2 * 10 ^ sf.toNat) ≤ (hm : Int) := by
      intro hle
      have := (ceil_log2_le_iff _ hx1 hx64 hm).1 hle
      omega
    omega
  have hdiv : (2 : Int) ^ (hm + 1) / 2 = 2 ^ hm := by
    rw [hsucc]
    omega
  have hval : ∀ k : Nat, sf = (k : Int) → ∀ m : Nat, (10 : Int) ^ k ≤ 2 ^ m →
      (2 : Int) ^ m < 2 * 10 ^ k → cfg.sub_bucket_count = 2 ^ (m + 1) := by
    intro k hk m hm1 hm2
    rw [hk, Int.toNat_ofNat] at h10 h10'
    have hmm : hm = m := by
      by_contra hne
      rcases Nat.lt_or_gt_of_ne hne with hlt | hgt
      · have : (2 : Int) ^ (hm + 1) ≤ 2 ^ m := two_pow_le_two_pow hlt
        omega
      · have : (2 : Int) ^ (m + 1) ≤ 2 ^ hm := two_pow_le_two_pow hgt
        have hs : (2 : Int) ^ (m + 1) = 2 * 2 ^ m := by rw [pow_succ]; ring
        omega
    rw [e4, hmm]
  refine ⟨hsf1, hsf5, ?_, ?_, ?_, ?_, ?_, ?_, ?_, ?_, ?_, ?_⟩
  · rw [e4, hceil, Int.toNat_ofNat]
  · rw [e4, hsucc]; omega
  · rw [e4, hdiv]; exact h10'
  · rw [e4, e5, hdiv]
  · rw [e5, e2, Int.toNat_ofNat]
  · intro hs; exact hval 1 hs 4 (by norm_num) (by norm_num)
  · intro hs; exact hval 2 hs 7 (by norm_num) (by norm_num)
  · intro hs; exact hval 3 hs 10 (by norm_num) (by norm_num)
  · intro hs; exact hval 4 hs 14 (by norm_num) (by norm_num)
  · intro hs; exact hval 5 hs 17 (by norm_num) (by norm_num)

theorem C29_sub_bucket_count_witness :
    ((1 : Int) ≤ 3 ∧ (3 : Int) ≤ 5 ∧
      example_config.sub_bucket_count = 2 ^ (ceil_log2 (2 * 10 ^ (3 : Int).toNat)).toNat ∧
      2 * 10 ^ (3 : Int).toNat ≤ example_config.sub_bucket_count ∧
      example_config.sub_bucket_count / 2 < 2 * 10 ^ (3 : Int).toNat ∧
      example_config.sub_bucket_half_count = example_config.sub_bucket_count / 2 ∧
      example_config.sub_bucket_half_count =
        2 ^ example_config.sub_bucket_half_count_magnitude.toNat ∧
      ((3 : Int) = 1 → example_config.sub_bucket_count = 32) ∧
      ((3 : Int) = 2 → example_config.sub_bucket_count = 256) ∧
      ((3 : Int) = 3 → example_config.sub_bucket_count = 2048) ∧
      ((3 : Int) = 4 → example_config.sub_bucket_count = 32768) ∧
      ((3 : Int) = 5 → example_config.sub_bucket_count = 262144)) ∧
      example_config.sub_bucket_count = 2048 ∧
      (Except.map (fun c => c.sub_bucket_count)
        (hdr_calculate_bucket_config log2_floor 1 3600000000 1)) = .ok 32 ∧
      (Except.map (fun c => c.sub_bucket_count)
        (hdr_calculate_bucket_config log2_floor 1 3600000000 2)) = .ok 256 ∧
      (Except.map (fun c => c.sub_bucket_count)
        (hdr_calculate_bucket_config log2_floor 1 3600000000 4)) = .ok 32768 ∧
      (Except.map (fun c => c.sub_bucket_count)
        (hdr_calculate_bucket_config log2_floor 1 3600000000 5)) = .ok 262144 :=
  ⟨C29_sub_bucket_count log2_floor 1 3600000000 3 example_config log2_floor_nonneg (by decide)
      example_config_accepted,
    by decide, by rfl, by rfl, by rfl, by rfl⟩

/-- The claim C30 as the specification states it fails by one: in the configuration
`(1, 3600000000, 3)` the bucket count is `22`, while already
`sub_bucket_count << (unit_magnitude + 21) = 2048 << 21 = 4294967296` exceeds
`highest_trackable_value = 3600000000`; what `22` is the least for is the shift by
`unit_magnitude + n - 1`. -/
theorem C30_counterexample :
    hdr_calculate_bucket_config log2_floor 1 3600000000 3 = .ok example_config ∧
      example_config.bucket_count = 22 ∧
      shl64 example_config.sub_bucket_count (example_config.unit_magnitude + 21) = 4294967296 ∧
      shl64 example_config.sub_bucket_count (example_config.unit_magnitude + 21) >
        example_config.highest_trackable_value ∧
      (21 : Int) < example_config.bucket_count ∧
      shl64 example_config.sub_bucket_count (example_config.unit_magnitude + 20) ≤
        example_config.highest_trackable_value :=
  ⟨example_config_accepted, by decide, by decide, by decide, by decide, by decide⟩

/-- C30, amended. For every accepted configuration, `bucket_count` is the smallest integer
`n ≥ 1` such that `sub_bucket_count << (unit_magnitude + n - 1)`, taken over unbounded
integers, exceeds `highest_trackable_value`. -/
theorem C30_bucket_count_least (log2_f64 : Int → ℚ) (lowest highest sf : Int)
    (cfg : hdr_histogram_bucket_config) (hlog : ∀ x : Int, 1 ≤ x → 0 ≤ log2_f64 x)
    (hhi : is_s64 highest)
    (hcfg : hdr_calculate_bucket_config log2_f64 lowest highest sf = .ok cfg) :
    1 ≤ cfg.bucket_count ∧
      cfg.sub_bucket_count * 2 ^ (cfg.unit_magnitude + cfg.bucket_count - 1).toNat >
        cfg.highest_trackable_value ∧
      ∀ n : Int, 1 ≤ n → n < cfg.bucket_count →
        cfg.sub_bucket_count * 2 ^ (cfg.unit_magnitude + n - 1).toNat ≤
          cfg.highest_trackable_value := by
  obtain ⟨um, hm, bc, e1, -, e3, e4, -, e6, -, -, -, -, hbc, -, hlt, hmin, -, -⟩ :=
    config_counts log2_f64 hlog lowest highest sf cfg hhi.2 hcfg
  rw [e1, e3, e4, e6]
  refine ⟨by exact_mod_cast hbc, ?_, ?_⟩
  · have e : ((um : Int) + (bc : Int) - 1).toNat = um + bc - 1 := by omega
    rw [e, ← pow_add, show hm + 1 + (um + bc - 1) = um + hm + bc by omega]
    exact hlt
  · intro n hn1 hn
    obtain ⟨k, rfl⟩ := Int.eq_ofNat_of_zero_le (show 0 ≤ n by omega)
    have hk : k < bc := by exact_mod_cast hn
    have e : ((um : Int) + (k : Int) - 1).toNat = um + k - 1 := by omega
    rw [e, ← pow_add]
    refine le_trans (two_pow_le_two_pow ?_) (hmin (by omega))
    omega

theorem C30_bucket_count_least_witness :
    1 ≤ example_config.bucket_count ∧
      example_config.sub_bucket_count *
          2 ^ (example_config.unit_magnitude + example_config.bucket_count - 1).toNat >
        example_config.highest_trackable_value ∧
      ∀ n : Int, 1 ≤ n → n < example_config.bucket_count →
        example_config.sub_bucket_count * 2 ^ (example_config.unit_magnitude + n - 1).toNat ≤
          example_config.highest_trackable_value :=
  C30_bucket_count_least log2_floor 1 3600000000 3 example_config log2_floor_nonneg (by decide)
    example_config_accepted


/-! ## Construction -/

set_option maxRecDepth 100000 in
theorem wide_config_accepted :
    hdr_calculate_bucket_config log2_floor 1 9223372036854775807 1 = .ok wide_config := by
  rfl

theorem coarse_config_accepted :
    hdr_calculate_bucket_config log2_floor 2 2000 1 = .ok coarse_config := by
  rfl

/-- The only error code of `hdr_calculate_bucket_config` is `EINVAL`. -/
theorem hdr_calculate_bucket_config_error (log2_f64 : Int → ℚ) (lowest highest sf e : Int)
    (he : hdr_calculate_bucket_config log2_f64 lowest highest sf = .error e) : e = EINVAL := by
  unfold hdr_calculate_bucket_config at he
  by_cases hc1 : lowest < 1 ∨ sf < 1 ∨ 5 < sf ∨ wrap64 (lowest * 2) > highest
  · rw [if_pos hc1] at he
    injection he with he
    exact he.symm
  · simp only [if_neg hc1] at he
    by_cases hc2 : (s32_maximum : ℚ) < log2_f64 lowest
    · rw [if_pos hc2] at he
      injection he with he
      exact he.symm
    · simp only [if_neg hc2] at he
      split_ifs at he <;> (injection he with he; exact he.symm)

/-- C27. `hdr_init` returns `EINVAL` exactly when `hdr_calculate_bucket_config` rejects the
parameters, and `ENOMEM` for every accepted parameter triple, because `hdr_calloc` always
returns a null pointer; it never returns `0` and never writes `*result`. -/
theorem C27_init_never_succeeds (log2_f64 : Int → ℚ) (lowest highest sf : Int)
    (result : Option hdr_histogram) :
    ((hdr_init log2_f64 lowest highest sf result).1 = EINVAL ↔
        return_code (hdr_calculate_bucket_config log2_f64 lowest highest sf) = EINVAL) ∧
      ((hdr_init log2_f64 lowest highest sf result).1 = ENOMEM ↔
        return_code (hdr_calculate_bucket_config log2_f64 lowest highest sf) = 0) ∧
      (hdr_init log2_f64 lowest highest sf result).1 ≠ 0 ∧
      (hdr_init log2_f64 lowest highest sf result).2 = result := by
  cases hc : hdr_calculate_bucket_config log2_f64 lowest highest sf with
  | error e =>
    have he := hdr_calculate_bucket_config_error log2_f64 lowest highest sf e hc
    subst he
    have hi : hdr_init log2_f64 lowest highest sf result = (EINVAL, result) := by
      unfold hdr_init
      rw [hc]
    rw [hi]
    exact ⟨⟨fun _ => rfl, fun _ => rfl⟩,
      ⟨fun h => absurd h (show ¬ EINVAL = ENOMEM by decide),
        fun h => absurd h (show ¬ EINVAL = 0 by decide)⟩,
      (show ¬ EINVAL = 0 by decide), rfl⟩
  | ok cfg =>
    have hi : hdr_init log2_f64 lowest highest sf result = (ENOMEM, result) := by
      unfold hdr_init
      rw [hc]
      rfl
    rw [hi]
    exact ⟨⟨fun h => absurd h (show ¬ ENOMEM = EINVAL by decide),
        fun h => absurd h (show ¬ (0 : Int) = EINVAL by decide)⟩,
      ⟨fun _ => rfl, fun _ => rfl⟩, (show ¬ ENOMEM = 0 by decide), rfl⟩


theorem C27_init_never_succeeds_witness :
    (hdr_init log2_floor 1 2000 1 none).1 = ENOMEM ∧ (hdr_init log2_floor 0 2000 1 none).1 = EINVAL ∧
      (hdr_init log2_floor 1 2000 1 none).1 ≠ 0 ∧ (hdr_init log2_floor 1 2000 1 none).2 = none :=
  ⟨((C27_init_never_succeeds log2_floor 1 2000 1 none).2.1).2 (by decide!),
    ((C27_init_never_succeeds log2_floor 0 2000 1 none).1).2 (by decide!),
    (C27_init_never_succeeds log2_floor 1 2000 1 none).2.2.1,
    (C27_init_never_succeeds log2_floor 1 2000 1 none).2.2.2⟩

/-! ## The least and the greatest recorded value -/

theorem counts_index_for_zero (h : hdr_histogram) (um hm bc : Nat) (hl : layout h um hm bc) :
    counts_index_for h 0 = 0 := by
  have hs : slot_shift um hm 0 = um := by
    unfold slot_shift
    have : bit_length (0 : Int).toNat = 0 := by decide
    rw [this]
    omega
  rw [counts_index_for_eq h um hm bc hl 0 le_rfl (by norm_num), hs]
  simp

/-- The fields `min_value` and `max_value` after a sequence of successful recordings. -/
theorem record_list_min_max (l : List (Int × Int)) :
    ∀ h : hdr_histogram, h.normalizing_index_offset = 0 → records_succeed h l →
      h.max_value ≤ (record_list h l).max_value ∧
        (∀ x ∈ l, x.1 ≤ (record_list h l).max_value) ∧
        ((record_list h l).max_value = h.max_value ∨
          ∃ x ∈ l, x.1 = (record_list h l).max_value) ∧
        (record_list h l).min_value ≤ h.min_value ∧
        (∀ x ∈ l, x.1 ≠ 0 → (record_list h l).min_value ≤ x.1) ∧
        ((record_list h l).min_value = h.min_value ∨
          ∃ x ∈ l, x.1 ≠ 0 ∧ x.1 = (record_list h l).min_value) := by
  induction l with
  | nil =>
    intro h _ _
    exact ⟨le_rfl, fun x hx => absurd hx (List.not_mem_nil x), Or.inl rfl, le_rfl,
      fun x hx => absurd hx (List.not_mem_nil x), Or.inl rfl⟩
  | cons y l ih =>
    intro h hoff hs
    obtain ⟨hs1, hs2⟩ := hs
    rcases hdr_record_values_cases h y.1 y.2 with hr | ⟨hv0, i0, i1, hr⟩
    · rw [hr] at hs1; cases hs1
    · obtain ⟨-, -, f3, f4, -, f6, -⟩ := accepted_record_fields h y.1 y.2 hoff
      have e : record_list h (y :: l) = record_list
          (update_min_max (counts_inc_normalised h (counts_index_for h y.1) y.2) y.1) l := by
        show record_list (hdr_record_values h y.1 y.2).2 l = _
        rw [hr]
      rw [hr] at hs2
      obtain ⟨r1, r2, r3, r4, r5, r6⟩ := ih _ f6 hs2
      rw [f3] at r1 r3
      rw [f4] at r4 r6
      rw [e]
      refine ⟨le_trans (le_max_left _ _) r1, ?_, ?_, ?_, ?_, ?_⟩
      · intro x hx
        rcases List.mem_cons.1 hx with rfl | hmem
        · exact le_trans (le_max_right _ _) r1
        · exact r2 x hmem
      · rcases r3 with r3 | ⟨x, hx, hxe⟩
        · rcases le_total h.max_value y.1 with hle | hle
          · rw [max_eq_right hle] at r3
            exact Or.inr ⟨y, List.mem_cons_self _ _, r3.symm⟩
          · rw [max_eq_left hle] at r3
            exact Or.inl r3
        · exact Or.inr ⟨x, List.mem_cons_of_mem _ hx, hxe⟩
      · refine le_trans r4 ?_
        split_ifs
        · exact le_rfl
        · exact min_le_left _ _
      · intro x hx hx0
        rcases List.mem_cons.1 hx with rfl | hmem
        · rw [if_neg hx0] at r4
          exact le_trans r4 (min_le_right _ _)
        · exact r5 x hmem hx0
      · rcases r6 with r6 | ⟨x, hx, hx0, hxe⟩
        · by_cases hy0 : y.1 = 0
          · rw [if_pos hy0] at r6
            exact Or.inl r6
          · rw [if_neg hy0] at r6
            rcases le_total h.min_value y.1 with hle | hle
            · rw [min_eq_left hle] at r6
              exact Or.inl r6
            · rw [min_eq_right hle] at r6
              exact Or.inr ⟨y, List.mem_cons_self _ _, hy0, r6.symm⟩
        · exact Or.inr ⟨x, List.mem_cons_of_mem _ hx, hx0, hxe⟩


/-- The claim C21 as the specification states it fails when the least recorded value is the
sentinel `2^63 - 1` itself: in the configuration `(1, 2^63 - 1, 1)` with the value `2^63 - 1`
recorded once, `min_value` keeps the sentinel, `hdr_min` returns `2^63 - 1`, and the smallest
(and only) non-zero slot is `959`, whose value is `2^63 - 2^58`. -/
theorem C21_counterexample :
    hdr_calculate_bucket_config log2_floor 1 9223372036854775807 1 = .ok wide_config ∧
      records_succeed (fresh wide_config) [(9223372036854775807, 1)] ∧
      (record_list (fresh wide_config) [(9223372036854775807, 1)]).counts 959 = 1 ∧
      (∀ j : Nat, j < 959 →
        (record_list (fresh wide_config) [(9223372036854775807, 1)]).counts j = 0) ∧
      hdr_value_at_index (record_list (fresh wide_config) [(9223372036854775807, 1)]) 959 =
        8935141660703064064 ∧
      hdr_min (record_list (fresh wide_config) [(9223372036854775807, 1)]) =
        9223372036854775807 :=
  ⟨wide_config_accepted, by decide!, by decide!, by decide!, by decide!, by decide!⟩

/-- C21, amended. For every accepted configuration and every histogram built from a fresh
one by successful recordings, with counts `≥ 1` that sum to less than `2^63`, of values below
`2^63 - 1`: `hdr_min` returns `0` if `counts[0] > 0`; otherwise, if some slot is non-zero, it
returns `hdr_value_at_index` of the smallest non-zero slot, which is its own lowest equivalent
value; otherwise (every slot zero) it returns the sentinel `2^63 - 1`. -/
theorem C21_min_of_built (log2_f64 : Int → ℚ) (lowest highest sf : Int)
    (cfg : hdr_histogram_bucket_config) (l : List (Int × Int))
    (hlog : ∀ x : Int, 1 ≤ x → 0 ≤ log2_f64 x) (hhi : is_s64 highest)
    (hcfg : hdr_calculate_bucket_config log2_f64 lowest highest sf = .ok cfg)
    (hvals : ∀ x ∈ l, x.1 < 2 ^ 63 - 1) (hcounts : ∀ x ∈ l, 1 ≤ x.2)
    (hs : records_succeed (fresh cfg) l) (hsum : list_count_sum l < 2 ^ 63) :
    (0 < (record_list (fresh cfg) l).counts 0 → hdr_min (record_list (fresh cfg) l) = 0) ∧
      (∀ i : Int, 0 < i → i < (record_list (fresh cfg) l).counts_len →
        (record_list (fresh cfg) l).counts i ≠ 0 →
        (∀ j : Int, 0 ≤ j → j < i → (record_list (fresh cfg) l).counts j = 0) →
        hdr_min (record_list (fresh cfg) l) = hdr_value_at_index (record_list (fresh cfg) l) i ∧
          hdr_min (record_list (fresh cfg) l) =
            lowest_equivalent_value (record_list (fresh cfg) l)
              (hdr_value_at_index (record_list (fresh cfg) l) i)) ∧
      ((∀ i : Int, 0 ≤ i → i < (record_list (fresh cfg) l).counts_len →
          (record_list (fresh cfg) l).counts i = 0) →
        hdr_min (record_list (fresh cfg) l) = 2 ^ 63 - 1) := by
  have hv63 : ∀ x ∈ l, x.1 < 2 ^ 63 := fun x hx => by have := hvals x hx; omega
  obtain ⟨um, hm, bc, hl, -, hc, -, hslots, hsupp⟩ :=
    built_slots log2_f64 hlog lowest highest sf cfg hhi.2 hcfg l hv63 hcounts hs hsum
  obtain ⟨-, -, -, -, r5, r6⟩ := record_list_min_max l (fresh cfg) rfl hs
  have hfm : (fresh cfg).min_value = s64_maximum := rfl
  have hsm : s64_maximum = 2 ^ 63 - 1 := by decide
  rw [hfm] at r6
  have hc0 : hdr_count_at_index (record_list (fresh cfg) l) 0 =
      (record_list (fresh cfg) l).counts 0 := by
    unfold hdr_count_at_index counts_get_normalised counts_get_direct
    rw [normalize_index_of_offset_zero _ _ hl.offset_eq]
  refine ⟨?_, ?_, ?_⟩
  · intro hpos
    unfold hdr_min
    rw [hc0, if_pos hpos]
  · intro i hi0 hi1 hne hbelow
    obtain ⟨x, hx, hxi⟩ := hsupp i hne
    have hge : ∀ y ∈ l, i ≤ counts_index_for (record_list (fresh cfg) l) y.1 := by
      intro y hy
      obtain ⟨-, -, y2, -, y4⟩ := hslots y hy
      by_contra hlt
      have := hbelow _ y2 (not_le.1 hlt)
      omega
    have hnz : ∀ y ∈ l, y.1 ≠ 0 := by
      intro y hy h0
      have := hge y hy
      rw [h0, counts_index_for_zero _ um hm bc hl] at this
      omega
    have hmin : ∃ x0 ∈ l, x0.1 = (record_list (fresh cfg) l).min_value := by
      rcases r6 with r6 | ⟨x0, hx0, -, hxe⟩
      · have h1 := r5 x hx (hnz x hx)
        have h2 := hvals x hx
        rw [r6, hsm] at h1
        omega
      · exact ⟨x0, hx0, hxe⟩
    obtain ⟨x0, hx0, hxe⟩ := hmin
    obtain ⟨z0, z1, -, -, -⟩ := hslots x0 hx0
    obtain ⟨w0, -, -, -, -⟩ := hslots x hx
    have hle := r5 x hx (hnz x hx)
    rw [← hxe] at hle
    have hmono := counts_index_for_mono _ um hm bc hl x0.1 x.1 z0 hle (hv63 x hx)
    have hidx : counts_index_for (record_list (fresh cfg) l) x0.1 = i := by
      have := hge x0 hx0
      omega
    have hval : hdr_min (record_list (fresh cfg) l) =
        hdr_value_at_index (record_list (fresh cfg) l) i := by
      unfold hdr_min non_zero_min
      have h00 := hbelow 0 le_rfl hi0
      rw [hc0, h00, if_neg (lt_irrefl 0), ← hxe, if_neg]
      · rw [← hidx, hdr_value_at_index_counts_index_for _ um hm bc hl x0.1 z0 z1]
      · have := hvals x0 hx0
        rw [hsm]
        omega
    refine ⟨hval, ?_⟩
    rw [(counts_index_for_value_at_index _ um hm bc hl i (by omega) hi1).2.2.2]
    exact hval
  · intro hall
    have hnil : l = [] := by
      apply List.eq_nil_iff_forall_not_mem.2
      intro y hy
      obtain ⟨-, -, y2, y3, y4⟩ := hslots y hy
      have := hall _ y2 y3
      omega
    subst hnil
    rw [← hsm]
    rfl

theorem C21_min_of_built_witness :
    ((0 < (record_list (fresh small_config) [(1000, 2), (70, 1), (500, 3)]).counts 0 →
        hdr_min (record_list (fresh small_config) [(1000, 2), (70, 1), (500, 3)]) = 0) ∧
      (∀ i : Int, 0 < i →
        i < (record_list (fresh small_config) [(1000, 2), (70, 1), (500, 3)]).counts_len →
        (record_list (fresh small_config) [(1000, 2), (70, 1), (500, 3)]).counts i ≠ 0 →
        (∀ j : Int, 0 ≤ j → j < i →
          (record_list (fresh small_config) [(1000, 2), (70, 1), (500, 3)]).counts j = 0) →
        hdr_min (record_list (fresh small_config) [(1000, 2), (70, 1), (500, 3)]) =
            hdr_value_at_index (record_list (fresh small_config) [(1000, 2), (70, 1), (500, 3)])
              i ∧
          hdr_min (record_list (fresh small_config) [(1000, 2), (70, 1), (500, 3)]) =
            lowest_equivalent_value
              (record_list (fresh small_config) [(1000, 2), (70, 1), (500, 3)])
              (hdr_value_at_index
                (record_list (fresh small_config) [(1000, 2), (70, 1), (500, 3)]) i)) ∧
      ((∀ i : Int, 0 ≤ i →
          i < (record_list (fresh small_config) [(1000, 2), (70, 1), (500, 3)]).counts_len →
          (record_list (fresh small_config) [(1000, 2), (70, 1), (500, 3)]).counts i = 0) →
        hdr_min (record_list (fresh small_config) [(1000, 2), (70, 1), (500, 3)]) =
          2 ^ 63 - 1)) ∧
      hdr_min (record_list (fresh small_config) [(1000, 2), (70, 1), (500, 3)]) = 68 ∧
      hdr_min (record_list (fresh small_config) [(1000, 2), (0, 1)]) = 0 ∧
      hdr_min (fresh small_config) = 9223372036854775807 :=
  ⟨C21_min_of_built log2_floor 1 2000 1 small_config [(1000, 2), (70, 1), (500, 3)]
      log2_floor_nonneg (by decide) small_config_accepted (by decide) (by decide) (by decide!)
      (by decide),
    by decide!, by decide!, by decide!⟩


/-- The claim C22 as the specification states it fails when only the value `0` was recorded
and the unit magnitude is not `0`: in the configuration `(2, 2000, 1)` with the value `0`
recorded once, `max_value` stays `0` and `hdr_max` returns `0`, while the largest (and only)
non-zero slot is slot `0`, whose highest equivalent value is `1`. -/
theorem C22_counterexample :
    hdr_calculate_bucket_config log2_floor 2 2000 1 = .ok coarse_config ∧
      records_succeed (fresh coarse_config) [(0, 1)] ∧
      (record_list (fresh coarse_config) [(0, 1)]).counts 0 = 1 ∧
      (record_list (fresh coarse_config) [(0, 1)]).total_count = 1 ∧
      (∀ j : Nat, j < 112 → 0 < j → (record_list (fresh coarse_config) [(0, 1)]).counts j = 0) ∧
      highest_equivalent_value (record_list (fresh coarse_config) [(0, 1)])
        (hdr_value_at_index (record_list (fresh coarse_config) [(0, 1)]) 0) = 1 ∧
      hdr_max (record_list (fresh coarse_config) [(0, 1)]) = 0 :=
  ⟨coarse_config_accepted, by decide!, by decide!, by decide!, by decide!, by decide!,
    by decide!⟩

/-- C22, amended. For every accepted configuration and every histogram built from a fresh
one by successful recordings of 64-bit values with counts `≥ 1` that sum to less than `2^63`:
`hdr_max` returns `0` when no non-zero value has been recorded, in particular when the
histogram is empty, and otherwise returns the highest equivalent value of the largest
non-zero slot. -/
theorem C22_max_of_built (log2_f64 : Int → ℚ) (lowest highest sf : Int)
    (cfg : hdr_histogram_bucket_config) (l : List (Int × Int))
    (hlog : ∀ x : Int, 1 ≤ x → 0 ≤ log2_f64 x) (hhi : is_s64 highest)
    (hcfg : hdr_calculate_bucket_config log2_f64 lowest highest sf = .ok cfg)
    (hvals : ∀ x ∈ l, is_s64 x.1) (hcounts : ∀ x ∈ l, 1 ≤ x.2)
    (hs : records_succeed (fresh cfg) l) (hsum : list_count_sum l < 2 ^ 63) :
    ((∀ x ∈ l, x.1 = 0) → hdr_max (record_list (fresh cfg) l) = 0) ∧
      ((∃ x ∈ l, x.1 ≠ 0) →
        ∀ i : Int, 0 ≤ i → i < (record_list (fresh cfg) l).counts_len →
          (record_list (fresh cfg) l).counts i ≠ 0 →
          (∀ j : Int, i < j → j < (record_list (fresh cfg) l).counts_len →
            (record_list (fresh cfg) l).counts j = 0) →
          hdr_max (record_list (fresh cfg) l) =
            highest_equivalent_value (record_list (fresh cfg) l)
              (hdr_value_at_index (record_list (fresh cfg) l) i)) := by
  have hv63 : ∀ x ∈ l, x.1 < 2 ^ 63 := fun x hx => (hvals x hx).2
  obtain ⟨um, hm, bc, hl, -, hc, -, hslots, hsupp⟩ :=
    built_slots log2_f64 hlog lowest highest sf cfg hhi.2 hcfg l hv63 hcounts hs hsum
  obtain ⟨-, r2, r3, -, -, -⟩ := record_list_min_max l (fresh cfg) rfl hs
  have hfm : (fresh cfg).max_value = 0 := rfl
  rw [hfm] at r3
  constructor
  · intro hzero
    have hmax : (record_list (fresh cfg) l).max_value = 0 := by
      rcases r3 with r3 | ⟨x, hx, hxe⟩
      · exact r3
      · rw [← hxe]
        exact hzero x hx
    unfold hdr_max
    rw [hmax, if_pos rfl]
  · rintro ⟨x1, hx1, hx1ne⟩ i hi0 hi1 hne habove
    obtain ⟨x, hx, hxi⟩ := hsupp i hne
    have hle : ∀ y ∈ l, counts_index_for (record_list (fresh cfg) l) y.1 ≤ i := by
      intro y hy
      obtain ⟨-, -, -, y3, y4⟩ := hslots y hy
      by_contra hlt
      have := habove _ (not_le.1 hlt) y3
      omega
    have hpos : 0 < (record_list (fresh cfg) l).max_value := by
      have h1 := r2 x1 hx1
      have h2 := (hslots x1 hx1).1
      omega
    obtain ⟨x0, hx0, hxe⟩ : ∃ x0 ∈ l, x0.1 = (record_list (fresh cfg) l).max_value := by
      rcases r3 with r3 | r3
      · omega
      · exact r3
    obtain ⟨z0, z1, -, -, -⟩ := hslots x0 hx0
    obtain ⟨w0, -, -, -, -⟩ := hslots x hx
    have hxle := r2 x hx
    rw [← hxe] at hxle
    have hmono := counts_index_for_mono _ um hm bc hl x.1 x0.1 w0 hxle (hv63 x0 hx0)
    have hidx : counts_index_for (record_list (fresh cfg) l) x0.1 = i := by
      have := hle x0 hx0
      omega
    unfold hdr_max
    rw [if_neg (by omega), ← hxe, ← hidx,
      hdr_value_at_index_counts_index_for _ um hm bc hl x0.1 z0 z1,
      (highest_equivalent_value_lowest _ um hm bc hl x0.1 z0 (hv63 x0 hx0)).1]

theorem C22_max_of_built_witness :
    (((∀ x ∈ [((1000 : Int), (2 : Int)), (70, 1), (500, 3)], x.1 = 0) →
        hdr_max (record_list (fresh small_config) [(1000, 2), (70, 1), (500, 3)]) = 0) ∧
      ((∃ x ∈ [((1000 : Int), (2 : Int)), (70, 1), (500, 3)], x.1 ≠ 0) →
        ∀ i : Int, 0 ≤ i →
          i < (record_list (fresh small_config) [(1000, 2), (70, 1), (500, 3)]).counts_len →
          (record_list (fresh small_config) [(1000, 2), (70, 1), (500, 3)]).counts i ≠ 0 →
          (∀ j : Int, i < j →
            j < (record_list (fresh small_config) [(1000, 2), (70, 1), (500, 3)]).counts_len →
            (record_list (fresh small_config) [(1000, 2), (70, 1), (500, 3)]).counts j = 0) →
          hdr_max (record_list (fresh small_config) [(1000, 2), (70, 1), (500, 3)]) =
            highest_equivalent_value
              (record_list (fresh small_config) [(1000, 2), (70, 1), (500, 3)])
              (hdr_value_at_index
                (record_list (fresh small_config) [(1000, 2), (70, 1), (500, 3)]) i))) ∧
      hdr_max (record_list (fresh small_config) [(1000, 2), (70, 1), (500, 3)]) = 1023 ∧
      hdr_max (fresh small_config) = 0 :=
  ⟨C22_max_of_built log2_floor 1 2000 1 small_config [(1000, 2), (70, 1), (500, 3)]
      log2_floor_nonneg (by decide) small_config_accepted (by decide) (by decide) (by decide!)
      (by decide),
    by decide!, by decide!⟩


/-! ## The mean -/

theorem hdr_median_equivalent_value_eq (h : hdr_histogram) (um hm bc : Nat)
    (hl : layout h um hm bc) (v : Int) (hv0 : 0 ≤ v) (hv : v < 2 ^ 63) :
    hdr_median_equivalent_value h v =
        lowest_equivalent_value h v + hdr_size_of_equivalent_value_range h v / 2 ∧
      0 ≤ hdr_median_equivalent_value h v := by
  have hmag := layout_magnitude h um hm bc hl
  obtain ⟨g1, g2, -, -⟩ := slot_shift_spec um hm v hv0 hv hmag
  obtain ⟨s0, s1, s2, s3, -⟩ := value_in_slot h um hm bc hl v hv0 hv
  have hsz := hdr_size_of_equivalent_value_range_eq h um hm bc hl v hv0 hv
  have hpos := two_pow_pos (slot_shift um hm v)
  have h63 : (2 : Int) ^ (slot_shift um hm v + hm + 1) ≤ 2 ^ 63 := two_pow_le_two_pow (by omega)
  have hshr : shr (hdr_size_of_equivalent_value_range h v) 1 =
      hdr_size_of_equivalent_value_range h v / 2 := by
    unfold shr
    norm_num
  have hw : wrap64 (lowest_equivalent_value h v +
        hdr_size_of_equivalent_value_range h v / 2) =
      lowest_equivalent_value h v + hdr_size_of_equivalent_value_range h v / 2 := by
    apply wrap64_of_is_s64
    rw [hsz] at s2 s3 ⊢
    unfold is_s64
    constructor <;> omega
  unfold hdr_median_equivalent_value
  rw [hshr, hw]
  refine ⟨rfl, ?_⟩
  rw [hsz]
  omega

/-- The terms of the weighted sum are non-negative. -/
theorem weighted_term_nonneg (h : hdr_histogram) (hc : consistent h) (um hm bc : Nat)
    (hl : layout h um hm bc) (j : Nat) (hj : j < h.counts_len.toNat) :
    0 ≤ h.counts j * hdr_median_equivalent_value h (hdr_value_at_index h j) := by
  have hj' : (j : Int) < h.counts_len := by omega
  obtain ⟨V0, V1, -, -⟩ := counts_index_for_value_at_index h um hm bc hl j (by omega) hj'
  have h63 : (2 : Int) ^ (um + hm + bc) ≤ 2 ^ 63 := two_pow_le_two_pow hl.magnitude_le
  exact mul_nonneg (hc.counts_nonneg j (by omega) hj')
    (hdr_median_equivalent_value_eq h um hm bc hl _ V0 (lt_of_lt_of_le V1 h63)).2

theorem weighted_sum_succ (h : hdr_histogram) (k : Nat) :
    weighted_sum h (k + 1) =
      weighted_sum h k +
        h.counts k * hdr_median_equivalent_value h (hdr_value_at_index h k) := rfl

theorem weighted_sum_mono (h : hdr_histogram) (hc : consistent h) (um hm bc : Nat)
    (hl : layout h um hm bc) (m n : Nat) (hmn : m ≤ n) (hn : n ≤ h.counts_len.toNat) :
    0 ≤ weighted_sum h m ∧ weighted_sum h m ≤ weighted_sum h n := by
  unfold weighted_sum
  exact ⟨sum_counts_nonneg _ _ (fun j hj => weighted_term_nonneg h hc um hm bc hl j (by omega)),
    sum_counts_mono _ _ _ hmn (fun j hj => weighted_term_nonneg h hc um hm bc hl j (by omega))⟩

/-- The loop of `hdr_mean` over a consistent histogram, started before slot `k` with the
weighted sum and the count of the slots before `k`: it ends with the weighted sum of all
slots. -/
theorem hdr_mean_loop_spec (h : hdr_histogram) (hc : consistent h) (um hm bc : Nat)
    (hl : layout h um hm bc) (hW : weighted_sum h h.counts_len.toNat < 2 ^ 63) (d : Nat) :
    ∀ (k fuel : Nat) (iter : hdr_iter), k + d = h.counts_len.toNat → d + 1 ≤ fuel →
      all_values_iter_at h k iter →
      (hdr_mean_loop h h.total_count fuel iter (weighted_sum h k) (sum_counts h.counts k)).1 =
        weighted_sum h h.counts_len.toNat := by
  induction d with
  | zero =>
    intro k fuel iter hk hfuel hat
    obtain ⟨-, n2⟩ := hdr_iter_next_all_values h hc k (by omega) iter hat
    cases fuel with
    | zero => omega
    | succ fuel =>
      unfold hdr_mean_loop
      simp only [n2 (by omega), Bool.false_eq_true, false_and, if_false]
      rw [← hk, add_zero]
  | succ d ih =>
    intro k fuel iter hk hfuel hat
    obtain ⟨n1, -⟩ := hdr_iter_next_all_values h hc k (by omega) iter hat
    obtain ⟨m1, m2, m3, m4⟩ := n1 (by omega)
    cases fuel with
    | zero => omega
    | succ fuel =>
      unfold hdr_mean_loop
      by_cases hlt : sum_counts h.counts k < h.total_count
      · simp only [m1, hlt, and_self, if_true, m3, m4]
        by_cases hz : h.counts k = 0
        · rw [if_neg (by rw [hz]; simp)]
          have e1 : weighted_sum h (k + 1) = weighted_sum h k := by
            rw [weighted_sum_succ, hz, zero_mul, add_zero]
          have e2 : sum_counts h.counts (k + 1) = sum_counts h.counts k := by
            show sum_counts h.counts k + h.counts k = _
            rw [hz, add_zero]
          have := ih (k + 1) fuel _ (by omega) (by omega) m2
          rw [e1, e2] at this
          exact this
        · rw [if_pos (Ne.symm hz)]
          have ht := weighted_term_nonneg h hc um hm bc hl k (by omega)
          obtain ⟨w0, w1⟩ := weighted_sum_mono h hc um hm bc hl (k + 1) h.counts_len.toNat
            (by omega) le_rfl
          obtain ⟨w2, -⟩ := weighted_sum_mono h hc um hm bc hl k h.counts_len.toNat
            (by omega) le_rfl
          have hsucc := weighted_sum_succ h k
          have e1 : wrap64 (h.counts k *
              hdr_median_equivalent_value h (hdr_value_at_index h k)) =
              h.counts k * hdr_median_equivalent_value h (hdr_value_at_index h k) := by
            apply wrap64_of_is_s64
            unfold is_s64
            constructor <;> linarith
          have e2 : wrap64 (weighted_sum h k +
              h.counts k * hdr_median_equivalent_value h (hdr_value_at_index h k)) =
              weighted_sum h (k + 1) := by
            rw [← hsucc]
            apply wrap64_of_is_s64
            unfold is_s64
            constructor <;> linarith
          rw [e1, e2, prefix_wrap h hc k (by omega)]
          exact ih (k + 1) fuel _ (by omega) (by omega) m2
      · have hcond : ¬ ((hdr_iter_next iter).1 = true ∧
            sum_counts h.counts k < h.total_count) := fun hx => hlt hx.2
        simp only [hcond, if_false]
        unfold weighted_sum
        symm
        apply sum_counts_eq_of_zero _ _ _ (by omega)
        intro j hj1 hj2
        rw [consistent_rest_zero h hc k (not_lt.1 hlt) j hj1 hj2, zero_mul]

/-- The double that `hdr_mean` returns for a consistent histogram whose weighted sum and
`total_count` are below `2 ^ 53`: the double nearest to their quotient. -/
theorem hdr_mean_eq (iter : hdr_iter) (h : hdr_histogram) (hc : consistent h) (um hm bc : Nat)
    (hl : layout h um hm bc) (hW : weighted_sum h h.counts_len.toNat < 2 ^ 53)
    (ht : h.total_count < 2 ^ 53) :
    hdr_mean iter h =
      f64_round ((weighted_sum h h.counts_len.toNat : ℚ) / (h.total_count : ℚ)) := by
  have hlen0 := hc.len_nonneg
  have hspec := hdr_mean_loop_spec h hc um hm bc hl (lt_trans hW (by norm_num))
    h.counts_len.toNat 0 (h.counts_len.toNat + 1) (hdr_iter_init iter h) (by omega) le_rfl
    ⟨rfl, rfl, rfl⟩
  have hspec' : (hdr_mean_loop h h.total_count (h.counts_len.toNat + 1) (hdr_iter_init iter h)
      0 0).1 = weighted_sum h h.counts_len.toNat := hspec
  obtain ⟨w0, -⟩ := weighted_sum_mono h hc um hm bc hl h.counts_len.toNat h.counts_len.toNat
    le_rfl le_rfl
  have ht0 := consistent_total_nonneg h hc
  unfold hdr_mean f64_div f64_mul f64_of_s64
  simp only [hspec']
  rw [f64_round_int _ w0 hW, mul_one, f64_round_int _ w0 hW, f64_round_int _ ht0 ht]


/-- The claim C28 as the specification states it fails whenever the quotient is not a double:
in the configuration `(1, 2000, 1)` with the value `1` recorded twice and the value `2` once,
the weighted sum is `4`, `total_count` is `3`, and `hdr_mean` returns the double nearest to
`4 / 3`, which is `6004799503160661 / 2^52`, not `4 / 3`. -/
theorem C28_counterexample :
    hdr_calculate_bucket_config log2_floor 1 2000 1 = .ok small_config ∧
      records_succeed (fresh small_config) [(1, 2), (2, 1)] ∧
      (record_list (fresh small_config) [(1, 2), (2, 1)]).total_count = 3 ∧
      weighted_sum (record_list (fresh small_config) [(1, 2), (2, 1)]) 128 = 4 ∧
      (record_list (fresh small_config) [(1, 2), (2, 1)]).counts_len = 128 ∧
      hdr_mean zeroed_iter (record_list (fresh small_config) [(1, 2), (2, 1)]) =
        6004799503160661 / 4503599627370496 ∧
      hdr_mean zeroed_iter (record_list (fresh small_config) [(1, 2), (2, 1)]) ≠ 4 / 3 :=
  ⟨small_config_accepted, by decide!, by decide!, by decide!, by decide!, by decide!,
    by decide!⟩

/-- C28, amended. For every accepted configuration and every histogram built from a fresh
one by successful recordings of 64-bit values with counts `≥ 1`, with `total_count` and the
weighted sum `W = sum over all slots i of counts[i] *
hdr_median_equivalent_value(hdr_value_at_index(i))` below `2^53`: `hdr_mean` is the double
nearest to the exact rational `W / total_count`, hence that rational itself whenever it is a
double; and `hdr_median_equivalent_value(x) = lowest_equivalent_value(x) +
floor(range_size(x) / 2)` at the value `x` of every slot. -/
theorem C28_mean_is_rounded_weighted_average (log2_f64 : Int → ℚ) (lowest highest sf : Int)
    (cfg : hdr_histogram_bucket_config) (l : List (Int × Int)) (iter : hdr_iter)
    (hlog : ∀ x : Int, 1 ≤ x → 0 ≤ log2_f64 x) (hhi : is_s64 highest)
    (hcfg : hdr_calculate_bucket_config log2_f64 lowest highest sf = .ok cfg)
    (hvals : ∀ x ∈ l, is_s64 x.1) (hcounts : ∀ x ∈ l, 1 ≤ x.2)
    (hs : records_succeed (fresh cfg) l) (hsum : list_count_sum l < 2 ^ 53)
    (hW : weighted_sum (record_list (fresh cfg) l)
      (record_list (fresh cfg) l).counts_len.toNat < 2 ^ 53) :
    hdr_mean iter (record_list (fresh cfg) l) =
        f64_round
          ((weighted_sum (record_list (fresh cfg) l)
              (record_list (fresh cfg) l).counts_len.toNat : ℚ) /
            ((record_list (fresh cfg) l).total_count : ℚ)) ∧
      (f64_round
          ((weighted_sum (record_list (fresh cfg) l)
              (record_list (fresh cfg) l).counts_len.toNat : ℚ) /
            ((record_list (fresh cfg) l).total_count : ℚ)) =
          (weighted_sum (record_list (fresh cfg) l)
              (record_list (fresh cfg) l).counts_len.toNat : ℚ) /
            ((record_list (fresh cfg) l).total_count : ℚ) →
        hdr_mean iter (record_list (fresh cfg) l) =
          (weighted_sum (record_list (fresh cfg) l)
              (record_list (fresh cfg) l).counts_len.toNat : ℚ) /
            ((record_list (fresh cfg) l).total_count : ℚ)) ∧
      ∀ i : Int, 0 ≤ i → i < (record_list (fresh cfg) l).counts_len →
        hdr_median_equivalent_value (record_list (fresh cfg) l)
            (hdr_value_at_index (record_list (fresh cfg) l) i) =
          lowest_equivalent_value (record_list (fresh cfg) l)
              (hdr_value_at_index (record_list (fresh cfg) l) i) +
            hdr_size_of_equivalent_value_range (record_list (fresh cfg) l)
              (hdr_value_at_index (record_list (fresh cfg) l) i) / 2 := by
  obtain ⟨um, hm, bc, hl, -, hc, htot, -, -⟩ :=
    built_slots log2_f64 hlog lowest highest sf cfg hhi.2 hcfg l (fun x hx => (hvals x hx).2)
      hcounts hs (lt_trans hsum (by norm_num))
  have hmean := hdr_mean_eq iter _ hc um hm bc hl hW (by rw [htot]; exact hsum)
  refine ⟨hmean, fun hex => by rw [hmean, hex], ?_⟩
  intro i hi0 hi1
  obtain ⟨V0, V1, -, -⟩ := counts_index_for_value_at_index _ um hm bc hl i hi0 hi1
  have h63 : (2 : Int) ^ (um + hm + bc) ≤ 2 ^ 63 := two_pow_le_two_pow hl.magnitude_le
  exact (hdr_median_equivalent_value_eq _ um hm bc hl _ V0 (lt_of_lt_of_le V1 h63)).1

theorem C28_mean_is_rounded_weighted_average_witness :
    hdr_mean zeroed_iter (record_list (fresh small_config) [(1000, 2), (70, 1), (5, 1)]) =
        f64_round
          ((weighted_sum (record_list (fresh small_config) [(1000, 2), (70, 1), (5, 1)])
              (record_list (fresh small_config)
                [(1000, 2), (70, 1), (5, 1)]).counts_len.toNat : ℚ) /
            ((record_list (fresh small_config) [(1000, 2), (70, 1), (5, 1)]).total_count : ℚ)) ∧
      weighted_sum (record_list (fresh small_config) [(1000, 2), (70, 1), (5, 1)]) 128 = 2091 ∧
      hdr_mean zeroed_iter (record_list (fresh small_config) [(1000, 2), (70, 1), (5, 1)]) =
        2091 / 4 :=
  ⟨(C28_mean_is_rounded_weighted_average log2_floor 1 2000 1 small_config
      [(1000, 2), (70, 1), (5, 1)] zeroed_iter log2_floor_nonneg (by decide)
      small_config_accepted (by decide) (by decide) (by decide!) (by decide) (by decide!)).1,
    by decide!, by decide!⟩


/-! ## Finished iterators -/

/-- A call of `basic_iter_next` that returns false leaves the iterator as it is. -/
theorem basic_iter_next_false (iter : hdr_iter) (hr : (basic_iter_next iter).1 = false) :
    basic_iter_next iter = (false, iter) := by
  unfold basic_iter_next at hr ⊢
  by_cases hc : (!has_next iter) = true ∨ iter.counts_index ≥ iter.h.counts_len
  · rw [if_pos hc]
  · rw [if_neg hc] at hr; cases hr

/-- The flag and the fields that `move_next` leaves behind, whatever it returns. -/
theorem move_next_fields (iter : hdr_iter) :
    (move_next iter).1 = decide (wrap32 (iter.counts_index + 1) < iter.h.counts_len) ∧
      (move_next iter).2.h = iter.h ∧ (move_next iter).2.next_fp = iter.next_fp ∧
      (move_next iter).2.counts_index = wrap32 (iter.counts_index + 1) := by
  unfold move_next
  simp only
  by_cases hb : has_buckets { iter with counts_index := wrap32 (iter.counts_index + 1) } = true
  · have hb2 : wrap32 (iter.counts_index + 1) < iter.h.counts_len := of_decide_eq_true hb
    simp only [hb, Bool.not_true, Bool.false_eq_true, if_false]
    refine ⟨(decide_eq_true hb2).symm, ?_, ?_, ?_⟩ <;> trivial
  · have hb1 : has_buckets { iter with counts_index := wrap32 (iter.counts_index + 1) } = false := by
      simpa using hb
    have hb2 : ¬ wrap32 (iter.counts_index + 1) < iter.h.counts_len := of_decide_eq_false hb1
    simp only [hb1, Bool.not_false, if_true]
    refine ⟨(decide_eq_false hb2).symm, ?_, ?_, ?_⟩ <;> trivial

/-- The flag and the fields that `all_values_iter_next` leaves behind. -/
theorem all_values_iter_next_fields (iter : hdr_iter) :
    (all_values_iter_next iter).1 =
        decide (wrap32 (iter.counts_index + 1) < iter.h.counts_len) ∧
      (all_values_iter_next iter).2.h = iter.h ∧
      (all_values_iter_next iter).2.next_fp = iter.next_fp ∧
      (all_values_iter_next iter).2.counts_index = wrap32 (iter.counts_index + 1) := by
  obtain ⟨m1, m2, m3, m4⟩ := move_next_fields iter
  unfold all_values_iter_next
  simp only
  by_cases hb : (move_next iter).1 = true
  · simp only [hb, if_true]
    exact ⟨by rw [← m1, hb], m2, m3, m4⟩
  · have hf : (move_next iter).1 = false := by simpa using hb
    simp only [hf, Bool.false_eq_true, if_false]
    exact ⟨by rw [← m1, hf], m2, m3, m4⟩

/-- An all-values iterator that has returned false returns false at each of the next calls,
as long as `counts_index`, which every call raises, stays in the range of `s32`. -/
theorem all_values_stays_finished (n : Nat) :
    ∀ (iter : hdr_iter), iter.next_fp = hdr_iter_next_fp.all_values_iter_next →
      -2 ^ 31 ≤ iter.counts_index → iter.counts_index + n + 2 < 2 ^ 31 →
      (hdr_iter_next iter).1 = false →
      (hdr_iter_next (iter_after n (hdr_iter_next iter).2)).1 = false := by
  have step : ∀ (iter : hdr_iter), iter.next_fp = hdr_iter_next_fp.all_values_iter_next →
      -2 ^ 31 ≤ iter.counts_index → iter.counts_index + 2 < 2 ^ 31 →
      (hdr_iter_next iter).1 = false →
      (hdr_iter_next iter).2.next_fp = hdr_iter_next_fp.all_values_iter_next ∧
        (hdr_iter_next iter).2.counts_index = iter.counts_index + 1 ∧
        (hdr_iter_next (hdr_iter_next iter).2).1 = false := by
    intro iter hfp hlo hhi hr
    have e : hdr_iter_next iter = all_values_iter_next iter := by
      unfold hdr_iter_next
      rw [hfp]
    rw [e] at hr ⊢
    obtain ⟨a1, a2, a3, a4⟩ := all_values_iter_next_fields iter
    have hw : wrap32 (iter.counts_index + 1) = iter.counts_index + 1 := by
      apply wrap32_of_is_s32
      unfold is_s32
      constructor <;> omega
    rw [hw] at a1 a4
    have hge : ¬ iter.counts_index + 1 < iter.h.counts_len := by
      rw [a1] at hr
      exact of_decide_eq_false hr
    refine ⟨a3.trans hfp, a4, ?_⟩
    have e2 : hdr_iter_next (all_values_iter_next iter).2 =
        all_values_iter_next (all_values_iter_next iter).2 := by
      unfold hdr_iter_next
      rw [a3, hfp]
    rw [e2]
    obtain ⟨b1, -, -, -⟩ := all_values_iter_next_fields (all_values_iter_next iter).2
    rw [b1, a4, a2]
    have hw2 : wrap32 (iter.counts_index + 1 + 1) = iter.counts_index + 1 + 1 := by
      apply wrap32_of_is_s32
      unfold is_s32
      constructor <;> omega
    rw [hw2]
    apply decide_eq_false
    omega
  induction n with
  | zero =>
    intro iter hfp hlo hhi hr
    exact (step iter hfp hlo (by simpa using hhi) hr).2.2
  | succ n ih =>
    intro iter hfp hlo hhi hr
    obtain ⟨s1, s2, s3⟩ := step iter hfp hlo (by push_cast at hhi; omega) hr
    show (hdr_iter_next (iter_after n (hdr_iter_next (hdr_iter_next iter).2).2)).1 = false
    exact ih (hdr_iter_next iter).2 s1 (by rw [s2]; omega) (by rw [s2]; push_cast at hhi; omega) s3

/-- The loop of `recorded_iter_next` returns false only in a state in which
`basic_iter_next` returns false. -/
theorem recorded_iter_next_loop_false (fuel : Nat) :
    ∀ (iter : hdr_iter), iter.h.counts_len < 2 ^ 31 → -2 ^ 31 ≤ iter.counts_index →
      (iter.h.counts_len - iter.counts_index).toNat + 1 ≤ fuel →
      (recorded_iter_next_loop fuel iter).1 = false →
      (basic_iter_next (recorded_iter_next_loop fuel iter).2).1 = false ∧
        (recorded_iter_next_loop fuel iter).2.next_fp = iter.next_fp := by
  induction fuel with
  | zero => intro iter _ _ h1 _; omega
  | succ fuel ih =>
    intro iter hlen hidx h1 hr
    unfold recorded_iter_next_loop at hr ⊢
    by_cases hb : (basic_iter_next iter).1 = true
    · obtain ⟨b1, b2, b3, b4⟩ := basic_iter_next_true iter hlen hidx hb
      simp only [hb, if_true] at hr ⊢
      by_cases hcnt : (basic_iter_next iter).2.count ≠ 0
      · rw [if_pos hcnt] at hr; cases hr
      · rw [if_neg hcnt] at hr ⊢
        have key := ih (basic_iter_next iter).2 (by rw [b1]; exact hlen) (by rw [b3]; omega)
          (by rw [b1, b3]; omega) hr
        exact ⟨key.1, key.2.trans b2⟩
    · have hf : (basic_iter_next iter).1 = false := by simpa using hb
      simp only [hf, Bool.false_eq_true, if_false]
      rw [basic_iter_next_false iter hf]
      exact ⟨hf, rfl⟩

/-- A recorded-values iterator that has returned false is in a state that the next call
leaves as it is, returning false. -/
theorem recorded_iter_next_finished (iter : hdr_iter) (hlen : iter.h.counts_len < 2 ^ 31)
    (hidx : -2 ^ 31 ≤ iter.counts_index) (hr : (recorded_iter_next iter).1 = false) :
    recorded_iter_next (recorded_iter_next iter).2 = (false, (recorded_iter_next iter).2) ∧
      (recorded_iter_next iter).2.next_fp = iter.next_fp := by
  have key := recorded_iter_next_loop_false _ iter hlen hidx (le_refl _) hr
  refine ⟨?_, key.2⟩
  have hb := basic_iter_next_false _ key.1
  show recorded_iter_next_loop (_ + 1) (recorded_iter_next iter).2 = _
  rw [recorded_iter_next_loop]
  have hb2 : basic_iter_next (recorded_iter_next iter).2 = (false, (recorded_iter_next iter).2) :=
    hb
  rw [hb2]
  rfl

/-- The loop of `percentile_iter_next` returns true. -/
theorem percentile_iter_next_loop_true (log2_f64 : ℚ → ℚ) (fuel : Nat) :
    ∀ (iter : hdr_iter), (percentile_iter_next_loop log2_f64 fuel iter).1 = true := by
  induction fuel with
  | zero => intro iter; rfl
  | succ fuel ih =>
    intro iter
    rw [percentile_iter_next_loop]
    simp only
    split_ifs
    · rfl
    · exact ih _
    · rfl

/-- A call of `percentile_iter_next` that returns false leaves the iterator as it is. -/
theorem percentile_iter_next_false (log2_f64 : ℚ → ℚ) (iter : hdr_iter)
    (hr : (percentile_iter_next log2_f64 iter).1 = false) :
    percentile_iter_next log2_f64 iter = (false, iter) := by
  unfold percentile_iter_next at hr ⊢
  simp only at hr ⊢
  by_cases h1 : (!has_next iter) = true
  · rw [if_pos h1] at hr ⊢
    by_cases h2 : (specifics_percentiles iter).seen_last_value = true
    · rw [if_pos h2]
    · rw [if_neg h2] at hr; cases hr
  · rw [if_neg h1] at hr ⊢
    by_cases h3 : iter.counts_index = -1
    · rw [if_pos h3] at hr ⊢
      by_cases h4 : (!(basic_iter_next iter).1) = true
      · rw [if_pos h4]
        have hf : (basic_iter_next iter).1 = false := by simpa using h4
        rw [basic_iter_next_false iter hf]
      · rw [if_neg h4, percentile_iter_next_loop_true] at hr; cases hr
    · rw [if_neg h3, percentile_iter_next_loop_true] at hr; cases hr

/-- The loop of `iter_linear_next` returns true. -/
theorem iter_linear_next_loop_true (fuel : Nat) :
    ∀ (iter : hdr_iter), (iter_linear_next_loop fuel iter).1 = true := by
  induction fuel with
  | zero => intro iter; rfl
  | succ fuel ih =>
    intro iter
    rw [iter_linear_next_loop]
    simp only
    split_ifs
    · rfl
    · rfl
    · exact ih _

/-- A linear iterator that has returned false is in a state that the next call leaves as
it is, returning false. -/
theorem iter_linear_next_finished (iter : hdr_iter) (hr : (iter_linear_next iter).1 = false) :
    iter_linear_next (iter_linear_next iter).2 = (false, (iter_linear_next iter).2) ∧
      (iter_linear_next iter).2.next_fp = iter.next_fp := by
  unfold iter_linear_next at hr
  simp only at hr
  split_ifs at hr with hc
  · rw [iter_linear_next_loop_true] at hr; cases hr
  · have e : iter_linear_next iter =
        (false,
          { iter with
            specifics :=
              hdr_iter_specifics.linear
                { specifics_linear iter with count_added_in_this_iteration_step := 0 } }) := by
      unfold iter_linear_next
      exact if_neg hc
    rw [e]
    refine ⟨?_, rfl⟩
    unfold iter_linear_next
    exact if_neg hc

/-- The loop of `log_iter_next` returns true. -/
theorem log_iter_next_loop_true (fuel : Nat) :
    ∀ (iter : hdr_iter), (log_iter_next_loop fuel iter).1 = true := by
  induction fuel with
  | zero => intro iter; rfl
  | succ fuel ih =>
    intro iter
    rw [log_iter_next_loop]
    simp only
    split_ifs
    · rfl
    · rfl
    · exact ih _

/-- A logarithmic iterator that has returned false is in a state that the next call leaves
as it is, returning false. -/
theorem log_iter_next_finished (iter : hdr_iter) (hr : (log_iter_next iter).1 = false) :
    log_iter_next (log_iter_next iter).2 = (false, (log_iter_next iter).2) ∧
      (log_iter_next iter).2.next_fp = iter.next_fp := by
  unfold log_iter_next at hr
  simp only at hr
  split_ifs at hr with hc
  · rw [log_iter_next_loop_true] at hr; cases hr
  · have e : log_iter_next iter =
        (false,
          { iter with
            specifics :=
              hdr_iter_specifics.log
                { specifics_log iter with count_added_in_this_iteration_step := 0 } }) := by
      unfold log_iter_next
      exact if_neg hc
    rw [e]
    refine ⟨?_, rfl⟩
    unfold log_iter_next
    exact if_neg hc

/-- Calls of `hdr_iter_next` on a state that a call leaves as it is do not move it. -/
theorem iter_after_fixed (s : hdr_iter) (hs : hdr_iter_next s = (false, s)) :
    ∀ (n : Nat), iter_after n s = s := by
  intro n
  induction n with
  | zero => rfl
  | succ n ih =>
    show iter_after n (hdr_iter_next s).2 = s
    rw [hs]
    exact ih

/-- Claim C26: for each of the five iterator variants, which `next_fp` selects, over any
histogram: once `hdr_iter_next` has returned false on an iterator, the call after any number
`n` of further calls returns false as well.  The fields `counts_index` and `counts_len` are
of type `s32`; the all-values variant raises `counts_index` at every call, also at one that
returns false, and for it the calls are those before `counts_index` leaves the range of
`s32`. -/
theorem C26_finished_iterator_stays_finished (iter : hdr_iter) (n : Nat)
    (hlen : is_s32 iter.h.counts_len) (hidx : is_s32 iter.counts_index)
    (hno : iter.next_fp = hdr_iter_next_fp.all_values_iter_next →
      iter.counts_index + n + 2 < 2 ^ 31)
    (hr : (hdr_iter_next iter).1 = false) :
    (hdr_iter_next (iter_after n (hdr_iter_next iter).2)).1 = false := by
  have fixed : ∀ (s : hdr_iter), hdr_iter_next s = (false, s) →
      (hdr_iter_next (iter_after n s)).1 = false := by
    intro s hs
    rw [iter_after_fixed s hs n, hs]
  cases hfp : iter.next_fp with
  | all_values_iter_next => exact all_values_stays_finished n iter hfp hidx.1 (hno hfp) hr
  | recorded_iter_next =>
    have e : hdr_iter_next iter = recorded_iter_next iter := by
      unfold hdr_iter_next
      rw [hfp]
    rw [e] at hr ⊢
    obtain ⟨k1, k2⟩ := recorded_iter_next_finished iter hlen.2 hidx.1 hr
    apply fixed
    unfold hdr_iter_next
    rw [k2, hfp]
    exact k1
  | percentile_iter_next log2_f64 =>
    have e : hdr_iter_next iter = percentile_iter_next log2_f64 iter := by
      unfold hdr_iter_next
      rw [hfp]
    rw [e] at hr ⊢
    have k1 := percentile_iter_next_false log2_f64 iter hr
    rw [k1]
    apply fixed
    rw [e]
    exact k1
  | iter_linear_next =>
    have e : hdr_iter_next iter = iter_linear_next iter := by
      unfold hdr_iter_next
      rw [hfp]
    rw [e] at hr ⊢
    obtain ⟨k1, k2⟩ := iter_linear_next_finished iter hr
    apply fixed
    unfold hdr_iter_next
    rw [k2, hfp]
    exact k1
  | log_iter_next =>
    have e : hdr_iter_next iter = log_iter_next iter := by
      unfold hdr_iter_next
      rw [hfp]
    rw [e] at hr ⊢
    obtain ⟨k1, k2⟩ := log_iter_next_finished iter hr
    apply fixed
    unfold hdr_iter_next
    rw [k2, hfp]
    exact k1

/-- The theorem of claim C26 applied to an iterator of each variant over a histogram that
holds the value 7 once, at the end of its iteration. -/
theorem C26_finished_iterator_stays_finished_witness :
    (finished_all_values.counts_index = 63 ∧
        (hdr_iter_next finished_all_values).1 = false ∧
        (hdr_iter_next (iter_after 3 (hdr_iter_next finished_all_values).2)).1 = false) ∧
      ((hdr_iter_next finished_recorded).1 = false ∧
        (hdr_iter_next (iter_after 3 (hdr_iter_next finished_recorded).2)).1 = false) ∧
      ((hdr_iter_next finished_percentile).1 = false ∧
        (hdr_iter_next (iter_after 3 (hdr_iter_next finished_percentile).2)).1 = false) ∧
      ((hdr_iter_next finished_linear).1 = false ∧
        (hdr_iter_next (iter_after 3 (hdr_iter_next finished_linear).2)).1 = false) ∧
      ((hdr_iter_next finished_log).1 = false ∧
        (hdr_iter_next (iter_after 3 (hdr_iter_next finished_log).2)).1 = false) :=
  ⟨⟨by decide!, by decide!,
      C26_finished_iterator_stays_finished finished_all_values 3 (by decide!) (by decide!)
        (fun _ => by decide!) (by decide!)⟩,
    ⟨by decide!,
      C26_finished_iterator_stays_finished finished_recorded 3 (by decide!) (by decide!)
        (fun e => absurd
          ((by decide! : is_all_values_iter_next finished_recorded.next_fp = false).symm.trans
            (congrArg is_all_values_iter_next e))
          Bool.false_ne_true)
        (by decide!)⟩,
    ⟨by decide!,
      C26_finished_iterator_stays_finished finished_percentile 3 (by decide!) (by decide!)
        (fun e => absurd
          ((by decide! : is_all_values_iter_next finished_percentile.next_fp = false).symm.trans
            (congrArg is_all_values_iter_next e))
          Bool.false_ne_true)
        (by decide!)⟩,
    ⟨by decide!,
      C26_finished_iterator_stays_finished finished_linear 3 (by decide!) (by decide!)
        (fun e => absurd
          ((by decide! : is_all_values_iter_next finished_linear.next_fp = false).symm.trans
            (congrArg is_all_values_iter_next e))
          Bool.false_ne_true)
        (by decide!)⟩,
    ⟨by decide!,
      C26_finished_iterator_stays_finished finished_log 3 (by decide!) (by decide!)
        (fun e => absurd
          ((by decide! : is_all_values_iter_next finished_log.next_fp = false).symm.trans
            (congrArg is_all_values_iter_next e))
          Bool.false_ne_true)
        (by decide!)⟩⟩

/-- A call of `move_next` that returns true has raised `counts_index` by one, to a slot of
the histogram. -/
theorem move_next_true (iter : hdr_iter) (hidx : -2 ^ 31 ≤ iter.counts_index)
    (hhi : iter.counts_index + 1 < 2 ^ 31) (hr : (move_next iter).1 = true) :
    (move_next iter).2.h = iter.h ∧ (move_next iter).2.counts_index = iter.counts_index + 1 ∧
      iter.counts_index + 1 < iter.h.counts_len := by
  obtain ⟨m1, m2, -, m4⟩ := move_next_fields iter
  have hw : wrap32 (iter.counts_index + 1) = iter.counts_index + 1 := by
    apply wrap32_of_is_s32
    unfold is_s32
    constructor <;> omega
  rw [hw] at m1 m4
  rw [m1] at hr
  exact ⟨m2, m4, of_decide_eq_true hr⟩

/-- The loop of `percentile_iter_next` has ended once its fuel exceeds the number of slots
left: more fuel does not change the result. -/
theorem percentile_iter_next_loop_fuel (log2_f64 : ℚ → ℚ) (f1 : Nat) :
    ∀ (f2 : Nat) (iter : hdr_iter), iter.h.counts_len < 2 ^ 31 → -2 ^ 31 ≤ iter.counts_index →
      (iter.h.counts_len - iter.counts_index).toNat + 1 ≤ f1 →
      (iter.h.counts_len - iter.counts_index).toNat + 1 ≤ f2 →
      percentile_iter_next_loop log2_f64 f1 iter = percentile_iter_next_loop log2_f64 f2 iter := by
  induction f1 with
  | zero => intro f2 iter _ _ h1 _; omega
  | succ f1 ih =>
    intro f2 iter hlen hidx h1 h2
    cases f2 with
    | zero => omega
    | succ f2 =>
      rw [percentile_iter_next_loop, percentile_iter_next_loop]
      simp only
      split_ifs with c1 c2
      · rfl
      · obtain ⟨b1, -, b3, b4⟩ := basic_iter_next_true iter hlen hidx c2
        apply ih f2
        · rw [b1]; exact hlen
        · rw [b3]; omega
        · rw [b1, b3]; omega
        · rw [b1, b3]; omega
      · rfl

/-- The loop of `iter_linear_next` has ended once its fuel exceeds the number of slots left:
more fuel does not change the result. -/
theorem iter_linear_next_loop_fuel (f1 : Nat) :
    ∀ (f2 : Nat) (iter : hdr_iter), iter.h.counts_len < 2 ^ 31 → -2 ^ 31 ≤ iter.counts_index →
      iter.counts_index + 1 < 2 ^ 31 →
      (iter.h.counts_len - iter.counts_index).toNat + 1 ≤ f1 →
      (iter.h.counts_len - iter.counts_index).toNat + 1 ≤ f2 →
      iter_linear_next_loop f1 iter = iter_linear_next_loop f2 iter := by
  induction f1 with
  | zero => intro f2 iter _ _ _ h1 _; omega
  | succ f1 ih =>
    intro f2 iter hlen hidx hhi h1 h2
    cases f2 with
    | zero => omega
    | succ f2 =>
      rw [iter_linear_next_loop, iter_linear_next_loop]
      simp only
      split_ifs with c1 c2
      · rfl
      · rfl
      · have hm : (move_next iter).1 = true := by simpa using c2
        obtain ⟨b1, b3, b4⟩ := move_next_true iter hidx hhi hm
        apply ih f2
        · show (move_next iter).2.h.counts_len < 2 ^ 31
          rw [b1]; exact hlen
        · show -2 ^ 31 ≤ (move_next iter).2.counts_index
          rw [b3]; omega
        · show (move_next iter).2.counts_index + 1 < 2 ^ 31
          rw [b3]; omega
        · show ((move_next iter).2.h.counts_len - (move_next iter).2.counts_index).toNat + 1 ≤ f1
          rw [b1, b3]; omega
        · show ((move_next iter).2.h.counts_len - (move_next iter).2.counts_index).toNat + 1 ≤ f2
          rw [b1, b3]; omega

/-- The loop of `log_iter_next` has ended once its fuel exceeds the number of slots left:
more fuel does not change the result. -/
theorem log_iter_next_loop_fuel (f1 : Nat) :
    ∀ (f2 : Nat) (iter : hdr_iter), iter.h.counts_len < 2 ^ 31 → -2 ^ 31 ≤ iter.counts_index →
      iter.counts_index + 1 < 2 ^ 31 →
      (iter.h.counts_len - iter.counts_index).toNat + 1 ≤ f1 →
      (iter.h.counts_len - iter.counts_index).toNat + 1 ≤ f2 →
      log_iter_next_loop f1 iter = log_iter_next_loop f2 iter := by
  induction f1 with
  | zero => intro f2 iter _ _ _ h1 _; omega
  | succ f1 ih =>
    intro f2 iter hlen hidx hhi h1 h2
    cases f2 with
    | zero => omega
    | succ f2 =>
      rw [log_iter_next_loop, log_iter_next_loop]
      simp only
      split_ifs with c1 c2
      · rfl
      · rfl
      · have hm : (move_next iter).1 = true := by simpa using c2
        obtain ⟨b1, b3, b4⟩ := move_next_true iter hidx hhi hm
        apply ih f2
        · show (move_next iter).2.h.counts_len < 2 ^ 31
          rw [b1]; exact hlen
        · show -2 ^ 31 ≤ (move_next iter).2.counts_index
          rw [b3]; omega
        · show (move_next iter).2.counts_index + 1 < 2 ^ 31
          rw [b3]; omega
        · show ((move_next iter).2.h.counts_len - (move_next iter).2.counts_index).toNat + 1 ≤ f1
          rw [b1, b3]; omega
        · show ((move_next iter).2.h.counts_len - (move_next iter).2.counts_index).toNat + 1 ≤ f2
          rw [b1, b3]; omega

/-! ## The slot mapping -/

/-- C31. Index round trip: for every accepted configuration, every histogram of it and every
flat index `i` with `0 ≤ i < counts_len`:
`counts_index_for(h, hdr_value_at_index(h, i)) == i`, in the first half-bucket range
`i < sub_bucket_half_count` as after it. -/
theorem C31_index_round_trip (log2_f64 : Int → ℚ) (lowest highest sf : Int)
    (cfg : hdr_histogram_bucket_config) (h : hdr_histogram) (i : Int)
    (hlog : ∀ x : Int, 1 ≤ x → 0 ≤ log2_f64 x) (hhi : is_s64 highest)
    (hcfg : hdr_calculate_bucket_config log2_f64 lowest highest sf = .ok cfg)
    (hh : of_config cfg h) (hi0 : 0 ≤ i) (hi : i < h.counts_len) :
    counts_index_for h (hdr_value_at_index h i) = i := by
  obtain ⟨um, hm, bc, hl, -⟩ := layout_of_accepted log2_f64 hlog lowest highest sf cfg hhi.2 hcfg h hh
  exact (counts_index_for_value_at_index h um hm bc hl i hi0 hi).2.2.1

theorem C31_index_round_trip_witness :
    counts_index_for (fresh example_config) (hdr_value_at_index (fresh example_config) 1000) =
        1000 ∧
      counts_index_for (fresh example_config) (hdr_value_at_index (fresh example_config) 23551) =
        23551 ∧
      hdr_value_at_index (fresh example_config) 1000 = 1000 ∧
      hdr_value_at_index (fresh example_config) 23551 = 4292870144 :=
  ⟨C31_index_round_trip log2_floor 1 3600000000 3 example_config (fresh example_config) 1000
      log2_floor_nonneg (by decide) example_config_accepted (of_config_fresh example_config)
      (by decide) (by decide),
    C31_index_round_trip log2_floor 1 3600000000 3 example_config (fresh example_config) 23551
      log2_floor_nonneg (by decide) example_config_accepted (of_config_fresh example_config)
      (by decide) (by decide),
    by decide, by decide⟩

/-- C36. For every accepted configuration, every histogram of it and all 64-bit values `a`,
`b` with `0 ≤ a ≤ b`: `counts_index_for(h, a) ≤ counts_index_for(h, b)` and
`counts_index_for(h, a) ≥ 0`. -/
theorem C36_counts_index_monotone (log2_f64 : Int → ℚ) (lowest highest sf : Int)
    (cfg : hdr_histogram_bucket_config) (h : hdr_histogram) (a b : Int)
    (hlog : ∀ x : Int, 1 ≤ x → 0 ≤ log2_f64 x) (hhi : is_s64 highest)
    (hcfg : hdr_calculate_bucket_config log2_f64 lowest highest sf = .ok cfg)
    (hh : of_config cfg h) (ha0 : 0 ≤ a) (hab : a ≤ b) (hb : is_s64 b) :
    counts_index_for h a ≤ counts_index_for h b ∧ 0 ≤ counts_index_for h a := by
  obtain ⟨um, hm, bc, hl, -⟩ := layout_of_accepted log2_f64 hlog lowest highest sf cfg hhi.2 hcfg h hh
  exact ⟨counts_index_for_mono h um hm bc hl a b ha0 hab hb.2,
    (counts_index_for_lt_iff h um hm bc hl a ha0 (lt_of_le_of_lt hab hb.2)).1⟩

theorem C36_counts_index_monotone_witness :
    (counts_index_for (fresh example_config) 1000000 ≤
        counts_index_for (fresh example_config) 9223372036854775807 ∧
      0 ≤ counts_index_for (fresh example_config) 1000000) ∧
      counts_index_for (fresh example_config) 1000000 = 11169 ∧
      counts_index_for (fresh example_config) 9223372036854775807 = 55295 :=
  ⟨C36_counts_index_monotone log2_floor 1 3600000000 3 example_config (fresh example_config)
      1000000 9223372036854775807 log2_floor_nonneg (by decide) example_config_accepted
      (of_config_fresh example_config) (by decide) (by decide) (by decide),
    by decide, by decide⟩

/-- C40. For every accepted configuration, `bucket_count` is the least `n ≥ 1` such that
`sub_bucket_count * 2^(unit_magnitude + n - 1) > highest_trackable_value` over unbounded
integers, whether or not `buckets_needed_to_cover_value` leaves its loop through the test
against `S64_MAX / 2`, and `counts_len == (bucket_count + 1) * (sub_bucket_count / 2)`. -/
theorem C40_bucket_count_and_counts_len (log2_f64 : Int → ℚ) (lowest highest sf : Int)
    (cfg : hdr_histogram_bucket_config) (hlog : ∀ x : Int, 1 ≤ x → 0 ≤ log2_f64 x)
    (hhi : is_s64 highest)
    (hcfg : hdr_calculate_bucket_config log2_f64 lowest highest sf = .ok cfg) :
    1 ≤ cfg.bucket_count ∧
      cfg.sub_bucket_count * 2 ^ (cfg.unit_magnitude + cfg.bucket_count - 1).toNat >
        cfg.highest_trackable_value ∧
      (∀ n : Int, 1 ≤ n →
        cfg.sub_bucket_count * 2 ^ (cfg.unit_magnitude + n - 1).toNat >
          cfg.highest_trackable_value → cfg.bucket_count ≤ n) ∧
      cfg.counts_len = (cfg.bucket_count + 1) * (cfg.sub_bucket_count / 2) := by
  obtain ⟨um, hm, bc, e1, -, e3, e4, -, e6, e7, -, -, -, hbc, -, hlt, hmin, -, -⟩ :=
    config_counts log2_f64 hlog lowest highest sf cfg hhi.2 hcfg
  rw [e1, e3, e4, e6, e7]
  refine ⟨by exact_mod_cast hbc, ?_, ?_, ?_⟩
  · have e : ((um : Int) + (bc : Int) - 1).toNat = um + bc - 1 := by omega
    rw [e, ← pow_add, show hm + 1 + (um + bc - 1) = um + hm + bc by omega]
    exact hlt
  · intro n hn1 hgt
    by_contra hlt2
    obtain ⟨k, rfl⟩ := Int.eq_ofNat_of_zero_le (show 0 ≤ n by omega)
    have hk : k < bc := by
      have : (k : Int) < bc := not_le.1 hlt2
      exact_mod_cast this
    have e : ((um : Int) + (k : Int) - 1).toNat = um + k - 1 := by omega
    rw [e, ← pow_add] at hgt
    have hle : (2 : Int) ^ (hm + 1 + (um + k - 1)) ≤ highest :=
      le_trans (two_pow_le_two_pow (by omega)) (hmin (by omega))
    exact absurd hgt (not_lt.2 hle)
  · have e : (2 : Int) ^ (hm + 1) / 2 = 2 ^ hm := by
      rw [pow_succ]
      exact Int.mul_ediv_cancel _ (by decide)
    rw [e]

theorem C40_bucket_count_and_counts_len_witness :
    (1 ≤ example_config.bucket_count ∧
      example_config.sub_bucket_count *
          2 ^ (example_config.unit_magnitude + example_config.bucket_count - 1).toNat >
        example_config.highest_trackable_value ∧
      (∀ n : Int, 1 ≤ n →
        example_config.sub_bucket_count * 2 ^ (example_config.unit_magnitude + n - 1).toNat >
          example_config.highest_trackable_value → example_config.bucket_count ≤ n) ∧
      example_config.counts_len =
        (example_config.bucket_count + 1) * (example_config.sub_bucket_count / 2)) ∧
      example_config.bucket_count = 22 ∧ example_config.counts_len = 23552 ∧
      (1 ≤ wide_config.bucket_count ∧
        wide_config.sub_bucket_count *
            2 ^ (wide_config.unit_magnitude + wide_config.bucket_count - 1).toNat >
          wide_config.highest_trackable_value ∧
        (∀ n : Int, 1 ≤ n →
          wide_config.sub_bucket_count * 2 ^ (wide_config.unit_magnitude + n - 1).toNat >
            wide_config.highest_trackable_value → wide_config.bucket_count ≤ n) ∧
        wide_config.counts_len =
          (wide_config.bucket_count + 1) * (wide_config.sub_bucket_count / 2)) ∧
      wide_config.bucket_count = 59 ∧ wide_config.counts_len = 960 :=
  ⟨C40_bucket_count_and_counts_len log2_floor 1 3600000000 3 example_config log2_floor_nonneg
      (by decide) example_config_accepted,
    by decide, by decide,
    C40_bucket_count_and_counts_len log2_floor 1 9223372036854775807 1 wide_config
      log2_floor_nonneg (by decide) wide_config_accepted,
    by decide, by decide⟩

/-! ## Backfill -/

/-- The values that `hdr_record_values` accepts. -/
theorem hdr_record_values_true_iff (h : hdr_histogram) (value count : Int) :
    (hdr_record_values h value count).1 = true ↔
      0 ≤ value ∧ 0 ≤ counts_index_for h value ∧ counts_index_for h value < h.counts_len := by
  constructor
  · intro hr
    rcases hdr_record_values_cases h value count with hc | ⟨h0, h1, h2, -⟩
    · rw [hc] at hr; cases hr
    · exact ⟨h0, h1, h2⟩
  · rintro ⟨h0, h1, h2⟩
    rw [hdr_record_values_of_accepted h value count h0 h1 h2]

/-- Histograms of one configuration have one geometry. -/
theorem layout_of_same_config (cfg : hdr_histogram_bucket_config) (h h2 : hdr_histogram)
    (um hm bc : Nat) (hl : layout h um hm bc) (hh : of_config cfg h) (hh2 : of_config cfg h2) :
    layout h2 um hm bc := by
  obtain ⟨c1, c2, c3, c4, c5, c6, c7, c8, c9, c10, c11⟩ := hh
  obtain ⟨d1, d2, d3, d4, d5, d6, d7, d8, d9, d10, d11⟩ := hh2
  exact
    { unit_magnitude_eq := by rw [d3, ← c3]; exact hl.unit_magnitude_eq
      half_count_magnitude_eq := by rw [d5, ← c5]; exact hl.half_count_magnitude_eq
      sub_bucket_count_eq := by rw [d8, ← c8]; exact hl.sub_bucket_count_eq
      sub_bucket_half_count_eq := by rw [d6, ← c6]; exact hl.sub_bucket_half_count_eq
      sub_bucket_mask_eq := by rw [d7, ← c7]; exact hl.sub_bucket_mask_eq
      bucket_count_eq := by rw [d10, ← c10]; exact hl.bucket_count_eq
      counts_len_eq := by rw [d11, ← c11]; exact hl.counts_len_eq
      offset_eq := d9
      hm_le := hl.hm_le
      bc_pos := hl.bc_pos
      magnitude_le := hl.magnitude_le }

/-- A corrected recording of a value that `hdr_record_values` accepts returns true. -/
theorem hdr_record_corrected_values_true (cfg : hdr_histogram_bucket_config) (h : hdr_histogram)
    (um hm bc : Nat)
    (hl : ∀ h2 : hdr_histogram, of_config cfg h2 → layout h2 um hm bc)
    (hh : of_config cfg h) (value count expected_interval : Int) (hv63 : value < 2 ^ 63)
    (hok : (hdr_record_values h value count).1 = true) :
    (hdr_record_corrected_values h value count expected_interval).1 = true := by
  have hv0 : 0 ≤ value := ((hdr_record_values_true_iff h value count).1 hok).1
  have hlt : value < 2 ^ (um + hm + bc) :=
    (record_accepted_iff h um hm bc (hl h hh) value count hv0 hv63).1 hok
  have hacc : ∀ (k : Nat) (w : Int), 0 ≤ w → w ≤ value →
      (hdr_record_values (record_each count expected_interval value k h) w count).1 = true := by
    intro k w hw0 hw
    exact (record_accepted_iff _ um hm bc
      (hl _ (of_config_record_each cfg h hh count expected_interval value k)) w count hw0
      (by linarith)).2 (by linarith)
  have hfirst : (hdr_record_values h value count).2 =
      record_each count expected_interval value 1 h := by
    unfold record_each record_each
    simp
  unfold hdr_record_corrected_values
  simp only [hok, Bool.not_true, Bool.false_eq_true, if_false]
  by_cases hstop : expected_interval ≤ 0 ∨ value ≤ expected_interval
  · simp only [if_pos hstop]
  · simp only [if_neg hstop]
    have hei : 0 < expected_interval := by
      by_contra hc
      exact hstop (Or.inl (not_lt.1 hc))
    have hgt : expected_interval < value := by
      by_contra hc
      exact hstop (Or.inr (not_lt.1 hc))
    have hw : wrap64 (value - expected_interval) = value - ((1 : Nat) : Int) * expected_interval := by
      rw [wrap64_of_is_s64]
      · simp
      · unfold is_s64
        constructor
        · linarith
        · linarith
    have hn1 : 1 ≤ value / expected_interval := by
      apply Int.le_ediv_of_mul_le hei
      linarith
    rw [hw, hfirst]
    rw [record_corrected_loop_eq count expected_interval value h hei hv63 hacc
      ((value / expected_interval).toNat - 1) 1 _ (by omega) le_rfl le_rfl]

/-- C37. Backfill never fails: for every histogram of an accepted configuration and every
64-bit value, count and expected interval, `hdr_record_corrected_values` returns true if and
only if `hdr_record_values` accepts the original value, that is `value ≥ 0` and
`counts_index_for(value)` in `[0, counts_len)`; and every synthetic record
`value - k * expected_interval ≥ expected_interval > 0` is accepted by every histogram of the
configuration, so the failure branch inside the backfill loop is not taken. -/
theorem C37_backfill_never_fails (log2_f64 : Int → ℚ) (lowest highest sf : Int)
    (cfg : hdr_histogram_bucket_config) (h : hdr_histogram) (value count expected_interval : Int)
    (hlog : ∀ x : Int, 1 ≤ x → 0 ≤ log2_f64 x) (hhi : is_s64 highest)
    (hcfg : hdr_calculate_bucket_config log2_f64 lowest highest sf = .ok cfg)
    (hh : of_config cfg h) (hv : is_s64 value) :
    ((hdr_record_corrected_values h value count expected_interval).1 = true ↔
        (hdr_record_values h value count).1 = true) ∧
      ((hdr_record_values h value count).1 = true ↔
        0 ≤ value ∧ 0 ≤ counts_index_for h value ∧ counts_index_for h value < h.counts_len) ∧
      ((hdr_record_values h value count).1 = true → 0 < expected_interval →
        ∀ (k : Nat) (h2 : hdr_histogram), of_config cfg h2 →
          expected_interval ≤ value - k * expected_interval →
          (hdr_record_values h2 (value - k * expected_interval) count).1 = true) := by
  obtain ⟨um, hm, bc, hl0, -⟩ :=
    layout_of_accepted log2_f64 hlog lowest highest sf cfg hhi.2 hcfg h hh
  have hl : ∀ h2 : hdr_histogram, of_config cfg h2 → layout h2 um hm bc :=
    fun h2 hh2 => layout_of_same_config cfg h h2 um hm bc hl0 hh hh2
  refine ⟨⟨?_, ?_⟩, hdr_record_values_true_iff h value count, ?_⟩
  · intro hr
    by_contra hno
    have hf : (hdr_record_values h value count).1 = false := by simpa using hno
    unfold hdr_record_corrected_values at hr
    simp only [hf, Bool.not_false, if_true] at hr
    cases hr
  · exact hdr_record_corrected_values_true cfg h um hm bc hl hh value count expected_interval
      hv.2
  · intro hok hei k h2 hh2 hk
    have hv0 : 0 ≤ value := ((hdr_record_values_true_iff h value count).1 hok).1
    have hlt : value < 2 ^ (um + hm + bc) :=
      (record_accepted_iff h um hm bc hl0 value count hv0 hv.2).1 hok
    have hk0 : 0 ≤ (k : Int) * expected_interval :=
      mul_nonneg (Int.ofNat_nonneg k) (le_of_lt hei)
    exact (record_accepted_iff h2 um hm bc (hl h2 hh2) _ count (by linarith) (by linarith [hv.2])).2
      (by linarith)

theorem C37_backfill_never_fails_witness :
    (((hdr_record_corrected_values (fresh small_config) 1000 1 300).1 = true ↔
        (hdr_record_values (fresh small_config) 1000 1).1 = true) ∧
      ((hdr_record_values (fresh small_config) 1000 1).1 = true ↔
        (0 : Int) ≤ 1000 ∧ 0 ≤ counts_index_for (fresh small_config) 1000 ∧
          counts_index_for (fresh small_config) 1000 < (fresh small_config).counts_len) ∧
      ((hdr_record_values (fresh small_config) 1000 1).1 = true → (0 : Int) < 300 →
        ∀ (k : Nat) (h2 : hdr_histogram), of_config small_config h2 →
          (300 : Int) ≤ 1000 - k * 300 →
          (hdr_record_values h2 (1000 - k * 300) 1).1 = true)) ∧
      (hdr_record_corrected_values (fresh small_config) 1000 1 300).1 = true ∧
      (hdr_record_corrected_values (fresh small_config) 1000 1 300).2.total_count = 3 ∧
      (hdr_record_corrected_values (fresh small_config) 5000 1 300).1 = false ∧
      (hdr_record_values (fresh small_config) 5000 1).1 = false :=
  ⟨C37_backfill_never_fails log2_floor 1 2000 1 small_config (fresh small_config) 1000 1 300
      log2_floor_nonneg (by decide) small_config_accepted (of_config_fresh small_config)
      (by decide),
    by decide!, by decide!, by decide!, by decide!⟩

/-! ## The order of the percentiles -/

/-- The first slot whose prefix sum reaches a count between `1` and `total_count`. -/
theorem first_slot_exists (c : Int → Int) (T : Int) (hT : 1 ≤ T) :
    ∀ n : Nat, T ≤ sum_counts c n →
      ∃ k : Nat, k < n ∧ sum_counts c k < T ∧ T ≤ sum_counts c (k + 1) := by
  intro n
  induction n with
  | zero =>
    intro h0
    have : sum_counts c 0 = 0 := rfl
    omega
  | succ n ih =>
    intro hn
    by_cases hprev : T ≤ sum_counts c n
    · obtain ⟨k, hk, h1, h2⟩ := ih hprev
      exact ⟨k, by omega, h1, h2⟩
    · exact ⟨n, by omega, not_le.1 hprev, hn⟩

/-- The values of the slots grow with the index. -/
theorem hdr_value_at_index_mono (h : hdr_histogram) (um hm bc : Nat) (hl : layout h um hm bc)
    (i j : Int) (hi0 : 0 ≤ i) (hij : i ≤ j) (hj : j < h.counts_len) :
    hdr_value_at_index h i ≤ hdr_value_at_index h j := by
  obtain ⟨a0, a1, a2, -⟩ := counts_index_for_value_at_index h um hm bc hl i hi0 (by omega)
  obtain ⟨b0, b1, b2, -⟩ := counts_index_for_value_at_index h um hm bc hl j (by omega) hj
  by_contra hlt
  have hlt2 : hdr_value_at_index h j < hdr_value_at_index h i := not_le.1 hlt
  have h63 : (2 : Int) ^ (um + hm + bc) ≤ 2 ^ 63 := two_pow_le_two_pow hl.magnitude_le
  have hm1 := counts_index_for_mono h um hm bc hl _ _ b0 (le_of_lt hlt2) (by linarith)
  rw [a2, b2] at hm1
  have hij2 : i = j := le_antisymm hij hm1
  rw [hij2] at hlt2
  exact lt_irrefl _ hlt2

/-- The ends of the equivalence ranges grow with the value. -/
theorem equivalent_values_mono (h : hdr_histogram) (um hm bc : Nat) (hl : layout h um hm bc)
    (a b : Int) (ha0 : 0 ≤ a) (hab : a ≤ b) (hb : b < 2 ^ 63) :
    lowest_equivalent_value h a ≤ lowest_equivalent_value h b ∧
      highest_equivalent_value h a ≤ highest_equivalent_value h b ∧
      lowest_equivalent_value h a ≤ highest_equivalent_value h b := by
  have ha : a < 2 ^ 63 := lt_of_le_of_lt hab hb
  have hb0 : 0 ≤ b := le_trans ha0 hab
  obtain ⟨a1, a2, a3, -, -⟩ := value_in_slot h um hm bc hl a ha0 ha
  obtain ⟨b1, b2, b3, -, -⟩ := value_in_slot h um hm bc hl b hb0 hb
  have ea := highest_equivalent_value_eq h um hm bc hl a ha0 ha
  have eb := highest_equivalent_value_eq h um hm bc hl b hb0 hb
  have hidx : highest_equivalent_value h b < highest_equivalent_value h a ∨
      lowest_equivalent_value h b < lowest_equivalent_value h a →
      counts_index_for h a = counts_index_for h b := by
    intro hcase
    rcases hcase with hc | hc
    · exact ((mem_range_iff_index_eq h um hm bc hl a b ha0 ha hb).1
        ⟨by linarith, by linarith⟩).2.symm
    · exact ((mem_range_iff_index_eq h um hm bc hl b a hb0 hb ha).1
        ⟨by linarith, by linarith⟩).2
  have hsame : counts_index_for h a = counts_index_for h b →
      lowest_equivalent_value h a = lowest_equivalent_value h b ∧
        highest_equivalent_value h a = highest_equivalent_value h b := by
    intro he
    have hlev := (counts_index_for_eq_iff h um hm bc hl a b ha0 ha hb0 hb).1 he
    obtain ⟨s1, s2⟩ := slot_eq_of_index_eq h um hm bc hl a b ha0 ha hb0 hb he
    have hsz : hdr_size_of_equivalent_value_range h a = hdr_size_of_equivalent_value_range h b := by
      rw [hdr_size_of_equivalent_value_range_eq h um hm bc hl a ha0 ha,
        hdr_size_of_equivalent_value_range_eq h um hm bc hl b hb0 hb, s1]
    exact ⟨hlev, by rw [ea, eb, hlev, hsz]⟩
  refine ⟨?_, ?_, by linarith⟩
  · by_contra hc
    have := (hsame (hidx (Or.inr (not_le.1 hc)))).1
    exact hc (le_of_eq this)
  · by_contra hc
    have := (hsame (hidx (Or.inl (not_le.1 hc)))).2
    exact hc (le_of_eq this)

/-- The value at a percentile grows with the percentile, for a consistent histogram with
`total_count < 2 ^ 52`. -/
theorem hdr_value_at_percentile_mono (h : hdr_histogram) (hc : consistent h) (um hm bc : Nat)
    (hl : layout h um hm bc) (ht : h.total_count < 2 ^ 52) (p1 p2 : ℚ) (hp1 : 0 ≤ p1)
    (hp : p1 ≤ p2) : hdr_value_at_percentile h p1 ≤ hdr_value_at_percentile h p2 := by
  have ht0 : 0 ≤ h.total_count := by
    have := (consistent_prefix_sum h hc 0 (Nat.zero_le _)).2
    have e0 : sum_counts h.counts 0 = 0 := rfl
    omega
  obtain ⟨c10, c12⟩ := count_at_percentile_mono h.total_count p1 p2 ht0 hp1 hp
  obtain ⟨-, c1t⟩ := count_at_percentile_le h.total_count p1 ht0 ht hp1
  obtain ⟨-, c2t⟩ := count_at_percentile_le h.total_count p2 ht0 ht (le_trans hp1 hp)
  have hp20 : p2 = 0 → p1 = 0 := fun e => le_antisymm (e ▸ hp) hp1
  by_cases hempty : h.total_count < 1
  · have hnone : ∀ c : Int, get_value_from_idx_up_to_count h c = 0 := by
      intro c
      unfold get_value_from_idx_up_to_count
      have key := get_value_loop_none h hc (if 0 < c then c else 1)
        (by split_ifs <;> omega) h.counts_len.toNat 0 (by omega)
      exact key
    have hz := equivalent_values_mono h um hm bc hl 0 0 le_rfl le_rfl (by norm_num)
    unfold hdr_value_at_percentile
    simp only [hnone]
    by_cases e2 : p2 = 0
    · rw [if_pos e2, if_pos (hp20 e2)]
    · rw [if_neg e2]
      split_ifs
      · exact hz.2.2
      · exact le_rfl
  · have ht1 : 1 ≤ h.total_count := not_lt.1 hempty
    have hfull : sum_counts h.counts h.counts_len.toNat = h.total_count := hc.total_eq.symm
    have hT1 : (1 : Int) ≤ (if 0 < count_at_percentile h.total_count p1 then
        count_at_percentile h.total_count p1 else 1) := by split_ifs <;> omega
    have hT2 : (1 : Int) ≤ (if 0 < count_at_percentile h.total_count p2 then
        count_at_percentile h.total_count p2 else 1) := by split_ifs <;> omega
    have hT12 : (if 0 < count_at_percentile h.total_count p1 then
        count_at_percentile h.total_count p1 else 1) ≤
        (if 0 < count_at_percentile h.total_count p2 then
          count_at_percentile h.total_count p2 else 1) := by split_ifs <;> omega
    obtain ⟨k1, hk1, f1, g1⟩ := first_slot_exists h.counts _ hT1 h.counts_len.toNat
      (by rw [hfull]; split_ifs <;> omega)
    obtain ⟨k2, hk2, f2, g2⟩ := first_slot_exists h.counts _ hT2 h.counts_len.toNat
      (by rw [hfull]; split_ifs <;> omega)
    have hk12 : k1 ≤ k2 := by
      by_contra hlt
      have hmono := sum_counts_mono h.counts (k2 + 1) k1 (by omega)
        (fun j hj => hc.counts_nonneg j (Int.ofNat_nonneg j) (by omega))
      omega
    rw [hdr_value_at_percentile_of_slot h hc p1 k1 hk1 f1 g1,
      hdr_value_at_percentile_of_slot h hc p2 k2 hk2 f2 g2]
    have hlen := hc.len_nonneg
    have hv := hdr_value_at_index_mono h um hm bc hl k1 k2 (Int.ofNat_nonneg k1)
      (by exact_mod_cast hk12) (by omega)
    obtain ⟨a0, -⟩ := counts_index_for_value_at_index h um hm bc hl k1 (Int.ofNat_nonneg k1)
      (by omega)
    obtain ⟨-, b1, -⟩ := counts_index_for_value_at_index h um hm bc hl k2 (Int.ofNat_nonneg k2)
      (by omega)
    have h63 : (2 : Int) ^ (um + hm + bc) ≤ 2 ^ 63 := two_pow_le_two_pow hl.magnitude_le
    obtain ⟨m1, m2, m3⟩ := equivalent_values_mono h um hm bc hl _ _ a0 hv (by linarith)
    by_cases e2 : p2 = 0
    · rw [if_pos e2, if_pos (hp20 e2)]
      exact m1
    · rw [if_neg e2]
      split_ifs
      · exact m3
      · exact m2

/-- The claim C39 as the specification states it fails once `total_count` exceeds `2 ^ 52`:
with the value `1` recorded `2 ^ 52 + 1` times in the configuration `(1, 2000, 1)`, the count
looked for at the percentile `100` is the double `4503599627370498`, which no prefix of the
counters reaches, so `hdr_value_at_percentile(h, 100)` is `0`, while
`hdr_value_at_percentile(h, 50)` is `1`. -/
theorem C39_counterexample :
    hdr_calculate_bucket_config log2_floor 1 2000 1 = .ok small_config ∧
      records_succeed (fresh small_config) [(1, 4503599627370497)] ∧
      (record_list (fresh small_config) [(1, 4503599627370497)]).total_count =
        4503599627370497 ∧
      count_at_percentile 4503599627370497 50 = 2251799813685249 ∧
      count_at_percentile 4503599627370497 100 = 4503599627370498 ∧
      hdr_value_at_percentile (record_list (fresh small_config) [(1, 4503599627370497)]) 50 =
        1 ∧
      hdr_value_at_percentile (record_list (fresh small_config) [(1, 4503599627370497)]) 100 =
        0 ∧
      ¬ (hdr_value_at_percentile (record_list (fresh small_config) [(1, 4503599627370497)]) 50 ≤
        hdr_value_at_percentile (record_list (fresh small_config) [(1, 4503599627370497)])
          100) :=
  ⟨small_config_accepted, by decide!, by decide!, by decide!, by decide!, by decide!,
    by decide!, by decide!⟩

/-- C39, amended. For every accepted configuration, every histogram built from a fresh one
by successful recordings of 64-bit values with counts `≥ 1` that sum to less than `2 ^ 52`,
and all percentiles `p1`, `p2` with `0 ≤ p1 ≤ p2`:
`hdr_value_at_percentile(h, p1) ≤ hdr_value_at_percentile(h, p2)`. -/
theorem C39_percentile_monotone (log2_f64 : Int → ℚ) (lowest highest sf : Int)
    (cfg : hdr_histogram_bucket_config) (l : List (Int × Int)) (p1 p2 : ℚ)
    (hlog : ∀ x : Int, 1 ≤ x → 0 ≤ log2_f64 x) (hhi : is_s64 highest)
    (hcfg : hdr_calculate_bucket_config log2_f64 lowest highest sf = .ok cfg)
    (hvals : ∀ x ∈ l, is_s64 x.1) (hcounts : ∀ x ∈ l, 1 ≤ x.2)
    (hs : records_succeed (fresh cfg) l) (hsum : list_count_sum l < 2 ^ 52)
    (hp1 : 0 ≤ p1) (hp : p1 ≤ p2) :
    hdr_value_at_percentile (record_list (fresh cfg) l) p1 ≤
      hdr_value_at_percentile (record_list (fresh cfg) l) p2 := by
  obtain ⟨um, hm, bc, hl, -, hc, htot, -, -⟩ :=
    built_slots log2_f64 hlog lowest highest sf cfg hhi.2 hcfg l (fun x hx => (hvals x hx).2)
      hcounts hs (lt_trans hsum (by norm_num))
  exact hdr_value_at_percentile_mono _ hc um hm bc hl (by rw [htot]; exact hsum) p1 p2 hp1 hp

theorem C39_percentile_monotone_witness :
    hdr_value_at_percentile (record_list (fresh small_config) [(1000, 2), (70, 1), (500, 3)])
          25 ≤
        hdr_value_at_percentile (record_list (fresh small_config) [(1000, 2), (70, 1), (500, 3)])
          (199 / 2) ∧
      hdr_value_at_percentile (record_list (fresh small_config) [(1000, 2), (70, 1), (500, 3)])
          25 = 511 ∧
      hdr_value_at_percentile (record_list (fresh small_config) [(1000, 2), (70, 1), (500, 3)])
          (199 / 2) = 1023 :=
  ⟨C39_percentile_monotone log2_floor 1 2000 1 small_config [(1000, 2), (70, 1), (500, 3)] 25
      (199 / 2) log2_floor_nonneg (by decide) small_config_accepted (by decide) (by decide)
      (by decide!) (by decide) (by norm_num) (by norm_num),
    by decide!, by decide!⟩

/-! ## The all-values iteration -/

/-- The state after `n + 1` calls of `hdr_iter_next` is the state that the last call leaves. -/
theorem iter_after_succ (n : Nat) :
    ∀ iter : hdr_iter, iter_after (n + 1) iter = (hdr_iter_next (iter_after n iter)).2 := by
  induction n with
  | zero => intro iter; rfl
  | succ n ih =>
    intro iter
    show iter_after (n + 1) (hdr_iter_next iter).2 = _
    rw [ih]
    rfl

/-- A call of `hdr_iter_next` on an all-values iterator that has scanned the slots
`0 .. k - 1`: it reports slot `k`, or returns false when `k` is `counts_len`. -/
theorem all_values_step (h : hdr_histogram) (hoff : h.normalizing_index_offset = 0)
    (hlen0 : 0 ≤ h.counts_len) (hlen : h.counts_len < 2 ^ 31) (k : Nat)
    (hk : k ≤ h.counts_len.toNat) (iter : hdr_iter) (hat : all_values_iter_at h k iter)
    (hcum : iter.cumulative_count = wrap64 (sum_counts h.counts k)) :
    (k < h.counts_len.toNat →
      (hdr_iter_next iter).1 = true ∧ all_values_iter_at h (k + 1) (hdr_iter_next iter).2 ∧
        (hdr_iter_next iter).2.counts_index = k ∧
        (hdr_iter_next iter).2.value = hdr_value_at_index h k ∧
        (hdr_iter_next iter).2.count = h.counts k ∧
        (hdr_iter_next iter).2.cumulative_count = wrap64 (sum_counts h.counts (k + 1)) ∧
        (hdr_iter_next iter).2.lowest_equivalent_value =
          lowest_equivalent_value h (hdr_value_at_index h k) ∧
        (hdr_iter_next iter).2.highest_equivalent_value =
          wrap64 (hdr_next_non_equivalent_value h (hdr_value_at_index h k) - 1) ∧
        (hdr_iter_next iter).2.value_iterated_to = hdr_value_at_index h k) ∧
      (k = h.counts_len.toNat → (hdr_iter_next iter).1 = false) := by
  obtain ⟨a1, a2, a3⟩ := hat
  have hw : wrap32 (iter.counts_index + 1) = (k : Int) := by
    rw [a3, sub_add_cancel]
    apply wrap32_of_is_s32
    unfold is_s32
    constructor <;> omega
  have e : hdr_iter_next iter = all_values_iter_next iter := by
    unfold hdr_iter_next
    rw [a2]
  rw [e]
  unfold all_values_iter_next move_next
  simp only [hw]
  constructor
  · intro hlt
    have hbk : has_buckets { iter with counts_index := (k : Int) } = true := by
      unfold has_buckets
      apply decide_eq_true
      show (k : Int) < iter.h.counts_len
      rw [a1]
      omega
    simp only [hbk, Bool.not_true, Bool.false_eq_true, if_false, if_true]
    refine ⟨trivial, ⟨a1, a2, ?_⟩, rfl, ?_, ?_, ?_, ?_, ?_, ?_⟩
    · show (k : Int) = ((k + 1 : Nat) : Int) - 1
      push_cast
      ring
    · show hdr_value_at_index iter.h k = hdr_value_at_index h k
      rw [a1]
    · show counts_get_normalised iter.h k = h.counts k
      unfold counts_get_normalised counts_get_direct
      rw [normalize_index_of_offset_zero _ _ (by rw [a1]; exact hoff), a1]
    · show wrap64 (iter.cumulative_count + counts_get_normalised iter.h k) =
        wrap64 (sum_counts h.counts k + h.counts k)
      unfold counts_get_normalised counts_get_direct
      rw [normalize_index_of_offset_zero _ _ (by rw [a1]; exact hoff), a1, hcum,
        wrap64_add_wrap64]
    · show lowest_equivalent_value iter.h (hdr_value_at_index iter.h k) = _
      rw [a1]
    · show highest_equivalent_value iter.h (hdr_value_at_index iter.h k) =
        highest_equivalent_value h (hdr_value_at_index h k)
      rw [a1]
    · show hdr_value_at_index iter.h k = hdr_value_at_index h k
      rw [a1]
  · intro heq
    have hbk : has_buckets { iter with counts_index := (k : Int) } = false := by
      unfold has_buckets
      apply decide_eq_false
      show ¬ (k : Int) < iter.h.counts_len
      rw [a1]
      omega
    simp only [hbk, Bool.not_false, if_true, Bool.false_eq_true, if_false]

/-- The all-values iterator after `k ≤ counts_len` calls has scanned the slots
`0 .. k - 1`. -/
theorem all_values_iter_after (h : hdr_histogram) (hoff : h.normalizing_index_offset = 0)
    (hlen0 : 0 ≤ h.counts_len) (hlen : h.counts_len < 2 ^ 31) (iter : hdr_iter) (k : Nat)
    (hk : k ≤ h.counts_len.toNat) :
    all_values_iter_at h k (iter_after k (hdr_iter_init iter h)) ∧
      (iter_after k (hdr_iter_init iter h)).cumulative_count =
        wrap64 (sum_counts h.counts k) := by
  induction k with
  | zero => exact ⟨⟨rfl, rfl, rfl⟩, rfl⟩
  | succ k ih =>
    obtain ⟨i1, i2⟩ := ih (by omega)
    obtain ⟨s1, s2, -, -, -, s6, -⟩ :=
      (all_values_step h hoff hlen0 hlen k (by omega) _ i1 i2).1 (by omega)
    rw [iter_after_succ]
    exact ⟨s2, s6⟩

/-- C32. For every histogram of an accepted configuration, an all-values iteration
(`hdr_iter_init`, then `hdr_iter_next` until it returns false) produces exactly `counts_len`
steps: the calls `0 .. counts_len - 1` return true and the call after them returns false.
At the `k`-th step `counts_index == k`, `value == hdr_value_at_index(h, k)`,
`count == counts[k]`, `cumulative_count == counts[0] + ... + counts[k]` in `s64` arithmetic
(the exact sum when that fits in 64 bits), `lowest_equivalent_value == value` and
`highest_equivalent_value == hdr_next_non_equivalent_value(h, value) - 1` in `s64`
arithmetic (the exact difference unless `hdr_next_non_equivalent_value` is `-2^63`). -/
theorem C32_all_values_iteration (log2_f64 : Int → ℚ) (lowest highest sf : Int)
    (cfg : hdr_histogram_bucket_config) (h : hdr_histogram) (iter : hdr_iter)
    (hlog : ∀ x : Int, 1 ≤ x → 0 ≤ log2_f64 x) (hhi : is_s64 highest)
    (hcfg : hdr_calculate_bucket_config log2_f64 lowest highest sf = .ok cfg)
    (hh : of_config cfg h) :
    (∀ k : Nat, k < h.counts_len.toNat →
      (hdr_iter_next (iter_after k (hdr_iter_init iter h))).1 = true ∧
        (iter_after (k + 1) (hdr_iter_init iter h)).counts_index = k ∧
        (iter_after (k + 1) (hdr_iter_init iter h)).value = hdr_value_at_index h k ∧
        (iter_after (k + 1) (hdr_iter_init iter h)).count = h.counts k ∧
        (iter_after (k + 1) (hdr_iter_init iter h)).cumulative_count =
          wrap64 (sum_counts h.counts (k + 1)) ∧
        (is_s64 (sum_counts h.counts (k + 1)) →
          (iter_after (k + 1) (hdr_iter_init iter h)).cumulative_count =
            sum_counts h.counts (k + 1)) ∧
        (iter_after (k + 1) (hdr_iter_init iter h)).lowest_equivalent_value =
          (iter_after (k + 1) (hdr_iter_init iter h)).value ∧
        (iter_after (k + 1) (hdr_iter_init iter h)).highest_equivalent_value =
          wrap64 (hdr_next_non_equivalent_value h
            (iter_after (k + 1) (hdr_iter_init iter h)).value - 1) ∧
        (hdr_next_non_equivalent_value h (iter_after (k + 1) (hdr_iter_init iter h)).value ≠
            -2 ^ 63 →
          (iter_after (k + 1) (hdr_iter_init iter h)).highest_equivalent_value =
            hdr_next_non_equivalent_value h
              (iter_after (k + 1) (hdr_iter_init iter h)).value - 1)) ∧
      (hdr_iter_next (iter_after h.counts_len.toNat (hdr_iter_init iter h))).1 = false ∧
      (h.counts_len.toNat : Int) = h.counts_len := by
  obtain ⟨um, hm, bc, hl, -⟩ :=
    layout_of_accepted log2_f64 hlog lowest highest sf cfg hhi.2 hcfg h hh
  have hoff := hl.offset_eq
  have hlen0 : 0 ≤ h.counts_len := by
    rw [hl.counts_len_eq]
    positivity
  have hlen : h.counts_len < 2 ^ 31 := by
    rw [hl.counts_len_eq]
    have h1 : (2 : Int) ^ hm ≤ 2 ^ 17 := two_pow_le_two_pow hl.hm_le
    have h2 : ((bc : Int) + 1) ≤ 64 := by
      have := hl.magnitude_le
      omega
    have h3 : (0 : Int) < 2 ^ hm := two_pow_pos hm
    calc ((bc : Int) + 1) * 2 ^ hm ≤ 64 * 2 ^ 17 :=
          mul_le_mul h2 h1 (le_of_lt h3) (by norm_num)
      _ < 2 ^ 31 := by norm_num
  refine ⟨?_, ?_, Int.toNat_of_nonneg hlen0⟩
  · intro k hk
    obtain ⟨i1, i2⟩ := all_values_iter_after h hoff hlen0 hlen iter k (by omega)
    obtain ⟨s1, -, s3, s4, s5, s6, s7, s8, -⟩ :=
      (all_values_step h hoff hlen0 hlen k (by omega) _ i1 i2).1 hk
    rw [iter_after_succ]
    obtain ⟨-, -, -, hlev⟩ := counts_index_for_value_at_index h um hm bc hl k
      (Int.ofNat_nonneg k) (by omega)
    refine ⟨s1, s3, s4, s5, s6, ?_, ?_, ?_, ?_⟩
    · intro hs
      rw [s6, wrap64_of_is_s64 hs]
    · rw [s7, s4, hlev]
    · rw [s8, s4]
    · intro hne
      rw [s8, s4]
      rw [s4] at hne
      apply wrap64_of_is_s64
      have hb : is_s64 (hdr_next_non_equivalent_value h (hdr_value_at_index h k)) := by
        unfold hdr_next_non_equivalent_value
        exact is_s64_wrap64 _
      unfold is_s64 at hb ⊢
      constructor <;> omega
  · obtain ⟨i1, i2⟩ := all_values_iter_after h hoff hlen0 hlen iter h.counts_len.toNat le_rfl
    exact (all_values_step h hoff hlen0 hlen _ le_rfl _ i1 i2).2 rfl

/-- The theorem of claim C32 on the histogram of the configuration `(1, 100, 1)` that holds
the value `7` once: step 7 of its 64 steps, and the call after the last step. -/
theorem C32_all_values_iteration_witness :
    ((hdr_iter_next (iter_after 7 (hdr_iter_init zeroed_iter merge_target))).1 = true ∧
        (iter_after (7 + 1) (hdr_iter_init zeroed_iter merge_target)).counts_index =
          (7 : Nat) ∧
        (iter_after (7 + 1) (hdr_iter_init zeroed_iter merge_target)).value =
          hdr_value_at_index merge_target (7 : Nat) ∧
        (iter_after (7 + 1) (hdr_iter_init zeroed_iter merge_target)).count =
          merge_target.counts (7 : Nat) ∧
        (iter_after (7 + 1) (hdr_iter_init zeroed_iter merge_target)).cumulative_count =
          wrap64 (sum_counts merge_target.counts (7 + 1)) ∧
        (is_s64 (sum_counts merge_target.counts (7 + 1)) →
          (iter_after (7 + 1) (hdr_iter_init zeroed_iter merge_target)).cumulative_count =
            sum_counts merge_target.counts (7 + 1)) ∧
        (iter_after (7 + 1) (hdr_iter_init zeroed_iter merge_target)).lowest_equivalent_value =
          (iter_after (7 + 1) (hdr_iter_init zeroed_iter merge_target)).value ∧
        (iter_after (7 + 1) (hdr_iter_init zeroed_iter merge_target)).highest_equivalent_value =
          wrap64 (hdr_next_non_equivalent_value merge_target
            (iter_after (7 + 1) (hdr_iter_init zeroed_iter merge_target)).value - 1) ∧
        (hdr_next_non_equivalent_value merge_target
            (iter_after (7 + 1) (hdr_iter_init zeroed_iter merge_target)).value ≠ -2 ^ 63 →
          (iter_after (7 + 1) (hdr_iter_init zeroed_iter merge_target)).highest_equivalent_value =
            hdr_next_non_equivalent_value merge_target
              (iter_after (7 + 1) (hdr_iter_init zeroed_iter merge_target)).value - 1)) ∧
      (hdr_iter_next (iter_after merge_target.counts_len.toNat
        (hdr_iter_init zeroed_iter merge_target))).1 = false ∧
      merge_target.counts_len = 64 ∧
      (iter_after 8 (hdr_iter_init zeroed_iter merge_target)).value = 7 ∧
      (iter_after 8 (hdr_iter_init zeroed_iter merge_target)).count = 1 ∧
      (iter_after 8 (hdr_iter_init zeroed_iter merge_target)).cumulative_count = 1 ∧
      (iter_after 8 (hdr_iter_init zeroed_iter merge_target)).highest_equivalent_value = 7 ∧
      (iter_after 40 (hdr_iter_init zeroed_iter merge_target)).value = 46 ∧
      (iter_after 40 (hdr_iter_init zeroed_iter merge_target)).highest_equivalent_value = 47 :=
  ⟨(C32_all_values_iteration log2_floor 1 100 1 tiny_config merge_target zeroed_iter
      log2_floor_nonneg (by decide) tiny_config_accepted
      (of_config_record_list tiny_config [(7, 1)] (fresh tiny_config)
        (of_config_fresh tiny_config))).1 7 (by decide!),
    (C32_all_values_iteration log2_floor 1 100 1 tiny_config merge_target zeroed_iter
      log2_floor_nonneg (by decide) tiny_config_accepted
      (of_config_record_list tiny_config [(7, 1)] (fresh tiny_config)
        (of_config_fresh tiny_config))).2.1,
    by decide!, by decide!, by decide!, by decide!, by decide!, by decide!, by decide!⟩

/-! ## The recorded-values iteration, step by step -/

/-- The list that `iter_steps` returns holds the states after the successive calls of
`hdr_iter_next`, all of which return true. -/
theorem iter_steps_eq_map (fuel : Nat) :
    ∀ iter : hdr_iter,
      iter_steps fuel iter =
          (List.range (iter_steps fuel iter).length).map (fun j => iter_after (j + 1) iter) ∧
        (∀ j : Nat, j < (iter_steps fuel iter).length →
          (hdr_iter_next (iter_after j iter)).1 = true) ∧
        ((iter_steps fuel iter).length < fuel →
          (hdr_iter_next (iter_after (iter_steps fuel iter).length iter)).1 = false) := by
  induction fuel with
  | zero =>
    intro iter
    refine ⟨rfl, ?_, ?_⟩
    · intro j hj
      exact absurd hj (Nat.not_lt_zero j)
    · intro hlt
      exact absurd hlt (Nat.not_lt_zero _)
  | succ fuel ih =>
    intro iter
    by_cases hr : (hdr_iter_next iter).1 = true
    · have e : iter_steps (fuel + 1) iter =
          (hdr_iter_next iter).2 :: iter_steps fuel (hdr_iter_next iter).2 := by
        rw [iter_steps]
        simp only [hr, if_true]
      obtain ⟨i1, i2, i3⟩ := ih (hdr_iter_next iter).2
      rw [e]
      refine ⟨?_, ?_, ?_⟩
      · rw [List.length_cons, List.range_succ_eq_map, List.map_cons, List.map_map]
        show _ :: _ = _ :: List.map (fun j => iter_after (j + 1) (hdr_iter_next iter).2) _
        rw [← i1]
        rfl
      · intro j hj
        cases j with
        | zero => exact hr
        | succ j =>
          rw [List.length_cons] at hj
          exact i2 j (by omega)
      · intro hlt
        rw [List.length_cons] at hlt ⊢
        exact i3 (by omega)
    · have hf : (hdr_iter_next iter).1 = false := by simpa using hr
      have e : iter_steps (fuel + 1) iter = [] := by
        rw [iter_steps]
        simp only [hf, Bool.false_eq_true, if_false]
      rw [e]
      refine ⟨rfl, ?_, ?_⟩
      · intro j hj
        exact absurd hj (Nat.not_lt_zero j)
      · intro _
        exact hf

/-- A step of the recorded-values iterator stores the count of the slot in
`specifics.recorded.count_added_in_this_iteration_step`. -/
theorem recorded_iter_next_loop_specifics (fuel : Nat) :
    ∀ iter : hdr_iter, (recorded_iter_next_loop fuel iter).1 = true →
      (specifics_recorded (recorded_iter_next_loop fuel iter).2).count_added_in_this_iteration_step =
        (recorded_iter_next_loop fuel iter).2.count := by
  induction fuel with
  | zero => intro iter hr; cases hr
  | succ fuel ih =>
    intro iter hr
    rw [recorded_iter_next_loop] at hr ⊢
    by_cases hb : (basic_iter_next iter).1 = true
    · simp only [hb, if_true] at hr ⊢
      by_cases hcnt : (basic_iter_next iter).2.count ≠ 0
      · rw [if_pos hcnt]
        rfl
      · rw [if_neg hcnt] at hr ⊢
        exact ih _ hr
    · have hf : (basic_iter_next iter).1 = false := by simpa using hb
      simp only [hf, Bool.false_eq_true, if_false] at hr

/-- The steps of a recorded-values iteration over a consistent histogram, from slot `k` on:
the non-zero slots in increasing order, each with its index, its value and its count. -/
theorem iter_steps_recorded_report (h : hdr_histogram) (hc : consistent h) (d : Nat) :
    ∀ (k fuel : Nat) (iter : hdr_iter), k + d = h.counts_len.toNat → d + 1 ≤ fuel →
      recorded_iter_at h k iter →
      (iter_steps fuel iter).map recorded_step_report =
        ((List.range' k d).filter (fun i : Nat => decide (h.counts i ≠ 0))).map
          (fun i : Nat => ((i : Int), hdr_value_at_index h i, h.counts i, h.counts i)) := by
  induction d with
  | zero =>
    intro k fuel iter hk hfuel hat
    obtain ⟨n1, -, -⟩ := hdr_iter_next_slot h hc k (by omega) iter hat
    have hfull : h.total_count ≤ sum_counts h.counts k := by
      rw [hc.total_eq]
      unfold counts_sum
      rw [← hk]
      exact le_rfl
    cases fuel with
    | zero => omega
    | succ fuel =>
      unfold iter_steps
      simp only [n1 hfull, Bool.false_eq_true, if_false]
      rfl
  | succ d ih =>
    intro k fuel iter hk hfuel hat
    obtain ⟨n1, n2, n3⟩ := hdr_iter_next_slot h hc k (by omega) iter hat
    have hrange : List.range' k (d + 1) = k :: List.range' (k + 1) d := rfl
    cases fuel with
    | zero => omega
    | succ fuel =>
      by_cases hnext : sum_counts h.counts k < h.total_count
      · by_cases hz : h.counts k = 0
        · obtain ⟨m1, m2⟩ := n3 hnext hz
          rw [iter_steps_congr _ _ fuel m2, ih (k + 1) (fuel + 1) _ (by omega) (by omega) m1,
            hrange, List.filter_cons_of_neg (by simp [hz])]
        · obtain ⟨m1, m2, m3, m4⟩ := n2 hnext hz
          have hspec : (specifics_recorded (hdr_iter_next iter).2).count_added_in_this_iteration_step =
              (hdr_iter_next iter).2.count := by
            have e : hdr_iter_next iter = recorded_iter_next iter := by
              unfold hdr_iter_next
              rw [hat.2.1]
            rw [e] at m1 ⊢
            exact recorded_iter_next_loop_specifics _ iter m1
          have hidx : (hdr_iter_next iter).2.counts_index = (k : Int) := by
            rw [m2.2.2.1]
            push_cast
            ring
          rw [hrange, List.filter_cons_of_pos (by simp [hz]), List.map_cons]
          unfold iter_steps
          simp only [m1, if_true, List.map_cons]
          rw [ih (k + 1) fuel _ (by omega) (by omega) m2]
          congr 1
          unfold recorded_step_report
          rw [hspec, hidx, m3, m4]
      · have hfull := not_lt.1 hnext
        unfold iter_steps
        simp only [n1 hfull, Bool.false_eq_true, if_false]
        have hnil : (List.range' k (d + 1)).filter (fun i : Nat => decide (h.counts i ≠ 0)) = [] := by
          rw [List.filter_eq_nil_iff]
          intro j hj
          rw [List.mem_range'_1] at hj
          have := consistent_rest_zero h hc k hfull j hj.1 (by omega)
          simp [this]
        rw [hnil]
        rfl

/-- The length of the counter array of a histogram with a layout. -/
theorem layout_counts_len_bounds (h : hdr_histogram) (um hm bc : Nat) (hl : layout h um hm bc) :
    0 ≤ h.counts_len ∧ h.counts_len < 2 ^ 31 := by
  rw [hl.counts_len_eq]
  have h1 : (2 : Int) ^ hm ≤ 2 ^ 17 := two_pow_le_two_pow hl.hm_le
  have h2 : ((bc : Int) + 1) ≤ 64 := by
    have := hl.magnitude_le
    omega
  have h3 : (0 : Int) < 2 ^ hm := two_pow_pos hm
  refine ⟨by positivity, ?_⟩
  calc ((bc : Int) + 1) * 2 ^ hm ≤ 64 * 2 ^ 17 :=
        mul_le_mul h2 h1 (le_of_lt h3) (by norm_num)
    _ < 2 ^ 31 := by norm_num

/-- C33. For every histogram of an accepted configuration with non-negative counters and
`total_count` equal to their sum, the steps of a recorded-only iteration
(`hdr_iter_recorded_init`, then `hdr_iter_next` until it returns false) are exactly the slots
`i` with `counts[i] != 0`, in increasing order of `i`, each reported once with
`counts_index == i`, `value == hdr_value_at_index(h, i)`, `count == counts[i]` and
`count_added_in_this_iteration_step == counts[i]`; no step has a zero count; the calls up to
the last step return true and the call after it returns false. -/
theorem C33_recorded_iteration (log2_f64 : Int → ℚ) (lowest highest sf : Int)
    (cfg : hdr_histogram_bucket_config) (h : hdr_histogram) (iter : hdr_iter)
    (hlog : ∀ x : Int, 1 ≤ x → 0 ≤ log2_f64 x) (hhi : is_s64 highest)
    (hcfg : hdr_calculate_bucket_config log2_f64 lowest highest sf = .ok cfg)
    (hh : of_config cfg h)
    (hnn : ∀ i : Int, 0 ≤ i → i < h.counts_len → 0 ≤ h.counts i)
    (htot : h.total_count = counts_sum h) (ht64 : is_s64 h.total_count) :
    (recorded_iteration iter h).map recorded_step_report =
        (recorded_slots h).map
          (fun i : Nat => ((i : Int), hdr_value_at_index h i, h.counts i, h.counts i)) ∧
      (∀ it ∈ recorded_iteration iter h, it.count ≠ 0) ∧
      recorded_iteration iter h =
        (List.range (recorded_slots h).length).map
          (fun j => iter_after (j + 1) (hdr_iter_recorded_init iter h)) ∧
      (∀ j : Nat, j < (recorded_slots h).length →
        (hdr_iter_next (iter_after j (hdr_iter_recorded_init iter h))).1 = true) ∧
      (hdr_iter_next
        (iter_after (recorded_slots h).length (hdr_iter_recorded_init iter h))).1 = false := by
  obtain ⟨um, hm, bc, hl, -⟩ :=
    layout_of_accepted log2_f64 hlog lowest highest sf cfg hhi.2 hcfg h hh
  obtain ⟨hlen0, hlen⟩ := layout_counts_len_bounds h um hm bc hl
  have hc : consistent h :=
    { offset_eq := hl.offset_eq
      len_nonneg := hlen0
      len_lt := hlen
      counts_nonneg := hnn
      total_eq := htot
      total_lt := ht64.2 }
  have hrep : (recorded_iteration iter h).map recorded_step_report =
      (recorded_slots h).map
        (fun i : Nat => ((i : Int), hdr_value_at_index h i, h.counts i, h.counts i)) := by
    unfold recorded_iteration recorded_slots
    rw [List.range_eq_range']
    exact iter_steps_recorded_report h hc h.counts_len.toNat 0 _ _ (by omega) (by omega)
      (recorded_iter_at_init iter h)
  have hlength : (recorded_iteration iter h).length = (recorded_slots h).length := by
    have := congrArg List.length hrep
    rw [List.length_map, List.length_map] at this
    exact this
  have hle : (recorded_slots h).length ≤ h.counts_len.toNat := by
    unfold recorded_slots
    exact le_trans (List.length_filter_le _ _) (le_of_eq (List.length_range _))
  obtain ⟨e1, e2, e3⟩ := iter_steps_eq_map ((h.counts_len + 1).toNat + 1)
    (hdr_iter_recorded_init iter h)
  have hsteps : iter_steps ((h.counts_len + 1).toNat + 1) (hdr_iter_recorded_init iter h) =
      recorded_iteration iter h := rfl
  rw [hsteps, hlength] at e1 e2 e3
  refine ⟨hrep, ?_, e1, e2, e3 (by omega)⟩
  intro it hit
  have hmem : recorded_step_report it ∈
      (recorded_slots h).map
        (fun i : Nat => ((i : Int), hdr_value_at_index h i, h.counts i, h.counts i)) := by
    rw [← hrep]
    exact List.mem_map_of_mem _ hit
  obtain ⟨i, hi, hieq⟩ := List.mem_map.1 hmem
  have hcount : it.count = h.counts i := by
    have := congrArg (fun r : Int × Int × Int × Int => r.2.2.1) hieq
    exact this.symm
  unfold recorded_slots at hi
  have hne := (List.mem_filter.1 hi).2
  rw [hcount]
  simpa using hne

theorem C33_recorded_iteration_witness :
    (recorded_iteration zeroed_iter (record_list (fresh tiny_config) [(7, 1), (40, 2), (7, 3)])).map
          recorded_step_report =
        (recorded_slots (record_list (fresh tiny_config) [(7, 1), (40, 2), (7, 3)])).map
          (fun i : Nat =>
            ((i : Int),
              hdr_value_at_index (record_list (fresh tiny_config) [(7, 1), (40, 2), (7, 3)]) i,
              (record_list (fresh tiny_config) [(7, 1), (40, 2), (7, 3)]).counts i,
              (record_list (fresh tiny_config) [(7, 1), (40, 2), (7, 3)]).counts i)) ∧
      (recorded_iteration zeroed_iter
          (record_list (fresh tiny_config) [(7, 1), (40, 2), (7, 3)])).map recorded_step_report =
        [(7, 7, 4, 4), (36, 40, 2, 2)] ∧
      recorded_slots (record_list (fresh tiny_config) [(7, 1), (40, 2), (7, 3)]) = [7, 36] ∧
      (hdr_iter_next (iter_after 2 (hdr_iter_recorded_init zeroed_iter
        (record_list (fresh tiny_config) [(7, 1), (40, 2), (7, 3)])))).1 = false :=
  ⟨(C33_recorded_iteration log2_floor 1 100 1 tiny_config
      (record_list (fresh tiny_config) [(7, 1), (40, 2), (7, 3)]) zeroed_iter
      log2_floor_nonneg (by decide) tiny_config_accepted
      (of_config_record_list tiny_config [(7, 1), (40, 2), (7, 3)] (fresh tiny_config)
        (of_config_fresh tiny_config))
      (by decide!) (by decide!) (by decide!)).1,
    by decide!, by decide!, by decide!⟩

/-! ## The percentile iteration -/

/-- Calls of `hdr_iter_next` compose. -/
theorem iter_after_add (m : Nat) :
    ∀ (n : Nat) (iter : hdr_iter), iter_after (m + n) iter = iter_after n (iter_after m iter) := by
  induction m with
  | zero => intro n iter; rw [Nat.zero_add]; rfl
  | succ m ih =>
    intro n iter
    rw [Nat.succ_add]
    show iter_after (m + n) (hdr_iter_next iter).2 = iter_after n (iter_after m (hdr_iter_next iter).2)
    exact ih n _

/-- The fields that `basic_iter_next` leaves as they are. -/
theorem basic_iter_next_keeps (iter : hdr_iter) :
    (basic_iter_next iter).2.specifics = iter.specifics ∧
      (basic_iter_next iter).2.next_fp = iter.next_fp ∧
      (basic_iter_next iter).2.total_count = iter.total_count ∧
      (basic_iter_next iter).2.h = iter.h := by
  unfold basic_iter_next
  split_ifs
  · exact ⟨rfl, rfl, rfl, rfl⟩
  · unfold move_next
    simp only
    split_ifs <;> exact ⟨rfl, rfl, rfl, rfl⟩

/-- The loop of `percentile_iter_next` keeps the function pointer and the flag
`seen_last_value`. -/
theorem percentile_iter_next_loop_keeps (log2_f64 : ℚ → ℚ) (fuel : Nat) :
    ∀ iter : hdr_iter,
      (percentile_iter_next_loop log2_f64 fuel iter).2.next_fp = iter.next_fp ∧
        (specifics_percentiles (percentile_iter_next_loop log2_f64 fuel iter).2).seen_last_value =
          (specifics_percentiles iter).seen_last_value ∧
        (percentile_iter_next_loop log2_f64 fuel iter).2.total_count = iter.total_count := by
  induction fuel with
  | zero => intro iter; exact ⟨rfl, rfl, rfl⟩
  | succ fuel ih =>
    intro iter
    rw [percentile_iter_next_loop]
    simp only
    obtain ⟨b1, b2, b3, -⟩ := basic_iter_next_keeps iter
    have hsp : specifics_percentiles (basic_iter_next iter).2 = specifics_percentiles iter := by
      unfold specifics_percentiles
      rw [b1]
    split_ifs
    · exact ⟨rfl, rfl, rfl⟩
    · obtain ⟨i1, i2, i3⟩ := ih (basic_iter_next iter).2
      exact ⟨i1.trans b2, by rw [i2, hsp], i3.trans b3⟩
    · exact ⟨b2, by rw [hsp], b3⟩

/-- A call of `percentile_iter_next` that starts with `cumulative_count < total_count` keeps
the function pointer and the flag `seen_last_value`. -/
theorem percentile_iter_next_keeps (log2_f64 : ℚ → ℚ) (iter : hdr_iter)
    (hn : has_next iter = true) :
    (percentile_iter_next log2_f64 iter).2.next_fp = iter.next_fp ∧
      (specifics_percentiles (percentile_iter_next log2_f64 iter).2).seen_last_value =
        (specifics_percentiles iter).seen_last_value ∧
      (percentile_iter_next log2_f64 iter).2.total_count = iter.total_count := by
  obtain ⟨b1, b2, b3, -⟩ := basic_iter_next_keeps iter
  have hsp : specifics_percentiles (basic_iter_next iter).2 = specifics_percentiles iter := by
    unfold specifics_percentiles
    rw [b1]
  unfold percentile_iter_next
  simp only [hn, Bool.not_true, Bool.false_eq_true, if_false]
  split_ifs
  · exact ⟨b2, by rw [hsp], b3⟩
  · obtain ⟨i1, i2, i3⟩ := percentile_iter_next_loop_keeps log2_f64
      (((basic_iter_next iter).2.h.counts_len - (basic_iter_next iter).2.counts_index).toNat + 1)
      (basic_iter_next iter).2
    exact ⟨i1.trans b2, by rw [i2, hsp], i3.trans b3⟩
  · exact percentile_iter_next_loop_keeps log2_f64 _ iter

/-- A call of `percentile_iter_next` that starts with `cumulative_count ≥ total_count`
and `seen_last_value` set returns false and leaves the iterator as it is. -/
theorem percentile_iter_next_done (log2_f64 : ℚ → ℚ) (iter : hdr_iter)
    (hfp : iter.next_fp = hdr_iter_next_fp.percentile_iter_next log2_f64)
    (hn : has_next iter = false)
    (hseen : (specifics_percentiles iter).seen_last_value = true) :
    hdr_iter_next iter = (false, iter) := by
  have e0 : hdr_iter_next iter = percentile_iter_next log2_f64 iter := by
    unfold hdr_iter_next
    rw [hfp]
  rw [e0]
  unfold percentile_iter_next
  simp only [hn, Bool.not_false, if_true, hseen]

/-- The first call of `percentile_iter_next` that starts with
`cumulative_count ≥ total_count`: it returns true with `percentile == 100`, sets
`seen_last_value`, and leaves a state in which every call returns false. -/
theorem percentile_iter_next_last (log2_f64 : ℚ → ℚ) (iter : hdr_iter)
    (hfp : iter.next_fp = hdr_iter_next_fp.percentile_iter_next log2_f64)
    (hn : has_next iter = false)
    (hseen : (specifics_percentiles iter).seen_last_value = false) :
    (hdr_iter_next iter).1 = true ∧
      (specifics_percentiles (hdr_iter_next iter).2).percentile = 100 ∧
      (specifics_percentiles (hdr_iter_next iter).2).seen_last_value = true ∧
      hdr_iter_next (hdr_iter_next iter).2 = (false, (hdr_iter_next iter).2) := by
  have e0 : hdr_iter_next iter = percentile_iter_next log2_f64 iter := by
    unfold hdr_iter_next
    rw [hfp]
  have e1 : percentile_iter_next log2_f64 iter =
      (true,
        { iter with
          specifics :=
            hdr_iter_specifics.percentiles
              { specifics_percentiles iter with seen_last_value := true, percentile := 100 } }) := by
    unfold percentile_iter_next
    simp only [hn, Bool.not_false, if_true, hseen, Bool.false_eq_true, if_false]
  rw [e0, e1]
  exact ⟨rfl, rfl, rfl, percentile_iter_next_done log2_f64 _ hfp hn rfl⟩

/-- C34. For every histogram, empty ones included, and every `ticks_per_half_distance`: the
first call of the percentile iterator that starts with `cumulative_count ≥ total_count`,
call `k`, returns true with `percentile == 100` and sets `seen_last_value`, which no earlier
call has set, and every call after it returns false; so exactly one final synthetic step at
percentile 100 is emitted and it is the last step of the iteration.  For an empty histogram
that call is the first one, `k = 0`. -/
theorem C34_percentile_final_step (log2_f64 : ℚ → ℚ) (iter : hdr_iter) (h : hdr_histogram)
    (ticks_per_half_distance : Int) (k : Nat)
    (hbefore : ∀ j : Nat, j < k →
      (iter_after j (hdr_iter_percentile_init log2_f64 iter h ticks_per_half_distance)).cumulative_count <
        (iter_after j (hdr_iter_percentile_init log2_f64 iter h ticks_per_half_distance)).total_count)
    (hk :
      (iter_after k (hdr_iter_percentile_init log2_f64 iter h ticks_per_half_distance)).total_count ≤
        (iter_after k
          (hdr_iter_percentile_init log2_f64 iter h ticks_per_half_distance)).cumulative_count) :
    (∀ j : Nat, j ≤ k →
      (specifics_percentiles (iter_after j
        (hdr_iter_percentile_init log2_f64 iter h ticks_per_half_distance))).seen_last_value =
          false) ∧
      (hdr_iter_next (iter_after k
        (hdr_iter_percentile_init log2_f64 iter h ticks_per_half_distance))).1 = true ∧
      (specifics_percentiles (iter_after (k + 1)
        (hdr_iter_percentile_init log2_f64 iter h ticks_per_half_distance))).percentile = 100 ∧
      (specifics_percentiles (iter_after (k + 1)
        (hdr_iter_percentile_init log2_f64 iter h ticks_per_half_distance))).seen_last_value =
          true ∧
      (∀ n : Nat, (hdr_iter_next (iter_after (k + 1 + n)
        (hdr_iter_percentile_init log2_f64 iter h ticks_per_half_distance))).1 = false) ∧
      (h.total_count = 0 → k = 0) := by
  have inv : ∀ j : Nat, j ≤ k →
      (iter_after j (hdr_iter_percentile_init log2_f64 iter h ticks_per_half_distance)).next_fp =
          hdr_iter_next_fp.percentile_iter_next log2_f64 ∧
        (specifics_percentiles (iter_after j
          (hdr_iter_percentile_init log2_f64 iter h ticks_per_half_distance))).seen_last_value =
            false := by
    intro j
    induction j with
    | zero => intro _; exact ⟨rfl, rfl⟩
    | succ j ih =>
      intro hj
      obtain ⟨i1, i2⟩ := ih (by omega)
      have hn : has_next (iter_after j
          (hdr_iter_percentile_init log2_f64 iter h ticks_per_half_distance)) = true :=
        decide_eq_true (hbefore j (by omega))
      have e0 : hdr_iter_next (iter_after j
            (hdr_iter_percentile_init log2_f64 iter h ticks_per_half_distance)) =
          percentile_iter_next log2_f64 (iter_after j
            (hdr_iter_percentile_init log2_f64 iter h ticks_per_half_distance)) := by
        unfold hdr_iter_next
        rw [i1]
      obtain ⟨p1, p2, -⟩ := percentile_iter_next_keeps log2_f64 _ hn
      rw [iter_after_succ, e0]
      exact ⟨p1.trans i1, p2.trans i2⟩
  obtain ⟨k1, k2⟩ := inv k le_rfl
  have hn : has_next (iter_after k
      (hdr_iter_percentile_init log2_f64 iter h ticks_per_half_distance)) = false :=
    decide_eq_false (not_lt.2 hk)
  obtain ⟨l1, l2, l3, l4⟩ := percentile_iter_next_last log2_f64 _ k1 hn k2
  refine ⟨fun j hj => (inv j hj).2, l1, ?_, ?_, ?_, ?_⟩
  · rw [iter_after_succ]; exact l2
  · rw [iter_after_succ]; exact l3
  · intro n
    rw [iter_after_add, iter_after_succ, iter_after_fixed _ l4 n, l4]
  · intro hz
    by_contra hne
    have h0 := hbefore 0 (Nat.pos_of_ne_zero hne)
    have e1 : (iter_after 0
        (hdr_iter_percentile_init log2_f64 iter h ticks_per_half_distance)).cumulative_count =
        0 := rfl
    have e2 : (iter_after 0
        (hdr_iter_percentile_init log2_f64 iter h ticks_per_half_distance)).total_count =
        h.total_count := rfl
    rw [e1, e2, hz] at h0
    exact lt_irrefl _ h0

/-- The theorem of claim C34 on the histogram that holds the value 7 once, where the final
step is the second call, and on an empty histogram, where it is the first. -/
theorem C34_percentile_final_step_witness :
    ((∀ j : Nat, j ≤ 1 →
        (specifics_percentiles (iter_after j
          (hdr_iter_percentile_init floor_log2_double zeroed_iter merge_target 1))).seen_last_value =
            false) ∧
      (hdr_iter_next (iter_after 1
        (hdr_iter_percentile_init floor_log2_double zeroed_iter merge_target 1))).1 = true ∧
      (specifics_percentiles (iter_after (1 + 1)
        (hdr_iter_percentile_init floor_log2_double zeroed_iter merge_target 1))).percentile =
          100 ∧
      (specifics_percentiles (iter_after (1 + 1)
        (hdr_iter_percentile_init floor_log2_double zeroed_iter merge_target 1))).seen_last_value =
          true ∧
      (∀ n : Nat, (hdr_iter_next (iter_after (1 + 1 + n)
        (hdr_iter_percentile_init floor_log2_double zeroed_iter merge_target 1))).1 = false) ∧
      (merge_target.total_count = 0 → 1 = 0)) ∧
    ((∀ j : Nat, j ≤ 0 →
        (specifics_percentiles (iter_after j
          (hdr_iter_percentile_init floor_log2_double zeroed_iter (fresh tiny_config)
            1))).seen_last_value = false) ∧
      (hdr_iter_next (iter_after 0
        (hdr_iter_percentile_init floor_log2_double zeroed_iter (fresh tiny_config) 1))).1 =
          true ∧
      (specifics_percentiles (iter_after (0 + 1)
        (hdr_iter_percentile_init floor_log2_double zeroed_iter (fresh tiny_config)
          1))).percentile = 100 ∧
      (specifics_percentiles (iter_after (0 + 1)
        (hdr_iter_percentile_init floor_log2_double zeroed_iter (fresh tiny_config)
          1))).seen_last_value = true ∧
      (∀ n : Nat, (hdr_iter_next (iter_after (0 + 1 + n)
        (hdr_iter_percentile_init floor_log2_double zeroed_iter (fresh tiny_config) 1))).1 =
          false) ∧
      ((fresh tiny_config).total_count = 0 → 0 = 0)) ∧
    (iter_after 1
      (hdr_iter_percentile_init floor_log2_double zeroed_iter merge_target 1)).value_iterated_to =
        7 ∧
    (specifics_percentiles (iter_after 1
      (hdr_iter_percentile_init floor_log2_double zeroed_iter merge_target 1))).percentile = 0 ∧
    (specifics_percentiles (iter_after 1
      (hdr_iter_percentile_init floor_log2_double zeroed_iter merge_target
        1))).percentile_to_iterate_to = 50 :=
  ⟨C34_percentile_final_step floor_log2_double zeroed_iter merge_target 1 1 (by decide!)
      (by decide!),
    C34_percentile_final_step floor_log2_double zeroed_iter (fresh tiny_config) 1 0
      (fun j hj => absurd hj (Nat.not_lt_zero j)) (by decide!),
    by decide!, by decide!, by decide!⟩

/-! ## The logarithmic iteration -/

/-- The fields that `move_next` leaves as they are. -/
theorem move_next_keeps (iter : hdr_iter) :
    (move_next iter).2.specifics = iter.specifics ∧
      (move_next iter).2.total_count = iter.total_count ∧
      (move_next iter).2.value_iterated_to = iter.value_iterated_to := by
  unfold move_next
  simp only
  split_ifs <;> exact ⟨rfl, rfl, rfl⟩

/-- The truncation of a double that is an integer. -/
theorem f64_to_s64_intCast (b : Int) : f64_to_s64 (b : ℚ) = b := by
  unfold f64_to_s64
  rw [Rat.num_intCast, Rat.den_intCast]
  simp

/-- The loop of `log_iter_next`, started at a slot of the histogram: when it ends at a slot
of the histogram it has multiplied the reporting level by `(s64)log_base`. -/
theorem log_iter_next_loop_level (fuel : Nat) :
    ∀ iter : hdr_iter, iter.h.counts_len < 2 ^ 31 → -2 ^ 31 ≤ iter.counts_index →
      iter.counts_index < iter.h.counts_len →
      (iter.h.counts_len - iter.counts_index).toNat + 1 ≤ fuel →
      (log_iter_next_loop fuel iter).2.h = iter.h ∧
        (log_iter_next_loop fuel iter).2.next_fp = iter.next_fp ∧
        iter.counts_index ≤ (log_iter_next_loop fuel iter).2.counts_index ∧
        (specifics_log (log_iter_next_loop fuel iter).2).log_base =
          (specifics_log iter).log_base ∧
        ((log_iter_next_loop fuel iter).2.counts_index < iter.h.counts_len →
          (specifics_log (log_iter_next_loop fuel iter).2).next_value_reporting_level =
            wrap64 ((specifics_log iter).next_value_reporting_level *
              f64_to_s64 (specifics_log iter).log_base)) := by
  induction fuel with
  | zero => intro iter _ _ _ hf; omega
  | succ fuel ih =>
    intro iter hlen hlo hhi hf
    rw [log_iter_next_loop]
    simp only
    by_cases hv : iter.value ≥ (specifics_log iter).next_value_reporting_level_lowest_equivalent
    · rw [if_pos hv]
      exact ⟨rfl, rfl, le_rfl, rfl, fun _ => rfl⟩
    · rw [if_neg hv]
      obtain ⟨k1, k2, k3⟩ := move_next_keeps iter
      obtain ⟨m1, m2, m3, m4⟩ := move_next_fields iter
      have hw : wrap32 (iter.counts_index + 1) = iter.counts_index + 1 := by
        apply wrap32_of_is_s32
        unfold is_s32
        constructor <;> omega
      rw [hw] at m1 m4
      have hsl : specifics_log (move_next iter).2 = specifics_log iter := by
        unfold specifics_log
        rw [k1]
      by_cases hm : (move_next iter).1 = true
      · have hlt : iter.counts_index + 1 < iter.h.counts_len := by
          rw [m1] at hm
          exact of_decide_eq_true hm
        simp only [hm, Bool.not_true, Bool.false_eq_true, if_false]
        obtain ⟨i1, i2, i3, i4, i5⟩ := ih
          { (move_next iter).2 with
            specifics :=
              hdr_iter_specifics.log
                { specifics_log iter with
                  count_added_in_this_iteration_step :=
                    wrap64 ((specifics_log iter).count_added_in_this_iteration_step +
                      (move_next iter).2.count) } }
          (by show (move_next iter).2.h.counts_len < 2 ^ 31; rw [m2]; exact hlen)
          (by show -2 ^ 31 ≤ (move_next iter).2.counts_index; rw [m4]; omega)
          (by show (move_next iter).2.counts_index < (move_next iter).2.h.counts_len
              rw [m4, m2]; exact hlt)
          (by show ((move_next iter).2.h.counts_len - (move_next iter).2.counts_index).toNat + 1 ≤
                fuel
              rw [m4, m2]; omega)
        refine ⟨i1.trans m2, i2.trans m3, ?_, i4, ?_⟩
        · refine le_trans ?_ i3
          show iter.counts_index ≤ (move_next iter).2.counts_index
          rw [m4]
          omega
        · intro hlt2
          exact i5 (by show _ < (move_next iter).2.h.counts_len; rw [m2]; exact hlt2)
      · have hmf : (move_next iter).1 = false := by simpa using hm
        have hge : ¬ iter.counts_index + 1 < iter.h.counts_len := by
          rw [m1] at hmf
          exact of_decide_eq_false hmf
        simp only [hmf, Bool.not_false, if_true]
        refine ⟨m2, m3, by rw [m4]; omega, by rw [hsl], ?_⟩
        intro hlt2
        rw [m4] at hlt2
        exact absurd hlt2 hge

/-- A step of the logarithmic iterator from a slot of the histogram: when it ends at a slot
of the histogram it has multiplied the reporting level by `(s64)log_base`. -/
theorem log_iter_next_level (iter : hdr_iter)
    (hfp : iter.next_fp = hdr_iter_next_fp.log_iter_next) (hlen : iter.h.counts_len < 2 ^ 31)
    (hlo : -2 ^ 31 ≤ iter.counts_index) (hhi : iter.counts_index < iter.h.counts_len)
    (hr : (hdr_iter_next iter).1 = true) :
    (hdr_iter_next iter).2.h = iter.h ∧
      (hdr_iter_next iter).2.next_fp = hdr_iter_next_fp.log_iter_next ∧
      iter.counts_index ≤ (hdr_iter_next iter).2.counts_index ∧
      (specifics_log (hdr_iter_next iter).2).log_base = (specifics_log iter).log_base ∧
      ((hdr_iter_next iter).2.counts_index < iter.h.counts_len →
        (specifics_log (hdr_iter_next iter).2).next_value_reporting_level =
          wrap64 ((specifics_log iter).next_value_reporting_level *
            f64_to_s64 (specifics_log iter).log_base)) := by
  have e : hdr_iter_next iter = log_iter_next iter := by
    unfold hdr_iter_next
    rw [hfp]
  rw [e] at hr ⊢
  unfold log_iter_next at hr ⊢
  simp only at hr ⊢
  split_ifs at hr ⊢ with hc
  · obtain ⟨i1, i2, i3, i4, i5⟩ := log_iter_next_loop_level
      ((iter.h.counts_len - iter.counts_index).toNat + 1)
      { iter with
        specifics :=
          hdr_iter_specifics.log
            { specifics_log iter with count_added_in_this_iteration_step := 0 } }
      hlen hlo hhi le_rfl
    exact ⟨i1, i2.trans hfp, i3, i4, i5⟩

/-- The powers that a reporting level runs through stay below the last one. -/
theorem level_pow_bounds (u b : Int) (hu : 1 ≤ u) (hb : 1 ≤ b) (i k : Nat) (hik : i ≤ k) :
    1 ≤ u * b ^ i ∧ u * b ^ i ≤ u * b ^ k := by
  have h1 : 1 ≤ b ^ i := one_le_pow₀ hb
  have h2 : b ^ i ≤ b ^ k := pow_le_pow_right₀ hb hik
  constructor
  · calc (1 : Int) = 1 * 1 := by norm_num
      _ ≤ u * b ^ i := mul_le_mul hu h1 (by norm_num) (by linarith)
  · exact mul_le_mul_of_nonneg_left h2 (by linarith)

/-- The claim C35 as the specification states it fails for a base that is not an integer:
`log_iter_next` multiplies the reporting level by `(s64)log_base`.  With first window value
`1` and base `1.5` over a histogram that holds the value `7` once, the first step is emitted
at the window boundary `1` and leaves `next_value_reporting_level` at `1`, not `1.5`; every
later step is emitted at the same slot with the same level. -/
theorem C35_counterexample :
    (hdr_iter_next (hdr_iter_log_init zeroed_iter merge_target 1 (3 / 2))).1 = true ∧
      (iter_after 1 (hdr_iter_log_init zeroed_iter merge_target 1 (3 / 2))).counts_index = 1 ∧
      (iter_after 1 (hdr_iter_log_init zeroed_iter merge_target 1 (3 / 2))).value_iterated_to =
        1 ∧
      (specifics_log (iter_after 1
        (hdr_iter_log_init zeroed_iter merge_target 1 (3 / 2)))).next_value_reporting_level =
          1 ∧
      ((specifics_log (iter_after 1
        (hdr_iter_log_init zeroed_iter merge_target 1 (3 / 2)))).next_value_reporting_level : ℚ) ≠
          1 * (3 / 2) ∧
      (hdr_iter_next (iter_after 4 (hdr_iter_log_init zeroed_iter merge_target 1 (3 / 2)))).1 =
        true ∧
      (iter_after 5 (hdr_iter_log_init zeroed_iter merge_target 1 (3 / 2))).counts_index = 1 ∧
      (specifics_log (iter_after 5
        (hdr_iter_log_init zeroed_iter merge_target 1 (3 / 2)))).next_value_reporting_level =
          1 :=
  ⟨by decide!, by decide!, by decide!, by decide!, by decide!, by decide!, by decide!,
    by decide!⟩

/-- C35, amended. For a logarithmic iterator created with first window value `u ≥ 1` and an
integer base `log_base ≥ 2`, as long as `u * log_base^k` is below `2^63`: after each of the
first `k` steps, when they are emitted at a window boundary (they return true and end at a
slot of the histogram), `next_value_reporting_level` equals its previous value multiplied by
`log_base`, so after `j ≤ k` such steps it is `u * log_base^j`. -/
theorem C35_log_levels_integer_base (h : hdr_histogram) (iter : hdr_iter) (u b : Int) (k : Nat)
    (hlen0 : 0 ≤ h.counts_len) (hlen : h.counts_len < 2 ^ 31) (hu : 1 ≤ u) (hb : 2 ≤ b)
    (hfit : u * b ^ k < 2 ^ 63)
    (hsteps : ∀ j : Nat, j < k →
      (hdr_iter_next (iter_after j (hdr_iter_log_init iter h u (b : ℚ)))).1 = true ∧
        (iter_after (j + 1) (hdr_iter_log_init iter h u (b : ℚ))).counts_index < h.counts_len) :
    (∀ j : Nat, j ≤ k →
      (specifics_log (iter_after j
        (hdr_iter_log_init iter h u (b : ℚ)))).next_value_reporting_level = u * b ^ j) ∧
      (∀ j : Nat, j < k →
        (specifics_log (iter_after (j + 1)
          (hdr_iter_log_init iter h u (b : ℚ)))).next_value_reporting_level =
            (specifics_log (iter_after j
              (hdr_iter_log_init iter h u (b : ℚ)))).next_value_reporting_level * b) := by
  have inv : ∀ j : Nat, j ≤ k →
      (iter_after j (hdr_iter_log_init iter h u (b : ℚ))).h = h ∧
        (iter_after j (hdr_iter_log_init iter h u (b : ℚ))).next_fp =
          hdr_iter_next_fp.log_iter_next ∧
        -1 ≤ (iter_after j (hdr_iter_log_init iter h u (b : ℚ))).counts_index ∧
        (iter_after j (hdr_iter_log_init iter h u (b : ℚ))).counts_index < h.counts_len ∧
        (specifics_log (iter_after j (hdr_iter_log_init iter h u (b : ℚ)))).log_base = (b : ℚ) ∧
        (specifics_log (iter_after j
          (hdr_iter_log_init iter h u (b : ℚ)))).next_value_reporting_level = u * b ^ j := by
    intro j
    induction j with
    | zero =>
      intro _
      refine ⟨rfl, rfl, ?_, ?_, rfl, ?_⟩
      · show (-1 : Int) ≤ -1
        exact le_rfl
      · show (-1 : Int) < h.counts_len
        omega
      · show u = u * b ^ 0
        rw [pow_zero, mul_one]
    | succ j ih =>
      intro hj
      obtain ⟨i1, i2, i3, i4, i5, i6⟩ := ih (by omega)
      obtain ⟨s1, s2⟩ := hsteps j (by omega)
      obtain ⟨t1, t2, t3, t4, t5⟩ := log_iter_next_level _ i2 (by rw [i1]; exact hlen)
        (by omega) (by rw [i1]; exact i4) s1
      rw [iter_after_succ] at s2 ⊢
      rw [i1] at t1 t5
      refine ⟨t1, t2, by omega, s2, t4.trans i5, ?_⟩
      rw [t5 s2, i5, i6, f64_to_s64_intCast, mul_assoc, ← pow_succ]
      obtain ⟨p1, p2⟩ := level_pow_bounds u b hu (by omega) (j + 1) k hj
      apply wrap64_of_is_s64
      unfold is_s64
      constructor
      · linarith
      · linarith
  refine ⟨fun j hj => (inv j hj).2.2.2.2.2, ?_⟩
  intro j hj
  rw [(inv (j + 1) (by omega)).2.2.2.2.2, (inv j (by omega)).2.2.2.2.2, pow_succ, mul_assoc]

/-- The theorem of claim C35 for the base `2` and the first window value `1` over the
histogram of the configuration `(1, 100, 1)` that holds `7` once and `40` twice: the seven
steps of the iteration leave the levels `2, 4, .., 128`. -/
theorem C35_log_levels_integer_base_witness :
    ((∀ j : Nat, j ≤ 7 →
        (specifics_log (iter_after j
          (hdr_iter_log_init zeroed_iter (record_list (fresh tiny_config) [(7, 1), (40, 2)]) 1
            ((2 : Int) : ℚ)))).next_value_reporting_level = 1 * 2 ^ j) ∧
      (∀ j : Nat, j < 7 →
        (specifics_log (iter_after (j + 1)
          (hdr_iter_log_init zeroed_iter (record_list (fresh tiny_config) [(7, 1), (40, 2)]) 1
            ((2 : Int) : ℚ)))).next_value_reporting_level =
            (specifics_log (iter_after j
              (hdr_iter_log_init zeroed_iter (record_list (fresh tiny_config) [(7, 1), (40, 2)])
                1 ((2 : Int) : ℚ)))).next_value_reporting_level * 2)) ∧
      (specifics_log (iter_after 7
        (hdr_iter_log_init zeroed_iter (record_list (fresh tiny_config) [(7, 1), (40, 2)]) 1
          ((2 : Int) : ℚ)))).next_value_reporting_level = 128 ∧
      (hdr_iter_next (iter_after 7
        (hdr_iter_log_init zeroed_iter (record_list (fresh tiny_config) [(7, 1), (40, 2)]) 1
          ((2 : Int) : ℚ)))).1 = false :=
  ⟨C35_log_levels_integer_base (record_list (fresh tiny_config) [(7, 1), (40, 2)]) zeroed_iter
      1 2 7 (by decide!) (by decide!) (by decide) (by decide) (by decide) (by decide!),
    by decide!, by decide!⟩

/-! ## The linear iteration -/

theorem byte_config_accepted :
    hdr_calculate_bucket_config log2_floor 1 255 2 = .ok byte_config := by
  rfl

/-- What a call of `move_next` that returns true stores. -/
theorem move_next_slot (iter : hdr_iter) (hr : (move_next iter).1 = true) :
    (move_next iter).2.count =
        counts_get_normalised iter.h (wrap32 (iter.counts_index + 1)) ∧
      (move_next iter).2.cumulative_count =
        wrap64 (iter.cumulative_count +
          counts_get_normalised iter.h (wrap32 (iter.counts_index + 1))) ∧
      (move_next iter).2.value = hdr_value_at_index iter.h (wrap32 (iter.counts_index + 1)) := by
  unfold move_next at hr ⊢
  simp only at hr ⊢
  split_ifs at hr ⊢
  exact ⟨rfl, rfl, rfl⟩

/-- What a call of `move_next` that returns false leaves as it is. -/
theorem move_next_end (iter : hdr_iter) (hr : (move_next iter).1 = false) :
    (move_next iter).2.cumulative_count = iter.cumulative_count ∧
      (move_next iter).2.value = iter.value := by
  unfold move_next at hr ⊢
  simp only at hr ⊢
  split_ifs at hr ⊢
  exact ⟨rfl, rfl⟩

/-- A reporting level whose lowest equivalent value is a value of the histogram is below the
least value above the slots. -/
theorem level_lt_of_lowest_le (h : hdr_histogram) (um hm bc : Nat) (hl : layout h um hm bc)
    (level value : Int) (h0 : 0 ≤ level) (h63 : level < 2 ^ 63)
    (hv : value < 2 ^ (um + hm + bc)) (hle : lowest_equivalent_value h level ≤ value) :
    level < 2 ^ (um + hm + bc) := by
  obtain ⟨a1, a2, -, -, -⟩ := value_in_slot h um hm bc hl level h0 h63
  have hlev63 : lowest_equivalent_value h level < 2 ^ 63 := lt_of_le_of_lt a2 h63
  have hidx : counts_index_for h (lowest_equivalent_value h level) = counts_index_for h level :=
    (counts_index_for_eq_iff h um hm bc hl _ _ a1 hlev63 h0 h63).2
      (highest_equivalent_value_lowest h um hm bc hl level h0 h63).2
  have h1 := (counts_index_for_lt_iff h um hm bc hl _ a1 hlev63).2.2 (lt_of_le_of_lt hle hv)
  rw [hidx] at h1
  exact (counts_index_for_lt_iff h um hm bc hl level h0 h63).2.1 h1

/-- The loop of `iter_linear_next` over a consistent histogram, entered after the slots
`0 .. n - 1` with the counts of the slots `n0 .. n - 1` added in this step: it returns true,
either at a window boundary, with the reporting level raised by `u`, or at the end of the
counter array; the counts of all slots it has passed are added. -/
theorem iter_linear_next_loop_spec (h : hdr_histogram) (hc : consistent h) (um hm bc : Nat)
    (hl : layout h um hm bc) (u : Int) (hu : 1 ≤ u) (hT : (2 : Int) ^ (um + hm + bc) + u ≤ 2 ^ 63)
    (n0 : Nat) (fuel : Nat) :
    ∀ (n : Nat) (s : hdr_iter), linear_iter_at h u (2 ^ (um + hm + bc)) n s →
      s.counts_index = (n : Int) - 1 → n0 ≤ n →
      (specifics_linear s).count_added_in_this_iteration_step =
        sum_counts h.counts n - sum_counts h.counts n0 →
      (h.counts_len - s.counts_index).toNat + 1 ≤ fuel →
      ∃ n2 : Nat, n ≤ n2 ∧
        linear_iter_at h u (2 ^ (um + hm + bc)) n2 (iter_linear_next_loop fuel s).2 ∧
        (iter_linear_next_loop fuel s).1 = true ∧
        (specifics_linear (iter_linear_next_loop fuel s).2).count_added_in_this_iteration_step =
          sum_counts h.counts n2 - sum_counts h.counts n0 ∧
        (((specifics_linear (iter_linear_next_loop fuel s).2).next_value_reporting_level =
              (specifics_linear s).next_value_reporting_level + u ∧
            (iter_linear_next_loop fuel s).2.counts_index < h.counts_len) ∨
          ((specifics_linear (iter_linear_next_loop fuel s).2).next_value_reporting_level =
              (specifics_linear s).next_value_reporting_level ∧
            (iter_linear_next_loop fuel s).2.counts_index = h.counts_len)) := by
  have hlen0 := hc.len_nonneg
  have hlen := hc.len_lt
  have hTpos : (0 : Int) < 2 ^ (um + hm + bc) := two_pow_pos _
  induction fuel with
  | zero => intro n s _ _ _ _ hf; omega
  | succ fuel ih =>
    intro n s hinv hci hn0 hca hf
    obtain ⟨e1, e2, e3, e4, e5, e6, e7, e8, e9, e10, e11, e12⟩ := hinv
    rw [iter_linear_next_loop]
    simp only
    by_cases hv : s.value ≥ (specifics_linear s).next_value_reporting_level_lowest_equivalent
    · rw [if_pos hv]
      have hlevelT : (specifics_linear s).next_value_reporting_level < 2 ^ (um + hm + bc) :=
        level_lt_of_lowest_le h um hm bc hl _ s.value (by linarith) (by linarith) e8
          (by rw [← e12]; exact hv)
      have hw : wrap64 ((specifics_linear s).next_value_reporting_level +
          (specifics_linear s).value_units_per_bucket) =
          (specifics_linear s).next_value_reporting_level + u := by
        rw [e9]
        apply wrap64_of_is_s64
        unfold is_s64
        constructor <;> linarith
      refine ⟨n, le_rfl, ⟨e1, e2, e3, e4, e5, e6, e7, e8, e9, ?_, ?_, ?_⟩, rfl, hca,
        Or.inl ⟨hw, ?_⟩⟩
      · show 1 ≤ wrap64 ((specifics_linear s).next_value_reporting_level +
          (specifics_linear s).value_units_per_bucket)
        rw [hw]
        linarith
      · show wrap64 ((specifics_linear s).next_value_reporting_level +
          (specifics_linear s).value_units_per_bucket) < 2 ^ (um + hm + bc) + u
        rw [hw]
        linarith
      · show lowest_equivalent_value s.h _ = lowest_equivalent_value h _
        rw [e1]
        rfl
      · show s.counts_index < h.counts_len
        rw [hci]
        omega
    · rw [if_neg hv]
      obtain ⟨k1, k2, k3⟩ := move_next_keeps s
      obtain ⟨m1, m2, m3, m4⟩ := move_next_fields s
      have hw32 : wrap32 (s.counts_index + 1) = (n : Int) := by
        rw [hci, sub_add_cancel]
        apply wrap32_of_is_s32
        unfold is_s32
        constructor <;> omega
      rw [hw32] at m1 m4
      rw [e1] at m1 m2
      have hsl : specifics_linear (move_next s).2 = specifics_linear s := by
        unfold specifics_linear
        rw [k1]
      by_cases hmv : (move_next s).1 = true
      · have hlt : (n : Int) < h.counts_len := by
          rw [m1] at hmv
          exact of_decide_eq_true hmv
        obtain ⟨c1, c2, c3⟩ := move_next_slot s hmv
        rw [hw32, e1] at c1 c2 c3
        have hcnt : counts_get_normalised h (n : Int) = h.counts n := by
          unfold counts_get_normalised counts_get_direct
          rw [normalize_index_of_offset_zero _ _ hc.offset_eq]
        rw [hcnt] at c1 c2
        obtain ⟨p1, p2⟩ := consistent_prefix_sum h hc (n + 1) (by omega)
        obtain ⟨q1, q2⟩ := consistent_prefix_sum h hc n0 (by omega)
        have hmono : sum_counts h.counts n0 ≤ sum_counts h.counts n :=
          sum_counts_mono h.counts n0 n hn0
            (fun j hj => hc.counts_nonneg j (Int.ofNat_nonneg j) (by omega))
        have hsucc : sum_counts h.counts (n + 1) = sum_counts h.counts n + h.counts n := rfl
        have htl := hc.total_lt
        have hcn := hc.counts_nonneg n (Int.ofNat_nonneg n) hlt
        obtain ⟨v0, v1, -⟩ := counts_index_for_value_at_index h um hm bc hl n
          (Int.ofNat_nonneg n) hlt
        simp only [hmv, Bool.not_true, Bool.false_eq_true, if_false]
        obtain ⟨n2, i1, i2, i3, i4, i5⟩ := ih (n + 1)
          { (move_next s).2 with
            specifics :=
              hdr_iter_specifics.linear
                { specifics_linear s with
                  count_added_in_this_iteration_step :=
                    wrap64 ((specifics_linear s).count_added_in_this_iteration_step +
                      (move_next s).2.count) } }
          ⟨m2, m3.trans e2, k2.trans e3,
            (by
              show (move_next s).2.cumulative_count = sum_counts h.counts (n + 1)
              rw [c2, e4, hsucc]
              apply wrap64_of_is_s64
              unfold is_s64
              constructor <;> omega),
            (by omega),
            Or.inl (by
              show (move_next s).2.counts_index = ((n + 1 : Nat) : Int) - 1
              rw [m4]
              push_cast
              ring),
            (by show 0 ≤ (move_next s).2.value; rw [c3]; exact v0),
            (by show (move_next s).2.value < _; rw [c3]; exact v1),
            e9, e10, e11, e12⟩
          (by
            show (move_next s).2.counts_index = ((n + 1 : Nat) : Int) - 1
            rw [m4]
            push_cast
            ring)
          (by omega)
          (by
            show wrap64 ((specifics_linear s).count_added_in_this_iteration_step +
              (move_next s).2.count) = _
            rw [hca, c1, hsucc]
            have e : sum_counts h.counts n - sum_counts h.counts n0 + h.counts n =
                sum_counts h.counts n + h.counts n - sum_counts h.counts n0 := by ring
            rw [e]
            apply wrap64_of_is_s64
            unfold is_s64
            constructor <;> omega)
          (by
            show (h.counts_len - (move_next s).2.counts_index).toNat + 1 ≤ fuel
            rw [m4]
            rw [hci] at hf
            omega)
        exact ⟨n2, by omega, i2, i3, i4, i5⟩
      · have hmf : (move_next s).1 = false := by simpa using hmv
        have hge : ¬ (n : Int) < h.counts_len := by
          rw [m1] at hmf
          exact of_decide_eq_false hmf
        have hn : n = h.counts_len.toNat := by omega
        obtain ⟨d1, d2⟩ := move_next_end s hmf
        simp only [hmf, Bool.not_false, if_true]
        have hci2 : (move_next s).2.counts_index = h.counts_len := by
          rw [m4]
          omega
        refine ⟨n, le_rfl, ⟨m2, m3.trans e2, k2.trans e3, d1.trans e4, e5, Or.inr ⟨hci2, hn⟩,
          by rw [d2]; exact e7, by rw [d2]; exact e8, by rw [hsl]; exact e9,
          by rw [hsl]; exact e10, by rw [hsl]; exact e11, by rw [hsl]; exact e12⟩, trivial,
          by rw [hsl]; exact hca, Or.inr ⟨by rw [hsl], hci2⟩⟩

/-- A call of `hdr_iter_next` on a linear iterator over a consistent histogram: when it
returns false the iterator has counted `total_count`; when it returns true it has added to
`count_added_in_this_iteration_step` the counts of the slots passed, and fewer steps are
left. -/
theorem iter_linear_next_call (h : hdr_histogram) (hc : consistent h) (um hm bc : Nat)
    (hl : layout h um hm bc) (u : Int) (hu : 1 ≤ u) (hT : (2 : Int) ^ (um + hm + bc) + u ≤ 2 ^ 63)
    (n : Nat) (s : hdr_iter) (hinv : linear_iter_at h u (2 ^ (um + hm + bc)) n s) :
    ((hdr_iter_next s).1 = false → h.total_count ≤ s.cumulative_count) ∧
      ((hdr_iter_next s).1 = true →
        ∃ n2 : Nat, linear_iter_at h u (2 ^ (um + hm + bc)) n2 (hdr_iter_next s).2 ∧
          (specifics_linear (hdr_iter_next s).2).count_added_in_this_iteration_step =
            (hdr_iter_next s).2.cumulative_count - s.cumulative_count ∧
          linear_steps_left (2 ^ (um + hm + bc)) u (hdr_iter_next s).2 <
            linear_steps_left (2 ^ (um + hm + bc)) u s) := by
  have hlen0 := hc.len_nonneg
  obtain ⟨e1, e2, e3, e4, e5, e6, e7, e8, e9, e10, e11, e12⟩ := hinv
  have e : hdr_iter_next s = iter_linear_next s := by
    unfold hdr_iter_next
    rw [e2]
  have hcall : iter_linear_next s =
      if has_next
            { s with
              specifics :=
                hdr_iter_specifics.linear
                  { specifics_linear s with count_added_in_this_iteration_step := 0 } } = true ∨
          next_value_greater_than_reporting_level_upper_bound
            { s with
              specifics :=
                hdr_iter_specifics.linear
                  { specifics_linear s with count_added_in_this_iteration_step := 0 } }
            (specifics_linear s).next_value_reporting_level_lowest_equivalent = true then
        iter_linear_next_loop ((s.h.counts_len - s.counts_index).toNat + 1)
          { s with
            specifics :=
              hdr_iter_specifics.linear
                { specifics_linear s with count_added_in_this_iteration_step := 0 } }
      else
        (false,
          { s with
            specifics :=
              hdr_iter_specifics.linear
                { specifics_linear s with count_added_in_this_iteration_step := 0 } }) := rfl
  rw [e, hcall]
  by_cases hcnd : has_next
            { s with
              specifics :=
                hdr_iter_specifics.linear
                  { specifics_linear s with count_added_in_this_iteration_step := 0 } } = true ∨
          next_value_greater_than_reporting_level_upper_bound
            { s with
              specifics :=
                hdr_iter_specifics.linear
                  { specifics_linear s with count_added_in_this_iteration_step := 0 } }
            (specifics_linear s).next_value_reporting_level_lowest_equivalent = true
  · rw [if_pos hcnd]
    have hci : s.counts_index = (n : Int) - 1 := by
      rcases e6 with h6 | ⟨h6, h7⟩
      · exact h6
      · exfalso
        rcases hcnd with hc1 | hc2
        · have hlt : s.cumulative_count < s.total_count := of_decide_eq_true hc1
          rw [e4, e3, h7, hc.total_eq] at hlt
          exact lt_irrefl _ hlt
        · unfold next_value_greater_than_reporting_level_upper_bound at hc2
          have hge : s.counts_index ≥ s.h.counts_len := by rw [h6, e1]
          simp only [ge_iff_le] at hc2 hge
          rw [if_pos hge] at hc2
          cases hc2
    obtain ⟨n2, i1, i2, i3, i4, i5⟩ := iter_linear_next_loop_spec h hc um hm bc hl u hu hT n
      ((s.h.counts_len - s.counts_index).toNat + 1) n
      { s with
        specifics :=
          hdr_iter_specifics.linear
            { specifics_linear s with count_added_in_this_iteration_step := 0 } }
      ⟨e1, e2, e3, e4, e5, e6, e7, e8, e9, e10, e11, e12⟩ hci le_rfl
      (by
        show (0 : Int) = _
        ring)
      (by
        show (h.counts_len - s.counts_index).toNat + 1 ≤ (s.h.counts_len - s.counts_index).toNat + 1
        rw [e1])
    refine ⟨fun hf => ?_, fun _ => ⟨n2, i2, ?_, ?_⟩⟩
    · rw [i3] at hf
      cases hf
    · rw [i4, i2.2.2.2.1, e4]
    · have hs1 : s.counts_index < h.counts_len := by
        rw [hci]
        omega
      have hS : linear_steps_left (2 ^ (um + hm + bc)) u s =
          (2 ^ (um + hm + bc) + u - (specifics_linear s).next_value_reporting_level).toNat + 1 := by
        unfold linear_steps_left
        rw [e1, if_pos hs1]
      rw [hS]
      unfold linear_steps_left
      rw [i2.1]
      have j3 : (specifics_linear s).next_value_reporting_level < 2 ^ (um + hm + bc) + u := e11
      rcases i5 with ⟨j1, j2⟩ | ⟨j1, j2⟩
      · have j1b : _ = (specifics_linear s).next_value_reporting_level + u := j1
        rw [j1b, if_pos j2]
        omega
      · have j1b : _ = (specifics_linear s).next_value_reporting_level := j1
        rw [j1b, if_neg (by rw [j2]; exact lt_irrefl _)]
        omega
  · rw [if_neg hcnd]
    refine ⟨fun _ => ?_, fun ht => ?_⟩
    · have hn : ¬ has_next
            { s with
              specifics :=
                hdr_iter_specifics.linear
                  { specifics_linear s with count_added_in_this_iteration_step := 0 } } = true :=
        fun hx => hcnd (Or.inl hx)
      have hn2 : ¬ s.cumulative_count < s.total_count := fun hx => hn (decide_eq_true hx)
      rw [e3] at hn2
      exact not_lt.1 hn2
    · cases ht

/-- A linear iteration over a consistent histogram ends, and the counts added in its
remaining steps sum to what is left of `total_count`. -/
theorem linear_iteration_ends (h : hdr_histogram) (hc : consistent h) (um hm bc : Nat)
    (hl : layout h um hm bc) (u : Int) (hu : 1 ≤ u) (hT : (2 : Int) ^ (um + hm + bc) + u ≤ 2 ^ 63)
    (m : Nat) :
    ∀ (n : Nat) (s : hdr_iter), linear_iter_at h u (2 ^ (um + hm + bc)) n s →
      linear_steps_left (2 ^ (um + hm + bc)) u s ≤ m →
      ∃ N : Nat, (∀ j : Nat, j < N → (hdr_iter_next (iter_after j s)).1 = true) ∧
        (hdr_iter_next (iter_after N s)).1 = false ∧
        linear_count_added_sum N s = h.total_count - s.cumulative_count := by
  have stop : ∀ (n : Nat) (s : hdr_iter), linear_iter_at h u (2 ^ (um + hm + bc)) n s →
      (hdr_iter_next s).1 = false →
      ∃ N : Nat, (∀ j : Nat, j < N → (hdr_iter_next (iter_after j s)).1 = true) ∧
        (hdr_iter_next (iter_after N s)).1 = false ∧
        linear_count_added_sum N s = h.total_count - s.cumulative_count := by
    intro n s hinv hf
    obtain ⟨c1, -⟩ := iter_linear_next_call h hc um hm bc hl u hu hT n s hinv
    have hle := c1 hf
    have hcum : s.cumulative_count = sum_counts h.counts n := hinv.2.2.2.1
    have hpre := (consistent_prefix_sum h hc n hinv.2.2.2.2.1).2
    refine ⟨0, fun j hj => absurd hj (Nat.not_lt_zero j), hf, ?_⟩
    show (0 : Int) = _
    omega
  induction m with
  | zero =>
    intro n s hinv hm0
    by_cases hr : (hdr_iter_next s).1 = true
    · obtain ⟨-, c2⟩ := iter_linear_next_call h hc um hm bc hl u hu hT n s hinv
      obtain ⟨n2, -, -, hlt⟩ := c2 hr
      omega
    · exact stop n s hinv (by simpa using hr)
  | succ m ih =>
    intro n s hinv hm0
    by_cases hr : (hdr_iter_next s).1 = true
    · obtain ⟨-, c2⟩ := iter_linear_next_call h hc um hm bc hl u hu hT n s hinv
      obtain ⟨n2, hinv2, hca, hlt⟩ := c2 hr
      obtain ⟨N, g1, g2, g3⟩ := ih n2 (hdr_iter_next s).2 hinv2 (by omega)
      refine ⟨N + 1, ?_, g2, ?_⟩
      · intro j hj
        cases j with
        | zero => exact hr
        | succ j => exact g1 j (by omega)
      · show (specifics_linear (hdr_iter_next s).2).count_added_in_this_iteration_step +
          linear_count_added_sum N (hdr_iter_next s).2 = _
        rw [hca, g3]
        ring
    · exact stop n s hinv (by simpa using hr)

/-- C38. For every accepted configuration, every histogram built from a fresh one by
successful recordings of 64-bit values with counts `≥ 1` that sum to less than `2^63`, and
every `value_units_per_bucket ≥ 1` that the least value above the counter array,
`sub_bucket_count << (unit_magnitude + bucket_count - 1)`, can be raised by within 64 bits: a
linear iteration (`hdr_iter_linear_init`, then `hdr_iter_next` until false) ends after
finitely many steps `N`, and the sum of `specifics.linear.count_added_in_this_iteration_step`
over all its steps equals `total_count`. -/
theorem C38_linear_iteration_sum (log2_f64 : Int → ℚ) (lowest highest sf : Int)
    (cfg : hdr_histogram_bucket_config) (l : List (Int × Int)) (iter : hdr_iter)
    (value_units_per_bucket : Int)
    (hlog : ∀ x : Int, 1 ≤ x → 0 ≤ log2_f64 x) (hhi : is_s64 highest)
    (hcfg : hdr_calculate_bucket_config log2_f64 lowest highest sf = .ok cfg)
    (hvals : ∀ x ∈ l, is_s64 x.1) (hcounts : ∀ x ∈ l, 1 ≤ x.2)
    (hs : records_succeed (fresh cfg) l) (hsum : list_count_sum l < 2 ^ 63)
    (hu : 1 ≤ value_units_per_bucket)
    (hfit : cfg.sub_bucket_count * 2 ^ (cfg.unit_magnitude + cfg.bucket_count - 1).toNat +
      value_units_per_bucket ≤ 2 ^ 63) :
    ∃ N : Nat,
      (∀ j : Nat, j < N →
        (hdr_iter_next (iter_after j
          (hdr_iter_linear_init iter (record_list (fresh cfg) l) value_units_per_bucket))).1 =
            true) ∧
        (hdr_iter_next (iter_after N
          (hdr_iter_linear_init iter (record_list (fresh cfg) l) value_units_per_bucket))).1 =
            false ∧
        linear_count_added_sum N
            (hdr_iter_linear_init iter (record_list (fresh cfg) l) value_units_per_bucket) =
          (record_list (fresh cfg) l).total_count := by
  obtain ⟨um, hm, bc, hl, -, hc, -, -, -⟩ :=
    built_slots log2_f64 hlog lowest highest sf cfg hhi.2 hcfg l (fun x hx => (hvals x hx).2)
      hcounts hs hsum
  have hof : of_config cfg (record_list (fresh cfg) l) :=
    of_config_record_list cfg l (fresh cfg) (of_config_fresh cfg)
  obtain ⟨um2, hm2, bc2, f1, -, f3, -, -, -, -, -, -, -, -, f12, -⟩ :=
    config_counts log2_f64 hlog lowest highest sf cfg hhi.2 hcfg
  obtain ⟨-, -, c3, -, -, -, -, c8, -, c10, -⟩ := hof
  have humeq : cfg.unit_magnitude = (um : Int) := by
    have hw : wrap32 cfg.unit_magnitude = cfg.unit_magnitude := by
      rw [f1]
      exact wrap32_nat (by omega)
    rw [← hw, ← c3]
    exact hl.unit_magnitude_eq
  have hsbc : cfg.sub_bucket_count = 2 ^ (hm + 1) := by
    rw [← c8]
    exact hl.sub_bucket_count_eq
  have hbceq : cfg.bucket_count = (bc : Int) := by
    rw [← c10]
    exact hl.bucket_count_eq
  have hbc := hl.bc_pos
  have hT : (2 : Int) ^ (um + hm + bc) + value_units_per_bucket ≤ 2 ^ 63 := by
    rw [humeq, hsbc, hbceq] at hfit
    have e : ((um : Int) + (bc : Int) - 1).toNat = um + bc - 1 := by omega
    rw [e, ← pow_add, show hm + 1 + (um + bc - 1) = um + hm + bc by omega] at hfit
    exact hfit
  have hTpos : (0 : Int) < 2 ^ (um + hm + bc) := two_pow_pos _
  obtain ⟨N, g1, g2, g3⟩ := linear_iteration_ends (record_list (fresh cfg) l) hc um hm bc hl
    value_units_per_bucket hu hT _ 0
    (hdr_iter_linear_init iter (record_list (fresh cfg) l) value_units_per_bucket)
    ⟨rfl, rfl, rfl, rfl, Nat.zero_le _, Or.inl rfl, le_rfl, hTpos, rfl, hu,
      by
        show value_units_per_bucket < _
        linarith,
      rfl⟩
    le_rfl
  refine ⟨N, g1, g2, ?_⟩
  rw [g3]
  show _ - (0 : Int) = _
  ring

/-- The theorem of claim C38 on the example of the claim: configuration `(1, 255, 2)`, the
values `193, 255, 0, 1, 64, 128` recorded once each, width `64`.  The iteration has 4 steps,
which add `3`, `1`, `0` and `2`, and the sum is `6`. -/
theorem C38_linear_iteration_sum_witness :
    (∃ N : Nat,
      (∀ j : Nat, j < N →
        (hdr_iter_next (iter_after j
          (hdr_iter_linear_init zeroed_iter
            (record_list (fresh byte_config)
              [(193, 1), (255, 1), (0, 1), (1, 1), (64, 1), (128, 1)]) 64))).1 = true) ∧
        (hdr_iter_next (iter_after N
          (hdr_iter_linear_init zeroed_iter
            (record_list (fresh byte_config)
              [(193, 1), (255, 1), (0, 1), (1, 1), (64, 1), (128, 1)]) 64))).1 = false ∧
        linear_count_added_sum N
            (hdr_iter_linear_init zeroed_iter
              (record_list (fresh byte_config)
                [(193, 1), (255, 1), (0, 1), (1, 1), (64, 1), (128, 1)]) 64) =
          (record_list (fresh byte_config)
            [(193, 1), (255, 1), (0, 1), (1, 1), (64, 1), (128, 1)]).total_count) ∧
      (∀ j : Nat, j < 4 →
        (hdr_iter_next (iter_after j
          (hdr_iter_linear_init zeroed_iter
            (record_list (fresh byte_config)
              [(193, 1), (255, 1), (0, 1), (1, 1), (64, 1), (128, 1)]) 64))).1 = true) ∧
      (hdr_iter_next (iter_after 4
        (hdr_iter_linear_init zeroed_iter
          (record_list (fresh byte_config)
            [(193, 1), (255, 1), (0, 1), (1, 1), (64, 1), (128, 1)]) 64))).1 = false ∧
      linear_count_added_sum 4
          (hdr_iter_linear_init zeroed_iter
            (record_list (fresh byte_config)
              [(193, 1), (255, 1), (0, 1), (1, 1), (64, 1), (128, 1)]) 64) = 6 ∧
      (record_list (fresh byte_config)
        [(193, 1), (255, 1), (0, 1), (1, 1), (64, 1), (128, 1)]).total_count = 6 ∧
      (List.range 4).map (fun j =>
          (specifics_linear (iter_after (j + 1)
            (hdr_iter_linear_init zeroed_iter
              (record_list (fresh byte_config)
                [(193, 1), (255, 1), (0, 1), (1, 1), (64, 1), (128, 1)])
              64))).count_added_in_this_iteration_step) = [3, 1, 0, 2] :=
  ⟨C38_linear_iteration_sum log2_floor 1 255 2 byte_config
      [(193, 1), (255, 1), (0, 1), (1, 1), (64, 1), (128, 1)] zeroed_iter 64 log2_floor_nonneg
      (by decide) byte_config_accepted (by decide) (by decide) (by decide!) (by decide)
      (by decide) (by decide),
    by decide!, by decide!, by decide!, by decide!, by decide!⟩
end nhdr
